import Mathlib

/-!
# Bisca4 game-state engine

A shallow embedding of the card model (`card.h`, `card.cpp`) and of the
game-state engine (`gamestate.h`, `gamestate.cpp`), followed by the
properties established about them.

Conventions of the embedding:

* `std::vector<Card>` is a `List Card`; `back()` is the last element,
  `push_back` appends at the end, `pop_back` drops the last element.
* The player fields `currentPlayer` and `trick.starterPlayer` are documented
  in `gamestate.h` as "0 ou 1" and index the two-element arrays `hands[2]`
  and `score[2]`; they are values of `Fin 2`.  The player ARGUMENT of
  `playCard` is an arbitrary `int` and is an `Int` here.
* `int` scores are `Int`; in the states a game reaches they stay between 0 and 120,
  so the bounds of `int` play no part.
* `uint64_t` arithmetic is `Nat` arithmetic reduced modulo `2 ^ 64`.
* A failed `assert` is the result `none`.
-/

namespace Bisca4

/-! ## card.h -/

/-- The four suits, `enum class Suit { Paus = 0, Ouros = 1, Copas = 2, Espadas = 3 }`. -/
inductive Suit where
  | Paus
  | Ouros
  | Copas
  | Espadas
  deriving DecidableEq, Repr

/-- The ten ranks, `enum class Rank { R2, R3, R4, R5, R6, R10, J, Q, K, A }`. -/
inductive Rank where
  | R2
  | R3
  | R4
  | R5
  | R6
  | R10
  | J
  | Q
  | K
  | A
  deriving DecidableEq, Repr

/-- A card, `struct Card { Suit suit; Rank rank; }`. -/
structure Card where
  suit : Suit
  rank : Rank
  deriving DecidableEq, Repr

/-! ## card.cpp -/

/-- The public point function `cardPoints` of `card.cpp`. -/
def cardPoints (c : Card) : Int :=
  match c.rank with
  | Rank.A => 11
  | Rank.R10 => 10
  | Rank.K => 4
  | Rank.Q => 2
  | Rank.J => 3
  | _ => 0

/-- The strength function `cardStrength` of `card.cpp`. -/
def cardStrength (c : Card) : Int :=
  match c.rank with
  | Rank.A => 9
  | Rank.R10 => 8
  | Rank.K => 7
  | Rank.J => 6
  | Rank.Q => 5
  | Rank.R6 => 4
  | Rank.R5 => 3
  | Rank.R4 => 2
  | Rank.R3 => 1
  | Rank.R2 => 0

/-! ## gamestate.cpp: helpers -/

/-- The file-local point function `cardPointsLocal` of `gamestate.cpp`. -/
def cardPointsLocal (c : Card) : Int :=
  match c.rank with
  | Rank.Q => 2
  | Rank.J => 3
  | Rank.K => 4
  | Rank.R10 => 10
  | Rank.A => 11
  | _ => 0

/-- The conversion `static_cast<Suit>(s)` for the loop values `s = 0 .. 3`. -/
def suitOfNat (s : Nat) : Suit :=
  match s with
  | 0 => Suit.Paus
  | 1 => Suit.Ouros
  | 2 => Suit.Copas
  | _ => Suit.Espadas

/-- The array `ranksWanted` of `makeDeckLocal`. -/
def ranksWanted : List Rank :=
  [Rank.R2, Rank.R3, Rank.R4, Rank.R5, Rank.R6, Rank.R10, Rank.J, Rank.Q, Rank.K, Rank.A]

/-- The canonical deck built by `makeDeckLocal`: suit-major, ranks in the order of
`ranksWanted`. -/
def makeDeckLocal : List Card :=
  (List.range 4).flatMap fun s => ranksWanted.map fun r => { suit := suitOfNat s, rank := r }

/-- The xorshift update shared by `localSeed` and `next64`, on `uint64_t`. -/
def xorshift64 (x : Nat) : Nat :=
  let x1 := (x ^^^ (x <<< 13)) % 2 ^ 64
  let x2 := x1 ^^^ (x1 >>> 7)
  (x2 ^^^ (x2 <<< 17)) % 2 ^ 64

/-- The seed `localSeed` derives from the clock reading `now` (the tick count of
`high_resolution_clock`, converted to `uint64_t`). -/
def localSeed (now : Nat) : Nat :=
  xorshift64 (now % 2 ^ 64)

/-- The generator step `next64`: the new state, which is also the value returned. -/
def next64 (s : Nat) : Nat :=
  xorshift64 s

/-- The exchange `std::swap(d[i], d[j])`. -/
def swapAt (d : List Card) (i j : Nat) : List Card :=
  match d[i]?, d[j]? with
  | some a, some b => (d.set i b).set j a
  | _, _ => d

/-- The loop of `shuffleDeckLocal`, entered with loop variable `i` and generator
state `s`; it runs while `i > 0`. -/
def shuffleLoop : Nat → Nat → List Card → List Card
  | 0, _, d => d
  | i + 1, s, d =>
    let r := next64 s
    let j := r % (i + 1 + 1)
    shuffleLoop i r (swapAt d (i + 1) j)

/-- The Fisher-Yates shuffle `shuffleDeckLocal`, for the clock reading `now`. -/
def shuffleDeckLocal (now : Nat) (d : List Card) : List Card :=
  shuffleLoop (d.length - 1) (localSeed now) d

/-! ## rand.h -/

/-- The generator `RNG` of `rand.h`: its single field `s`. -/
structure RNG where
  s : Nat
  deriving DecidableEq, Repr

/-! ## gamestate.h -/

/-- The current trick, `struct Trick`. -/
structure Trick where
  cards : List Card
  starterPlayer : Fin 2
  deriving DecidableEq, Repr

/-- The game state, `class GameState`; `hands` and `score` are the two-element
arrays `hands[2]` and `score[2]`. -/
structure GameState where
  deck : List Card
  trumpCard : Card
  trumpSuit : Suit
  trumpCardGiven : Bool
  hands : List Card × List Card
  score : Int × Int
  currentPlayer : Fin 2
  trick : Trick
  finished : Bool
  deriving DecidableEq, Repr

/-- Read access `a[p]` to a two-element array. -/
def getP {α : Type} (a : α × α) (p : Fin 2) : α :=
  if p = 0 then a.1 else a.2

/-- Write access `a[p] = v` to a two-element array. -/
def setP {α : Type} (a : α × α) (p : Fin 2) (v : α) : α × α :=
  if p = 0 then (v, a.2) else (a.1, v)

/-! ## gamestate.cpp: methods of GameState -/

/-- The statement pair `hands[p].push_back(deck.back()); deck.pop_back();` of the
dealing loop of `newGame` (the deck holds 39 cards when the loop starts and 8 are
dealt, so it is never empty there). -/
def dealTop (s : GameState) (p : Fin 2) : GameState :=
  match s.deck.getLast? with
  | some c => { s with hands := setP s.hands p (getP s.hands p ++ [c]), deck := s.deck.dropLast }
  | none => s

/-- The dealing loop of `newGame`: `n` rounds, each giving one card to player 0 and
then one to player 1. -/
def dealLoop : Nat → GameState → GameState
  | 0, s => s
  | n + 1, s => dealLoop n (dealTop (dealTop s 0) 1)

/-- The method `newGame`.  The parameter `rng` is not read by the body: the shuffle is
seeded from the clock, whose reading is the parameter `now`. -/
def newGame (_rng : RNG) (now : Nat) : GameState :=
  let fullDeck := shuffleDeckLocal now makeDeckLocal
  match fullDeck.getLast? with
  | some tc =>
    dealLoop 4
      { deck := fullDeck.dropLast
        trumpCard := tc
        trumpSuit := tc.suit
        trumpCardGiven := false
        hands := ([], [])
        score := (0, 0)
        currentPlayer := 0
        trick := { cards := [], starterPlayer := 0 }
        finished := false }
  | none =>
    { deck := []
      trumpCard := { suit := Suit.Paus, rank := Rank.R2 }
      trumpSuit := Suit.Paus
      trumpCardGiven := false
      hands := ([], [])
      score := (0, 0)
      currentPlayer := 0
      trick := { cards := [], starterPlayer := 0 }
      finished := false }

/-- The method `getLegalMoves`. -/
def getLegalMoves (s : GameState) (p : Int) : List Int :=
  if p ≠ (s.currentPlayer.val : Int) then []
  else List.map (fun i : Nat => (i : Int)) (List.range (getP s.hands s.currentPlayer).length)

/-- The method `playCard`: the returned flag and the state after the call.  Past the
second test `p` equals `currentPlayer`, so `hands[p]` is the current player's hand. -/
def playCard (s : GameState) (p : Int) (handIndex : Int) : Bool × GameState :=
  if s.finished then (false, s)
  else if p ≠ (s.currentPlayer.val : Int) then (false, s)
  else
    let hand := getP s.hands s.currentPlayer
    if handIndex < 0 ∨ handIndex ≥ (hand.length : Int) then (false, s)
    else
      match hand[handIndex.toNat]? with
      | some c =>
        (true,
          { s with
            hands := setP s.hands s.currentPlayer (hand.eraseIdx handIndex.toNat)
            trick := { s.trick with cards := s.trick.cards ++ [c] }
            currentPlayer := 1 - s.currentPlayer })
      | none => (false, s)

/-- The helper `playerOfIndex`. -/
def playerOfIndex (t : Trick) (idx : Nat) : Fin 2 :=
  if idx % 2 = 0 then t.starterPlayer else 1 - t.starterPlayer

/-- The first loop of `evaluateTrick`: the sum `potPoints`. -/
def potPointsOf (cards : List Card) : Int :=
  cards.foldl (fun acc c => acc + cardPointsLocal c) 0

/-- The second loop of `evaluateTrick`: the flag `anyTrump`. -/
def anyTrumpOf (cards : List Card) (trumpSuit : Suit) : Bool :=
  cards.foldl (fun acc c => if c.suit = trumpSuit then true else acc) false

/-- One iteration of the winner loops of `evaluateTrick`, for loop variable `i` and
current `winnerIndex`.  The two loops have the same body, comparing against
`trumpSuit` in the first and against `leadSuit` in the second; `target` is that suit. -/
def winnerStep (cards : List Card) (target : Suit) (winnerIndex i : Nat) : Nat :=
  match cards[winnerIndex]?, cards[i]? with
  | some w, some c =>
    let winIs : Bool := decide (w.suit = target)
    let curIs : Bool := decide (c.suit = target)
    if curIs && !winIs then i
    else if curIs && winIs && decide (cardStrength c > cardStrength w) then i
    else winnerIndex
  | _, _ => winnerIndex

/-- The value of `winnerIndex` after the winner loop of `evaluateTrick` (`i = 1, 2, 3`,
starting from `winnerIndex = 0`). -/
def winnerIndexOf (cards : List Card) (trumpSuit : Suit) : Nat :=
  if anyTrumpOf cards trumpSuit then
    [1, 2, 3].foldl (winnerStep cards trumpSuit) 0
  else
    match cards[0]? with
    | some lead => [1, 2, 3].foldl (winnerStep cards lead.suit) 0
    | none => 0

/-- The method `evaluateTrick`: the pair `(winnerPlayer, potPoints)`, or `none` when
the assertion `trick.cards.size() == 4` fails. -/
def evaluateTrick (s : GameState) : Option (Fin 2 × Int) :=
  if s.trick.cards.length ≠ 4 then none
  else
    some (playerOfIndex s.trick (winnerIndexOf s.trick.cards s.trumpSuit),
      potPointsOf s.trick.cards)

/-- The method `noMoreCardsToDraw`. -/
def noMoreCardsToDraw (s : GameState) : Bool :=
  s.deck.isEmpty && s.trumpCardGiven

/-- The method `handsAreEmpty`. -/
def handsAreEmpty (s : GameState) : Bool :=
  s.hands.1.isEmpty && s.hands.2.isEmpty

/-- The lambda `drawFromDeck` of `maybeCloseTrick`. -/
def drawFromDeck (s : GameState) (plr : Fin 2) : GameState :=
  match s.deck.getLast? with
  | some c => { s with hands := setP s.hands plr (getP s.hands plr ++ [c]), deck := s.deck.dropLast }
  | none => s

/-- The lambda `needCard` of `maybeCloseTrick`. -/
def needCard (s : GameState) (plr : Fin 2) : Bool :=
  decide ((getP s.hands plr).length < 4) && (!s.deck.isEmpty || !s.trumpCardGiven)

/-- One refill statement `if (needCard(plr)) drawFromDeck(plr);`. -/
def drawIfNeeded (s : GameState) (plr : Fin 2) : GameState :=
  if needCard s plr then drawFromDeck s plr else s

/-- The block of `maybeCloseTrick` that hands out the reserved trump card. -/
def giveTrump (s : GameState) (winnerPlayer loserPlayer : Fin 2) : GameState :=
  if !s.trumpCardGiven then
    if needCard s loserPlayer then
      { s with
        hands := setP s.hands loserPlayer (getP s.hands loserPlayer ++ [s.trumpCard])
        trumpCardGiven := true }
    else if needCard s winnerPlayer then
      { s with
        hands := setP s.hands winnerPlayer (getP s.hands winnerPlayer ++ [s.trumpCard])
        trumpCardGiven := true }
    else s
  else s

/-- The last statement of `maybeCloseTrick`: the test that sets `finished`. -/
def markFinished (s : GameState) : GameState :=
  if s.deck.isEmpty && s.trumpCardGiven && handsAreEmpty s && s.trick.cards.isEmpty then
    { s with finished := true }
  else s

/-- The body of `maybeCloseTrick` after the call of `evaluateTrick` has returned the
pair `(winnerPlayer, potPoints)`. -/
def resolveTrick (s : GameState) (winnerPlayer : Fin 2) (potPoints : Int) : GameState :=
  let s1 := { s with score := setP s.score winnerPlayer (getP s.score winnerPlayer + potPoints) }
  let loserPlayer : Fin 2 := 1 - winnerPlayer
  let s2 := drawIfNeeded s1 winnerPlayer
  let s3 := drawIfNeeded s2 loserPlayer
  let s4 := drawIfNeeded s3 winnerPlayer
  let s5 := drawIfNeeded s4 loserPlayer
  let s6 := giveTrump s5 winnerPlayer loserPlayer
  markFinished
    { s6 with
      trick := { cards := [], starterPlayer := winnerPlayer }
      currentPlayer := winnerPlayer }

/-- The method `maybeCloseTrick` (its parameter `rng` is not read by the body); `none`
when the assertion of `evaluateTrick` fails. -/
def maybeCloseTrick (s : GameState) : Option GameState :=
  if s.trick.cards.length < 4 then some s
  else
    match evaluateTrick s with
    | some (winnerPlayer, potPoints) => some (resolveTrick s winnerPlayer potPoints)
    | none => none

/-! ## Reachable states -/

/-- `ReachN n s`: the state `s` arises from some `newGame` by `n` legal moves, each a
successful `playCard` followed by `maybeCloseTrick`. -/
inductive ReachN : Nat → GameState → Prop where
  | init (rng : RNG) (now : Nat) : ReachN 0 (newGame rng now)
  | step {n : Nat} {s s1 s2 : GameState} (p handIndex : Int) :
      ReachN n s → playCard s p handIndex = (true, s1) → maybeCloseTrick s1 = some s2 →
      ReachN (n + 1) s2

/-- A state reachable from `newGame` by legal moves. -/
def Reachable (s : GameState) : Prop :=
  ∃ n, ReachN n s

/-- The cards the state still holds: deck, both hands, the trick, and the reserved
trump card while it has not been handed out. -/
def allCards (s : GameState) : List Card :=
  s.deck ++ s.hands.1 ++ s.hands.2 ++ s.trick.cards ++
    (if s.trumpCardGiven then [] else [s.trumpCard])

/-- The total point value of a list of cards. -/
def pointsOf (cards : List Card) : Int :=
  (cards.map cardPointsLocal).sum

/-- The ranks from weakest to strongest according to `cardStrength`. -/
def strengthOrder : List Rank :=
  [Rank.R2, Rank.R3, Rank.R4, Rank.R5, Rank.R6, Rank.Q, Rank.J, Rank.K, Rank.R10, Rank.A]

/-- Loop invariant of the winner loops of `evaluateTrick`: among the first `k` cards,
`w` is the position of a strongest card of suit `target` if there is one, and `0` if
there is none. -/
def BestUpTo (cards : List Card) (target : Suit) (k w : Nat) : Prop :=
  ∃ cw, cards[w]? = some cw ∧ w < k ∧
    ((∃ j c, j < k ∧ cards[j]? = some c ∧ c.suit = target) → cw.suit = target) ∧
    (∀ j c, j < k → cards[j]? = some c → c.suit = target →
      cardStrength c ≤ cardStrength cw) ∧
    ((∀ j c, j < k → cards[j]? = some c → c.suit ≠ target) → w = 0)

/-- One legal move of the current player: `playCard` with the hand index `handIndex`,
followed by `maybeCloseTrick`; `none` if `playCard` reports failure. -/
def playMove (s : GameState) (handIndex : Int) : Option GameState :=
  match playCard s (s.currentPlayer.val : Int) handIndex with
  | (true, s1) => maybeCloseTrick s1
  | (false, _) => none

/-- A sequence of legal moves, given by the hand indices played in turn. -/
def playMoves : List Int → GameState → Option GameState
  | [], s => some s
  | i :: rest, s =>
    match playMove s i with
    | some s2 => playMoves rest s2
    | none => none

/-! ## Sample states

The game dealt by `newGame` at clock reading 0 (the seed is then 0, every `next64` is 0,
and the shuffle exchanges position `i` with position 0 for `i = 39, ..., 1`, which
rotates the canonical deck by one place), in which every move plays hand index 0. -/

/-- The generator `RNG()` built with the default seed of `rand.h`. -/
def defaultRNG : RNG :=
  { s := 0x123456789abcdef }

/-- The sample game after its first four cards were played, before `maybeCloseTrick`
resolves the trick. -/
def sampleTrickState : GameState :=
  { deck :=
      [⟨Suit.Paus, Rank.R3⟩, ⟨Suit.Paus, Rank.R4⟩, ⟨Suit.Paus, Rank.R5⟩, ⟨Suit.Paus, Rank.R6⟩,
        ⟨Suit.Paus, Rank.R10⟩, ⟨Suit.Paus, Rank.J⟩, ⟨Suit.Paus, Rank.Q⟩, ⟨Suit.Paus, Rank.K⟩,
        ⟨Suit.Paus, Rank.A⟩,
        ⟨Suit.Ouros, Rank.R2⟩, ⟨Suit.Ouros, Rank.R3⟩, ⟨Suit.Ouros, Rank.R4⟩, ⟨Suit.Ouros, Rank.R5⟩,
        ⟨Suit.Ouros, Rank.R6⟩, ⟨Suit.Ouros, Rank.R10⟩, ⟨Suit.Ouros, Rank.J⟩, ⟨Suit.Ouros, Rank.Q⟩,
        ⟨Suit.Ouros, Rank.K⟩, ⟨Suit.Ouros, Rank.A⟩,
        ⟨Suit.Copas, Rank.R2⟩, ⟨Suit.Copas, Rank.R3⟩, ⟨Suit.Copas, Rank.R4⟩, ⟨Suit.Copas, Rank.R5⟩,
        ⟨Suit.Copas, Rank.R6⟩, ⟨Suit.Copas, Rank.R10⟩, ⟨Suit.Copas, Rank.J⟩, ⟨Suit.Copas, Rank.Q⟩,
        ⟨Suit.Copas, Rank.K⟩, ⟨Suit.Copas, Rank.A⟩,
        ⟨Suit.Espadas, Rank.R2⟩, ⟨Suit.Espadas, Rank.R3⟩]
    trumpCard := ⟨Suit.Paus, Rank.R2⟩
    trumpSuit := Suit.Paus
    trumpCardGiven := false
    hands :=
      ([⟨Suit.Espadas, Rank.R10⟩, ⟨Suit.Espadas, Rank.R5⟩],
        [⟨Suit.Espadas, Rank.R6⟩, ⟨Suit.Espadas, Rank.R4⟩])
    score := (0, 0)
    currentPlayer := 0
    trick :=
      { cards :=
          [⟨Suit.Espadas, Rank.A⟩, ⟨Suit.Espadas, Rank.K⟩, ⟨Suit.Espadas, Rank.Q⟩,
            ⟨Suit.Espadas, Rank.J⟩]
        starterPlayer := 0 }
    finished := false }

/-- The sample game after its first four moves: the first trick is resolved. -/
def firstTrickState : GameState :=
  { deck :=
      [⟨Suit.Paus, Rank.R3⟩, ⟨Suit.Paus, Rank.R4⟩, ⟨Suit.Paus, Rank.R5⟩, ⟨Suit.Paus, Rank.R6⟩,
        ⟨Suit.Paus, Rank.R10⟩, ⟨Suit.Paus, Rank.J⟩, ⟨Suit.Paus, Rank.Q⟩, ⟨Suit.Paus, Rank.K⟩,
        ⟨Suit.Paus, Rank.A⟩,
        ⟨Suit.Ouros, Rank.R2⟩, ⟨Suit.Ouros, Rank.R3⟩, ⟨Suit.Ouros, Rank.R4⟩, ⟨Suit.Ouros, Rank.R5⟩,
        ⟨Suit.Ouros, Rank.R6⟩, ⟨Suit.Ouros, Rank.R10⟩, ⟨Suit.Ouros, Rank.J⟩, ⟨Suit.Ouros, Rank.Q⟩,
        ⟨Suit.Ouros, Rank.K⟩, ⟨Suit.Ouros, Rank.A⟩,
        ⟨Suit.Copas, Rank.R2⟩, ⟨Suit.Copas, Rank.R3⟩, ⟨Suit.Copas, Rank.R4⟩, ⟨Suit.Copas, Rank.R5⟩,
        ⟨Suit.Copas, Rank.R6⟩, ⟨Suit.Copas, Rank.R10⟩, ⟨Suit.Copas, Rank.J⟩, ⟨Suit.Copas, Rank.Q⟩]
    trumpCard := ⟨Suit.Paus, Rank.R2⟩
    trumpSuit := Suit.Paus
    trumpCardGiven := false
    hands :=
      ([⟨Suit.Espadas, Rank.R10⟩, ⟨Suit.Espadas, Rank.R5⟩, ⟨Suit.Espadas, Rank.R3⟩,
          ⟨Suit.Copas, Rank.A⟩],
        [⟨Suit.Espadas, Rank.R6⟩, ⟨Suit.Espadas, Rank.R4⟩, ⟨Suit.Espadas, Rank.R2⟩,
          ⟨Suit.Copas, Rank.K⟩])
    score := (20, 0)
    currentPlayer := 0
    trick := { cards := [], starterPlayer := 0 }
    finished := false }

/-- The sample game after all forty moves. -/
def finishedGameState : GameState :=
  { deck := []
    trumpCard := ⟨Suit.Paus, Rank.R2⟩
    trumpSuit := Suit.Paus
    trumpCardGiven := true
    hands := ([], [])
    score := (120, 0)
    currentPlayer := 0
    trick := { cards := [], starterPlayer := 0 }
    finished := true }

/-- The invariant of a state reached from `newGame` by `n` legal moves. -/
structure ReachInv (n : Nat) (s : GameState) : Prop where
  cards_sub : (allCards s).Subperm makeDeckLocal
  card_count : (allCards s).length + 4 * (n / 4) = 40
  trick_len : s.trick.cards.length = n % 4
  points : s.score.1 + s.score.2 + pointsOf (allCards s) = 120
  score_nonneg : 0 ≤ s.score.1 ∧ 0 ≤ s.score.2
  fin_iff : s.finished = true ↔
    (s.deck = [] ∧ s.hands.1 = [] ∧ s.hands.2 = [] ∧ s.trick.cards = [] ∧
      s.trumpCardGiven = true)

/-- The constructor `RNG::RNG(seed)` of `rand.cpp`: a zero seed is replaced. -/
def RNG.ofSeed (seed : Nat) : RNG :=
  { s := if seed % 2 ^ 64 ≠ 0 then seed % 2 ^ 64 else 0xdeadbeefcafebabe }

/-- Repeated calls of `maybeCloseTrick`: `n` calls in a row. -/
def closeRepeatedly : Nat → GameState → Option GameState
  | 0, s => some s
  | n + 1, s => (maybeCloseTrick s).bind (closeRepeatedly n)

/-- A state whose trick holds five cards: `sampleTrickState` with one more card on the
table. -/
def fiveCardTrickState : GameState :=
  { sampleTrickState with
    hands := ([⟨Suit.Espadas, Rank.R5⟩], [⟨Suit.Espadas, Rank.R6⟩, ⟨Suit.Espadas, Rank.R4⟩])
    currentPlayer := 1
    trick :=
      { cards :=
          [⟨Suit.Espadas, Rank.A⟩, ⟨Suit.Espadas, Rank.K⟩, ⟨Suit.Espadas, Rank.Q⟩,
            ⟨Suit.Espadas, Rank.J⟩, ⟨Suit.Espadas, Rank.R10⟩]
        starterPlayer := 0 } }

/-- The four refill statements of `maybeCloseTrick`, for winner `w` and loser `l`. -/
def refill (s : GameState) (w l : Fin 2) : GameState :=
  drawIfNeeded (drawIfNeeded (drawIfNeeded (drawIfNeeded s w) l) w) l

/-! ## The sizes of deck and hands

The refill and the hand-out of the trump card act on the sizes of deck and hands alone;
`sizes s w` is the tuple (deck size, size of the hand of `w`, size of the other hand,
`trumpCardGiven`), and the functions below are the effect of the statements of
`maybeCloseTrick` on it, with `w` the winner. -/

/-- The sizes of a state, seen from player `w`. -/
def sizes (s : GameState) (w : Fin 2) : Nat × Nat × Nat × Bool :=
  (s.deck.length, (getP s.hands w).length, (getP s.hands (1 - w)).length, s.trumpCardGiven)

/-- The effect of `if (needCard(winner)) drawFromDeck(winner);` on the sizes. -/
def drawW (x : Nat × Nat × Nat × Bool) : Nat × Nat × Nat × Bool :=
  if x.2.1 < 4 ∧ 0 < x.1 then (x.1 - 1, x.2.1 + 1, x.2.2.1, x.2.2.2) else x

/-- The effect of `if (needCard(loser)) drawFromDeck(loser);` on the sizes. -/
def drawL (x : Nat × Nat × Nat × Bool) : Nat × Nat × Nat × Bool :=
  if x.2.2.1 < 4 ∧ 0 < x.1 then (x.1 - 1, x.2.1, x.2.2.1 + 1, x.2.2.2) else x

/-- The effect of the hand-out of the trump card on the sizes. -/
def trumpSizes (x : Nat × Nat × Nat × Bool) : Nat × Nat × Nat × Bool :=
  if x.2.2.2 then x
  else if x.2.2.1 < 4 then (x.1, x.2.1, x.2.2.1 + 1, true)
  else if x.2.1 < 4 then (x.1, x.2.1 + 1, x.2.2.1, true)
  else x

/-- The effect of a trick resolution on the sizes. -/
def resolveSizes (x : Nat × Nat × Nat × Bool) : Nat × Nat × Nat × Bool :=
  trumpSizes (drawL (drawW (drawL (drawW x))))

/-- The size of both hands when trick number `t` (counted from 0) starts. -/
def handBase (t : Nat) : Nat :=
  if t ≤ 8 then 4 else 4 - 2 * (t - 8)

/-- The course of the game: what `n` legal moves from `newGame` determine. -/
structure GameInv (n : Nat) (s : GameState) : Prop where
  moves_le : n ≤ 40
  cur : s.currentPlayer =
    if n % 2 = 0 then s.trick.starterPlayer else 1 - s.trick.starterPlayer
  deck_len : s.deck.length = 31 - 4 * (n / 4)
  given : s.trumpCardGiven = decide (8 ≤ n / 4)
  hand_starter :
    (getP s.hands s.trick.starterPlayer).length + (n % 4 + 1) / 2 = handBase (n / 4)
  hand_other :
    (getP s.hands (1 - s.trick.starterPlayer)).length + n % 4 / 2 = handBase (n / 4)
  fin : s.finished = decide (n = 40)

/-- The sample game after three moves: the first trick lacks its fourth card. -/
def threeCardState : GameState :=
  { sampleTrickState with
    hands :=
      ([⟨Suit.Espadas, Rank.R10⟩, ⟨Suit.Espadas, Rank.R5⟩],
        [⟨Suit.Espadas, Rank.J⟩, ⟨Suit.Espadas, Rank.R6⟩, ⟨Suit.Espadas, Rank.R4⟩])
    currentPlayer := 1
    trick :=
      { cards := [⟨Suit.Espadas, Rank.A⟩, ⟨Suit.Espadas, Rank.K⟩, ⟨Suit.Espadas, Rank.Q⟩]
        starterPlayer := 0 } }

/-- The sample game after 32 moves: the eighth trick is resolved, the deck is used up
and the trump card is handed out. -/
def eighthTrickState : GameState :=
  { deck := []
    trumpCard := ⟨Suit.Paus, Rank.R2⟩
    trumpSuit := Suit.Paus
    trumpCardGiven := true
    hands :=
      ([⟨Suit.Paus, Rank.Q⟩, ⟨Suit.Paus, Rank.R10⟩, ⟨Suit.Paus, Rank.R5⟩, ⟨Suit.Paus, Rank.R3⟩],
        [⟨Suit.Paus, Rank.J⟩, ⟨Suit.Paus, Rank.R6⟩, ⟨Suit.Paus, Rank.R4⟩, ⟨Suit.Paus, Rank.R2⟩])
    score := (105, 0)
    currentPlayer := 0
    trick := { cards := [], starterPlayer := 0 }
    finished := false }

/-! ## Floating point

The program computes with `float`.  The embedding takes the type of the `float` values
and the operations the program applies to them as a parameter: `F` with a
`FloatOps F`.  Nothing is assumed about the operations; what is proved holds for
every choice of them, the IEEE operations included. -/

/-- The operations on `float` the program uses. -/
structure FloatOps (F : Type) where
  /-- The `float` nearest to a rational: literals such as `0.5f`, `120.0f`, and the
  conversion of an `int` or `size_t` to `float`. -/
  ofRat : ℚ → F
  add : F → F → F
  sub : F → F → F
  mul : F → F → F
  div : F → F → F
  neg : F → F
  /-- The comparison `a < b`. -/
  lt : F → F → Bool
  /-- The comparison `a <= b`. -/
  le : F → F → Bool
  /-- The value `std::numeric_limits<float>::infinity()`. -/
  inf : F

/-! ## eval_nnue.cpp: feature extraction -/

/-- The cast `(int)suit`. -/
def suitIdx (s : Suit) : Nat :=
  match s with
  | Suit.Paus => 0
  | Suit.Ouros => 1
  | Suit.Copas => 2
  | Suit.Espadas => 3

/-- The `switch` on the rank shared by `cardIndex` and `encodeTrumpRankOneHot`. -/
def rankIdx (r : Rank) : Nat :=
  match r with
  | Rank.R2 => 0
  | Rank.R3 => 1
  | Rank.R4 => 2
  | Rank.R5 => 3
  | Rank.R6 => 4
  | Rank.R10 => 5
  | Rank.J => 6
  | Rank.Q => 7
  | Rank.K => 8
  | Rank.A => 9

/-- The helper `cardIndex`. -/
def cardIndex (c : Card) : Nat :=
  suitIdx c.suit * 10 + rankIdx c.rank

/-- A loop `for (auto &c : cards) feat[base + cardIndex(c)] = 1.0f;`. -/
def markCards {F : Type} (fo : FloatOps F) (feat : List F) (base : Nat) (cards : List Card) :
    List F :=
  cards.foldl (fun f c => f.set (base + cardIndex c) (fo.ofRat 1)) feat

/-- The helper `encodeTrumpRankOneHot`. -/
def encodeTrumpRankOneHot {F : Type} (fo : FloatOps F) (feat : List F) (base : Nat)
    (trumpCard : Card) : List F :=
  let idx : Int := (rankIdx trumpCard.rank : Int)
  if 0 ≤ idx ∧ idx < 10 then feat.set (base + idx.toNat) (fo.ofRat 1) else feat

/-- The function `extractFeatures`. -/
def extractFeatures {F : Type} (fo : FloatOps F) (st : GameState) (player : Fin 2)
    (perfectInfo : Bool) : List F :=
  let feat0 : List F := List.replicate 178 (fo.ofRat 0)
  let me : Fin 2 := player
  let opp : Fin 2 := 1 - player
  let feat1 := markCards fo feat0 0 (getP st.hands me)
  let feat2 := if perfectInfo then markCards fo feat1 40 (getP st.hands opp) else feat1
  let feat3 := markCards fo feat2 80 st.trick.cards
  let feat4 := feat3.set 120 (fo.div (fo.ofRat ((getP st.score me : Int) : ℚ)) (fo.ofRat 120))
  let feat5 := feat4.set 121 (fo.div (fo.ofRat ((getP st.score opp : Int) : ℚ)) (fo.ofRat 120))
  let feat6 := feat5.set 122 (fo.div (fo.ofRat ((st.deck.length : Nat) : ℚ)) (fo.ofRat 40))
  let ts : Int := (suitIdx st.trumpSuit : Int)
  let feat7 := if 0 ≤ ts ∧ ts < 4 then feat6.set (123 + ts.toNat) (fo.ofRat 1) else feat6
  let feat8 := markCards fo feat7 127 (getP st.hands me)
  let feat9 := markCards fo feat8 127 st.trick.cards
  let feat10 := if perfectInfo then markCards fo feat9 127 (getP st.hands opp) else feat9
  let feat11 := feat10.set 167 (if st.trumpCardGiven then fo.ofRat 1 else fo.ofRat 0)
  encodeTrumpRankOneHot fo feat11 168 st.trumpCard
/-! ## Exact arithmetic

An instance of `FloatOps` for evaluating the program on concrete inputs: rational
numbers with the IEEE special values, every operation computed exactly.  `float`
arithmetic agrees with it as long as all operands and results are representable, as
they are for the small integers and halves of the sample inputs below. -/

/-- Rational numbers extended by NaN and the two infinities. -/
inductive ExtRat where
  | nan
  | negInf
  | fin (q : ℚ)
  | posInf
  deriving DecidableEq

namespace ExtRat

/-- Negation. -/
def neg : ExtRat → ExtRat
  | nan => nan
  | negInf => posInf
  | fin q => fin (-q)
  | posInf => negInf

/-- Addition: the sum of opposite infinities is NaN. -/
def add : ExtRat → ExtRat → ExtRat
  | nan, _ => nan
  | _, nan => nan
  | posInf, negInf => nan
  | negInf, posInf => nan
  | posInf, _ => posInf
  | _, posInf => posInf
  | negInf, _ => negInf
  | _, negInf => negInf
  | fin a, fin b => fin (a + b)

/-- Subtraction. -/
def sub (a b : ExtRat) : ExtRat :=
  add a (neg b)

/-- The sign of a value that is not NaN: -1, 0 or 1. -/
def sign : ExtRat → Int
  | nan => 0
  | negInf => -1
  | fin q => if q < 0 then -1 else if q = 0 then 0 else 1
  | posInf => 1

/-- The infinity of a given sign, NaN for sign 0. -/
def infOfSign (s : Int) : ExtRat :=
  if s < 0 then negInf else if s = 0 then nan else posInf

/-- Multiplication: infinity times zero is NaN. -/
def mul : ExtRat → ExtRat → ExtRat
  | nan, _ => nan
  | _, nan => nan
  | fin a, fin b => fin (a * b)
  | a, b => infOfSign (sign a * sign b)

/-- Division: a quotient of two infinities or of two zeros is NaN, a finite value
over an infinity is zero, a non-zero value over zero is an infinity. -/
def div : ExtRat → ExtRat → ExtRat
  | nan, _ => nan
  | _, nan => nan
  | fin a, fin b => if b = 0 then infOfSign (sign (fin a)) else fin (a / b)
  | fin _, _ => fin 0
  | a, fin b => infOfSign (sign a * (if b < 0 then -1 else 1))
  | _, _ => nan

/-- The comparison `a < b`, false when an operand is NaN. -/
def lt : ExtRat → ExtRat → Bool
  | nan, _ => false
  | _, nan => false
  | negInf, negInf => false
  | negInf, _ => true
  | _, negInf => false
  | posInf, _ => false
  | _, posInf => true
  | fin a, fin b => decide (a < b)

/-- The comparison `a <= b`, false when an operand is NaN. -/
def le : ExtRat → ExtRat → Bool
  | nan, _ => false
  | _, nan => false
  | negInf, _ => true
  | _, posInf => true
  | posInf, _ => false
  | _, negInf => false
  | fin a, fin b => decide (a ≤ b)

end ExtRat

/-- The exact operations. -/
def exactOps : FloatOps ExtRat :=
  { ofRat := ExtRat.fin
    add := ExtRat.add
    sub := ExtRat.sub
    mul := ExtRat.mul
    div := ExtRat.div
    neg := ExtRat.neg
    lt := ExtRat.lt
    le := ExtRat.le
    inf := ExtRat.posInf }

/-- The state `threeCardState` with the two top cards of the deck exchanged: it differs
from `threeCardState` in the order of the deck only. -/
def swappedDeckState : GameState :=
  { threeCardState with
    deck := threeCardState.deck.take 29 ++ [⟨Suit.Espadas, Rank.R3⟩, ⟨Suit.Espadas, Rank.R2⟩] }

/-- The state `threeCardState` with the other player's hand and the top of the deck
exchanged: it differs from `threeCardState` in hidden cards only. -/
def swappedHandState : GameState :=
  { threeCardState with
    deck := threeCardState.deck.take 29 ++ [⟨Suit.Espadas, Rank.R10⟩, ⟨Suit.Espadas, Rank.R5⟩]
    hands :=
      ([⟨Suit.Espadas, Rank.R2⟩, ⟨Suit.Espadas, Rank.R3⟩],
        [⟨Suit.Espadas, Rank.J⟩, ⟨Suit.Espadas, Rank.R6⟩, ⟨Suit.Espadas, Rank.R4⟩]) }

/-! ## eval_nnue.cpp: the evaluator -/

/-- The weights, `struct NNUEWeights`. -/
structure NNUEWeights (F : Type) where
  w1 : List F
  b1 : List F
  w2 : List F
  b2 : List F
  w3 : List F
  b3 : F
  inputSize : Int
  hidden1 : Int
  hidden2 : Int

/-- An array read `a[i]`.  A read past the end, undefined in C++, gives `0.0f`; arrays of
the shapes that `inputSize`, `hidden1` and `hidden2` announce are not read past the
end. -/
def readAt {F : Type} (fo : FloatOps F) (a : List F) (i : Nat) : F :=
  a.getD i (fo.ofRat 0)

/-- The inner loop `wrow = &row[off]; acc = bias; for (i < n) acc += wrow[i] * x[i];`: the
entries of `row` from position `off` on are walked in step with those of `x`, for `n` steps.  The
walk stops at the end of either array, which arrays of the shapes that `inputSize`,
`hidden1` and `hidden2` announce do not reach. -/
def dotRow {F : Type} (fo : FloatOps F) (bias : F) (row : List F) (off : Nat) (x : List F)
    (n : Nat) : F :=
  (((row.drop off).zip x).take n).foldl (fun acc p => fo.add acc (fo.mul p.1 p.2)) bias

/-- The activation `acc > 0.f ? acc : 0.f`. -/
def relu {F : Type} (fo : FloatOps F) (acc : F) : F :=
  if fo.lt (fo.ofRat 0) acc then acc else fo.ofRat 0

/-- The function `nnueEvaluate`. -/
def nnueEvaluate {F : Type} (fo : FloatOps F) (w : NNUEWeights F) (st : GameState)
    (player : Fin 2) (perfectInfo : Bool) : F :=
  let inp := extractFeatures fo st player perfectInfo
  let h1 : List F :=
    List.map
      (fun h : Nat =>
        relu fo (dotRow fo (readAt fo w.b1 h) w.w1 (h * w.inputSize.toNat) inp w.inputSize.toNat))
      (List.range w.hidden1.toNat)
  if w.hidden2 > 0 then
    let h2 : List F :=
      List.map
        (fun h : Nat =>
          relu fo (dotRow fo (readAt fo w.b2 h) w.w2 (h * w.hidden1.toNat) h1 w.hidden1.toNat))
        (List.range w.hidden2.toNat)
    (List.range w.hidden2.toNat).foldl
      (fun out i => fo.add out (fo.mul (readAt fo w.w3 i) (readAt fo h2 i))) w.b3
  else
    (List.range (min w.hidden1.toNat w.w3.length)).foldl
      (fun out i => fo.add out (fo.mul (readAt fo w.w3 i) (readAt fo h1 i))) w.b3

/-! ## search.h, search.cpp -/

/-- The result of a search, `struct SearchResult`. -/
structure SearchResult (F : Type) where
  eval : F
  chosenMoveIndex : Int

/-- The bound flag, `enum class TTFlag`. -/
inductive TTFlag where
  | EXACT
  | LOWERBOUND
  | UPPERBOUND
  deriving DecidableEq, Repr

/-- A table entry, `struct TTEntry`. -/
structure TTEntry (F : Type) where
  value : F
  depth : Int
  flag : TTFlag
  bestMoveHandIdx : Int

/-- The transposition table `g_TT`: the pairs of key and entry, at most one for a key. -/
abbrev TT (F : Type) : Type :=
  List (Nat × TTEntry F)

/-- The constant `MAX_TT_SIZE`. -/
def MAX_TT_SIZE : Nat :=
  1000000

/-- The helper `hashCombine`, on `uint64_t`. -/
def hashCombine (h v : Nat) : Nat :=
  h ^^^ ((v + 0x9e3779b97f4a7c15 + (h <<< 6) + (h >>> 2)) % 2 ^ 64)

/-- The code `(suit << 8) | rank` of a card in `computeHash`. -/
def cardCode (c : Card) : Nat :=
  (suitIdx c.suit <<< 8) ||| rankIdx c.rank

/-- The conversion of an `int` to `uint64_t`. -/
def toU64 (i : Int) : Nat :=
  (i % (2 ^ 64 : Int)).toNat

/-- The function `computeHash`. -/
def computeHash (st : GameState) : Nat :=
  let h0 : Nat := 0xCAFEBABE12345678
  let h1 := hashCombine h0 st.currentPlayer.val
  let h2 := hashCombine h1 (toU64 (st.score.1 % 65536))
  let h3 := hashCombine h2 (toU64 (st.score.2 % 65536))
  let h4 := hashCombine h3 (suitIdx st.trumpSuit)
  let h5 := hashCombine h4 (cardCode st.trumpCard)
  let h6 := st.deck.foldl (fun h c => hashCombine h ((cardCode c + 0x1111111111111111) % 2 ^ 64)) h5
  let h7 := st.hands.1.foldl (fun h c => hashCombine h (cardCode c)) h6
  let h8 := st.hands.2.foldl (fun h c => hashCombine h ((cardCode c + 0x2222222222222222) % 2 ^ 64)) h7
  let h9 := st.trick.cards.foldl
    (fun h c => hashCombine h ((cardCode c + 0x3333333333333333) % 2 ^ 64)) h8
  let h10 := hashCombine h9 st.trick.starterPlayer.val
  hashCombine h10 (if st.finished then 0xF00DF00D else 0)

/-- The function `applyMove`: `playCard`, its result ignored, then `maybeCloseTrick`;
`none` when the assertion of `evaluateTrick` fails. -/
def applyMove (st : GameState) (player : Int) (handIndex : Int) : Option GameState :=
  maybeCloseTrick (playCard st player handIndex).2

/-- The function `ttLookup`: the value found, or `none` for `false`. -/
def ttLookup {F : Type} (fo : FloatOps F) (tt : TT F) (key : Nat) (depth : Int)
    (alpha beta : F) : Option F :=
  match tt.find? (fun e => e.1 == key) with
  | none => none
  | some (_, e) =>
    if e.depth < depth then none
    else
      match e.flag with
      | TTFlag.EXACT => some e.value
      | TTFlag.LOWERBOUND => if fo.le beta e.value then some e.value else none
      | TTFlag.UPPERBOUND => if fo.le e.value alpha then some e.value else none

/-- The function `ttStore`: the table after the call. -/
def ttStore {F : Type} (fo : FloatOps F) (tt : TT F) (key : Nat) (depth : Int) (val : F)
    (alphaOrig betaOrig : F) (bestMoveHandIdx : Int) : TT F :=
  let flag : TTFlag :=
    if fo.le val alphaOrig then TTFlag.UPPERBOUND
    else if fo.le betaOrig val then TTFlag.LOWERBOUND
    else TTFlag.EXACT
  let e : TTEntry F :=
    { value := val, depth := depth, flag := flag, bestMoveHandIdx := bestMoveHandIdx }
  let tt1 : TT F := if tt.length > MAX_TT_SIZE then [] else tt
  (key, e) :: tt1.filter (fun x => !(x.1 == key))

/-- The helper `quickEval`. -/
def quickEval {F : Type} (fo : FloatOps F) (st : GameState) (w : NNUEWeights F)
    (rootPlayer : Fin 2) (perfectInfo : Bool) : F :=
  nnueEvaluate fo w st rootPlayer perfectInfo

/-- The function `std::max` on `float`. -/
def fmax {F : Type} (fo : FloatOps F) (a b : F) : F :=
  if fo.lt a b then b else a

/-- The function `std::min` on `float`. -/
def fmin {F : Type} (fo : FloatOps F) (a b : F) : F :=
  if fo.lt b a then b else a

/-- The function `quiescenceAfterTrickClear`. -/
def quiescenceAfterTrickClear {F : Type} (fo : FloatOps F) (st : GameState)
    (w : NNUEWeights F) (rootPlayer : Fin 2) (perfectInfo : Bool) : Option F :=
  if !st.trick.cards.isEmpty then some (nnueEvaluate fo w st rootPlayer perfectInfo)
  else
    let p := st.currentPlayer
    let moves := getLegalMoves st (p.val : Int)
    if moves.isEmpty then some (nnueEvaluate fo w st rootPlayer perfectInfo)
    else
      let step : Option (F × F) → Int → Option (F × F) := fun acc m =>
        match acc with
        | none => none
        | some (bestValMax, bestValMin) =>
          match applyMove st (p.val : Int) m with
          | none => none
          | some ns =>
            let v := nnueEvaluate fo w ns rootPlayer perfectInfo
            if p = rootPlayer then some (fmax fo bestValMax v, bestValMin)
            else some (bestValMax, fmin fo bestValMin v)
      match moves.foldl step (some (fo.neg fo.inf, fo.inf)) with
      | none => none
      | some (bestValMax, bestValMin) =>
        some (if p = rootPlayer then bestValMax else bestValMin)

/-- One insertion of the sort below: `x` goes behind the elements that come strictly
before it. -/
def insertBy {α : Type} (comp : α → α → Bool) (x : α) : List α → List α
  | [] => [x]
  | y :: ys => if comp y x then y :: insertBy comp x ys else x :: y :: ys

/-- The call `std::sort(first, last, comp)`, as a sort by insertion that keeps elements
which `comp` does not order in their given order (what the library does for a range
as short as a hand of cards). -/
def sortBy {α : Type} (comp : α → α → Bool) (l : List α) : List α :=
  l.foldr (insertBy comp) []

/-- The loop that builds `ordered`: each move with the `quickEval` of the state it
leads to; `none` when `applyMove` fails. -/
def quickEvalMoves {F : Type} (fo : FloatOps F) (st : GameState) (w : NNUEWeights F)
    (p : Fin 2) (rootPlayer : Fin 2) (perfectInfo : Bool) (moves : List Int) :
    Option (List (Int × F)) :=
  moves.foldl
    (fun acc m =>
      match acc with
      | none => none
      | some l =>
        match applyMove st (p.val : Int) m with
        | none => none
        | some ns => some (l ++ [(m, quickEval fo ns w rootPlayer perfectInfo)]))
    (some [])

/-- The loop over `ordered` at a MAX node of `searchRecursiveAB`, from the values
`alpha`, `bestVal`, `bestMoveLocal` and the table reached so far; `child` is the
recursive call on the state after a move. -/
def maxLoop {F : Type} (fo : FloatOps F) (st : GameState) (p : Fin 2)
    (child : TT F → GameState → F → F → Option (F × TT F)) (beta : F) :
    List (Int × F) → TT F → F → F → Int → Option (F × Int × TT F)
  | [], tt, _, bestVal, bestMoveLocal => some (bestVal, bestMoveLocal, tt)
  | (m, _) :: rest, tt, alpha, bestVal, bestMoveLocal =>
    match applyMove st (p.val : Int) m with
    | none => none
    | some ns =>
      match child tt ns alpha beta with
      | none => none
      | some (val, tt1) =>
        let bestVal1 := if fo.lt bestVal val then val else bestVal
        let alpha1 := if fo.lt alpha val then val else alpha
        let bestMove1 := if fo.lt alpha val then m else bestMoveLocal
        if fo.le beta alpha1 then some (bestVal1, bestMove1, tt1)
        else maxLoop fo st p child beta rest tt1 alpha1 bestVal1 bestMove1

/-- The loop over `ordered` at a MIN node of `searchRecursiveAB`. -/
def minLoop {F : Type} (fo : FloatOps F) (st : GameState) (p : Fin 2)
    (child : TT F → GameState → F → F → Option (F × TT F)) (alpha : F) :
    List (Int × F) → TT F → F → F → Int → Option (F × Int × TT F)
  | [], tt, _, bestVal, bestMoveLocal => some (bestVal, bestMoveLocal, tt)
  | (m, _) :: rest, tt, beta, bestVal, bestMoveLocal =>
    match applyMove st (p.val : Int) m with
    | none => none
    | some ns =>
      match child tt ns alpha beta with
      | none => none
      | some (val, tt1) =>
        let bestVal1 := if fo.lt val bestVal then val else bestVal
        let beta1 := if fo.lt val beta then val else beta
        let bestMove1 := if fo.lt val beta then m else bestMoveLocal
        if fo.le beta1 alpha then some (bestVal1, bestMove1, tt1)
        else minLoop fo st p child alpha rest tt1 beta1 bestVal1 bestMove1

/-- The first move of `ordered`, `-1` for an empty list. -/
def frontMove {F : Type} (ordered : List (Int × F)) : Int :=
  match ordered with
  | [] => -1
  | (m, _) :: _ => m

/-- The function `searchRecursiveAB`, with the table before the call as argument and the
table after it as second result.  `fuel` bounds the nesting of the recursive calls; the
result is `none` when it is used up, or when `applyMove` fails. -/
def searchRecursiveAB {F : Type} (fo : FloatOps F) (w : NNUEWeights F) (rootPlayer : Fin 2)
    (perfectInfo : Bool) :
    Nat → TT F → GameState → Int → F → F → Option (F × TT F)
  | 0, _, _, _, _, _ => none
  | fuel + 1, tt, st, depth, alpha, beta =>
    if st.finished then some (nnueEvaluate fo w st rootPlayer perfectInfo, tt)
    else
      match (if depth > 0 then ttLookup fo tt (computeHash st) depth alpha beta else none) with
      | some ttVal => some (ttVal, tt)
      | none =>
        if depth = 0 then
          match quiescenceAfterTrickClear fo st w rootPlayer perfectInfo with
          | none => none
          | some v => some (v, tt)
        else
          let p := st.currentPlayer
          let moves := getLegalMoves st (p.val : Int)
          if moves.isEmpty then some (nnueEvaluate fo w st rootPlayer perfectInfo, tt)
          else
            match quickEvalMoves fo st w p rootPlayer perfectInfo moves with
            | none => none
            | some evals =>
              let child : TT F → GameState → F → F → Option (F × TT F) :=
                fun tt1 ns a b =>
                  searchRecursiveAB fo w rootPlayer perfectInfo fuel tt1 ns (depth - 1) a b
              if p = rootPlayer then
                let ordered := sortBy (fun a b => fo.lt b.2 a.2) evals
                match maxLoop fo st p child beta ordered tt alpha (fo.neg fo.inf)
                    (frontMove ordered) with
                | none => none
                | some (bestVal, bestMoveLocal, tt1) =>
                  some (bestVal,
                    ttStore fo tt1 (computeHash st) depth bestVal alpha beta bestMoveLocal)
              else
                let ordered := sortBy (fun a b => fo.lt a.2 b.2) evals
                match minLoop fo st p child alpha ordered tt beta fo.inf
                    (frontMove ordered) with
                | none => none
                | some (bestVal, bestMoveLocal, tt1) =>
                  some (bestVal,
                    ttStore fo tt1 (computeHash st) depth bestVal alpha beta bestMoveLocal)

/-- The loop over `ordered` at the root, in `searchBestMove` and `searchBestMoveID`: from
the window bound `a`, the best value and the best move so far. -/
def rootLoop {F : Type} (fo : FloatOps F) (st : GameState) (p : Fin 2)
    (child : TT F → GameState → F → F → Option (F × TT F)) (b : F) :
    List (Int × F) → TT F → F → F → Int → Option (F × Int × TT F)
  | [], tt, _, best, bestMove => some (best, bestMove, tt)
  | (m, _) :: rest, tt, a, best, bestMove =>
    match applyMove st (p.val : Int) m with
    | none => none
    | some ns =>
      match child tt ns a b with
      | none => none
      | some (v, tt1) =>
        let best1 := if fo.lt best v then v else best
        let bestMove1 := if fo.lt best v then m else bestMove
        let a1 := if fo.lt a best1 then best1 else a
        rootLoop fo st p child b rest tt1 a1 best1 bestMove1

/-- The function `searchBestMove`. -/
def searchBestMove {F : Type} (fo : FloatOps F) (fuel : Nat) (tt : TT F) (st : GameState)
    (w : NNUEWeights F) (depth : Int) (perfectInfo : Bool) :
    Option (SearchResult F × TT F) :=
  let p := st.currentPlayer
  let moves := getLegalMoves st (p.val : Int)
  if moves.isEmpty then
    some ({ eval := nnueEvaluate fo w st p perfectInfo, chosenMoveIndex := -1 }, tt)
  else
    match quickEvalMoves fo st w p p perfectInfo moves with
    | none => none
    | some evals =>
      let ordered := sortBy (fun a b => fo.lt b.2 a.2) evals
      let child : TT F → GameState → F → F → Option (F × TT F) :=
        fun tt1 ns a b => searchRecursiveAB fo w p perfectInfo fuel tt1 ns (depth - 1) a b
      match rootLoop fo st p child fo.inf ordered tt (fo.neg fo.inf) (fo.neg fo.inf)
          (moves.headD 0) with
      | none => none
      | some (bestVal, bestMove, tt1) =>
        some ({ eval := bestVal, chosenMoveIndex := bestMove }, tt1)

/-- The `while (true)` loop of `searchBestMoveID` for one depth `d`, from the window
`(alpha, beta)` and the step `delta`: the value and move it leaves in `bestEval` and
`bestMove`.  `retries` bounds the number of passes. -/
def aspirationLoop {F : Type} (fo : FloatOps F) (fuel : Nat) (st : GameState)
    (w : NNUEWeights F) (p : Fin 2) (perfectInfo : Bool) (moves : List Int) (d : Int) :
    Nat → TT F → F → F → F → Option (F × Int × TT F)
  | 0, _, _, _, _ => none
  | retries + 1, tt, alpha, beta, delta =>
    match quickEvalMoves fo st w p p perfectInfo moves with
    | none => none
    | some evals =>
      let ordered := sortBy (fun a b => fo.lt b.2 a.2) evals
      let child : TT F → GameState → F → F → Option (F × TT F) :=
        fun tt1 ns a b => searchRecursiveAB fo w p perfectInfo fuel tt1 ns (d - 1) a b
      match rootLoop fo st p child beta ordered tt alpha (fo.neg fo.inf) (moves.headD 0) with
      | none => none
      | some (curBest, curBestMove, tt1) =>
        if fo.le curBest alpha then
          aspirationLoop fo fuel st w p perfectInfo moves d retries tt1 (fo.sub alpha delta) beta
            (fo.mul delta (fo.ofRat 2))
        else if fo.le beta curBest then
          aspirationLoop fo fuel st w p perfectInfo moves d retries tt1 alpha (fo.add beta delta)
            (fo.mul delta (fo.ofRat 2))
        else some (curBest, curBestMove, tt1)

/-- The function `searchBestMoveID`.  `fuel` bounds the nesting of the recursive calls
of `searchRecursiveAB` and `retries` the passes of each aspiration loop. -/
def searchBestMoveID {F : Type} (fo : FloatOps F) (fuel retries : Nat) (tt : TT F)
    (st : GameState) (w : NNUEWeights F) (depth : Int) (perfectInfo : Bool) :
    Option (SearchResult F × TT F) :=
  let p := st.currentPlayer
  let moves := getLegalMoves st (p.val : Int)
  if moves.isEmpty then searchBestMove fo fuel tt st w depth perfectInfo
  else
    let step : Option (F × Int × TT F) → Nat → Option (F × Int × TT F) := fun acc i =>
      match acc with
      | none => none
      | some (bestEval, _, tt1) =>
        let d : Int := (i : Int) + 1
        let delta := fo.add (fo.ofRat (1 / 2)) (fo.mul (fo.ofRat (1 / 2)) (fo.ofRat (d : ℚ)))
        aspirationLoop fo fuel st w p perfectInfo moves d retries tt1 (fo.sub bestEval delta)
          (fo.add bestEval delta) delta
    match (List.range depth.toNat).foldl step
        (some (nnueEvaluate fo w st p perfectInfo, moves.headD 0, tt)) with
    | none => none
    | some (bestEval, bestMove, tt1) =>
      some ({ eval := bestEval, chosenMoveIndex := bestMove }, tt1)

/-- Sample weights with one unit in each hidden layer: the evaluation is the feature in
slot 30, which is 1 when the viewpoint player holds the 2 of Espadas and 0 otherwise. -/
def sampleWeights : NNUEWeights ExtRat :=
  { w1 := List.replicate 30 (ExtRat.fin 0) ++ [ExtRat.fin 1] ++
      List.replicate 147 (ExtRat.fin 0)
    b1 := [ExtRat.fin 0]
    w2 := [ExtRat.fin 1]
    b2 := [ExtRat.fin 0]
    w3 := [ExtRat.fin 1]
    b3 := ExtRat.fin 0
    inputSize := 178
    hidden1 := 1
    hidden2 := 1 }

/-! ## eval_nnue.cpp: saveWeights, loadWeights

The weights are written and read as raw memory.  An `int` and a `float` take four bytes,
lowest byte first; a `float` is represented here by its 32-bit pattern, a natural number
below `2 ^ 32`, so that `NNUEWeights Nat` stands for weights given bit by bit. -/

/-- The four bytes of a 32-bit pattern, lowest first. -/
def bytesOfWord (n : Nat) : List Nat :=
  [n % 256, n / 256 % 256, n / 65536 % 256, n / 16777216 % 256]

/-- The pattern held by a sequence of bytes, lowest first. -/
def wordOfBytes : List Nat → Nat
  | [] => 0
  | b :: bs => b % 256 + 256 * wordOfBytes bs

/-- The 32-bit pattern of an `int` (two's complement). -/
def bitsOfInt (i : Int) : Nat :=
  (i % 4294967296).toNat

/-- The `int` with a given 32-bit pattern. -/
def intOfBits (n : Nat) : Int :=
  if n % 4294967296 < 2147483648 then (n % 4294967296 : Nat) else (n % 4294967296 : Nat) - 4294967296

/-- The bytes of an array of `float`, `v.size() * sizeof(float)` of them. -/
def bytesOfWords (v : List Nat) : List Nat :=
  (v.map bytesOfWord).flatten

/-- The array of `float` held by a sequence of bytes, four bytes to an element. -/
def wordsOfBytes : List Nat → List Nat
  | a :: b :: c :: d :: rest => wordOfBytes [a, b, c, d] :: wordsOfBytes rest
  | _ => []

/-- Map the entries of the weights, for instance from bit patterns to values. -/
def NNUEWeights.map {F G : Type} (g : F → G) (w : NNUEWeights F) : NNUEWeights G :=
  { w1 := w.w1.map g
    b1 := w.b1.map g
    w2 := w.w2.map g
    b2 := w.b2.map g
    w3 := w.w3.map g
    b3 := g w.b3
    inputSize := w.inputSize
    hidden1 := w.hidden1
    hidden2 := w.hidden2 }

/-- The bytes that `saveWeights` writes: the three `int` of the header, then `w1`, `b1`,
`w2`, `b2`, `w3` (each with the size it has) and `b3`. -/
def savedBytes (w : NNUEWeights Nat) : List Nat :=
  bytesOfWord (bitsOfInt w.inputSize) ++ bytesOfWord (bitsOfInt w.hidden1) ++
    bytesOfWord (bitsOfInt w.hidden2) ++ bytesOfWords w.w1 ++ bytesOfWords w.b1 ++
    bytesOfWords w.w2 ++ bytesOfWords w.b2 ++ bytesOfWords w.w3 ++ bytesOfWord w.b3

/-- The function `saveWeights`: `opens` tells whether the file can be opened for writing;
the result is the value returned and the contents of the file written, if any. -/
def saveWeights (w : NNUEWeights Nat) (opens : Bool) : Bool × Option (List Nat) :=
  if opens then (true, some (savedBytes w)) else (false, none)

/-- An input stream `std::ifstream` opened in binary mode: the bytes of the file, the
read position, and whether no error or end-of-file flag is set. -/
structure IFStream where
  data : List Nat
  pos : Nat
  good : Bool

/-- The call `f.read(buf, n)`: `buf` holds the bytes of the target before the call, `n`
of them.  A stream with a flag set reads nothing.  When fewer than `n` bytes are left,
those are stored and the flags are set. -/
def IFStream.read (f : IFStream) (buf : List Nat) : List Nat × IFStream :=
  if !f.good then (buf, f)
  else
    let got := (f.data.drop f.pos).take buf.length
    (got ++ buf.drop got.length,
      { f with pos := f.pos + got.length, good := decide (got.length = buf.length) })

/-- The call `f.tellg()`: the position, or `none` for `-1` when a flag is set. -/
def IFStream.tellg (f : IFStream) : Option Nat :=
  if f.good then some f.pos else none

/-- The call `f.clear()`. -/
def IFStream.clear (f : IFStream) : IFStream :=
  { f with good := true }

/-- The call `f.seekg(p)`: a seek to `-1` fails. -/
def IFStream.seekg (f : IFStream) (p : Option Nat) : IFStream :=
  if !f.good then f
  else
    match p with
    | none => { f with good := false }
    | some q => { f with pos := q }

/-- Read an `int` variable holding `old`: `f.read((char*)&x, sizeof(int))`. -/
def readInt (f : IFStream) (old : Int) : Int × IFStream :=
  let r := f.read (bytesOfWord (bitsOfInt old))
  (intOfBits (wordOfBytes r.1), r.2)

/-- Read a `float` variable holding `old`. -/
def readFloat (f : IFStream) (old : Nat) : Nat × IFStream :=
  let r := f.read (bytesOfWord old)
  (wordOfBytes r.1, r.2)

/-- Read an array holding `old`: `f.read((char*)v.data(), v.size() * sizeof(float))`. -/
def readFloats (f : IFStream) (old : List Nat) : List Nat × IFStream :=
  let r := f.read (bytesOfWords old)
  (wordsOfBytes r.1, r.2)

/-- The size `a * b` given to `resize`: the product is formed in `int` and converted to
`size_t`.  `none` when the product is negative, for which `resize` throws
`std::length_error`, or does not fit an `int`. -/
def vecSize (a b : Int) : Option Nat :=
  if 0 ≤ a * b ∧ a * b < 2147483648 then some (a * b).toNat else none

/-- The call `v.resize(n)`: new elements are `0.0f`, whose pattern is `0`. -/
def resize (v : List Nat) (n : Nat) : List Nat :=
  v.take n ++ List.replicate (n - v.length) 0

/-- The branch of `loadWeights` for the old format, from the header values and the stream
behind the header: `hidden2` is `0`, `w2` and `b2` are cleared, and `w1`, `b1`, `w3`
(of `hidden1` entries) and `b3` are read.  `none` when a `resize` throws. -/
def loadOld (w : NNUEWeights Nat) (inSz h1 : Int) (f : IFStream) :
    Option (Bool × NNUEWeights Nat) :=
  match vecSize h1 inSz, vecSize h1 1 with
  | some n1, some nb =>
    match readFloats f (resize w.w1 n1) with
    | (w1, f1) =>
      match readFloats f1 (resize w.b1 nb) with
      | (b1, f2) =>
        match readFloats f2 (resize w.w3 nb) with
        | (w3, f3) =>
          some (true,
            { w1 := w1, b1 := b1, w2 := [], b2 := [], w3 := w3, b3 := (readFloat f3 w.b3).1,
              inputSize := inSz, hidden1 := h1, hidden2 := 0 })
  | _, _ => none

/-- The branch of `loadWeights` for the new format, from the header values and the stream
behind the header.  `none` when a `resize` throws. -/
def loadNew (w : NNUEWeights Nat) (inSz h1 h2 : Int) (f : IFStream) :
    Option (Bool × NNUEWeights Nat) :=
  match vecSize h1 inSz, vecSize h1 1, vecSize h2 h1, vecSize h2 1 with
  | some n1, some nb1, some n2, some nb2 =>
    match readFloats f (resize w.w1 n1) with
    | (w1, f1) =>
      match readFloats f1 (resize w.b1 nb1) with
      | (b1, f2) =>
        match readFloats f2 (resize w.w2 n2) with
        | (w2, f3) =>
          match readFloats f3 (resize w.b2 nb2) with
          | (b2, f4) =>
            match readFloats f4 (resize w.w3 nb2) with
            | (w3, f5) =>
              some (true,
                { w1 := w1, b1 := b1, w2 := w2, b2 := b2, w3 := w3,
                  b3 := (readFloat f5 w.b3).1,
                  inputSize := inSz, hidden1 := h1, hidden2 := h2 })
  | _, _, _, _ => none

/-- The function `loadWeights`, on the contents `file` of the file at `path`, `none` when
it cannot be opened: the value returned and the weights `w` after the call.  The result
is `none` when a `resize` throws. -/
def loadWeights (w : NNUEWeights Nat) (file : Option (List Nat)) :
    Option (Bool × NNUEWeights Nat) :=
  match file with
  | none => some (false, w)
  | some bytes =>
    match readInt { data := bytes, pos := 0, good := true } 0 with
    | (inSz, f1) =>
      match readInt f1 0 with
      | (h1, f2) =>
        match readInt f2 0 with
        | (h2, f3) =>
          if !f3.good || h2 < 0 || h2 > 1024 then
            match readInt (f3.clear.seekg f1.tellg) h1 with
            | (h1old, f4) => loadOld w inSz h1old f4
          else loadNew w inSz h1 h2 f3

/-- The bytes of a weight file in the old format: the two `int` of the header, then `w1`,
`b1`, `w3` and `b3`. -/
def legacyBytes (inputSize hidden1 : Int) (w1 b1 w3 : List Nat) (b3 : Nat) : List Nat :=
  bytesOfWord (bitsOfInt inputSize) ++ bytesOfWord (bitsOfInt hidden1) ++
    bytesOfWords w1 ++ bytesOfWords b1 ++ bytesOfWords w3 ++ bytesOfWord b3

/-- Modelled from the spec: the forward pass of the old networks,
`b3 + sum over i of w3[i] * max(0, b1[i] + sum over j of w1[i][j] * x[j])`, the sums
taken in the order of the indices. -/
def legacyForward {F : Type} (fo : FloatOps F) (w : NNUEWeights F) (x : List F) : F :=
  (List.range w.hidden1.toNat).foldl
    (fun out i =>
      fo.add out
        (fo.mul (readAt fo w.w3 i)
          (fmax fo (fo.ofRat 0)
            ((List.range w.inputSize.toNat).foldl
              (fun acc j =>
                fo.add acc (fo.mul (readAt fo w.w1 (i * w.inputSize.toNat + j)) (readAt fo x j)))
              (readAt fo w.b1 i)))))
    w.b3
/-- Every entry is a 32-bit pattern. -/
def WordsOK (v : List Nat) : Prop :=
  ∀ x ∈ v, x < 4294967296

instance (v : List Nat) : Decidable (WordsOK v) := by
  unfold WordsOK
  infer_instance

/-- The value fits an `int`. -/
def IntOK (i : Int) : Prop :=
  -2147483648 ≤ i ∧ i < 2147483648

instance (i : Int) : Decidable (IntOK i) := by
  unfold IntOK
  infer_instance

/-- Weights in the new format with consistent array shapes: `w1` of
`hidden1 * inputSize` entries, `b1` of `hidden1`, `w2` of `hidden2 * hidden1`, `b2` and
`w3` of `hidden2`, the sizes and their products being values of `int` and the entries
32-bit patterns. -/
def ShapesOK (w : NNUEWeights Nat) : Prop :=
  IntOK w.inputSize ∧ IntOK w.hidden1 ∧ IntOK w.hidden2 ∧
    IntOK (w.hidden1 * w.inputSize) ∧ IntOK (w.hidden2 * w.hidden1) ∧
    (w.w1.length : Int) = w.hidden1 * w.inputSize ∧ (w.b1.length : Int) = w.hidden1 ∧
    (w.w2.length : Int) = w.hidden2 * w.hidden1 ∧ (w.b2.length : Int) = w.hidden2 ∧
    (w.w3.length : Int) = w.hidden2 ∧
    WordsOK w.w1 ∧ WordsOK w.b1 ∧ WordsOK w.w2 ∧ WordsOK w.b2 ∧ WordsOK w.w3 ∧
    w.b3 < 4294967296

instance (w : NNUEWeights Nat) : Decidable (ShapesOK w) := by
  unfold ShapesOK
  infer_instance

/-- Sample weights in the new format: one input, two units in the first hidden layer and
one in the second. -/
def sampleSavedWeights : NNUEWeights Nat :=
  { w1 := [1065353216, 3212836864]
    b1 := [0, 1056964608]
    w2 := [1073741824, 2147483648]
    b2 := [2143289344]
    w3 := [1065353216]
    b3 := 4286578688
    inputSize := 1
    hidden1 := 2
    hidden2 := 1 }

/-- Weights with no entries, as a `NNUEWeights` object is before anything is loaded into
it (but for the default sizes, which `loadWeights` overwrites). -/
def emptyWeights : NNUEWeights Nat :=
  { w1 := [], b1 := [], w2 := [], b2 := [], w3 := [], b3 := 0
    inputSize := 0, hidden1 := 0, hidden2 := 0 }

/-- The first `float` stored behind the two-`int` header of a file in the old format. -/
def firstStored (w1 b1 w3 : List Nat) (b3 : Nat) : Nat :=
  (w1 ++ b1 ++ w3 ++ [b3]).headD 0

/-- The loop over the futures of `searchBestMoveMT`, fused with the tasks that fill them:
for each move of `ordered` the task `searchRecursiveAB(ns, w, p, depth - 1, alpha, beta)`
on the state after the move, then `if (v > bestVal) { bestVal = v; bestMove = m; }`.
The variables `alpha` and `beta` that the tasks capture are never assigned, so every
task has the window `(-inf, +inf)`. -/
def mtLoop {F : Type} (fo : FloatOps F) (st : GameState) (p : Fin 2)
    (child : TT F → GameState → F → F → Option (F × TT F)) :
    List (Int × F) → TT F → F → Int → Option (F × Int × TT F)
  | [], tt, bestVal, bestMove => some (bestVal, bestMove, tt)
  | (m, _) :: rest, tt, bestVal, bestMove =>
    match applyMove st (p.val : Int) m with
    | none => none
    | some ns =>
      match child tt ns (fo.neg fo.inf) fo.inf with
      | none => none
      | some (v, tt1) =>
        mtLoop fo st p child rest tt1 (if fo.lt bestVal v then v else bestVal)
          (if fo.lt bestVal v then m else bestMove)

/-- The function `searchBestMoveMT`.  The tasks share the table only, which they lock for
each lookup and store; they are run here one after the other, in the order in which
they are started, which is one of the schedules that the program allows. -/
def searchBestMoveMT {F : Type} (fo : FloatOps F) (fuel : Nat) (tt : TT F) (st : GameState)
    (w : NNUEWeights F) (depth : Int) (perfectInfo : Bool) :
    Option (SearchResult F × TT F) :=
  let p := st.currentPlayer
  let moves := getLegalMoves st (p.val : Int)
  if moves.isEmpty then
    some ({ eval := nnueEvaluate fo w st p perfectInfo, chosenMoveIndex := -1 }, tt)
  else
    match quickEvalMoves fo st w p p perfectInfo moves with
    | none => none
    | some evals =>
      let ordered := sortBy (fun a b => fo.lt b.2 a.2) evals
      let child : TT F → GameState → F → F → Option (F × TT F) :=
        fun tt1 ns a b => searchRecursiveAB fo w p perfectInfo fuel tt1 ns (depth - 1) a b
      match mtLoop fo st p child ordered tt (fo.neg fo.inf) (frontMove ordered) with
      | none => none
      | some (bestVal, bestMove, tt1) =>
        some ({ eval := bestVal, chosenMoveIndex := bestMove }, tt1)

/-- The number of cards that can still be played: those in the hands and in the deck,
and the trump card while it is set aside. -/
def cardsLeft (s : GameState) : Nat :=
  s.hands.1.length + s.hands.2.length + s.deck.length + (if s.trumpCardGiven then 0 else 1)

/-! ## rand.cpp -/

/-- The method `RNG::nextU64`: the value returned and the generator after the call. -/
def RNG.nextU64 (r : RNG) : Nat × RNG :=
  let s := (r.s * 6364136223846793005 + 1) % 2 ^ 64
  (s, { s := s })

/-- The method `RNG::nextU32`. -/
def RNG.nextU32 (r : RNG) : Nat × RNG :=
  let x := r.nextU64
  (x.1 >>> 32, x.2)

/-! ## mcts.h, mcts.cpp -/

/-- The configuration, `struct MCTSConfig`; `weights` is `none` for a null pointer. -/
structure MCTSConfig (F : Type) where
  iterations : Int
  exploration : F
  rolloutLimit : Int
  weights : Option (NNUEWeights F)
  useNNUE : Bool
  perfectInfo : Bool

/-- The result, `struct MCTSResult`. -/
structure MCTSResult (F : Type) where
  eval : F
  chosenMoveIndex : Int
  visits : Int

/-- The functions `std::sqrt` and `std::log` on `float`. -/
structure MathOps (F : Type) where
  sqrt : F → F
  log : F → F

/-- The player with index `i`, for the places where an `int` indexes `score` or is given
to `nnueEvaluate`; they are reached with `i` equal to `0` or `1` only. -/
def playerOfInt (i : Int) : Fin 2 :=
  if i = 0 then 0 else 1

/-- The function `applyMoveDeterministic`: the state is returned unchanged when
`playCard` fails; `none` when the assertion of `evaluateTrick` fails. -/
def applyMoveDeterministic (st : GameState) (player : Int) (handIndex : Int) :
    Option GameState :=
  match playCard st player handIndex with
  | (false, ns) => some ns
  | (true, ns) => maybeCloseTrick ns

/-- The exchange `std::swap(moves[i], moves[j])`. -/
def swapMoves (v : List Int) (i j : Nat) : List Int :=
  match v[i]?, v[j]? with
  | some a, some b => (v.set i b).set j a
  | _, _ => v

/-- The loop of `shuffleMoves`, entered with loop variable `i`; it runs while `i > 0`. -/
def shuffleMovesLoop : Nat → List Int → RNG → List Int × RNG
  | 0, v, rng => (v, rng)
  | i + 1, v, rng =>
    let r := rng.nextU32
    let j := r.1 % (i + 1 + 1)
    shuffleMovesLoop i (swapMoves v (i + 1) j) r.2

/-- The function `shuffleMoves`. -/
def shuffleMoves (moves : List Int) (rng : RNG) : List Int × RNG :=
  if moves.isEmpty then (moves, rng) else shuffleMovesLoop (moves.length - 1) moves rng

/-- A node of the search tree, `struct Node`.  The children own their nodes, so the nodes
form a tree; the pointer `parent` is not kept, a node being addressed by the path from
the root (the list of child positions).  The field `move` of an edge repeats
`moveFromParent` of its node. -/
inductive Node (F : Type) where
  | mk (state : GameState) (playerToMove : Int) (moveFromParent : Int)
      (unexpandedMoves : List Int) (children : List (Node F)) (visits : Int)
      (totalValue : F) : Node F

/-- The field `state`. -/
def Node.state {F : Type} : Node F → GameState
  | .mk st _ _ _ _ _ _ => st

/-- The field `playerToMove`. -/
def Node.playerToMove {F : Type} : Node F → Int
  | .mk _ p _ _ _ _ _ => p

/-- The field `moveFromParent`. -/
def Node.moveFromParent {F : Type} : Node F → Int
  | .mk _ _ m _ _ _ _ => m

/-- The field `unexpandedMoves`. -/
def Node.unexpandedMoves {F : Type} : Node F → List Int
  | .mk _ _ _ u _ _ _ => u

/-- The field `children`. -/
def Node.children {F : Type} : Node F → List (Node F)
  | .mk _ _ _ _ cs _ _ => cs

/-- The field `visits`. -/
def Node.visits {F : Type} : Node F → Int
  | .mk _ _ _ _ _ v _ => v

/-- The field `totalValue`. -/
def Node.totalValue {F : Type} : Node F → F
  | .mk _ _ _ _ _ _ tv => tv

/-- The value `score` that the loop of `selectNode` computes for a child; `parentVisits`
is `static_cast<float>(node->visits + 1)`. -/
def childScore {F : Type} (fo : FloatOps F) (mo : MathOps F) (cfg : MCTSConfig F)
    (rootPlayer : Int) (parentPlayerToMove : Int) (parentVisits : F) (child : Node F) : F :=
  if child.visits = 0 then fo.inf
  else
    let mean := fo.div child.totalValue (fo.ofRat (child.visits : ℚ))
    let mean1 := if parentPlayerToMove ≠ rootPlayer then fo.neg mean else mean
    let explore :=
      fo.mul cfg.exploration
        (mo.sqrt (fo.div (mo.log parentVisits) (fo.ofRat (child.visits : ℚ))))
    fo.add mean1 explore

/-- The loop over `node->children` in `selectNode`, from the child at position `k` on,
with the values of `bestScore` and `bestChild` (a position, `none` for `nullptr`). -/
def bestChildLoop {F : Type} (fo : FloatOps F) (mo : MathOps F) (cfg : MCTSConfig F)
    (rootPlayer : Int) (parentPlayerToMove : Int) (parentVisits : F) :
    List (Node F) → Nat → F → Option Nat → Option Nat
  | [], _, _, bestChild => bestChild
  | c :: cs, k, bestScore, bestChild =>
    let score := childScore fo mo cfg rootPlayer parentPlayerToMove parentVisits c
    if fo.lt bestScore score then
      bestChildLoop fo mo cfg rootPlayer parentPlayerToMove parentVisits cs (k + 1) score (some k)
    else
      bestChildLoop fo mo cfg rootPlayer parentPlayerToMove parentVisits cs (k + 1) bestScore
        bestChild

mutual
/-- The function `selectNode`: the path from `node` to the node returned. -/
def selectNode {F : Type} (fo : FloatOps F) (mo : MathOps F) (cfg : MCTSConfig F)
    (rootPlayer : Int) : Node F → List Nat
  | .mk st ptm _ unexp cs vis _ =>
    if !unexp.isEmpty || st.finished || cs.isEmpty then []
    else
      match bestChildLoop fo mo cfg rootPlayer ptm (fo.ofRat ((vis + 1 : Int) : ℚ)) cs 0
          (fo.neg fo.inf) none with
      | none => []
      | some i => selectNodeAt fo mo cfg rootPlayer cs i i
/-- The step `node = bestChild` of `selectNode`: the search goes on in the child at
position `k` of `cs`, which is child `i` of the node. -/
def selectNodeAt {F : Type} (fo : FloatOps F) (mo : MathOps F) (cfg : MCTSConfig F)
    (rootPlayer : Int) : List (Node F) → Nat → Nat → List Nat
  | [], _, _ => []
  | c :: _, 0, i => i :: selectNode fo mo cfg rootPlayer c
  | _ :: cs, k + 1, i => selectNodeAt fo mo cfg rootPlayer cs k i
end

/-- The function `expandNode` on a node: the node after the call, whether a child was
added (the node returned is then the new child, the last one, and else the node
itself), and the generator.  `none` when the assertion of `evaluateTrick` fails. -/
def expandNode {F : Type} (fo : FloatOps F) (node : Node F) (rng : RNG) :
    Option (Node F × Bool × RNG) :=
  match node with
  | .mk st ptm mfp unexp cs vis tv =>
    match unexp.getLast? with
    | none => some (Node.mk st ptm mfp unexp cs vis tv, false, rng)
    | some move =>
      match applyMoveDeterministic st ptm move with
      | none => none
      | some next =>
        let sh := shuffleMoves (getLegalMoves next (next.currentPlayer.val : Int)) rng
        let child : Node F :=
          Node.mk next (next.currentPlayer.val : Int) move sh.1 [] 0 (fo.ofRat 0)
        some (Node.mk st ptm mfp unexp.dropLast (cs ++ [child]) vis tv, true, sh.2)

/-- The statement `if (!node->state.finished) node = expandNode(node, rootPlayer, rng);`
for the node at `path`: the tree after it, the path of the node that `node` then points
to, and the generator. -/
def expandAt {F : Type} (fo : FloatOps F) : List Nat → Node F → RNG →
    Option (Node F × List Nat × RNG)
  | [], node, rng =>
    if node.state.finished then some (node, [], rng)
    else
      match expandNode fo node rng with
      | none => none
      | some (node1, expanded, rng1) =>
        some (node1, if expanded then [node1.children.length - 1] else [], rng1)
  | i :: rest, .mk st ptm mfp unexp cs vis tv, rng =>
    match cs[i]? with
    | none => none
    | some c =>
      match expandAt fo rest c rng with
      | none => none
      | some (c1, path1, rng1) =>
        some (Node.mk st ptm mfp unexp (cs.set i c1) vis tv, i :: path1, rng1)

/-- The node at a path. -/
def nodeAt {F : Type} : List Nat → Node F → Option (Node F)
  | [], node => some node
  | i :: rest, node =>
    match node.children[i]? with
    | none => none
    | some c => nodeAt rest c

/-- The loop of `rollout`, with the state, the count `steps` and the generator; `fuel`
bounds the number of passes, and `none` stands for a failed assertion of
`evaluateTrick` or for the bound being reached. -/
def rolloutLoop {F : Type} (cfg : MCTSConfig F) : Nat → GameState → Int → RNG →
    Option (GameState × RNG)
  | 0, _, _, _ => none
  | fuel + 1, state, steps, rng =>
    if state.finished then some (state, rng)
    else if cfg.rolloutLimit > 0 ∧ steps ≥ cfg.rolloutLimit then some (state, rng)
    else
      let moves := getLegalMoves state (state.currentPlayer.val : Int)
      if moves.isEmpty then some (state, rng)
      else
        let r := rng.nextU32
        let choice := moves.getD (r.1 % moves.length) 0
        match applyMoveDeterministic state (state.currentPlayer.val : Int) choice with
        | none => none
        | some ns => rolloutLoop cfg fuel ns (steps + 1) r.2

/-- The function `rollout`: the value returned and the generator.  Every pass of the loop
plays a card, so one pass more than there are cards left is bound enough. -/
def rollout {F : Type} (fo : FloatOps F) (cfg : MCTSConfig F) (rootPlayer : Int)
    (state : GameState) (rng : RNG) : Option (F × RNG) :=
  match rolloutLoop cfg (cardsLeft state + 1) state 0 rng with
  | none => none
  | some (st, rng1) =>
    let diff : Int :=
      getP st.score (playerOfInt rootPlayer) - getP st.score (playerOfInt (1 - rootPlayer))
    match cfg.weights with
    | some w =>
      if st.finished || !cfg.useNNUE then some (fo.div (fo.ofRat (diff : ℚ)) (fo.ofRat 120), rng1)
      else some (nnueEvaluate fo w st (playerOfInt rootPlayer) cfg.perfectInfo, rng1)
    | none => some (fo.div (fo.ofRat (diff : ℚ)) (fo.ofRat 120), rng1)

/-- The function `backpropagate` from the node at `path` up to the root: every node on
the path gets one more visit and `value` added to its total. -/
def backpropagate {F : Type} (fo : FloatOps F) (value : F) : List Nat → Node F → Node F
  | [], .mk st ptm mfp unexp cs vis tv => Node.mk st ptm mfp unexp cs (vis + 1) (fo.add tv value)
  | i :: rest, .mk st ptm mfp unexp cs vis tv =>
    Node.mk st ptm mfp unexp (cs.modify (backpropagate fo value rest) i) (vis + 1)
      (fo.add tv value)

/-- One pass of the loop of `searchBestMoveMCTS`: selection, expansion, rollout and
backpropagation. -/
def mctsIteration {F : Type} (fo : FloatOps F) (mo : MathOps F) (cfg : MCTSConfig F)
    (rootPlayer : Int) (root : Node F) (rng : RNG) : Option (Node F × RNG) :=
  match expandAt fo (selectNode fo mo cfg rootPlayer root) root rng with
  | none => none
  | some (root1, path1, rng1) =>
    match nodeAt path1 root1 with
    | none => none
    | some node =>
      match rollout fo cfg rootPlayer node.state rng1 with
      | none => none
      | some (value, rng2) => some (backpropagate fo value path1 root1, rng2)

/-- The loop `for (iter < cfg.iterations)` of `searchBestMoveMCTS`, `n` passes. -/
def mctsLoop {F : Type} (fo : FloatOps F) (mo : MathOps F) (cfg : MCTSConfig F)
    (rootPlayer : Int) : Nat → Node F → RNG → Option (Node F × RNG)
  | 0, root, rng => some (root, rng)
  | n + 1, root, rng =>
    match mctsIteration fo mo cfg rootPlayer root rng with
    | none => none
    | some (root1, rng1) => mctsLoop fo mo cfg rootPlayer n root1 rng1

/-- The last loop of `searchBestMoveMCTS`, over `root->children`, with the values of
`bestVisits` and `bestChild`. -/
def bestByVisits {F : Type} : List (Node F) → Int → Option (Node F) → Option (Node F)
  | [], _, bestChild => bestChild
  | c :: cs, bestVisits, bestChild =>
    if c.visits > bestVisits then bestByVisits cs c.visits (some c)
    else bestByVisits cs bestVisits bestChild

/-- The root node that `searchBestMoveMCTS` builds, and the generator after the shuffle
of its moves. -/
def mctsRoot {F : Type} (fo : FloatOps F) (state : GameState) (rootPlayer : Int) (rng : RNG) :
    Node F × RNG :=
  let sh := shuffleMoves (getLegalMoves state rootPlayer) rng
  (Node.mk state rootPlayer (-1) sh.1 [] 0 (fo.ofRat 0), sh.2)

/-- The tree that `searchBestMoveMCTS` has built when its iterations are over. -/
def mctsTree {F : Type} (fo : FloatOps F) (mo : MathOps F) (state : GameState)
    (rootPlayer : Int) (rng : RNG) (cfg : MCTSConfig F) : Option (Node F × RNG) :=
  mctsLoop fo mo cfg rootPlayer cfg.iterations.toNat (mctsRoot fo state rootPlayer rng).1
    (mctsRoot fo state rootPlayer rng).2

/-- The function `searchBestMoveMCTS`: the result and the generator after the call. -/
def searchBestMoveMCTS {F : Type} (fo : FloatOps F) (mo : MathOps F) (state : GameState)
    (rootPlayer : Int) (rng : RNG) (cfg : MCTSConfig F) : Option (MCTSResult F × RNG) :=
  let moves := getLegalMoves state rootPlayer
  if moves.isEmpty then some ({ eval := fo.ofRat 0, chosenMoveIndex := -1, visits := 0 }, rng)
  else
    match mctsTree fo mo state rootPlayer rng cfg with
    | none => none
    | some (root, rng1) =>
      match bestByVisits root.children (-1) none with
      | some bestChild =>
        some
          ({ chosenMoveIndex := bestChild.moveFromParent
             eval :=
               if bestChild.visits > 0 then
                 fo.div bestChild.totalValue (fo.ofRat (bestChild.visits : ℚ))
               else fo.ofRat 0
             visits := bestChild.visits }, rng1)
      | none => some ({ chosenMoveIndex := moves.headD 0, eval := fo.ofRat 0, visits := 0 }, rng1)
/-- The sum of the visit counts of the children of a node. -/
def childVisits {F : Type} (node : Node F) : Int :=
  (node.children.map Node.visits).sum

/-- Whether a pass of the loop of `searchBestMoveMCTS` entered with the tree `root` adds
nothing below the root: `selectNode` returns the root and `expandNode` has no move to
expand (or the root state is finished). -/
def isStall {F : Type} (fo : FloatOps F) (mo : MathOps F) (cfg : MCTSConfig F)
    (rootPlayer : Int) (root : Node F) : Bool :=
  (selectNode fo mo cfg rootPlayer root).isEmpty &&
    (root.state.finished || root.unexpandedMoves.isEmpty)

/-- What holds of the root during the search from a state with the legal moves `M`: every
child was reached by a move of `M`, has been visited and has a total within `G`, the moves
not yet expanded are moves of `M`, and children and unexpanded moves together are as many
as at the start. -/
structure RootInv {F : Type} (G : F → Prop) (M : List Int) (n : Nat) (root : Node F) :
    Prop where
  child_move : ∀ c ∈ root.children, c.moveFromParent ∈ M
  child_visits : ∀ c ∈ root.children, 1 ≤ c.visits
  child_total : ∀ c ∈ root.children, G c.totalValue
  unexpanded : ∀ m ∈ root.unexpandedMoves, m ∈ M
  count : root.children.length + root.unexpandedMoves.length = n

/-- Every state in the tree has fewer than four cards in its trick, as every state has
that play produces. -/
inductive TreeOK {F : Type} : Node F → Prop where
  | mk (st : GameState) (ptm mfp : Int) (unexp : List Int) (cs : List (Node F)) (vis : Int)
      (tv : F) (ht : st.trick.cards.length < 4) (hcs : ∀ c ∈ cs, TreeOK c) :
      TreeOK (Node.mk st ptm mfp unexp cs vis tv)

/-- Whether a value is a finite number. -/
def ExtRat.isFin : ExtRat → Bool
  | ExtRat.fin _ => true
  | _ => false

/-- A rational stand-in for `std::sqrt`: the root rounded down to thousandths; NaN for a
negative argument. -/
def ExtRat.sqrt : ExtRat → ExtRat
  | ExtRat.fin q =>
    if q < 0 then ExtRat.nan else ExtRat.fin ((Nat.sqrt (q * 1000000).floor.toNat : ℚ) / 1000)
  | ExtRat.posInf => ExtRat.posInf
  | _ => ExtRat.nan

/-- A rational stand-in for `std::log`: `x - 1`, the tangent at 1; minus infinity at 0 and
NaN for a negative argument. -/
def ExtRat.log : ExtRat → ExtRat
  | ExtRat.fin q =>
    if q < 0 then ExtRat.nan else if q = 0 then ExtRat.negInf else ExtRat.fin (q - 1)
  | ExtRat.posInf => ExtRat.posInf
  | _ => ExtRat.nan

/-- The two functions for evaluating the search on concrete inputs.  With the exploration
constant 0 of `sampleConfig` the exploration term is the product of 0 and a finite value,
which is 0 whatever the finite value is. -/
def sampleMath : MathOps ExtRat :=
  { sqrt := ExtRat.sqrt
    log := ExtRat.log }

/-- A sample configuration: five iterations, no exploration term, rollouts to the end of
the game scored by the point difference. -/
def sampleConfig : MCTSConfig ExtRat :=
  { iterations := 5
    exploration := ExtRat.fin 0
    rolloutLimit := 0
    weights := none
    useNNUE := false
    perfectInfo := false }

/-- The state on which `maybeCloseTrick` runs the block that hands out the trump card:
the points are credited to `winnerPlayer` and the four refill statements are done. -/
def beforeHandOut (s : GameState) (winnerPlayer : Fin 2) (potPoints : Int) : GameState :=
  refill { s with score := setP s.score winnerPlayer (getP s.score winnerPlayer + potPoints) }
    winnerPlayer (1 - winnerPlayer)
/-- The two states agree on every field that `computeHash` reads: the player to move, the
scores, the trump suit and card, the deck, both hands, the trick and the flag `finished`.
The one field of `GameState` left out is `trumpCardGiven`. -/
def HashFieldsEq (s t : GameState) : Prop :=
  s.currentPlayer = t.currentPlayer ∧ s.score = t.score ∧ s.trumpSuit = t.trumpSuit ∧
    s.trumpCard = t.trumpCard ∧ s.deck = t.deck ∧ s.hands = t.hands ∧ s.trick = t.trick ∧
    s.finished = t.finished

instance (s t : GameState) : Decidable (HashFieldsEq s t) := by
  unfold HashFieldsEq
  infer_instance

/-- The state `threeCardState` with the deck used up and the trump card handed out. -/
def handOutDoneState : GameState :=
  { threeCardState with deck := [], trumpCardGiven := true }

/-- The state `handOutDoneState` with the trump card still set aside: it differs from
`handOutDoneState` in the flag `trumpCardGiven` only. -/
def handOutPendingState : GameState :=
  { threeCardState with deck := [], trumpCardGiven := false }

/-- Weights with one hidden layer (`hidden2 = 0`) and consistent array shapes: `w1` of
`hidden1 * inputSize` entries, `b1` and `w3` of `hidden1`, `w2` and `b2` empty, the sizes
and their product being values of `int` and the entries 32-bit patterns. -/
def SingleLayerOK (w : NNUEWeights Nat) : Prop :=
  IntOK w.inputSize ∧ IntOK w.hidden1 ∧ w.hidden2 = 0 ∧ IntOK (w.hidden1 * w.inputSize) ∧
    (w.w1.length : Int) = w.hidden1 * w.inputSize ∧ (w.b1.length : Int) = w.hidden1 ∧
    w.w2 = [] ∧ w.b2 = [] ∧ (w.w3.length : Int) = w.hidden1 ∧
    WordsOK w.w1 ∧ WordsOK w.b1 ∧ WordsOK w.w3 ∧ w.b3 < 4294967296

instance (w : NNUEWeights Nat) : Decidable (SingleLayerOK w) := by
  unfold SingleLayerOK
  infer_instance

/-- Sample weights with one hidden layer, as loading a file in the old format gives them:
one input, one hidden unit, `w1 = [0.0]`, `b1 = [1.0]`, `w3 = [2.0]`, `b3 = 3.0`. -/
def sampleSingleLayerWeights : NNUEWeights Nat :=
  { w1 := [0]
    b1 := [1065353216]
    w2 := []
    b2 := []
    w3 := [1073741824]
    b3 := 1077936128
    inputSize := 1
    hidden1 := 1
    hidden2 := 0 }

/-- The values of the four patterns of `sampleSingleLayerWeights`, 0 for every other
pattern. -/
def sampleDecode (x : Nat) : ExtRat :=
  if x = 1065353216 then ExtRat.fin 1
  else if x = 1073741824 then ExtRat.fin 2
  else if x = 1077936128 then ExtRat.fin 3
  else ExtRat.fin 0
/-- A request to `ttStore`: key, depth, value, the two original bounds and the move. -/
structure StoreArgs (F : Type) where
  key : Nat
  depth : Int
  val : F
  alphaOrig : F
  betaOrig : F
  bestMoveHandIdx : Int

/-- The table after a sequence of calls of `ttStore`. -/
def ttStoreAll {F : Type} (fo : FloatOps F) (tt : TT F) (calls : List (StoreArgs F)) : TT F :=
  calls.foldl
    (fun t c => ttStore fo t c.key c.depth c.val c.alphaOrig c.betaOrig c.bestMoveHandIdx) tt

/-- The flag that `ttStore` gives the entry. -/
def storedFlag {F : Type} (fo : FloatOps F) (val alphaOrig betaOrig : F) : TTFlag :=
  if fo.le val alphaOrig then TTFlag.UPPERBOUND
  else if fo.le betaOrig val then TTFlag.LOWERBOUND
  else TTFlag.EXACT

/-! ## selfplay.h, selfplay.cpp, selfplay_mcts.cpp -/

/-- A training sample, `struct SelfPlaySample` (and `SelfPlaySampleMCTS`). -/
structure SelfPlaySample (F : Type) where
  features : List F
  outcome : F

/-- The loop `while (!st.finished)` of `playSelfPlayGame`, with the table, the state and
the samples recorded so far; the result is the state, the samples and the table when the
loop is left.  The first argument bounds the number of passes; `none` stands for the
bound being reached, for a search that does not return and for a failed assertion of
`evaluateTrick`. -/
def selfPlayLoop {F : Type} (fo : FloatOps F) (fuel retries : Nat) (w : NNUEWeights F)
    (depth : Int) (perfectInfo : Bool) :
    Nat → TT F → GameState → List (SelfPlaySample F) →
      Option (GameState × List (SelfPlaySample F) × TT F)
  | 0, _, _, _ => none
  | n + 1, tt, st, result =>
    if st.finished then some (st, result, tt)
    else
      let p := st.currentPlayer
      let featBefore := extractFeatures fo st p perfectInfo
      match searchBestMoveID fo fuel retries tt st w depth perfectInfo with
      | none => none
      | some (sr, tt1) =>
        if sr.chosenMoveIndex < 0 then some ({ st with finished := true }, result, tt1)
        else
          match maybeCloseTrick (playCard st (p.val : Int) sr.chosenMoveIndex).2 with
          | none => none
          | some st1 =>
            selfPlayLoop fo fuel retries w depth perfectInfo n tt1 st1
              (result ++ [{ features := featBefore, outcome := fo.ofRat 0 }])

/-- The function `playSelfPlayGame`, for the clock reading `now` that seeds the deal: the
samples returned and the table after the call.  A game has 40 cards to play, so 41 tests
of the loop condition are bound enough. -/
def playSelfPlayGame {F : Type} (fo : FloatOps F) (fuel retries : Nat) (tt : TT F)
    (w : NNUEWeights F) (depth : Int) (rng : RNG) (now : Nat) (perfectInfo : Bool) :
    Option (List (SelfPlaySample F) × TT F) :=
  match selfPlayLoop fo fuel retries w depth perfectInfo 41 tt (newGame rng now) [] with
  | none => none
  | some (st, result, tt1) =>
    let diff : Int := getP st.score 0 - getP st.score 1
    some (result.map (fun s => { s with outcome := fo.ofRat (diff : ℚ) }), tt1)

/-- The loop `while (!st.finished)` of `playSelfPlayGameMCTS`, with the generator, the
state and the samples recorded so far. -/
def selfPlayLoopMCTS {F : Type} (fo : FloatOps F) (mo : MathOps F) (cfg : MCTSConfig F) :
    Nat → RNG → GameState → List (SelfPlaySample F) →
      Option (GameState × List (SelfPlaySample F) × RNG)
  | 0, _, _, _ => none
  | n + 1, rng, st, result =>
    if st.finished then some (st, result, rng)
    else
      let p := st.currentPlayer
      let sample : SelfPlaySample F :=
        { features := extractFeatures fo st p cfg.perfectInfo, outcome := fo.ofRat 0 }
      match searchBestMoveMCTS fo mo st (p.val : Int) rng cfg with
      | none => none
      | some (sr, rng1) =>
        if sr.chosenMoveIndex < 0 then some ({ st with finished := true }, result, rng1)
        else
          match playCard st (p.val : Int) sr.chosenMoveIndex with
          | (false, st1) => some ({ st1 with finished := true }, result, rng1)
          | (true, st1) =>
            match maybeCloseTrick st1 with
            | none => none
            | some st2 => selfPlayLoopMCTS fo mo cfg n rng1 st2 (result ++ [sample])

/-- The function `playSelfPlayGameMCTS`, for the clock reading `now`: the samples returned
and the generator after the call. -/
def playSelfPlayGameMCTS {F : Type} (fo : FloatOps F) (mo : MathOps F) (cfg : MCTSConfig F)
    (rng : RNG) (now : Nat) : Option (List (SelfPlaySample F) × RNG) :=
  match selfPlayLoopMCTS fo mo cfg 41 rng (newGame rng now) [] with
  | none => none
  | some (st, result, rng1) =>
    let diff : Int := getP st.score 0 - getP st.score 1
    some (result.map (fun s => { s with outcome := fo.ofRat (diff : ℚ) }), rng1)

/-- The samples `fs` are the feature vectors of a game played from `s` move by move to
the state `final`: each is `extractFeatures` of the state before a move, from the
viewpoint of the player to move, and the move is a successful `playCard` followed by
`maybeCloseTrick`. -/
def Recorded {F : Type} (fo : FloatOps F) (perfectInfo : Bool) :
    GameState → List (List F) → GameState → Prop
  | s, [], final => final = s
  | s, f :: fs, final =>
    f = extractFeatures fo s s.currentPlayer perfectInfo ∧
      ∃ (m : Int) (s1 s2 : GameState),
        playCard s (s.currentPlayer.val : Int) m = (true, s1) ∧ maybeCloseTrick s1 = some s2 ∧
          Recorded fo perfectInfo s2 fs final

/-! ## The search with a count of the table hits

The functions of search.cpp once more, each returning as a further result the number of
calls of `ttLookup` that returned `true` during the call.  Dropping the count gives the
functions above (`searchRecursiveABH_fst` and the lemmas that follow it). -/

/-- The loop `maxLoop`, with the number of hits: `hits` counts those before the loop. -/
def maxLoopH {F : Type} (fo : FloatOps F) (st : GameState) (p : Fin 2)
    (child : TT F → GameState → F → F → Option (F × TT F × Nat)) (beta : F) :
    List (Int × F) → TT F → F → F → Int → Nat → Option (F × Int × TT F × Nat)
  | [], tt, _, bestVal, bestMoveLocal, hits => some (bestVal, bestMoveLocal, tt, hits)
  | (m, _) :: rest, tt, alpha, bestVal, bestMoveLocal, hits =>
    match applyMove st (p.val : Int) m with
    | none => none
    | some ns =>
      match child tt ns alpha beta with
      | none => none
      | some (val, tt1, h1) =>
        let bestVal1 := if fo.lt bestVal val then val else bestVal
        let alpha1 := if fo.lt alpha val then val else alpha
        let bestMove1 := if fo.lt alpha val then m else bestMoveLocal
        if fo.le beta alpha1 then some (bestVal1, bestMove1, tt1, hits + h1)
        else maxLoopH fo st p child beta rest tt1 alpha1 bestVal1 bestMove1 (hits + h1)

/-- The loop `minLoop`, with the number of hits. -/
def minLoopH {F : Type} (fo : FloatOps F) (st : GameState) (p : Fin 2)
    (child : TT F → GameState → F → F → Option (F × TT F × Nat)) (alpha : F) :
    List (Int × F) → TT F → F → F → Int → Nat → Option (F × Int × TT F × Nat)
  | [], tt, _, bestVal, bestMoveLocal, hits => some (bestVal, bestMoveLocal, tt, hits)
  | (m, _) :: rest, tt, beta, bestVal, bestMoveLocal, hits =>
    match applyMove st (p.val : Int) m with
    | none => none
    | some ns =>
      match child tt ns alpha beta with
      | none => none
      | some (val, tt1, h1) =>
        let bestVal1 := if fo.lt val bestVal then val else bestVal
        let beta1 := if fo.lt val beta then val else beta
        let bestMove1 := if fo.lt val beta then m else bestMoveLocal
        if fo.le beta1 alpha then some (bestVal1, bestMove1, tt1, hits + h1)
        else minLoopH fo st p child alpha rest tt1 beta1 bestVal1 bestMove1 (hits + h1)

/-- The function `searchRecursiveAB`, with the number of hits as third result. -/
def searchRecursiveABH {F : Type} (fo : FloatOps F) (w : NNUEWeights F) (rootPlayer : Fin 2)
    (perfectInfo : Bool) :
    Nat → TT F → GameState → Int → F → F → Option (F × TT F × Nat)
  | 0, _, _, _, _, _ => none
  | fuel + 1, tt, st, depth, alpha, beta =>
    if st.finished then some (nnueEvaluate fo w st rootPlayer perfectInfo, tt, 0)
    else
      match (if depth > 0 then ttLookup fo tt (computeHash st) depth alpha beta else none) with
      | some ttVal => some (ttVal, tt, 1)
      | none =>
        if depth = 0 then
          match quiescenceAfterTrickClear fo st w rootPlayer perfectInfo with
          | none => none
          | some v => some (v, tt, 0)
        else
          let p := st.currentPlayer
          let moves := getLegalMoves st (p.val : Int)
          if moves.isEmpty then some (nnueEvaluate fo w st rootPlayer perfectInfo, tt, 0)
          else
            match quickEvalMoves fo st w p rootPlayer perfectInfo moves with
            | none => none
            | some evals =>
              let child : TT F → GameState → F → F → Option (F × TT F × Nat) :=
                fun tt1 ns a b =>
                  searchRecursiveABH fo w rootPlayer perfectInfo fuel tt1 ns (depth - 1) a b
              if p = rootPlayer then
                let ordered := sortBy (fun a b => fo.lt b.2 a.2) evals
                match maxLoopH fo st p child beta ordered tt alpha (fo.neg fo.inf)
                    (frontMove ordered) 0 with
                | none => none
                | some (bestVal, bestMoveLocal, tt1, hits) =>
                  some (bestVal,
                    ttStore fo tt1 (computeHash st) depth bestVal alpha beta bestMoveLocal, hits)
              else
                let ordered := sortBy (fun a b => fo.lt a.2 b.2) evals
                match minLoopH fo st p child alpha ordered tt beta fo.inf
                    (frontMove ordered) 0 with
                | none => none
                | some (bestVal, bestMoveLocal, tt1, hits) =>
                  some (bestVal,
                    ttStore fo tt1 (computeHash st) depth bestVal alpha beta bestMoveLocal, hits)

/-- The loop `rootLoop`, with the number of hits. -/
def rootLoopH {F : Type} (fo : FloatOps F) (st : GameState) (p : Fin 2)
    (child : TT F → GameState → F → F → Option (F × TT F × Nat)) (b : F) :
    List (Int × F) → TT F → F → F → Int → Nat → Option (F × Int × TT F × Nat)
  | [], tt, _, best, bestMove, hits => some (best, bestMove, tt, hits)
  | (m, _) :: rest, tt, a, best, bestMove, hits =>
    match applyMove st (p.val : Int) m with
    | none => none
    | some ns =>
      match child tt ns a b with
      | none => none
      | some (v, tt1, h1) =>
        let best1 := if fo.lt best v then v else best
        let bestMove1 := if fo.lt best v then m else bestMove
        let a1 := if fo.lt a best1 then best1 else a
        rootLoopH fo st p child b rest tt1 a1 best1 bestMove1 (hits + h1)

/-- The function `searchBestMove`, with the number of hits as third result. -/
def searchBestMoveH {F : Type} (fo : FloatOps F) (fuel : Nat) (tt : TT F) (st : GameState)
    (w : NNUEWeights F) (depth : Int) (perfectInfo : Bool) :
    Option (SearchResult F × TT F × Nat) :=
  let p := st.currentPlayer
  let moves := getLegalMoves st (p.val : Int)
  if moves.isEmpty then
    some ({ eval := nnueEvaluate fo w st p perfectInfo, chosenMoveIndex := -1 }, tt, 0)
  else
    match quickEvalMoves fo st w p p perfectInfo moves with
    | none => none
    | some evals =>
      let ordered := sortBy (fun a b => fo.lt b.2 a.2) evals
      let child : TT F → GameState → F → F → Option (F × TT F × Nat) :=
        fun tt1 ns a b => searchRecursiveABH fo w p perfectInfo fuel tt1 ns (depth - 1) a b
      match rootLoopH fo st p child fo.inf ordered tt (fo.neg fo.inf) (fo.neg fo.inf)
          (moves.headD 0) 0 with
      | none => none
      | some (bestVal, bestMove, tt1, hits) =>
        some ({ eval := bestVal, chosenMoveIndex := bestMove }, tt1, hits)

/-- The loop `mtLoop`, with the number of hits. -/
def mtLoopH {F : Type} (fo : FloatOps F) (st : GameState) (p : Fin 2)
    (child : TT F → GameState → F → F → Option (F × TT F × Nat)) :
    List (Int × F) → TT F → F → Int → Nat → Option (F × Int × TT F × Nat)
  | [], tt, bestVal, bestMove, hits => some (bestVal, bestMove, tt, hits)
  | (m, _) :: rest, tt, bestVal, bestMove, hits =>
    match applyMove st (p.val : Int) m with
    | none => none
    | some ns =>
      match child tt ns (fo.neg fo.inf) fo.inf with
      | none => none
      | some (v, tt1, h1) =>
        mtLoopH fo st p child rest tt1 (if fo.lt bestVal v then v else bestVal)
          (if fo.lt bestVal v then m else bestMove) (hits + h1)

/-- The function `searchBestMoveMT`, with the number of hits as third result. -/
def searchBestMoveMTH {F : Type} (fo : FloatOps F) (fuel : Nat) (tt : TT F) (st : GameState)
    (w : NNUEWeights F) (depth : Int) (perfectInfo : Bool) :
    Option (SearchResult F × TT F × Nat) :=
  let p := st.currentPlayer
  let moves := getLegalMoves st (p.val : Int)
  if moves.isEmpty then
    some ({ eval := nnueEvaluate fo w st p perfectInfo, chosenMoveIndex := -1 }, tt, 0)
  else
    match quickEvalMoves fo st w p p perfectInfo moves with
    | none => none
    | some evals =>
      let ordered := sortBy (fun a b => fo.lt b.2 a.2) evals
      let child : TT F → GameState → F → F → Option (F × TT F × Nat) :=
        fun tt1 ns a b => searchRecursiveABH fo w p perfectInfo fuel tt1 ns (depth - 1) a b
      match mtLoopH fo st p child ordered tt (fo.neg fo.inf) (frontMove ordered) 0 with
      | none => none
      | some (bestVal, bestMove, tt1, hits) =>
        some ({ eval := bestVal, chosenMoveIndex := bestMove }, tt1, hits)

/-- The loop over the moves of `minimax`: the maximum (`isMax`) or minimum of the values
`child ns` of the states `ns` after each move, from the value `bestVal`. -/
def minimaxLoop {F : Type} (fo : FloatOps F) (st : GameState) (p : Fin 2) (isMax : Bool)
    (child : GameState → Option F) : List Int → F → Option F
  | [], bestVal => some bestVal
  | m :: rest, bestVal =>
    match applyMove st (p.val : Int) m with
    | none => none
    | some ns =>
      match child ns with
      | none => none
      | some val =>
        minimaxLoop fo st p isMax child rest
          (if isMax then fmax fo bestVal val else fmin fo bestVal val)

/-- Modelled from the spec: the depth-limited minimax value of a state.  It is the
function `searchRecursive` of search_initial.cpp (a loop over the legal moves in the
order of `getLegalMoves`, the maximum from `-inf` at the root player's turns and the
minimum from `+inf` at the opponent's, the evaluator at finished and move-less states),
but for the horizon, where it takes `quiescenceAfterTrickClear`.  There is no window, no
table and no ordering of the moves.  `fuel` bounds the nesting of the calls. -/
def minimax {F : Type} (fo : FloatOps F) (w : NNUEWeights F) (rootPlayer : Fin 2)
    (perfectInfo : Bool) : Nat → GameState → Int → Option F
  | 0, _, _ => none
  | fuel + 1, st, depth =>
    if st.finished then some (nnueEvaluate fo w st rootPlayer perfectInfo)
    else if depth = 0 then quiescenceAfterTrickClear fo st w rootPlayer perfectInfo
    else
      let p := st.currentPlayer
      let moves := getLegalMoves st (p.val : Int)
      if moves.isEmpty then some (nnueEvaluate fo w st rootPlayer perfectInfo)
      else
        minimaxLoop fo st p (decide (p = rootPlayer))
          (fun ns => minimax fo w rootPlayer perfectInfo fuel ns (depth - 1)) moves
          (if p = rootPlayer then fo.neg fo.inf else fo.inf)

/-- The order of the `float` values that are not NaN, as a map `r` into a linear order
with a least and a greatest element: on the values in `G` the comparisons `<` and `<=`
are those of the images, and the infinities are the two ends.  Values with the same
image, such as the two zeros, compare equal. -/
structure OrderedFloats {F : Type} (fo : FloatOps F) {α : Type} [LinearOrder α]
    [BoundedOrder α] (G : F → Prop) (r : F → α) : Prop where
  lt_eq : ∀ a b, G a → G b → fo.lt a b = decide (r a < r b)
  le_eq : ∀ a b, G a → G b → fo.le a b = decide (r a ≤ r b)
  inf_mem : G fo.inf
  neg_inf_mem : G (fo.neg fo.inf)
  r_inf : r fo.inf = ⊤
  r_neg_inf : r (fo.neg fo.inf) = ⊥

/-- The relation of a fail-soft result `v` for the window `(a, b)` to the exact
value `M`: equal inside the window, an upper bound at or below `a`, a lower bound at or
above `b`. -/
def FailSoft {α : Type} [LinearOrder α] (v M a b : α) : Prop :=
  (a < v → v < b → v = M) ∧ (v ≤ a → M ≤ v) ∧ (b ≤ v → v ≤ M)

/-- The place of a value of `ExtRat` in the order of the rationals extended by a least
and a greatest element; NaN, which the comparisons never order, is sent to the least. -/
def extRatRank : ExtRat → WithBot (WithTop ℚ)
  | ExtRat.nan => ⊥
  | ExtRat.negInf => ⊥
  | ExtRat.fin q => ((q : WithTop ℚ) : WithBot (WithTop ℚ))
  | ExtRat.posInf => ((⊤ : WithTop ℚ) : WithBot (WithTop ℚ))

/-- Weights of a network without hidden units: the evaluation of every state is the
output bias `c`. -/
def constWeights (c : ExtRat) : NNUEWeights ExtRat :=
  { w1 := [], b1 := [], w2 := [], b2 := [], w3 := [], b3 := c
    inputSize := 178, hidden1 := 0, hidden2 := 0 }

/-- The value and the move that a loop over `ordered` keeps when the move `m` is worth
`Mc ns`, for `ns` the state after it, and is taken when it is worth more than the best
value so far: from the value `S` and the move `mv`, the first move of maximal value. -/
def firstBest {F α : Type} [LinearOrder α] (st : GameState) (p : Fin 2)
    (Mc : GameState → α) : List (Int × F) → α → Int → α × Int
  | [], S, mv => (S, mv)
  | (m, _) :: rest, S, mv =>
    match applyMove st (p.val : Int) m with
    | none => (S, mv)
    | some ns =>
      if S < Mc ns then firstBest st p Mc rest (Mc ns) m else firstBest st p Mc rest S mv

/-- The table that a call of `searchBestMove` at depth 2 on `threeCardState` leaves when it
runs from the empty table with weights whose evaluation is -5 everywhere. -/
def staleTable : TT ExtRat :=
  match searchBestMove exactOps 40 [] threeCardState (constWeights (ExtRat.fin (-5))) 2 false with
  | some (_, tt) => tt
  | none => []

/-- One pass of the `while (true)` loop of `searchBestMoveID` for the depth `d`: the loop
over the ordered root moves with the window `(alpha, beta)`, which leaves `curBest`,
`curBestMove` and the table. -/
def aspirationPass {F : Type} (fo : FloatOps F) (fuel : Nat) (st : GameState)
    (w : NNUEWeights F) (p : Fin 2) (perfectInfo : Bool) (moves : List Int) (d : Int)
    (tt : TT F) (alpha beta : F) : Option (F × Int × TT F) :=
  match quickEvalMoves fo st w p p perfectInfo moves with
  | none => none
  | some evals =>
    let ordered := sortBy (fun a b => fo.lt b.2 a.2) evals
    let child : TT F → GameState → F → F → Option (F × TT F) :=
      fun tt1 ns a b => searchRecursiveAB fo w p perfectInfo fuel tt1 ns (d - 1) a b
    rootLoop fo st p child beta ordered tt alpha (fo.neg fo.inf) (moves.headD 0)

/-- Modelled from the spec: the widen-and-retry loop, as a relation between the table,
the window `(alpha, beta)` and the step `delta` at a pass and the result of the loop.  A
pass whose value is at or below `alpha` is followed by a run with `alpha - delta` and
twice the step, a pass whose value is at or above `beta` by a run with `beta + delta` and
twice the step, the other bound unchanged; the loop ends with the first pass whose value
is neither, and that pass is the result. -/
inductive AspirationRun {F : Type} (fo : FloatOps F)
    (pass : TT F → F → F → Option (F × Int × TT F)) :
    TT F → F → F → F → F × Int × TT F → Prop where
  | accept (tt : TT F) (alpha beta delta v : F) (m : Int) (tt1 : TT F) :
      pass tt alpha beta = some (v, m, tt1) → fo.le v alpha = false → fo.le beta v = false →
      AspirationRun fo pass tt alpha beta delta (v, m, tt1)
  | failLow (tt : TT F) (alpha beta delta v : F) (m : Int) (tt1 : TT F)
      (res : F × Int × TT F) :
      pass tt alpha beta = some (v, m, tt1) → fo.le v alpha = true →
      AspirationRun fo pass tt1 (fo.sub alpha delta) beta (fo.mul delta (fo.ofRat 2)) res →
      AspirationRun fo pass tt alpha beta delta res
  | failHigh (tt : TT F) (alpha beta delta v : F) (m : Int) (tt1 : TT F)
      (res : F × Int × TT F) :
      pass tt alpha beta = some (v, m, tt1) → fo.le v alpha = false → fo.le beta v = true →
      AspirationRun fo pass tt1 alpha (fo.add beta delta) (fo.mul delta (fo.ofRat 2)) res →
      AspirationRun fo pass tt alpha beta delta res

/-- Modelled from the spec: the iterations of `searchBestMoveID`, as a relation between
the list of the iterations made (iteration `i` of the list searches to depth `d = i + 1`)
and the best value, best move and table after them.  Before the first iteration the best
value is the evaluation of the state and the best move the first legal move; an iteration
is a widen-and-retry loop from the window
`(best value - delta, best value + delta)` with `delta = 0.5 + 0.5 * d`. -/
inductive DeepeningRun {F : Type} (fo : FloatOps F) (fuel : Nat) (st : GameState)
    (w : NNUEWeights F) (perfectInfo : Bool) (tt : TT F) :
    List Nat → F × Int × TT F → Prop where
  | start :
      DeepeningRun fo fuel st w perfectInfo tt []
        (nnueEvaluate fo w st st.currentPlayer perfectInfo,
          (getLegalMoves st (st.currentPlayer.val : Int)).headD 0, tt)
  | iteration (done : List Nat) (i : Nat) (bestEval : F) (bestMove : Int) (tt1 : TT F)
      (res : F × Int × TT F) :
      DeepeningRun fo fuel st w perfectInfo tt done (bestEval, bestMove, tt1) →
      AspirationRun fo
        (aspirationPass fo fuel st w st.currentPlayer perfectInfo
          (getLegalMoves st (st.currentPlayer.val : Int)) ((i : Int) + 1))
        tt1
        (fo.sub bestEval
          (fo.add (fo.ofRat (1 / 2)) (fo.mul (fo.ofRat (1 / 2)) (fo.ofRat (((i : Int) + 1 : Int) : ℚ)))))
        (fo.add bestEval
          (fo.add (fo.ofRat (1 / 2)) (fo.mul (fo.ofRat (1 / 2)) (fo.ofRat (((i : Int) + 1 : Int) : ℚ)))))
        (fo.add (fo.ofRat (1 / 2)) (fo.mul (fo.ofRat (1 / 2)) (fo.ofRat (((i : Int) + 1 : Int) : ℚ))))
        res →
      DeepeningRun fo fuel st w perfectInfo tt (done ++ [i]) res

/-- The values of `float` that are rationals of absolute value at most `B`. -/
def InRange {F : Type} (fo : FloatOps F) (B : ℚ) (x : F) : Prop :=
  ∃ q : ℚ, x = fo.ofRat q ∧ |q| ≤ B

/-- Arithmetic without rounding on the rational values: sums, differences and products
of rationals are exact, the comparisons are those of the rationals, and every rational
lies strictly between the infinities. -/
structure ExactFloats {F : Type} (fo : FloatOps F) : Prop where
  add_ofRat : ∀ a b, fo.add (fo.ofRat a) (fo.ofRat b) = fo.ofRat (a + b)
  sub_ofRat : ∀ a b, fo.sub (fo.ofRat a) (fo.ofRat b) = fo.ofRat (a - b)
  mul_ofRat : ∀ a b, fo.mul (fo.ofRat a) (fo.ofRat b) = fo.ofRat (a * b)
  lt_ofRat : ∀ a b, fo.lt (fo.ofRat a) (fo.ofRat b) = decide (a < b)
  le_ofRat : ∀ a b, fo.le (fo.ofRat a) (fo.ofRat b) = decide (a ≤ b)
  neg_inf_lt : ∀ a, fo.lt (fo.neg fo.inf) (fo.ofRat a) = true
  lt_inf : ∀ a, fo.lt (fo.ofRat a) fo.inf = true

/-! ## Properties of the card functions -/

/-- C7 (refuted as stated): the ranks in the order 2, 3, 4, 5, 6, 10, J, Q, K, A are
not ordered by increasing `cardStrength`: the King (strength 7) comes after the Ten
(strength 8) in that sequence, and the Queen (5) after the Jack (6). -/
theorem cardStrength_not_spec_order :
    cardStrength ⟨Suit.Paus, Rank.R10⟩ = 8 ∧ cardStrength ⟨Suit.Paus, Rank.K⟩ = 7 ∧
      cardStrength ⟨Suit.Paus, Rank.J⟩ = 6 ∧ cardStrength ⟨Suit.Paus, Rank.Q⟩ = 5 ∧
      ¬ List.Pairwise
        (fun r1 r2 => ∀ su : Suit, cardStrength ⟨su, r1⟩ < cardStrength ⟨su, r2⟩)
        [Rank.R2, Rank.R3, Rank.R4, Rank.R5, Rank.R6, Rank.R10, Rank.J, Rank.Q, Rank.K,
          Rank.A] := by
  refine ⟨rfl, rfl, rfl, rfl, ?_⟩
  intro h
  simp only [List.pairwise_cons] at h
  have h1 := h.2.2.2.2.2.1 Rank.K (by simp) Suit.Paus
  simp [cardStrength] at h1

/-- C7 (amended): `cardStrength` orders the ten ranks, from weakest to strongest, as
2, 3, 4, 5, 6, Q, J, K, 10, A: every rank occurs in this sequence, and of two ranks
the one that comes later has the strictly greater strength, whatever the suits; in
particular a Ten beats a King and a Jack beats a Queen. -/
theorem cardStrength_order :
    List.Pairwise
        (fun r1 r2 => ∀ su1 su2 : Suit, cardStrength ⟨su1, r1⟩ < cardStrength ⟨su2, r2⟩)
        strengthOrder ∧
      (∀ r : Rank, r ∈ strengthOrder) ∧
      (∀ su : Suit, cardStrength ⟨su, Rank.K⟩ < cardStrength ⟨su, Rank.R10⟩) ∧
      (∀ su : Suit, cardStrength ⟨su, Rank.Q⟩ < cardStrength ⟨su, Rank.J⟩) := by
  refine ⟨?_, ?_, ?_, ?_⟩
  · simp [strengthOrder, cardStrength]
  · intro r; cases r <;> simp [strengthOrder]
  · intro su; simp [cardStrength]
  · intro su; simp [cardStrength]

theorem cardPointsLocal_eq (c : Card) : cardPointsLocal c = cardPoints c := by
  obtain ⟨su, r⟩ := c
  cases r <;> simp [cardPoints, cardPointsLocal]

theorem cardPointsLocal_nonneg (c : Card) : 0 ≤ cardPointsLocal c := by
  obtain ⟨su, r⟩ := c
  cases r <;> simp [cardPointsLocal]

/-- C8: a card is worth 11 points if it is an Ace, 10 if a Ten, 4 if a King, 3 if a
Jack, 2 if a Queen and 0 otherwise, whatever its suit, and `cardPointsLocal`, the
function trick resolution uses, agrees with the public `cardPoints` on every card. -/
theorem cardPoints_values (c : Card) :
    cardPoints c =
        (if c.rank = Rank.A then 11 else if c.rank = Rank.R10 then 10
          else if c.rank = Rank.K then 4 else if c.rank = Rank.J then 3
          else if c.rank = Rank.Q then 2 else 0) ∧
      cardPointsLocal c = cardPoints c := by
  obtain ⟨su, r⟩ := c
  cases r <;> simp [cardPoints, cardPointsLocal]

theorem cardStrength_inj (a b : Card) (hs : a.suit = b.suit)
    (h : cardStrength a = cardStrength b) : a = b := by
  obtain ⟨sa, ra⟩ := a
  obtain ⟨sb, rb⟩ := b
  simp only at hs
  subst hs
  cases ra <;> cases rb <;> simp [cardStrength] at h ⊢

theorem fin2_cases (p : Fin 2) : p = 0 ∨ p = 1 := by
  rcases p with ⟨v, hv⟩
  interval_cases v <;> simp

/-! ## Properties of `playCard` -/

/-- C3: `playCard` reports failure exactly when the game is finished, or `p` is not the
current player, or the index is negative or not below the size of the hand of `p`
(which, `p` being the current player in that case, is the current player's hand); and
whenever it reports failure the state is unchanged. -/
theorem playCard_fails_iff (s : GameState) (p handIndex : Int) :
    ((playCard s p handIndex).1 = false ↔
        (s.finished = true ∨ p ≠ (s.currentPlayer.val : Int) ∨ handIndex < 0 ∨
          ((getP s.hands s.currentPlayer).length : Int) ≤ handIndex)) ∧
      ((playCard s p handIndex).1 = false → (playCard s p handIndex).2 = s) := by
  unfold playCard
  by_cases hf : s.finished = true
  · simp [hf]
  by_cases hp : p ≠ (s.currentPlayer.val : Int)
  · simp [hf, hp]
  by_cases hi : handIndex < 0 ∨ handIndex ≥ ((getP s.hands s.currentPlayer).length : Int)
  · simp only [hf, hp, hi, if_true, if_false]
    simp
  · have hlt : handIndex.toNat < (getP s.hands s.currentPlayer).length := by omega
    obtain ⟨c, hc⟩ : ∃ c, (getP s.hands s.currentPlayer)[handIndex.toNat]? = some c :=
      ⟨_, List.getElem?_eq_getElem hlt⟩
    simp only [hf, hp, hi, if_false, hc]
    push_neg at hi hp
    simp [hf, hp]

/-- C4: a successful `playCard(p, handIndex)` removes the card at position `handIndex`
from the hand of `p`, keeping the order of the others, appends that card to the
trick, sets `currentPlayer` to `1 - p` and changes nothing else. -/
theorem playCard_success (s : GameState) (p handIndex : Int)
    (h : (playCard s p handIndex).1 = true) :
    ∃ (i : Nat) (c : Card),
      handIndex = (i : Int) ∧ p = (s.currentPlayer.val : Int) ∧
      getP s.hands s.currentPlayer =
        (getP s.hands s.currentPlayer).take i ++ c :: (getP s.hands s.currentPlayer).drop (i + 1) ∧
      getP (playCard s p handIndex).2.hands s.currentPlayer =
        (getP s.hands s.currentPlayer).take i ++ (getP s.hands s.currentPlayer).drop (i + 1) ∧
      (playCard s p handIndex).2.trick.cards = s.trick.cards ++ [c] ∧
      (((playCard s p handIndex).2.currentPlayer).val : Int) = 1 - p ∧
      (playCard s p handIndex).2.deck = s.deck ∧
      getP (playCard s p handIndex).2.hands (1 - s.currentPlayer) =
        getP s.hands (1 - s.currentPlayer) ∧
      (playCard s p handIndex).2.score = s.score ∧
      (playCard s p handIndex).2.trumpCard = s.trumpCard ∧
      (playCard s p handIndex).2.trumpSuit = s.trumpSuit ∧
      (playCard s p handIndex).2.trumpCardGiven = s.trumpCardGiven ∧
      (playCard s p handIndex).2.trick.starterPlayer = s.trick.starterPlayer ∧
      (playCard s p handIndex).2.finished = s.finished := by
  unfold playCard at h ⊢
  by_cases hf : s.finished = true
  · simp [hf] at h
  by_cases hp : p ≠ (s.currentPlayer.val : Int)
  · simp [hf, hp] at h
  by_cases hi : handIndex < 0 ∨ handIndex ≥ ((getP s.hands s.currentPlayer).length : Int)
  · simp [hf, hp, hi] at h
  have hlt : handIndex.toNat < (getP s.hands s.currentPlayer).length := by omega
  have hc : (getP s.hands s.currentPlayer)[handIndex.toNat]? =
      some ((getP s.hands s.currentPlayer)[handIndex.toNat]) := List.getElem?_eq_getElem hlt
  push_neg at hp
  refine ⟨handIndex.toNat, (getP s.hands s.currentPlayer)[handIndex.toNat], ?_⟩
  simp only [hf, hi, hc, if_false]
  have hcur := fin2_cases s.currentPlayer
  have hp2 : p ≠ (s.currentPlayer.val : Int) ↔ False := by simp [hp]
  simp only [hp2, if_false]
  refine ⟨by omega, hp, ?_, ?_, rfl, ?_, rfl, ?_, rfl, rfl, rfl, rfl, rfl, rfl⟩
  · rw [← List.drop_eq_getElem_cons hlt, List.take_append_drop]
  · rcases hcur with h0 | h1
    · simp [getP, setP, h0, List.eraseIdx_eq_take_drop_succ]
    · simp [getP, setP, h1, List.eraseIdx_eq_take_drop_succ]
  · rcases hcur with h0 | h1
    · simp [h0, hp]
    · simp [h1, hp]
  · rcases hcur with h0 | h1
    · simp [getP, setP, h0]
    · simp [getP, setP, h1]

/-! ## Properties of `evaluateTrick` -/

theorem potPointsOf_eq_pointsOf (cards : List Card) : potPointsOf cards = pointsOf cards := by
  have key : ∀ (l : List Card) (acc : Int),
      l.foldl (fun acc c => acc + cardPointsLocal c) acc = acc + (l.map cardPointsLocal).sum := by
    intro l
    induction l with
    | nil => intro acc; simp
    | cons a t ih => intro acc; simp [ih, add_assoc]
  simp [potPointsOf, pointsOf, key]

theorem pointsOf_four (c0 c1 c2 c3 : Card) :
    pointsOf [c0, c1, c2, c3] =
      cardPoints c0 + cardPoints c1 + cardPoints c2 + cardPoints c3 := by
  simp [pointsOf, cardPointsLocal_eq, add_assoc]

theorem pointsOf_nonneg (cards : List Card) : 0 ≤ pointsOf cards := by
  unfold pointsOf
  induction cards with
  | nil => simp
  | cons a t ih =>
    have := cardPointsLocal_nonneg a
    simp only [List.map_cons, List.sum_cons]
    omega

theorem pointsOf_append (l1 l2 : List Card) : pointsOf (l1 ++ l2) = pointsOf l1 + pointsOf l2 := by
  simp [pointsOf]

theorem pointsOf_perm {l1 l2 : List Card} (h : l1.Perm l2) : pointsOf l1 = pointsOf l2 := by
  unfold pointsOf
  exact (h.map cardPointsLocal).sum_eq

theorem bestUpTo_init (cards : List Card) (target : Suit) (c0 : Card)
    (h : cards[0]? = some c0) : BestUpTo cards target 1 0 := by
  refine ⟨c0, h, by omega, ?_, ?_, fun _ => rfl⟩
  · rintro ⟨j, c, hj, hc, hs⟩
    have : j = 0 := by omega
    subst this
    rw [h] at hc
    cases hc
    exact hs
  · intro j c hj hc _
    have : j = 0 := by omega
    subst this
    rw [h] at hc
    cases hc
    exact le_refl _

theorem bestUpTo_step (cards : List Card) (target : Suit) (k w : Nat) (ck : Card)
    (hk : cards[k]? = some ck) (hw : BestUpTo cards target k w) :
    BestUpTo cards target (k + 1) (winnerStep cards target w k) := by
  obtain ⟨cw, hcw, hwk, hsuit, hmax, hnone⟩ := hw
  have hlt : ∀ j, j < k + 1 → j < k ∨ j = k := fun j hj => by omega
  by_cases hc : ck.suit = target
  · by_cases hwS : cw.suit = target
    · by_cases hgt : cardStrength ck > cardStrength cw
      · have hstep : winnerStep cards target w k = k := by
          simp [winnerStep, hcw, hk, hc, hwS, hgt]
        rw [hstep]
        refine ⟨ck, hk, by omega, fun _ => hc, ?_, ?_⟩
        · intro j c hj hjc hjs
          rcases hlt j hj with h | h
          · have := hmax j c h hjc hjs
            omega
          · subst h
            rw [hk] at hjc
            cases hjc
            exact le_refl _
        · intro hall
          exact absurd hc (hall k ck (by omega) hk)
      · have hstep : winnerStep cards target w k = w := by
          simp [winnerStep, hcw, hk, hc, hwS, hgt]
        rw [hstep]
        refine ⟨cw, hcw, by omega, fun _ => hwS, ?_, ?_⟩
        · intro j c hj hjc hjs
          rcases hlt j hj with h | h
          · exact hmax j c h hjc hjs
          · subst h
            rw [hk] at hjc
            cases hjc
            omega
        · intro hall
          exact absurd hc (hall k ck (by omega) hk)
    · have hstep : winnerStep cards target w k = k := by
        simp [winnerStep, hcw, hk, hc, hwS]
      rw [hstep]
      refine ⟨ck, hk, by omega, fun _ => hc, ?_, ?_⟩
      · intro j c hj hjc hjs
        rcases hlt j hj with h | h
        · exact absurd (hsuit ⟨j, c, h, hjc, hjs⟩) hwS
        · subst h
          rw [hk] at hjc
          cases hjc
          exact le_refl _
      · intro hall
        exact absurd hc (hall k ck (by omega) hk)
  · have hstep : winnerStep cards target w k = w := by
      simp [winnerStep, hcw, hk, hc]
    rw [hstep]
    refine ⟨cw, hcw, by omega, ?_, ?_, ?_⟩
    · rintro ⟨j, c, hj, hjc, hjs⟩
      rcases hlt j hj with h | h
      · exact hsuit ⟨j, c, h, hjc, hjs⟩
      · subst h
        rw [hk] at hjc
        cases hjc
        exact absurd hjs hc
    · intro j c hj hjc hjs
      rcases hlt j hj with h | h
      · exact hmax j c h hjc hjs
      · subst h
        rw [hk] at hjc
        cases hjc
        exact absurd hjs hc
    · intro hall
      exact hnone fun j c hj hjc => hall j c (by omega) hjc

theorem bestUpTo_loop (c0 c1 c2 c3 : Card) (target : Suit) :
    BestUpTo [c0, c1, c2, c3] target 4
      ([1, 2, 3].foldl (winnerStep [c0, c1, c2, c3] target) 0) := by
  have h1 := bestUpTo_init [c0, c1, c2, c3] target c0 rfl
  have h2 := bestUpTo_step [c0, c1, c2, c3] target 1 _ c1 rfl h1
  have h3 := bestUpTo_step [c0, c1, c2, c3] target 2 _ c2 rfl h2
  exact bestUpTo_step [c0, c1, c2, c3] target 3 _ c3 rfl h3

theorem anyTrumpOf_four (c0 c1 c2 c3 : Card) (ts : Suit) :
    anyTrumpOf [c0, c1, c2, c3] ts = true ↔
      (c0.suit = ts ∨ c1.suit = ts ∨ c2.suit = ts ∨ c3.suit = ts) := by
  by_cases h0 : c0.suit = ts <;> by_cases h1 : c1.suit = ts <;> by_cases h2 : c2.suit = ts <;>
    by_cases h3 : c3.suit = ts <;> simp [anyTrumpOf, h0, h1, h2, h3]

theorem mem_four_getElem? (c0 c1 c2 c3 c : Card) (h : c ∈ [c0, c1, c2, c3]) :
    ∃ j, j < 4 ∧ [c0, c1, c2, c3][j]? = some c := by
  simp only [List.mem_cons, List.mem_singleton, List.mem_nil_iff, or_false] at h
  rcases h with h | h | h | h
  · exact ⟨0, by omega, by simp [h]⟩
  · exact ⟨1, by omega, by simp [h]⟩
  · exact ⟨2, by omega, by simp [h]⟩
  · exact ⟨3, by omega, by simp [h]⟩

theorem evaluateTrick_of_four (s : GameState) (c0 c1 c2 c3 : Card)
    (h : s.trick.cards = [c0, c1, c2, c3]) :
    evaluateTrick s =
      some (playerOfIndex s.trick (winnerIndexOf [c0, c1, c2, c3] s.trumpSuit),
        cardPoints c0 + cardPoints c1 + cardPoints c2 + cardPoints c3) := by
  simp [evaluateTrick, h, potPointsOf_eq_pointsOf, pointsOf_four]

/-- C6: on a trick of four cards `evaluateTrick` returns the player of the winning
position `w` and the sum of the four point values.  The card at `w` is a trump of
maximal strength among the trumps if the trick contains a trump, and otherwise a card
of the led suit of maximal strength among the cards of the led suit (any other card of
that suit is strictly weaker); so a card neither trump nor of the led suit never wins.
Positions 0 and 2 belong to the starter, positions 1 and 3 to the other player. -/
theorem evaluateTrick_winner (s : GameState) (c0 c1 c2 c3 : Card)
    (h : s.trick.cards = [c0, c1, c2, c3]) :
    ∃ (w : Nat) (cw : Card),
      [c0, c1, c2, c3][w]? = some cw ∧
      evaluateTrick s =
        some (playerOfIndex s.trick w,
          cardPoints c0 + cardPoints c1 + cardPoints c2 + cardPoints c3) ∧
      (if c0.suit = s.trumpSuit ∨ c1.suit = s.trumpSuit ∨ c2.suit = s.trumpSuit ∨
          c3.suit = s.trumpSuit then
        cw.suit = s.trumpSuit ∧
          ∀ c ∈ [c0, c1, c2, c3], c.suit = s.trumpSuit →
            cardStrength c ≤ cardStrength cw ∧ (c ≠ cw → cardStrength c < cardStrength cw)
      else
        cw.suit = c0.suit ∧
          ∀ c ∈ [c0, c1, c2, c3], c.suit = c0.suit →
            cardStrength c ≤ cardStrength cw ∧ (c ≠ cw → cardStrength c < cardStrength cw)) ∧
      (cw.suit = s.trumpSuit ∨ cw.suit = c0.suit) ∧
      playerOfIndex s.trick 0 = s.trick.starterPlayer ∧
      playerOfIndex s.trick 2 = s.trick.starterPlayer ∧
      playerOfIndex s.trick 1 = 1 - s.trick.starterPlayer ∧
      playerOfIndex s.trick 3 = 1 - s.trick.starterPlayer := by
  have strict : ∀ (c cw : Card) (t : Suit), c.suit = t → cw.suit = t →
      cardStrength c ≤ cardStrength cw →
      cardStrength c ≤ cardStrength cw ∧ (c ≠ cw → cardStrength c < cardStrength cw) := by
    intro c cw t hc hcw hle
    refine ⟨hle, fun hne => lt_of_le_of_ne hle fun heq => hne ?_⟩
    exact cardStrength_inj c cw (hc.trans hcw.symm) heq
  by_cases hany : c0.suit = s.trumpSuit ∨ c1.suit = s.trumpSuit ∨ c2.suit = s.trumpSuit ∨
      c3.suit = s.trumpSuit
  · obtain ⟨cw, hcw, -, hsuit, hmax, -⟩ := bestUpTo_loop c0 c1 c2 c3 s.trumpSuit
    have hw : winnerIndexOf [c0, c1, c2, c3] s.trumpSuit =
        [1, 2, 3].foldl (winnerStep [c0, c1, c2, c3] s.trumpSuit) 0 := by
      simp only [winnerIndexOf, (anyTrumpOf_four c0 c1 c2 c3 s.trumpSuit).2 hany, if_true]
    have hcwS : cw.suit = s.trumpSuit := by
      apply hsuit
      rcases hany with h0 | h1 | h2 | h3
      · exact ⟨0, c0, by omega, rfl, h0⟩
      · exact ⟨1, c1, by omega, rfl, h1⟩
      · exact ⟨2, c2, by omega, rfl, h2⟩
      · exact ⟨3, c3, by omega, rfl, h3⟩
    refine ⟨_, cw, hcw, ?_, ?_, Or.inl hcwS, ?_, ?_, ?_, ?_⟩
    · rw [evaluateTrick_of_four s c0 c1 c2 c3 h, hw]
    · rw [if_pos hany]
      refine ⟨hcwS, fun c hc hcs => ?_⟩
      obtain ⟨j, hj, hjc⟩ := mem_four_getElem? c0 c1 c2 c3 c hc
      exact strict c cw _ hcs hcwS (hmax j c hj hjc hcs)
    all_goals simp [playerOfIndex]
  · obtain ⟨cw, hcw, -, hsuit, hmax, -⟩ := bestUpTo_loop c0 c1 c2 c3 c0.suit
    have hnot : ¬ anyTrumpOf [c0, c1, c2, c3] s.trumpSuit = true := fun hh =>
      hany ((anyTrumpOf_four c0 c1 c2 c3 s.trumpSuit).1 hh)
    have hw : winnerIndexOf [c0, c1, c2, c3] s.trumpSuit =
        [1, 2, 3].foldl (winnerStep [c0, c1, c2, c3] c0.suit) 0 := by
      simp [winnerIndexOf, hnot]
    have hcwS : cw.suit = c0.suit := hsuit ⟨0, c0, by omega, rfl, rfl⟩
    refine ⟨_, cw, hcw, ?_, ?_, Or.inr hcwS, ?_, ?_, ?_, ?_⟩
    · rw [evaluateTrick_of_four s c0 c1 c2 c3 h, hw]
    · rw [if_neg hany]
      refine ⟨hcwS, fun c hc hcs => ?_⟩
      obtain ⟨j, hj, hjc⟩ := mem_four_getElem? c0 c1 c2 c3 c hc
      exact strict c cw _ hcs hcwS (hmax j c hj hjc hcs)
    all_goals simp [playerOfIndex]

/-! ## Frame properties of the steps of `maybeCloseTrick` -/

theorem drawFromDeck_frame (s : GameState) (p : Fin 2) :
    (drawFromDeck s p).score = s.score ∧ (drawFromDeck s p).trick = s.trick ∧
      (drawFromDeck s p).currentPlayer = s.currentPlayer ∧
      (drawFromDeck s p).finished = s.finished ∧
      (drawFromDeck s p).trumpCard = s.trumpCard ∧
      (drawFromDeck s p).trumpSuit = s.trumpSuit ∧
      (drawFromDeck s p).trumpCardGiven = s.trumpCardGiven := by
  unfold drawFromDeck
  split <;> simp

theorem drawIfNeeded_frame (s : GameState) (p : Fin 2) :
    (drawIfNeeded s p).score = s.score ∧ (drawIfNeeded s p).trick = s.trick ∧
      (drawIfNeeded s p).currentPlayer = s.currentPlayer ∧
      (drawIfNeeded s p).finished = s.finished ∧
      (drawIfNeeded s p).trumpCard = s.trumpCard ∧
      (drawIfNeeded s p).trumpSuit = s.trumpSuit ∧
      (drawIfNeeded s p).trumpCardGiven = s.trumpCardGiven := by
  unfold drawIfNeeded
  split
  · exact drawFromDeck_frame s p
  · simp

theorem giveTrump_frame (s : GameState) (w l : Fin 2) :
    (giveTrump s w l).score = s.score ∧ (giveTrump s w l).trick = s.trick ∧
      (giveTrump s w l).currentPlayer = s.currentPlayer ∧
      (giveTrump s w l).finished = s.finished ∧
      (giveTrump s w l).trumpCard = s.trumpCard ∧
      (giveTrump s w l).trumpSuit = s.trumpSuit ∧
      (giveTrump s w l).deck = s.deck := by
  unfold giveTrump
  split_ifs <;> simp

theorem markFinished_frame (s : GameState) :
    (markFinished s).score = s.score ∧ (markFinished s).trick = s.trick ∧
      (markFinished s).currentPlayer = s.currentPlayer ∧
      (markFinished s).trumpCard = s.trumpCard ∧
      (markFinished s).trumpSuit = s.trumpSuit ∧
      (markFinished s).deck = s.deck ∧
      (markFinished s).hands = s.hands ∧
      (markFinished s).trumpCardGiven = s.trumpCardGiven := by
  unfold markFinished
  split_ifs <;> simp

theorem markFinished_finished (s : GameState) :
    (markFinished s).finished = true ↔
      (s.finished = true ∨
        (s.deck = [] ∧ s.trumpCardGiven = true ∧ s.hands.1 = [] ∧ s.hands.2 = [] ∧
          s.trick.cards = [])) := by
  unfold markFinished handsAreEmpty
  split_ifs with h
  · simp only [Bool.and_eq_true, List.isEmpty_iff] at h
    simp [h.1.1.1, h.1.1.2, h.1.2.1, h.1.2.2, h.2]
  · simp only [Bool.and_eq_true, List.isEmpty_iff] at h
    constructor
    · intro hf
      exact Or.inl hf
    · rintro (hf | ⟨h1, h2, h3, h4, h5⟩)
      · exact hf
      · exact absurd ⟨⟨⟨h1, h2⟩, h3, h4⟩, h5⟩ h

/-! ## The cards of a state under the steps of `maybeCloseTrick` -/

theorem allCards_drawFromDeck (s : GameState) (p : Fin 2) :
    (allCards (drawFromDeck s p)).Perm (allCards s) := by
  unfold drawFromDeck
  split
  · rename_i c hc
    have hd : s.deck.dropLast ++ [c] = s.deck := List.dropLast_append_getLast? c hc
    rw [List.perm_iff_count]
    intro a
    have hcount := congrArg (List.count a) hd
    rcases fin2_cases p with h | h <;>
      simp only [allCards, getP, setP, h, List.count_append, if_true] at hcount ⊢ <;>
      simp at hcount ⊢ <;> omega
  · exact List.Perm.refl _

theorem allCards_drawIfNeeded (s : GameState) (p : Fin 2) :
    (allCards (drawIfNeeded s p)).Perm (allCards s) := by
  unfold drawIfNeeded
  split
  · exact allCards_drawFromDeck s p
  · exact List.Perm.refl _

theorem allCards_giveTrump (s : GameState) (w l : Fin 2) :
    (allCards (giveTrump s w l)).Perm (allCards s) := by
  unfold giveTrump
  split_ifs with hg h1 h2
  · rw [List.perm_iff_count]
    intro a
    have hg2 : s.trumpCardGiven = false := by simpa using hg
    rcases fin2_cases l with h | h <;>
      simp only [allCards, getP, setP, h, hg2, List.count_append, if_true] <;>
      simp <;> omega
  · rw [List.perm_iff_count]
    intro a
    have hg2 : s.trumpCardGiven = false := by simpa using hg
    rcases fin2_cases w with h | h <;>
      simp only [allCards, getP, setP, h, hg2, List.count_append, if_true] <;>
      simp <;> omega
  · exact List.Perm.refl _
  · exact List.Perm.refl _

theorem allCards_markFinished (s : GameState) : allCards (markFinished s) = allCards s := by
  unfold markFinished
  split_ifs <;> rfl

theorem trick_of_refill (s : GameState) (w l : Fin 2) :
    (giveTrump (drawIfNeeded (drawIfNeeded (drawIfNeeded (drawIfNeeded s w) l) w) l) w l).trick =
      s.trick := by
  rw [(giveTrump_frame _ w l).2.1, (drawIfNeeded_frame _ l).2.1, (drawIfNeeded_frame _ w).2.1,
    (drawIfNeeded_frame _ l).2.1, (drawIfNeeded_frame _ w).2.1]

theorem allCards_of_refill (s : GameState) (w l : Fin 2) :
    (allCards
      (giveTrump (drawIfNeeded (drawIfNeeded (drawIfNeeded (drawIfNeeded s w) l) w) l) w l)).Perm
      (allCards s) :=
  (allCards_giveTrump _ w l).trans
    ((allCards_drawIfNeeded _ l).trans
      ((allCards_drawIfNeeded _ w).trans
        ((allCards_drawIfNeeded _ l).trans (allCards_drawIfNeeded _ w))))

theorem allCards_clearTrick (s : GameState) (w : Fin 2) :
    (allCards { s with trick := { cards := [], starterPlayer := w }, currentPlayer := w } ++
      s.trick.cards).Perm (allCards s) := by
  rw [List.perm_iff_count]
  intro a
  simp only [allCards, List.count_append]
  simp
  omega

/-- The cards of the state after `resolveTrick`, together with the cards of the
resolved trick, are the cards of the state before. -/
theorem allCards_resolveTrick (s : GameState) (w : Fin 2) (pts : Int) :
    (allCards (resolveTrick s w pts) ++ s.trick.cards).Perm (allCards s) := by
  unfold resolveTrick
  simp only []
  rw [allCards_markFinished]
  have h1 := trick_of_refill
    { s with score := setP s.score w (getP s.score w + pts) } w (1 - w)
  have h2 := allCards_of_refill
    { s with score := setP s.score w (getP s.score w + pts) } w (1 - w)
  have h3 := allCards_clearTrick
    (giveTrump (drawIfNeeded (drawIfNeeded (drawIfNeeded (drawIfNeeded
      { s with score := setP s.score w (getP s.score w + pts) } w) (1 - w)) w) (1 - w)) w (1 - w)) w
  rw [h1] at h3
  exact h3.trans h2

theorem resolveTrick_frame (s : GameState) (w : Fin 2) (pts : Int) :
    (resolveTrick s w pts).score = setP s.score w (getP s.score w + pts) ∧
      (resolveTrick s w pts).trick = { cards := [], starterPlayer := w } ∧
      (resolveTrick s w pts).currentPlayer = w ∧
      (resolveTrick s w pts).trumpCard = s.trumpCard ∧
      (resolveTrick s w pts).trumpSuit = s.trumpSuit := by
  unfold resolveTrick
  simp only []
  refine ⟨?_, ?_, ?_, ?_, ?_⟩
  · rw [(markFinished_frame _).1]
    simp only []
    rw [(giveTrump_frame _ w _).1, (drawIfNeeded_frame _ _).1, (drawIfNeeded_frame _ _).1,
      (drawIfNeeded_frame _ _).1, (drawIfNeeded_frame _ _).1]
  · rw [(markFinished_frame _).2.1]
  · rw [(markFinished_frame _).2.2.1]
  · rw [(markFinished_frame _).2.2.2.1]
    simp only []
    rw [(giveTrump_frame _ w _).2.2.2.2.1, (drawIfNeeded_frame _ _).2.2.2.2.1,
      (drawIfNeeded_frame _ _).2.2.2.2.1, (drawIfNeeded_frame _ _).2.2.2.2.1,
      (drawIfNeeded_frame _ _).2.2.2.2.1]
  · rw [(markFinished_frame _).2.2.2.2.1]
    simp only []
    rw [(giveTrump_frame _ w _).2.2.2.2.2.1, (drawIfNeeded_frame _ _).2.2.2.2.2.1,
      (drawIfNeeded_frame _ _).2.2.2.2.2.1, (drawIfNeeded_frame _ _).2.2.2.2.2.1,
      (drawIfNeeded_frame _ _).2.2.2.2.2.1]

theorem resolveTrick_finished (s : GameState) (w : Fin 2) (pts : Int) :
    (resolveTrick s w pts).finished = true ↔
      (s.finished = true ∨
        ((resolveTrick s w pts).deck = [] ∧ (resolveTrick s w pts).trumpCardGiven = true ∧
          (resolveTrick s w pts).hands.1 = [] ∧ (resolveTrick s w pts).hands.2 = [])) := by
  unfold resolveTrick
  simp only []
  rw [markFinished_finished, (markFinished_frame _).2.2.2.2.2.1,
    (markFinished_frame _).2.2.2.2.2.2.1, (markFinished_frame _).2.2.2.2.2.2.2]
  simp only [and_true]
  rw [(giveTrump_frame _ w _).2.2.2.1, (drawIfNeeded_frame _ _).2.2.2.1,
    (drawIfNeeded_frame _ _).2.2.2.1, (drawIfNeeded_frame _ _).2.2.2.1,
    (drawIfNeeded_frame _ _).2.2.2.1]

theorem maybeCloseTrick_of_four (s : GameState) (c0 c1 c2 c3 : Card)
    (h : s.trick.cards = [c0, c1, c2, c3]) :
    maybeCloseTrick s =
      some (resolveTrick s (playerOfIndex s.trick (winnerIndexOf [c0, c1, c2, c3] s.trumpSuit))
        (cardPoints c0 + cardPoints c1 + cardPoints c2 + cardPoints c3)) := by
  unfold maybeCloseTrick
  rw [evaluateTrick_of_four s c0 c1 c2 c3 h]
  simp [h]

theorem list_length_four (l : List Card) (h : l.length = 4) :
    ∃ c0 c1 c2 c3, l = [c0, c1, c2, c3] := by
  match l, h with
  | [c0, c1, c2, c3], _ => exact ⟨c0, c1, c2, c3, rfl⟩

/-- C5: when the trick holds exactly four cards, `maybeCloseTrick` adds the sum of their
point values to the score of the winner named by `evaluateTrick`, leaves the other
score unchanged, empties the trick and makes the winner both the starter of the next
trick and the current player. -/
theorem maybeCloseTrick_resolves (s : GameState) (h : s.trick.cards.length = 4) :
    ∃ (c0 c1 c2 c3 : Card) (w : Fin 2) (s2 : GameState),
      s.trick.cards = [c0, c1, c2, c3] ∧
      evaluateTrick s =
        some (w, cardPoints c0 + cardPoints c1 + cardPoints c2 + cardPoints c3) ∧
      maybeCloseTrick s = some s2 ∧
      getP s2.score w =
        getP s.score w + (cardPoints c0 + cardPoints c1 + cardPoints c2 + cardPoints c3) ∧
      getP s2.score (1 - w) = getP s.score (1 - w) ∧
      s2.trick.cards = [] ∧
      s2.trick.starterPlayer = w ∧
      s2.currentPlayer = w := by
  obtain ⟨c0, c1, c2, c3, hc⟩ := list_length_four s.trick.cards h
  refine ⟨c0, c1, c2, c3, _, _, hc, evaluateTrick_of_four s c0 c1 c2 c3 hc,
    maybeCloseTrick_of_four s c0 c1 c2 c3 hc, ?_, ?_, ?_, ?_, ?_⟩
  · rw [(resolveTrick_frame _ _ _).1]
    rcases fin2_cases (playerOfIndex s.trick (winnerIndexOf [c0, c1, c2, c3] s.trumpSuit))
      with hw | hw <;> simp [hw, getP, setP]
  · rw [(resolveTrick_frame _ _ _).1]
    rcases fin2_cases (playerOfIndex s.trick (winnerIndexOf [c0, c1, c2, c3] s.trumpSuit))
      with hw | hw <;> simp [hw, getP, setP]
  · rw [(resolveTrick_frame _ _ _).2.1]
  · rw [(resolveTrick_frame _ _ _).2.1]
  · rw [(resolveTrick_frame _ _ _).2.2.1]

/-! ## The cards of a state under `playCard` and `newGame` -/

theorem playCard_true (s s1 : GameState) (p handIndex : Int)
    (h : playCard s p handIndex = (true, s1)) :
    s.finished = false ∧ p = (s.currentPlayer.val : Int) ∧ 0 ≤ handIndex ∧
      ∃ c, (getP s.hands s.currentPlayer)[handIndex.toNat]? = some c ∧
        s1 =
          { s with
            hands := setP s.hands s.currentPlayer
              ((getP s.hands s.currentPlayer).eraseIdx handIndex.toNat)
            trick := { s.trick with cards := s.trick.cards ++ [c] }
            currentPlayer := 1 - s.currentPlayer } := by
  unfold playCard at h
  by_cases hf : s.finished = true
  · simp [hf] at h
  by_cases hp : p ≠ (s.currentPlayer.val : Int)
  · simp [hf, hp] at h
  by_cases hi : handIndex < 0 ∨ handIndex ≥ ((getP s.hands s.currentPlayer).length : Int)
  · simp [hf, hp, hi] at h
  have hlt : handIndex.toNat < (getP s.hands s.currentPlayer).length := by omega
  have hc : (getP s.hands s.currentPlayer)[handIndex.toNat]? =
      some ((getP s.hands s.currentPlayer)[handIndex.toNat]) := List.getElem?_eq_getElem hlt
  rw [if_neg hf, if_neg hp] at h
  simp only [] at h
  rw [if_neg hi, hc] at h
  simp only [] at h
  refine ⟨by simpa using hf, by simpa using hp, by omega, _, hc, ?_⟩
  exact (Prod.mk.inj h).2.symm

theorem perm_cons_eraseIdx (l : List Card) (i : Nat) (c : Card) (h : l[i]? = some c) :
    (c :: l.eraseIdx i).Perm l := by
  have hlt : i < l.length := by
    by_contra hge
    rw [List.getElem?_eq_none (by omega)] at h
    cases h
  have hc : l[i] = c := by
    rw [List.getElem?_eq_getElem hlt] at h
    exact Option.some.inj h
  have hl : l = l.take i ++ c :: l.drop (i + 1) := by
    rw [← hc, ← List.drop_eq_getElem_cons hlt, List.take_append_drop]
  rw [List.eraseIdx_eq_take_drop_succ]
  conv_rhs => rw [hl]
  exact List.perm_middle.symm

theorem allCards_playCard (s s1 : GameState) (p handIndex : Int)
    (h : playCard s p handIndex = (true, s1)) : (allCards s1).Perm (allCards s) := by
  obtain ⟨-, -, -, c, hc, rfl⟩ := playCard_true s s1 p handIndex h
  have hperm := perm_cons_eraseIdx _ _ c hc
  rw [List.perm_iff_count] at hperm ⊢
  intro a
  have hcount := hperm a
  rcases fin2_cases s.currentPlayer with h0 | h0 <;>
    simp only [allCards, getP, setP, h0, List.count_append, List.count_cons, if_true] at hcount ⊢ <;>
    simp at hcount ⊢ <;> omega

theorem swapAt_perm (d : List Card) (i j : Nat) : (swapAt d i j).Perm d := by
  unfold swapAt
  split
  · rename_i a b ha hb
    have hi : i < d.length := by
      by_contra hge
      rw [List.getElem?_eq_none (by omega)] at ha
      cases ha
    have hj : j < d.length := by
      by_contra hge
      rw [List.getElem?_eq_none (by omega)] at hb
      cases hb
    have hai : d[i] = a := by
      rw [List.getElem?_eq_getElem hi] at ha
      exact Option.some.inj ha
    have hbj : d[j] = b := by
      rw [List.getElem?_eq_getElem hj] at hb
      exact Option.some.inj hb
    rw [List.perm_iff_count]
    intro x
    have hj2 : j < (d.set i b).length := by simpa using hj
    have hget : (d.set i b)[j] = b := by
      by_cases hij : i = j
      · subst hij
        exact List.getElem_set_self hj2
      · rw [List.getElem_set_ne hij]
        exact hbj
    rw [List.count_set a x (d.set i b) j hj2, List.count_set b x d i hi, hget, hai]
    have hmem : a ∈ d := by
      rw [← hai]
      exact List.getElem_mem hi
    have hpos : (if (a == x) = true then 1 else 0) ≤ List.count x d := by
      by_cases hax : a = x
      · subst hax
        simp only [beq_self_eq_true, if_true]
        exact List.count_pos_iff.2 hmem
      · have : (a == x) = false := by simpa using hax
        simp [this]
    omega
  · exact List.Perm.refl _

theorem shuffleLoop_perm (i sd : Nat) (d : List Card) : (shuffleLoop i sd d).Perm d := by
  induction i generalizing sd d with
  | zero => exact List.Perm.refl _
  | succ n ih =>
    unfold shuffleLoop
    exact (ih _ _).trans (swapAt_perm d _ _)

theorem shuffleDeckLocal_perm (now : Nat) (d : List Card) :
    (shuffleDeckLocal now d).Perm d :=
  shuffleLoop_perm _ _ d

theorem dealTop_eq_drawFromDeck (s : GameState) (p : Fin 2) : dealTop s p = drawFromDeck s p :=
  rfl

theorem dealLoop_frame (n : Nat) (s : GameState) :
    (allCards (dealLoop n s)).Perm (allCards s) ∧
      (dealLoop n s).score = s.score ∧ (dealLoop n s).trick = s.trick ∧
      (dealLoop n s).currentPlayer = s.currentPlayer ∧
      (dealLoop n s).finished = s.finished ∧
      (dealLoop n s).trumpCard = s.trumpCard ∧
      (dealLoop n s).trumpSuit = s.trumpSuit ∧
      (dealLoop n s).trumpCardGiven = s.trumpCardGiven := by
  induction n generalizing s with
  | zero => exact ⟨List.Perm.refl _, rfl, rfl, rfl, rfl, rfl, rfl, rfl⟩
  | succ n ih =>
    unfold dealLoop
    simp only [dealTop_eq_drawFromDeck]
    obtain ⟨h1, h2, h3, h4, h5, h6, h7, h8⟩ := ih (drawFromDeck (drawFromDeck s 0) 1)
    have f1 := drawFromDeck_frame (drawFromDeck s 0) 1
    have f0 := drawFromDeck_frame s 0
    refine ⟨h1.trans ((allCards_drawFromDeck _ 1).trans (allCards_drawFromDeck _ 0)),
      ?_, ?_, ?_, ?_, ?_, ?_, ?_⟩
    · rw [h2, f1.1, f0.1]
    · rw [h3, f1.2.1, f0.2.1]
    · rw [h4, f1.2.2.1, f0.2.2.1]
    · rw [h5, f1.2.2.2.1, f0.2.2.2.1]
    · rw [h6, f1.2.2.2.2.1, f0.2.2.2.2.1]
    · rw [h7, f1.2.2.2.2.2.1, f0.2.2.2.2.2.1]
    · rw [h8, f1.2.2.2.2.2.2, f0.2.2.2.2.2.2]

theorem makeDeckLocal_length : makeDeckLocal.length = 40 := by decide

/-- The state `newGame` builds holds exactly the canonical deck, with both scores 0, an
empty trick, and neither `finished` nor `trumpCardGiven` set. -/
theorem newGame_frame (rng : RNG) (now : Nat) :
    (allCards (newGame rng now)).Perm makeDeckLocal ∧
      (newGame rng now).score = (0, 0) ∧
      (newGame rng now).trick = { cards := [], starterPlayer := 0 } ∧
      (newGame rng now).currentPlayer = 0 ∧
      (newGame rng now).finished = false ∧
      (newGame rng now).trumpCardGiven = false := by
  have hperm := shuffleDeckLocal_perm now makeDeckLocal
  have hlen : (shuffleDeckLocal now makeDeckLocal).length = 40 := by
    rw [hperm.length_eq, makeDeckLocal_length]
  unfold newGame
  simp only []
  split
  · rename_i tc htc
    have hd := List.dropLast_append_getLast? tc htc
    obtain ⟨h1, h2, h3, h4, h5, h6, h7, h8⟩ := dealLoop_frame 4
      { deck := (shuffleDeckLocal now makeDeckLocal).dropLast
        trumpCard := tc
        trumpSuit := tc.suit
        trumpCardGiven := false
        hands := ([], [])
        score := (0, 0)
        currentPlayer := 0
        trick := { cards := [], starterPlayer := 0 }
        finished := false }
    refine ⟨?_, h2, h3, h4, h5, h8⟩
    refine h1.trans ?_
    refine List.Perm.trans ?_ hperm
    simp only [allCards]
    simp [hd]
  · rename_i hnone
    rw [List.getLast?_eq_none_iff] at hnone
    rw [hnone] at hlen
    simp at hlen

/-! ## The invariant of the reachable states -/

theorem maybeCloseTrick_of_lt (s : GameState) (h : s.trick.cards.length < 4) :
    maybeCloseTrick s = some s := by
  unfold maybeCloseTrick
  rw [if_pos h]

theorem pointsOf_makeDeckLocal : pointsOf makeDeckLocal = 120 := by decide

theorem reachInv_init (rng : RNG) (now : Nat) : ReachInv 0 (newGame rng now) := by
  obtain ⟨hperm, hscore, htrick, -, hfin, hgiven⟩ := newGame_frame rng now
  refine ⟨hperm.subperm, ?_, ?_, ?_, ?_, ?_⟩
  · rw [hperm.length_eq, makeDeckLocal_length]
  · rw [htrick]
    rfl
  · rw [hscore, pointsOf_perm hperm, pointsOf_makeDeckLocal]
    rfl
  · rw [hscore]
    exact ⟨le_refl _, le_refl _⟩
  · rw [hfin, hgiven]
    simp

theorem reachInv_step (n : Nat) (s s1 s2 : GameState) (p handIndex : Int)
    (hinv : ReachInv n s) (hplay : playCard s p handIndex = (true, s1))
    (hclose : maybeCloseTrick s1 = some s2) : ReachInv (n + 1) s2 := by
  have hcards := allCards_playCard s s1 p handIndex hplay
  obtain ⟨hfin, -, -, c, -, hs1⟩ := playCard_true s s1 p handIndex hplay
  have htrick1 : s1.trick.cards = s.trick.cards ++ [c] := by rw [hs1]
  have hscore1 : s1.score = s.score := by rw [hs1]
  have hfin1 : s1.finished = false := by rw [hs1]; exact hfin
  have hlen1 : s1.trick.cards.length = n % 4 + 1 := by
    rw [htrick1, List.length_append, hinv.trick_len]
    rfl
  have hmod : n % 4 < 4 := Nat.mod_lt _ (by omega)
  by_cases hlt : n % 4 + 1 < 4
  · rw [maybeCloseTrick_of_lt s1 (by omega)] at hclose
    cases hclose
    refine ⟨hcards.subperm.trans hinv.cards_sub, ?_, ?_, ?_, ?_, ?_⟩
    · rw [hcards.length_eq]
      have := hinv.card_count
      omega
    · rw [hlen1]
      omega
    · rw [hscore1, pointsOf_perm hcards]
      exact hinv.points
    · rw [hscore1]
      exact hinv.score_nonneg
    · rw [hfin1]
      constructor
      · intro h
        cases h
      · rintro ⟨-, -, -, h4, -⟩
        rw [htrick1] at h4
        simp at h4
  · have hlen4 : s1.trick.cards.length = 4 := by omega
    obtain ⟨c0, c1, c2, c3, hc⟩ := list_length_four s1.trick.cards hlen4
    rw [maybeCloseTrick_of_four s1 c0 c1 c2 c3 hc] at hclose
    generalize playerOfIndex s1.trick (winnerIndexOf [c0, c1, c2, c3] s1.trumpSuit) = w at hclose
    generalize hP : cardPoints c0 + cardPoints c1 + cardPoints c2 + cardPoints c3 = pts at hclose
    cases hclose
    have hres := allCards_resolveTrick s1 w pts
    have hfr := resolveTrick_frame s1 w pts
    have hpts := pointsOf_four c0 c1 c2 c3
    rw [hP] at hpts
    have hnn := pointsOf_nonneg [c0, c1, c2, c3]
    have hlenres := hres.length_eq
    rw [List.length_append, hlen4, hcards.length_eq] at hlenres
    have hptsres := pointsOf_perm hres
    rw [pointsOf_append, hc, pointsOf_perm hcards] at hptsres
    have hsub : (allCards (resolveTrick s1 w pts)).Subperm (allCards s1) :=
      (List.sublist_append_left _ _).subperm.trans hres.subperm
    refine ⟨hsub.trans (hcards.subperm.trans hinv.cards_sub), ?_, ?_, ?_, ?_, ?_⟩
    · have := hinv.card_count
      omega
    · rw [hfr.2.1]
      simp only [List.length_nil]
      omega
    · rw [hfr.1, hscore1]
      have := hinv.points
      rcases fin2_cases w with rfl | rfl <;>
        simp only [getP, setP, if_true, one_ne_zero, if_false] <;> omega
    · rw [hfr.1, hscore1]
      have := hinv.score_nonneg
      rcases fin2_cases w with rfl | rfl <;>
        simp only [getP, setP, if_true, one_ne_zero, if_false] <;>
        constructor <;> omega
    · rw [resolveTrick_finished, hfin1, hfr.2.1]
      simp only [Bool.false_eq_true, false_or, true_and]
      constructor
      · rintro ⟨h1, h2, h3, h4⟩
        exact ⟨h1, h3, h4, h2⟩
      · rintro ⟨h1, h3, h4, h2⟩
        exact ⟨h1, h2, h3, h4⟩

/-- Every state reached by `n` legal moves satisfies the invariant. -/
theorem reachN_inv {n : Nat} {s : GameState} (h : ReachN n s) : ReachInv n s := by
  induction h with
  | init rng now => exact reachInv_init rng now
  | step p handIndex _ hplay hclose ih => exact reachInv_step _ _ _ _ p handIndex ih hplay hclose

/-! ## The sample game -/

theorem reachN_playMoves (moves : List Int) :
    ∀ (n : Nat) (s s2 : GameState), ReachN n s → playMoves moves s = some s2 →
      ReachN (n + moves.length) s2 := by
  induction moves with
  | nil =>
    intro n s s2 hr h
    simp only [playMoves, Option.some.injEq] at h
    subst h
    exact hr
  | cons i rest ih =>
    intro n s s2 hr h
    unfold playMoves at h
    cases hm : playMove s i with
    | none => rw [hm] at h; cases h
    | some s1 =>
      rw [hm] at h
      simp only [] at h
      unfold playMove at hm
      cases hp : playCard s (s.currentPlayer.val : Int) i with
      | mk b sp =>
        rw [hp] at hm
        cases b with
        | false => cases hm
        | true =>
          simp only [] at hm
          have := ih (n + 1) s1 s2 (ReachN.step _ i hr hp hm) h
          rw [List.length_cons]
          rw [show n + (rest.length + 1) = n + 1 + rest.length by omega]
          exact this

set_option maxRecDepth 1000000 in
theorem playMoves_firstTrick :
    playMoves [0, 0, 0, 0] (newGame defaultRNG 0) = some firstTrickState := by decide

set_option maxRecDepth 1000000 in
theorem playMoves_finishedGame :
    playMoves (List.replicate 40 0) (newGame defaultRNG 0) = some finishedGameState := by decide

theorem reachN_firstTrickState : ReachN 4 firstTrickState :=
  reachN_playMoves [0, 0, 0, 0] 0 _ _ (ReachN.init defaultRNG 0) playMoves_firstTrick

theorem reachN_finishedGameState : ReachN 40 finishedGameState :=
  reachN_playMoves (List.replicate 40 0) 0 _ _ (ReachN.init defaultRNG 0) playMoves_finishedGame

theorem maybeCloseTrick_sampleTrickState :
    maybeCloseTrick sampleTrickState = some firstTrickState := by decide

/-! ## Card conservation -/

theorem makeDeckLocal_nodup : makeDeckLocal.Nodup := by decide

/-- C1 (refuted as stated): the sample game after its first four moves is reachable and
not finished, yet holds only 36 cards: the four cards of the resolved trick, the Ace
of Espadas among them, are in no deck, hand or trick any more. -/
theorem cards_not_conserved_after_first_trick :
    ReachN 4 firstTrickState ∧ firstTrickState.finished = false ∧
      (allCards firstTrickState).length = 36 ∧
      (⟨Suit.Espadas, Rank.A⟩ : Card) ∈ makeDeckLocal ∧
      (⟨Suit.Espadas, Rank.A⟩ : Card) ∉ allCards firstTrickState ∧
      ¬ (allCards firstTrickState).Perm makeDeckLocal := by
  refine ⟨reachN_firstTrickState, rfl, by decide, by decide, by decide, ?_⟩
  intro h
  have := h.length_eq
  rw [makeDeckLocal_length] at this
  revert this
  decide

/-- C1 (amended): in every state reached from `newGame` by `n` legal moves, the cards in
deck, hands and trick, with the reserved trump card while it has not been handed out,
are cards of the canonical deck, none occurring more often than there, and there are
`40 - 4 * (n / 4)` of them: the four cards of every resolved trick have left the state.
Before the first trick is resolved (`n < 4`) they are exactly the canonical deck. -/
theorem reachable_cards_counted (n : Nat) (s : GameState) (h : ReachN n s) :
    (allCards s).Subperm makeDeckLocal ∧
      (allCards s).length = 40 - 4 * (n / 4) ∧
      (n < 4 → (allCards s).Perm makeDeckLocal) := by
  have hinv := reachN_inv h
  have hcount := hinv.card_count
  refine ⟨hinv.cards_sub, by omega, fun hn => ?_⟩
  apply hinv.cards_sub.perm_of_length_le
  rw [makeDeckLocal_length]
  have : n / 4 = 0 := Nat.div_eq_of_lt hn
  omega

/-- The amended C1 at the sample game after its first trick: 36 cards remain. -/
theorem reachable_cards_counted_witness :
    ReachN 4 firstTrickState ∧
      ((allCards firstTrickState).Subperm makeDeckLocal ∧
        (allCards firstTrickState).length = 40 - 4 * (4 / 4) ∧
        (4 < 4 → (allCards firstTrickState).Perm makeDeckLocal)) :=
  ⟨reachN_firstTrickState, reachable_cards_counted 4 firstTrickState reachN_firstTrickState⟩

/-- C2: in every state reachable from `newGame` by legal moves, the cards in deck, hands
and trick, with the reserved trump card while it has not been handed out, are
pairwise distinct cards of the canonical deck. -/
theorem reachable_cards_distinct (s : GameState) (h : Reachable s) :
    (allCards s).Nodup ∧ ∀ c ∈ allCards s, c ∈ makeDeckLocal := by
  obtain ⟨n, hn⟩ := h
  have hsub : (allCards s).Subperm makeDeckLocal := (reachN_inv hn).cards_sub
  obtain ⟨l, hl, hsl⟩ := hsub
  exact ⟨hl.nodup_iff.1 (hsl.nodup makeDeckLocal_nodup),
    fun c hc => hsl.subset (hl.symm.subset hc)⟩

/-- C2 at the sample game after its first trick. -/
theorem reachable_cards_distinct_witness :
    Reachable firstTrickState ∧
      ((allCards firstTrickState).Nodup ∧ ∀ c ∈ allCards firstTrickState, c ∈ makeDeckLocal) :=
  ⟨⟨4, reachN_firstTrickState⟩, reachable_cards_distinct firstTrickState ⟨4, reachN_firstTrickState⟩⟩

/-! ## Scores and the end of the game -/

theorem allCards_eq_nil (s : GameState)
    (h : s.deck = [] ∧ s.hands.1 = [] ∧ s.hands.2 = [] ∧ s.trick.cards = [] ∧
      s.trumpCardGiven = true) : allCards s = [] := by
  obtain ⟨h1, h2, h3, h4, h5⟩ := h
  simp [allCards, h1, h2, h3, h4, h5]

/-- C9: in every state reachable from `newGame` by legal moves both scores are
non-negative and their sum is at most 120, and the sum is exactly 120 when the state
is finished. -/
theorem reachable_scores (s : GameState) (h : Reachable s) :
    0 ≤ s.score.1 ∧ 0 ≤ s.score.2 ∧ s.score.1 + s.score.2 ≤ 120 ∧
      (s.finished = true → s.score.1 + s.score.2 = 120) := by
  obtain ⟨n, hn⟩ := h
  have hinv := reachN_inv hn
  have hpts := hinv.points
  have hnn := pointsOf_nonneg (allCards s)
  refine ⟨hinv.score_nonneg.1, hinv.score_nonneg.2, by omega, fun hf => ?_⟩
  rw [allCards_eq_nil s (hinv.fin_iff.1 hf)] at hpts
  simpa [pointsOf] using hpts

/-- C9 at the end of the sample game, a reachable finished state. -/
theorem reachable_scores_witness :
    Reachable finishedGameState ∧ finishedGameState.finished = true ∧
      (0 ≤ finishedGameState.score.1 ∧ 0 ≤ finishedGameState.score.2 ∧
        finishedGameState.score.1 + finishedGameState.score.2 ≤ 120 ∧
        (finishedGameState.finished = true →
          finishedGameState.score.1 + finishedGameState.score.2 = 120)) :=
  ⟨⟨40, reachN_finishedGameState⟩, rfl,
    reachable_scores finishedGameState ⟨40, reachN_finishedGameState⟩⟩

theorem maybeCloseTrick_finished (s : GameState) (h : s.trick.cards.length ≤ 4) :
    ∃ s2, maybeCloseTrick s = some s2 ∧
      (s2.finished = true ↔
        (s.finished = true ∨
          (s.trick.cards.length = 4 ∧ s2.deck = [] ∧ s2.trumpCardGiven = true ∧
            s2.hands.1 = [] ∧ s2.hands.2 = []))) := by
  by_cases hlt : s.trick.cards.length < 4
  · refine ⟨s, maybeCloseTrick_of_lt s hlt, ?_⟩
    constructor
    · exact fun hf => Or.inl hf
    · rintro (hf | ⟨h4, -⟩)
      · exact hf
      · omega
  · have h4 : s.trick.cards.length = 4 := by omega
    obtain ⟨c0, c1, c2, c3, hc⟩ := list_length_four s.trick.cards h4
    refine ⟨_, maybeCloseTrick_of_four s c0 c1 c2 c3 hc, ?_⟩
    rw [resolveTrick_finished]
    simp only [h4, true_and]

/-- C10: `maybeCloseTrick` returns with `finished` set exactly when it was set before or
the call resolved a trick (of four cards) and left the deck empty, the trump card
handed out and both hands empty; in every state reachable from `newGame` by legal
moves `finished` holds if and only if deck, both hands and trick are empty and
`trumpCardGiven` is set; and neither `playCard` nor `maybeCloseTrick` resets
`finished`. -/
theorem finished_exactly_when_exhausted :
    (∀ s : GameState, s.trick.cards.length ≤ 4 →
      ∃ s2, maybeCloseTrick s = some s2 ∧
        (s2.finished = true ↔
          (s.finished = true ∨
            (s.trick.cards.length = 4 ∧ s2.deck = [] ∧ s2.trumpCardGiven = true ∧
              s2.hands.1 = [] ∧ s2.hands.2 = [])))) ∧
      (∀ s : GameState, Reachable s →
        (s.finished = true ↔
          (s.deck = [] ∧ s.hands.1 = [] ∧ s.hands.2 = [] ∧ s.trick.cards = [] ∧
            s.trumpCardGiven = true))) ∧
      (∀ (s : GameState) (p handIndex : Int), s.finished = true →
        (playCard s p handIndex).2.finished = true) ∧
      (∀ s s2 : GameState, s.finished = true → maybeCloseTrick s = some s2 →
        s2.finished = true) := by
  refine ⟨maybeCloseTrick_finished, ?_, ?_, ?_⟩
  · rintro s ⟨n, hn⟩
    exact (reachN_inv hn).fin_iff
  · intro s p handIndex hf
    simp [playCard, hf]
  · intro s s2 hf hclose
    unfold maybeCloseTrick at hclose
    split_ifs at hclose with hlt
    · cases hclose
      exact hf
    · cases he : evaluateTrick s with
      | none => rw [he] at hclose; cases hclose
      | some r =>
        rw [he] at hclose
        simp only [Option.some.injEq] at hclose
        subst hclose
        exact (resolveTrick_finished s r.1 r.2).2 (Or.inl hf)

/-- C10 at the end of the sample game, which is reachable and finished, next to the
reachable unfinished state after the first trick. -/
theorem finished_exactly_when_exhausted_witness :
    (Reachable finishedGameState ∧ finishedGameState.finished = true ∧
        finishedGameState.deck = [] ∧ finishedGameState.trumpCardGiven = true) ∧
      (Reachable firstTrickState ∧ firstTrickState.finished = false ∧
        firstTrickState.deck ≠ []) ∧
      (finishedGameState.finished = true ↔
        (finishedGameState.deck = [] ∧ finishedGameState.hands.1 = [] ∧
          finishedGameState.hands.2 = [] ∧ finishedGameState.trick.cards = [] ∧
          finishedGameState.trumpCardGiven = true)) ∧
      (playCard finishedGameState 0 0).2.finished = true :=
  ⟨⟨⟨40, reachN_finishedGameState⟩, rfl, rfl, rfl⟩,
    ⟨⟨4, reachN_firstTrickState⟩, rfl, by decide⟩,
    finished_exactly_when_exhausted.2.1 finishedGameState ⟨40, reachN_finishedGameState⟩,
    finished_exactly_when_exhausted.2.2.1 finishedGameState 0 0 rfl⟩

/-! ## Instances of the conditional statements -/

/-- C4 at the sample game after its first trick: player 0 plays hand index 0. -/
theorem playCard_success_witness :
    (playCard firstTrickState 0 0).1 = true ∧
      ∃ (i : Nat) (c : Card),
        (0 : Int) = (i : Int) ∧ (0 : Int) = (firstTrickState.currentPlayer.val : Int) ∧
        (playCard firstTrickState 0 0).2.trick.cards = firstTrickState.trick.cards ++ [c] ∧
        (((playCard firstTrickState 0 0).2.currentPlayer).val : Int) = 1 - 0 ∧
        (playCard firstTrickState 0 0).2.deck = firstTrickState.deck :=
  ⟨by decide,
    match playCard_success firstTrickState 0 0 (by decide) with
    | ⟨i, c, h1, h2, _, _, h5, h6, h7, _⟩ => ⟨i, c, h1, h2, h5, h6, h7⟩⟩

/-- C5 at the first full trick of the sample game. -/
theorem maybeCloseTrick_resolves_witness :
    sampleTrickState.trick.cards.length = 4 ∧
      ∃ (c0 c1 c2 c3 : Card) (w : Fin 2) (s2 : GameState),
        sampleTrickState.trick.cards = [c0, c1, c2, c3] ∧
        evaluateTrick sampleTrickState =
          some (w, cardPoints c0 + cardPoints c1 + cardPoints c2 + cardPoints c3) ∧
        maybeCloseTrick sampleTrickState = some s2 ∧
        getP s2.score w =
          getP sampleTrickState.score w +
            (cardPoints c0 + cardPoints c1 + cardPoints c2 + cardPoints c3) ∧
        getP s2.score (1 - w) = getP sampleTrickState.score (1 - w) ∧
        s2.trick.cards = [] ∧
        s2.trick.starterPlayer = w ∧
        s2.currentPlayer = w :=
  ⟨rfl, maybeCloseTrick_resolves sampleTrickState rfl⟩

/-- C6 at the first full trick of the sample game: the starter wins 20 points. -/
theorem evaluateTrick_winner_witness :
    sampleTrickState.trick.cards =
        [⟨Suit.Espadas, Rank.A⟩, ⟨Suit.Espadas, Rank.K⟩, ⟨Suit.Espadas, Rank.Q⟩,
          ⟨Suit.Espadas, Rank.J⟩] ∧
      evaluateTrick sampleTrickState = some (0, 20) ∧
      ∃ (w : Nat) (cw : Card),
        ([⟨Suit.Espadas, Rank.A⟩, ⟨Suit.Espadas, Rank.K⟩, ⟨Suit.Espadas, Rank.Q⟩,
          ⟨Suit.Espadas, Rank.J⟩] : List Card)[w]? = some cw ∧
        (cw.suit = sampleTrickState.trumpSuit ∨ cw.suit = Suit.Espadas) :=
  ⟨rfl, by decide,
    match evaluateTrick_winner sampleTrickState ⟨Suit.Espadas, Rank.A⟩ ⟨Suit.Espadas, Rank.K⟩
      ⟨Suit.Espadas, Rank.Q⟩ ⟨Suit.Espadas, Rank.J⟩ rfl with
    | ⟨w, cw, h1, _, _, h4, _⟩ => ⟨w, cw, h1, h4⟩⟩

/-! ## The deal of `newGame` -/

theorem dealTop_snoc (s : GameState) (p : Fin 2) (d : List Card) (c : Card)
    (h : s.deck = d ++ [c]) :
    dealTop s p = { s with hands := setP s.hands p (getP s.hands p ++ [c]), deck := d } := by
  unfold dealTop
  rw [h]
  simp

theorem exists_snoc_nine (l : List Card) (h : 9 ≤ l.length) :
    ∃ (d : List Card) (x1 x2 x3 x4 x5 x6 x7 x8 x9 : Card),
      l = d ++ [x1, x2, x3, x4, x5, x6, x7, x8, x9] := by
  have hr : l.reverse.length = l.length := List.length_reverse l
  match hl : l.reverse, hr with
  | y9 :: y8 :: y7 :: y6 :: y5 :: y4 :: y3 :: y2 :: y1 :: rest, _ =>
    refine ⟨rest.reverse, y1, y2, y3, y4, y5, y6, y7, y8, y9, ?_⟩
    have := congrArg List.reverse hl
    rw [List.reverse_reverse] at this
    rw [this]
    simp
  | [], h0 | [_], h0 | [_, _], h0 | [_, _, _], h0 | [_, _, _, _], h0
  | [_, _, _, _, _], h0 | [_, _, _, _, _, _], h0 | [_, _, _, _, _, _, _], h0
  | [_, _, _, _, _, _, _, _], h0 =>
    simp only [List.length_cons, List.length_nil] at h0
    omega

theorem dealLoop_round (n : Nat) (s : GameState) (d : List Card) (a b : Card)
    (h : s.deck = d ++ [b, a]) :
    dealLoop (n + 1) s =
      dealLoop n { s with hands := (s.hands.1 ++ [a], s.hands.2 ++ [b]), deck := d } := by
  have h0 : s.deck = (d ++ [b]) ++ [a] := by simp [h]
  rw [dealLoop, dealTop_snoc s 0 (d ++ [b]) a h0, dealTop_snoc _ 1 d b rfl]
  simp [getP, setP]

/-- The state `newGame` builds, in terms of the shuffled deck: the last card is the
trump card, the eight cards before it are dealt from the back, alternately to player 0
and player 1, and the rest is the draw deck. -/
theorem newGame_deal (rng : RNG) (now : Nat) :
    ∃ (d : List Card) (a0 b0 a1 b1 a2 b2 a3 b3 t : Card),
      shuffleDeckLocal now makeDeckLocal = d ++ [b3, a3, b2, a2, b1, a1, b0, a0, t] ∧
      newGame rng now =
        { deck := d
          trumpCard := t
          trumpSuit := t.suit
          trumpCardGiven := false
          hands := ([a0, a1, a2, a3], [b0, b1, b2, b3])
          score := (0, 0)
          currentPlayer := 0
          trick := { cards := [], starterPlayer := 0 }
          finished := false } := by
  have hlen : (shuffleDeckLocal now makeDeckLocal).length = 40 := by
    rw [(shuffleDeckLocal_perm now makeDeckLocal).length_eq, makeDeckLocal_length]
  obtain ⟨d, b3, a3, b2, a2, b1, a1, b0, a0, t, hd⟩ :=
    exists_snoc_nine (shuffleDeckLocal now makeDeckLocal) (by omega)
  refine ⟨d, a0, b0, a1, b1, a2, b2, a3, b3, t, hd, ?_⟩
  unfold newGame
  simp only []
  rw [hd]
  have hlast : (d ++ [b3, a3, b2, a2, b1, a1, b0, a0, t]).getLast? = some t := by simp
  have hdrop : (d ++ [b3, a3, b2, a2, b1, a1, b0, a0, t]).dropLast =
      d ++ [b3, a3, b2, a2, b1, a1, b0, a0] := by
    simp [List.dropLast_append_of_ne_nil]
  rw [hlast, hdrop]
  simp only []
  rw [dealLoop_round 3 _ (d ++ [b3, a3, b2, a2, b1, a1]) a0 b0 (by simp)]
  rw [dealLoop_round 2 _ (d ++ [b3, a3, b2, a2]) a1 b1 (by simp)]
  rw [dealLoop_round 1 _ (d ++ [b3, a3]) a2 b2 (by simp)]
  rw [dealLoop_round 0 _ d a3 b3 (by simp)]
  simp [dealLoop]

theorem mem_makeDeckLocal (c : Card) : c ∈ makeDeckLocal := by
  obtain ⟨su, r⟩ := c
  cases su <;> cases r <;> decide

/-- C11: whatever the shuffle, `newGame` takes the last card of the shuffled deck as
trump card, with `trumpSuit` its suit, deals the eight cards before it from the back,
alternately to player 0 and player 1, four each, and keeps the other 31 as draw deck;
the trump card lies in neither hand nor in the deck; deck, hands and trump card
together are the canonical deck, which holds each of the 40 cards once; scores are 0,
the trick is empty, `finished` and `trumpCardGiven` are false, and player 0 is current
player and starter. -/
theorem newGame_deals_canonical_deck (rng : RNG) (now : Nat) :
    ∃ (d : List Card) (a0 b0 a1 b1 a2 b2 a3 b3 t : Card),
      shuffleDeckLocal now makeDeckLocal = d ++ [b3, a3, b2, a2, b1, a1, b0, a0, t] ∧
      (shuffleDeckLocal now makeDeckLocal).Perm makeDeckLocal ∧
      (newGame rng now).deck = d ∧ d.length = 31 ∧
      (newGame rng now).hands = ([a0, a1, a2, a3], [b0, b1, b2, b3]) ∧
      (newGame rng now).trumpCard = t ∧
      (newGame rng now).trumpSuit = t.suit ∧
      t ∉ d ∧ t ∉ [a0, a1, a2, a3] ∧ t ∉ [b0, b1, b2, b3] ∧
      ((newGame rng now).deck ++ (newGame rng now).hands.1 ++ (newGame rng now).hands.2 ++
        [(newGame rng now).trumpCard]).Perm makeDeckLocal ∧
      makeDeckLocal.Nodup ∧ makeDeckLocal.length = 40 ∧ (∀ c : Card, c ∈ makeDeckLocal) ∧
      (newGame rng now).score = (0, 0) ∧
      (newGame rng now).trick.cards = [] ∧
      (newGame rng now).finished = false ∧
      (newGame rng now).trumpCardGiven = false ∧
      (newGame rng now).currentPlayer = 0 ∧
      (newGame rng now).trick.starterPlayer = 0 := by
  obtain ⟨d, a0, b0, a1, b1, a2, b2, a3, b3, t, hd, hg⟩ := newGame_deal rng now
  have hperm := shuffleDeckLocal_perm now makeDeckLocal
  have hnodup : (d ++ [b3, a3, b2, a2, b1, a1, b0, a0, t]).Nodup := by
    rw [← hd]
    exact hperm.nodup_iff.2 makeDeckLocal_nodup
  have hlen : (d ++ [b3, a3, b2, a2, b1, a1, b0, a0, t]).length = 40 := by
    rw [← hd, hperm.length_eq, makeDeckLocal_length]
  have hall : (d ++ [a0, a1, a2, a3] ++ [b0, b1, b2, b3] ++ [t]).Perm
      (d ++ [b3, a3, b2, a2, b1, a1, b0, a0, t]) := by
    rw [List.perm_iff_count]
    intro x
    simp only [List.count_append, List.count_cons, List.count_nil]
    omega
  refine ⟨d, a0, b0, a1, b1, a2, b2, a3, b3, t, hd, hperm, ?_, ?_, ?_, ?_, ?_, ?_, ?_, ?_, ?_,
    makeDeckLocal_nodup, makeDeckLocal_length, mem_makeDeckLocal, ?_, ?_, ?_, ?_, ?_, ?_⟩
  · rw [hg]
  · simp only [List.length_append, List.length_cons, List.length_nil] at hlen
    omega
  · rw [hg]
  · rw [hg]
  · rw [hg]
  · intro hmem
    rw [List.nodup_append] at hnodup
    exact hnodup.2.2 hmem (by simp) 
  · intro hmem
    have hn := (List.nodup_append.1 hnodup).2.1
    simp only [List.nodup_cons, List.mem_cons, List.mem_singleton, not_or] at hn
    simp only [List.mem_cons, List.mem_singleton, List.mem_nil_iff, or_false] at hmem
    rcases hmem with h | h | h | h <;> subst h <;> simp_all
  · intro hmem
    have hn := (List.nodup_append.1 hnodup).2.1
    simp only [List.nodup_cons, List.mem_cons, List.mem_singleton, not_or] at hn
    simp only [List.mem_cons, List.mem_singleton, List.mem_nil_iff, or_false] at hmem
    rcases hmem with h | h | h | h <;> subst h <;> simp_all
  · rw [hg]
    exact hall.trans (hd ▸ hperm)
  all_goals rw [hg]
/-! ## `newGame` and the supplied generator -/

set_option maxRecDepth 1000000 in
theorem newGame_at_clock_0 :
    (newGame (RNG.ofSeed 1234) 0).trumpCard = ⟨Suit.Paus, Rank.R2⟩ ∧
      (newGame (RNG.ofSeed 1234) 0).hands.1 =
        [⟨Suit.Espadas, Rank.A⟩, ⟨Suit.Espadas, Rank.Q⟩, ⟨Suit.Espadas, Rank.R10⟩,
          ⟨Suit.Espadas, Rank.R5⟩] := by
  decide

set_option maxRecDepth 1000000 in
theorem newGame_at_clock_1 :
    (newGame (RNG.ofSeed 1234) 1).trumpCard = ⟨Suit.Copas, Rank.R10⟩ ∧
      (newGame (RNG.ofSeed 1234) 1).hands.1 =
        [⟨Suit.Paus, Rank.J⟩, ⟨Suit.Paus, Rank.R6⟩, ⟨Suit.Espadas, Rank.R3⟩,
          ⟨Suit.Espadas, Rank.K⟩] := by
  decide

/-- C12 (refuted as stated): two calls of `newGame` with generators constructed from the
same seed 1234, one at clock reading 0 and one at clock reading 1, turn up different
trump cards (the 2 of Paus and the 10 of Copas) and deal different hands. -/
theorem newGame_differs_for_equal_seeds :
    (newGame (RNG.ofSeed 1234) 0).trumpCard = ⟨Suit.Paus, Rank.R2⟩ ∧
      (newGame (RNG.ofSeed 1234) 1).trumpCard = ⟨Suit.Copas, Rank.R10⟩ ∧
      (newGame (RNG.ofSeed 1234) 0).hands.1 =
        [⟨Suit.Espadas, Rank.A⟩, ⟨Suit.Espadas, Rank.Q⟩, ⟨Suit.Espadas, Rank.R10⟩,
          ⟨Suit.Espadas, Rank.R5⟩] ∧
      (newGame (RNG.ofSeed 1234) 1).hands.1 =
        [⟨Suit.Paus, Rank.J⟩, ⟨Suit.Paus, Rank.R6⟩, ⟨Suit.Espadas, Rank.R3⟩,
          ⟨Suit.Espadas, Rank.K⟩] ∧
      newGame (RNG.ofSeed 1234) 0 ≠ newGame (RNG.ofSeed 1234) 1 := by
  have h0 := newGame_at_clock_0.1
  have h1 := newGame_at_clock_1.1
  refine ⟨h0, h1, newGame_at_clock_0.2, newGame_at_clock_1.2, fun h => ?_⟩
  rw [h] at h0
  rw [h0] at h1
  cases h1

/-- C12 (amended): `newGame` does not read the supplied generator: the deal is a function
of the clock reading that seeds the private shuffle, so two calls at the same clock
reading produce the same state (trump card, hands, deck order and all other fields)
whatever generators they are given. -/
theorem newGame_ignores_rng (rng1 rng2 : RNG) (now : Nat) :
    newGame rng1 now = newGame rng2 now ∧
      (newGame rng1 now).trumpCard = (newGame rng2 now).trumpCard ∧
      (newGame rng1 now).hands = (newGame rng2 now).hands ∧
      (newGame rng1 now).deck = (newGame rng2 now).deck := by
  have h : newGame rng1 now = newGame rng2 now := by
    unfold newGame
    rfl
  exact ⟨h, by rw [h], by rw [h], by rw [h]⟩

/-! ## `getLegalMoves` -/

theorem playCard_failure (s : GameState) (p handIndex : Int) :
    ((playCard s p handIndex).1 = false ↔
        (s.finished = true ∨ p ≠ (s.currentPlayer.val : Int) ∨ handIndex < 0 ∨
          ((getP s.hands s.currentPlayer).length : Int) ≤ handIndex)) ∧
      ((playCard s p handIndex).1 = false → (playCard s p handIndex).2 = s) := by
  unfold playCard
  by_cases hf : s.finished = true
  · simp [hf]
  by_cases hp : p ≠ (s.currentPlayer.val : Int)
  · simp [hf, hp]
  by_cases hi : handIndex < 0 ∨ handIndex ≥ ((getP s.hands s.currentPlayer).length : Int)
  · simp only [hf, hp, hi, if_true, if_false]
    simp
  · have hlt : handIndex.toNat < (getP s.hands s.currentPlayer).length := by omega
    obtain ⟨c, hc⟩ : ∃ c, (getP s.hands s.currentPlayer)[handIndex.toNat]? = some c :=
      ⟨_, List.getElem?_eq_getElem hlt⟩
    simp only [hf, hp, hi, if_false, hc]
    push_neg at hi hp
    simp [hf, hp]

theorem playCard_eq_false_iff (s : GameState) (p handIndex : Int) :
    (playCard s p handIndex).1 = false ↔
      (s.finished = true ∨ p ≠ (s.currentPlayer.val : Int) ∨ handIndex < 0 ∨
        ((getP s.hands s.currentPlayer).length : Int) ≤ handIndex) :=
  (playCard_failure s p handIndex).1

theorem playCard_false_state (s : GameState) (p handIndex : Int)
    (h : (playCard s p handIndex).1 = false) : (playCard s p handIndex).2 = s :=
  (playCard_failure s p handIndex).2 h

theorem getLegalMoves_mem (s : GameState) (p i : Int) :
    i ∈ getLegalMoves s p ↔
      (p = (s.currentPlayer.val : Int) ∧ 0 ≤ i ∧
        i < ((getP s.hands s.currentPlayer).length : Int)) := by
  unfold getLegalMoves
  by_cases hp : p = (s.currentPlayer.val : Int)
  · rw [if_neg (by simpa using hp), List.mem_map]
    constructor
    · rintro ⟨a, ha, rfl⟩
      rw [List.mem_range] at ha
      exact ⟨hp, by omega, by omega⟩
    · rintro ⟨-, h0, h1⟩
      exact ⟨i.toNat, List.mem_range.2 (by omega), by omega⟩
  · rw [if_pos hp]
    simp [hp]

/-- C13: `getLegalMoves(p)` is the list 0, 1, ..., size of the hand - 1 when `p` is the
current player and the empty list otherwise, and on a state that is not finished
`playCard(p, i)` succeeds exactly for the `i` in `getLegalMoves(p)`. -/
theorem getLegalMoves_spec (s : GameState) (p : Int) :
    (p = (s.currentPlayer.val : Int) →
        getLegalMoves s p =
          List.map (fun i : Nat => (i : Int))
            (List.range (getP s.hands s.currentPlayer).length)) ∧
      (p ≠ (s.currentPlayer.val : Int) → getLegalMoves s p = []) ∧
      (s.finished = false →
        ∀ i : Int, (playCard s p i).1 = true ↔ i ∈ getLegalMoves s p) := by
  refine ⟨fun hp => ?_, fun hp => ?_, fun hf i => ?_⟩
  · simp [getLegalMoves, hp]
  · simp [getLegalMoves, hp]
  · rw [getLegalMoves_mem]
    have h := playCard_eq_false_iff s p i
    rw [hf] at h
    simp only [Bool.false_eq_true, false_or] at h
    constructor
    · intro ht
      by_contra hcon
      have : (playCard s p i).1 = false := by
        apply h.2
        by_cases hp : p = (s.currentPlayer.val : Int)
        · right
          by_contra hc
          apply hcon
          exact ⟨hp, by omega, by omega⟩
        · exact Or.inl hp
      rw [this] at ht
      cases ht
    · rintro ⟨hp, h0, h1⟩
      by_contra hcon
      have hfalse : (playCard s p i).1 = false := by simpa using hcon
      rcases h.1 hfalse with h2 | h2 | h2
      · exact h2 hp
      · omega
      · omega
/-! ## `maybeCloseTrick` on a trick that is not full -/

theorem maybeCloseTrick_of_gt (s : GameState) (h : 4 < s.trick.cards.length) :
    maybeCloseTrick s = none := by
  unfold maybeCloseTrick evaluateTrick
  rw [if_neg (by omega), if_pos (by omega)]

theorem closeRepeatedly_of_lt (s : GameState) (h : s.trick.cards.length < 4) (n : Nat) :
    closeRepeatedly n s = some s := by
  induction n with
  | zero => rfl
  | succ n ih =>
    unfold closeRepeatedly
    rw [maybeCloseTrick_of_lt s h]
    exact ih

/-- C14 (refuted as stated): on a state whose trick holds five cards `maybeCloseTrick` is
not a no-op: the call passes the test `size < 4` and fails the assertion of
`evaluateTrick`; and the statements after that assertion, whatever winner and points
they are run with, empty the trick. -/
theorem maybeCloseTrick_not_noop_above_four :
    fiveCardTrickState.trick.cards.length = 5 ∧
      evaluateTrick fiveCardTrickState = none ∧
      maybeCloseTrick fiveCardTrickState = none ∧
      maybeCloseTrick fiveCardTrickState ≠ some fiveCardTrickState ∧
      (∀ (w : Fin 2) (pts : Int),
        (resolveTrick fiveCardTrickState w pts).trick.cards = [] ∧
          resolveTrick fiveCardTrickState w pts ≠ fiveCardTrickState) := by
  refine ⟨rfl, by decide, by decide, by decide, fun w pts => ?_⟩
  have h := (resolveTrick_frame fiveCardTrickState w pts).2.1
  refine ⟨by rw [h], fun heq => ?_⟩
  rw [heq] at h
  have hc : fiveCardTrickState.trick.cards = [] := congrArg Trick.cards h
  revert hc
  decide

/-- C14 (amended): `maybeCloseTrick` is a no-op when the trick holds fewer than 4 cards:
the call returns the state with every field unchanged, and so does any number of
repeated calls.  (A trick of more than 4 cards is not covered: there the call fails
the assertion of `evaluateTrick`.) -/
theorem maybeCloseTrick_noop_below_four (s : GameState) (h : s.trick.cards.length < 4) :
    maybeCloseTrick s = some s ∧ ∀ n : Nat, closeRepeatedly n s = some s :=
  ⟨maybeCloseTrick_of_lt s h, closeRepeatedly_of_lt s h⟩

/-- The amended C14 at the sample game after its first trick, where the trick is empty. -/
theorem maybeCloseTrick_noop_below_four_witness :
    firstTrickState.trick.cards.length < 4 ∧
      (maybeCloseTrick firstTrickState = some firstTrickState ∧
        ∀ n : Nat, closeRepeatedly n firstTrickState = some firstTrickState) :=
  ⟨by decide, maybeCloseTrick_noop_below_four firstTrickState (by decide)⟩

/-! ## The refill and the hand-out of the trump card -/

theorem fin2_one_sub_one_sub (p : Fin 2) : 1 - (1 - p) = p := by
  rcases fin2_cases p with rfl | rfl <;> decide

theorem fin2_one_sub_ne (p : Fin 2) : 1 - p ≠ p := by
  rcases fin2_cases p with rfl | rfl <;> decide

theorem getP_setP_self {α : Type} (a : α × α) (p : Fin 2) (v : α) : getP (setP a p v) p = v := by
  rcases fin2_cases p with rfl | rfl <;> simp [getP, setP]

theorem getP_setP_other {α : Type} (a : α × α) (p : Fin 2) (v : α) :
    getP (setP a p v) (1 - p) = getP a (1 - p) := by
  rcases fin2_cases p with rfl | rfl <;> simp [getP, setP]

theorem getP_setP_other' {α : Type} (a : α × α) (p : Fin 2) (v : α) :
    getP (setP a (1 - p) v) p = getP a p := by
  rcases fin2_cases p with rfl | rfl <;> simp [getP, setP]

/-- A draw attempt moves the top card of the deck to the end of the hand when the hand
holds fewer than 4 cards and the deck is not empty. -/
theorem drawIfNeeded_draws (s : GameState) (p : Fin 2) (d : List Card) (c : Card)
    (hd : s.deck = d ++ [c]) (hh : (getP s.hands p).length < 4) :
    drawIfNeeded s p =
      { s with hands := setP s.hands p (getP s.hands p ++ [c]), deck := d } := by
  unfold drawIfNeeded needCard drawFromDeck
  rw [hd]
  simp [hh]

/-- A draw attempt does nothing when the hand holds 4 cards or more, or the deck is
empty. -/
theorem drawIfNeeded_skips (s : GameState) (p : Fin 2)
    (h : 4 ≤ (getP s.hands p).length ∨ s.deck = []) : drawIfNeeded s p = s := by
  unfold drawIfNeeded needCard drawFromDeck
  rcases h with h | h
  · have : ¬ (getP s.hands p).length < 4 := by omega
    simp [this]
  · rw [h]
    simp

theorem sizes_drawIfNeeded_self (s : GameState) (w : Fin 2) :
    sizes (drawIfNeeded s w) w = drawW (sizes s w) := by
  rcases List.eq_nil_or_concat s.deck with hnil | ⟨d, c, hd0⟩
  · rw [drawIfNeeded_skips s w (Or.inr hnil)]
    simp [drawW, sizes, hnil]
  · have hd : s.deck = d ++ [c] := by rw [hd0, List.concat_eq_append]
    by_cases hh : (getP s.hands w).length < 4
    · rw [drawIfNeeded_draws s w d c hd hh]
      simp [drawW, sizes, hd, hh, getP_setP_self, getP_setP_other]
    · rw [drawIfNeeded_skips s w (Or.inl (by omega))]
      simp [drawW, sizes, hh]

theorem sizes_drawIfNeeded_other (s : GameState) (w : Fin 2) :
    sizes (drawIfNeeded s (1 - w)) w = drawL (sizes s w) := by
  rcases List.eq_nil_or_concat s.deck with hnil | ⟨d, c, hd0⟩
  · rw [drawIfNeeded_skips s (1 - w) (Or.inr hnil)]
    simp [drawL, sizes, hnil]
  · have hd : s.deck = d ++ [c] := by rw [hd0, List.concat_eq_append]
    by_cases hh : (getP s.hands (1 - w)).length < 4
    · rw [drawIfNeeded_draws s (1 - w) d c hd hh]
      simp [drawL, sizes, hd, hh, getP_setP_self, getP_setP_other']
    · rw [drawIfNeeded_skips s (1 - w) (Or.inl (by omega))]
      simp [drawL, sizes, hh]

/-- The hand-out block gives the trump card to the loser if the loser holds fewer than 4
cards, else to the winner if the winner holds fewer than 4 cards, else to nobody; and
does nothing once the card was handed out. -/
theorem giveTrump_cases (s : GameState) (w l : Fin 2) :
    (s.trumpCardGiven = true → giveTrump s w l = s) ∧
      (s.trumpCardGiven = false → (getP s.hands l).length < 4 →
        giveTrump s w l =
          { s with
            hands := setP s.hands l (getP s.hands l ++ [s.trumpCard])
            trumpCardGiven := true }) ∧
      (s.trumpCardGiven = false → 4 ≤ (getP s.hands l).length →
        (getP s.hands w).length < 4 →
        giveTrump s w l =
          { s with
            hands := setP s.hands w (getP s.hands w ++ [s.trumpCard])
            trumpCardGiven := true }) ∧
      (s.trumpCardGiven = false → 4 ≤ (getP s.hands l).length →
        4 ≤ (getP s.hands w).length → giveTrump s w l = s) := by
  refine ⟨fun hg => ?_, fun hg hl => ?_, fun hg hl hw => ?_, fun hg hl hw => ?_⟩
  · simp [giveTrump, hg]
  · simp [giveTrump, needCard, hg, hl]
  · have : ¬ (getP s.hands l).length < 4 := by omega
    simp [giveTrump, needCard, hg, this, hw]
  · have h1 : ¬ (getP s.hands l).length < 4 := by omega
    have h2 : ¬ (getP s.hands w).length < 4 := by omega
    simp [giveTrump, needCard, hg, h1, h2]

theorem sizes_giveTrump (s : GameState) (w : Fin 2) :
    sizes (giveTrump s w (1 - w)) w = trumpSizes (sizes s w) := by
  obtain ⟨h1, h2, h3, h4⟩ := giveTrump_cases s w (1 - w)
  cases hg : s.trumpCardGiven with
  | true =>
    rw [h1 hg]
    simp [trumpSizes, sizes, hg]
  | false =>
    by_cases hl : (getP s.hands (1 - w)).length < 4
    · rw [h2 hg hl]
      simp [trumpSizes, sizes, hg, hl, getP_setP_self, getP_setP_other']
    · by_cases hw : (getP s.hands w).length < 4
      · rw [h3 hg (by omega) hw]
        simp [trumpSizes, sizes, hg, hl, hw, getP_setP_self, getP_setP_other]
      · rw [h4 hg (by omega) (by omega)]
        simp [trumpSizes, sizes, hg, hl, hw]

theorem resolveTrick_eq_refill (s : GameState) (w : Fin 2) (pts : Int) :
    resolveTrick s w pts =
      markFinished
        { giveTrump
            (refill { s with score := setP s.score w (getP s.score w + pts) } w (1 - w))
            w (1 - w) with
          trick := { cards := [], starterPlayer := w }
          currentPlayer := w } :=
  rfl

theorem sizes_resolveTrick (s : GameState) (w : Fin 2) (pts : Int) :
    sizes (resolveTrick s w pts) w = resolveSizes (sizes s w) := by
  rw [resolveTrick_eq_refill]
  have hm : ∀ x : GameState, sizes (markFinished x) w = sizes x w := by
    intro x
    have h := markFinished_frame x
    simp only [sizes, h.2.2.2.2.2.1, h.2.2.2.2.2.2.1, h.2.2.2.2.2.2.2]
  rw [hm]
  have hc : ∀ x : GameState,
      sizes { x with trick := { cards := [], starterPlayer := w }, currentPlayer := w } w =
        sizes x w := fun x => rfl
  rw [hc, sizes_giveTrump]
  unfold refill resolveSizes
  rw [sizes_drawIfNeeded_other, sizes_drawIfNeeded_self, sizes_drawIfNeeded_other,
    sizes_drawIfNeeded_self]
  rfl
/-! ## The course of the game -/

theorem gameInv_init (rng : RNG) (now : Nat) : GameInv 0 (newGame rng now) := by
  obtain ⟨d, a0, b0, a1, b1, a2, b2, a3, b3, t, hd, hg⟩ := newGame_deal rng now
  have hlen : (d ++ [b3, a3, b2, a2, b1, a1, b0, a0, t]).length = 40 := by
    rw [← hd, (shuffleDeckLocal_perm now makeDeckLocal).length_eq, makeDeckLocal_length]
  simp only [List.length_append, List.length_cons, List.length_nil] at hlen
  rw [hg]
  refine ⟨by omega, rfl, ?_, rfl, rfl, rfl, rfl⟩
  simp only []
  omega

theorem sizes_eq_of_hands (s : GameState) (w : Fin 2) (h : Nat)
    (hh : ∀ q : Fin 2, (getP s.hands q).length = h) :
    sizes s w = (s.deck.length, h, h, s.trumpCardGiven) := by
  simp [sizes, hh]

theorem hands_of_sizes (s : GameState) (w : Fin 2) (D h : Nat) (g : Bool)
    (hs : sizes s w = (D, h, h, g)) :
    s.deck.length = D ∧ s.trumpCardGiven = g ∧ ∀ q : Fin 2, (getP s.hands q).length = h := by
  simp only [sizes, Prod.mk.injEq] at hs
  obtain ⟨h1, h2, h3, h4⟩ := hs
  refine ⟨h1, h4, fun q => ?_⟩
  rcases fin2_cases w with rfl | rfl <;> rcases fin2_cases q with rfl | rfl <;>
    first
    | exact h2
    | exact h3

theorem gameInv_step (n : Nat) (s s1 s2 : GameState) (p handIndex : Int)
    (hinv : GameInv n s) (hr : ReachInv n s)
    (hplay : playCard s p handIndex = (true, s1))
    (hclose : maybeCloseTrick s1 = some s2) : GameInv (n + 1) s2 := by
  obtain ⟨hfin, -, -, c, hc, hs1⟩ := playCard_true s s1 p handIndex hplay
  have hn : n < 40 := by
    have h1 := hinv.fin
    rw [hfin] at h1
    have h2 : n ≠ 40 := by simpa using h1.symm
    have := hinv.moves_le
    omega
  have hlt : handIndex.toNat < (getP s.hands s.currentPlayer).length := by
    by_contra hge
    rw [List.getElem?_eq_none (by omega)] at hc
    cases hc
  have herase : ((getP s.hands s.currentPlayer).eraseIdx handIndex.toNat).length + 1 =
      (getP s.hands s.currentPlayer).length := by
    rw [List.length_eraseIdx, if_pos hlt]
    omega
  have hdeck1 : s1.deck = s.deck := by rw [hs1]
  have hgiven1 : s1.trumpCardGiven = s.trumpCardGiven := by rw [hs1]
  have hst1 : s1.trick.starterPlayer = s.trick.starterPlayer := by rw [hs1]
  have hcur1 : s1.currentPlayer = 1 - s.currentPlayer := by rw [hs1]
  have hfin1 : s1.finished = false := by rw [hs1]; exact hfin
  have hhands1 : s1.hands = setP s.hands s.currentPlayer
      ((getP s.hands s.currentPlayer).eraseIdx handIndex.toNat) := by rw [hs1]
  have hlen1 : s1.trick.cards.length = n % 4 + 1 := by
    rw [hs1]
    simp only [List.length_append, List.length_cons, List.length_nil]
    rw [hr.trick_len]
  have hcur := hinv.cur
  have hA := hinv.hand_starter
  have hB := hinv.hand_other
  -- the hands after the card was played
  have hS : (getP s1.hands s.trick.starterPlayer).length + (if n % 2 = 0 then 1 else 0) =
      (getP s.hands s.trick.starterPlayer).length := by
    rw [hhands1]
    by_cases hpar : n % 2 = 0
    · rw [if_pos hpar] at hcur ⊢
      rw [hcur, getP_setP_self]
      rw [hcur] at herase
      exact herase
    · rw [if_neg hpar] at hcur ⊢
      rw [hcur, getP_setP_other']
      rfl
  have hO : (getP s1.hands (1 - s.trick.starterPlayer)).length +
      (if n % 2 = 0 then 0 else 1) = (getP s.hands (1 - s.trick.starterPlayer)).length := by
    rw [hhands1]
    by_cases hpar : n % 2 = 0
    · rw [if_pos hpar] at hcur ⊢
      rw [hcur, getP_setP_other]
      rfl
    · rw [if_neg hpar] at hcur ⊢
      rw [hcur, getP_setP_self]
      rw [hcur] at herase
      exact herase
  by_cases hk : n % 4 + 1 < 4
  · rw [maybeCloseTrick_of_lt s1 (by omega)] at hclose
    cases hclose
    have hdiv : (n + 1) / 4 = n / 4 := by omega
    refine ⟨by omega, ?_, ?_, ?_, ?_, ?_, ?_⟩
    · rw [hcur1, hst1, hcur]
      by_cases hpar : n % 2 = 0
      · rw [if_pos hpar, if_neg (by omega)]
      · rw [if_neg hpar, if_pos (by omega), fin2_one_sub_one_sub]
    · rw [hdeck1, hdiv]
      exact hinv.deck_len
    · rw [hgiven1, hdiv]
      exact hinv.given
    · rw [hst1, hdiv, ← hA]
      split_ifs at hS <;> omega
    · rw [hst1, hdiv, ← hB]
      split_ifs at hO <;> omega
    · rw [hfin1]
      have : n + 1 ≠ 40 := by omega
      simp [this]
  · have hk3 : n % 4 = 3 := by
      have := Nat.mod_lt n (show 0 < 4 by omega)
      omega
    have hpar : ¬ n % 2 = 0 := by omega
    rw [if_neg hpar] at hS hO
    rw [hk3] at hA hB
    obtain ⟨t, ht⟩ : ∃ t, n / 4 = t := ⟨_, rfl⟩
    have ht9 : t ≤ 9 := by omega
    rw [ht] at hA hB
    have hdl := hinv.deck_len
    have hgv := hinv.given
    rw [ht] at hdl hgv
    have hdiv : (n + 1) / 4 = t + 1 := by omega
    have hmod : (n + 1) % 4 = 0 := by omega
    have hmod2 : (n + 1) % 2 = 0 := by omega
    have hlen4 : s1.trick.cards.length = 4 := by omega
    obtain ⟨c0, c1, c2, c3, hcards⟩ := list_length_four s1.trick.cards hlen4
    rw [maybeCloseTrick_of_four s1 c0 c1 c2 c3 hcards] at hclose
    generalize playerOfIndex s1.trick (winnerIndexOf [c0, c1, c2, c3] s1.trumpSuit) = w at hclose
    generalize cardPoints c0 + cardPoints c1 + cardPoints c2 + cardPoints c3 = pts at hclose
    cases hclose
    have hfr := resolveTrick_frame s1 w pts
    have hfinres := resolveTrick_finished s1 w pts
    rw [hfin1] at hfinres
    have hsz := sizes_resolveTrick s1 w pts
    have hbase : 2 ≤ handBase t := by
      unfold handBase
      split_ifs <;> omega
    have hh1 : ∀ q : Fin 2, (getP s1.hands q).length = handBase t - 2 := by
      intro q
      rcases fin2_cases s.trick.starterPlayer with h0 | h0 <;>
        rcases fin2_cases q with rfl | rfl <;> rw [h0] at hS hO hA hB <;>
        simp only [sub_self, sub_zero] at hS hO hA hB <;> omega
    rw [sizes_eq_of_hands s1 w _ hh1, hdeck1, hgiven1, hdl, hgv] at hsz
    have key : resolveSizes (31 - 4 * t, handBase t - 2, handBase t - 2, decide (8 ≤ t)) =
        (31 - 4 * (t + 1), handBase (t + 1), handBase (t + 1), decide (8 ≤ t + 1)) := by
      interval_cases t <;> decide
    rw [key] at hsz
    obtain ⟨hd2, hg2, hh2⟩ := hands_of_sizes _ w _ _ _ hsz
    refine ⟨by omega, ?_, ?_, ?_, ?_, ?_, ?_⟩
    · rw [hfr.2.2.1, hfr.2.1, if_pos hmod2]
    · rw [hdiv]
      exact hd2
    · rw [hdiv]
      exact hg2
    · rw [hdiv, hmod, hh2]
      rfl
    · rw [hdiv, hmod, hh2]
      rfl
    · by_cases h40 : n + 1 = 40
      · have ht' : t = 9 := by omega
        subst ht'
        have e1 : (resolveTrick s1 w pts).deck = [] := List.length_eq_zero.1 (by rw [hd2])
        have e2 : (resolveTrick s1 w pts).hands.1 = [] :=
          List.length_eq_zero.1 (by have := hh2 0; simpa [getP, handBase] using this)
        have e3 : (resolveTrick s1 w pts).hands.2 = [] :=
          List.length_eq_zero.1 (by have := hh2 1; simpa [getP, handBase] using this)
        have e4 : (resolveTrick s1 w pts).trumpCardGiven = true := by rw [hg2]; decide
        rw [hfinres.2 (Or.inr ⟨e1, e4, e2, e3⟩)]
        simp [h40]
      · have ht' : t < 9 := by omega
        have hb : 2 ≤ handBase (t + 1) := by
          unfold handBase
          split_ifs <;> omega
        have hne : ¬ (resolveTrick s1 w pts).finished = true := by
          intro hf
          rcases hfinres.1 hf with h | ⟨-, -, e2, -⟩
          · cases h
          · have := hh2 0
            simp only [getP, if_true] at this
            rw [e2] at this
            simp at this
            omega
        simp only [h40, decide_False]
        simpa using hne

/-- Every state reached by `n` legal moves lies on the course of the game. -/
theorem reachN_gameInv {n : Nat} {s : GameState} (h : ReachN n s) : GameInv n s := by
  induction h with
  | init rng now => exact gameInv_init rng now
  | step p handIndex hreach hplay hclose ih =>
    exact gameInv_step _ _ _ _ p handIndex ih (reachN_inv hreach) hplay hclose

/-! ## Refill, trump hand-out and the deck -/

set_option maxRecDepth 1000000 in
theorem playMoves_threeCards :
    playMoves [0, 0, 0] (newGame defaultRNG 0) = some threeCardState := by decide

set_option maxRecDepth 1000000 in
theorem playMoves_eighthTrick :
    playMoves (List.replicate 32 0) (newGame defaultRNG 0) = some eighthTrickState := by decide

theorem reachN_threeCardState : ReachN 3 threeCardState :=
  reachN_playMoves [0, 0, 0] 0 _ _ (ReachN.init defaultRNG 0) playMoves_threeCards

theorem reachN_eighthTrickState : ReachN 32 eighthTrickState :=
  reachN_playMoves (List.replicate 32 0) 0 _ _ (ReachN.init defaultRNG 0) playMoves_eighthTrick

theorem playCard_threeCardState : playCard threeCardState 1 0 = (true, sampleTrickState) := by
  decide

/-- Two states agree on what refill and hand-out read and write: deck, hands,
`trumpCardGiven` and `trumpCard`. -/
theorem drawIfNeeded_congr (s t : GameState) (p : Fin 2)
    (h : s.deck = t.deck ∧ s.hands = t.hands ∧ s.trumpCardGiven = t.trumpCardGiven ∧
      s.trumpCard = t.trumpCard) :
    (drawIfNeeded s p).deck = (drawIfNeeded t p).deck ∧
      (drawIfNeeded s p).hands = (drawIfNeeded t p).hands ∧
      (drawIfNeeded s p).trumpCardGiven = (drawIfNeeded t p).trumpCardGiven ∧
      (drawIfNeeded s p).trumpCard = (drawIfNeeded t p).trumpCard := by
  obtain ⟨h1, h2, h3, h4⟩ := h
  unfold drawIfNeeded needCard drawFromDeck
  rw [h1, h2, h3]
  split_ifs
  · split <;> simp [h1, h3, h4, h2]
  · exact ⟨h1, h2, h3, h4⟩

theorem giveTrump_congr (s t : GameState) (w l : Fin 2)
    (h : s.deck = t.deck ∧ s.hands = t.hands ∧ s.trumpCardGiven = t.trumpCardGiven ∧
      s.trumpCard = t.trumpCard) :
    (giveTrump s w l).deck = (giveTrump t w l).deck ∧
      (giveTrump s w l).hands = (giveTrump t w l).hands ∧
      (giveTrump s w l).trumpCardGiven = (giveTrump t w l).trumpCardGiven ∧
      (giveTrump s w l).trumpCard = (giveTrump t w l).trumpCard := by
  obtain ⟨h1, h2, h3, h4⟩ := h
  unfold giveTrump needCard
  rw [h1, h2, h3, h4]
  split_ifs <;> simp [h1, h2, h3, h4]

theorem refill_congr (s t : GameState) (w l : Fin 2)
    (h : s.deck = t.deck ∧ s.hands = t.hands ∧ s.trumpCardGiven = t.trumpCardGiven ∧
      s.trumpCard = t.trumpCard) :
    (refill s w l).deck = (refill t w l).deck ∧
      (refill s w l).hands = (refill t w l).hands ∧
      (refill s w l).trumpCardGiven = (refill t w l).trumpCardGiven ∧
      (refill s w l).trumpCard = (refill t w l).trumpCard := by
  unfold refill
  exact drawIfNeeded_congr _ _ l (drawIfNeeded_congr _ _ w
    (drawIfNeeded_congr _ _ l (drawIfNeeded_congr _ _ w h)))

theorem refill_trumpCardGiven (s : GameState) (w l : Fin 2) :
    (refill s w l).trumpCardGiven = s.trumpCardGiven := by
  unfold refill
  rw [(drawIfNeeded_frame _ l).2.2.2.2.2.2, (drawIfNeeded_frame _ w).2.2.2.2.2.2,
    (drawIfNeeded_frame _ l).2.2.2.2.2.2, (drawIfNeeded_frame _ w).2.2.2.2.2.2]

/-- The deck, the hands and `trumpCardGiven` after `resolveTrick` are those after the
refill and the hand-out block. -/
theorem resolveTrick_refill (s : GameState) (w : Fin 2) (pts : Int) :
    (resolveTrick s w pts).deck = (refill s w (1 - w)).deck ∧
      (resolveTrick s w pts).hands = (giveTrump (refill s w (1 - w)) w (1 - w)).hands ∧
      (resolveTrick s w pts).trumpCardGiven =
        (giveTrump (refill s w (1 - w)) w (1 - w)).trumpCardGiven := by
  rw [resolveTrick_eq_refill]
  have h := markFinished_frame
    { giveTrump
        (refill { s with score := setP s.score w (getP s.score w + pts) } w (1 - w))
        w (1 - w) with
      trick := { cards := [], starterPlayer := w }
      currentPlayer := w }
  rw [h.2.2.2.2.2.1, h.2.2.2.2.2.2.1, h.2.2.2.2.2.2.2]
  have hr := refill_congr { s with score := setP s.score w (getP s.score w + pts) } s w (1 - w)
    ⟨rfl, rfl, rfl, rfl⟩
  have hg := giveTrump_congr _ _ w (1 - w) hr
  refine ⟨?_, hg.2.1, hg.2.2.1⟩
  show (giveTrump _ w (1 - w)).deck = _
  rw [(giveTrump_frame _ w (1 - w)).2.2.2.2.2.2]
  exact hr.1

theorem reachN_hands_le (n : Nat) (s : GameState) (h : ReachN n s) :
    ∀ q : Fin 2, (getP s.hands q).length ≤ handBase (n / 4) := by
  have hinv := reachN_gameInv h
  have hA := hinv.hand_starter
  have hB := hinv.hand_other
  intro q
  rcases fin2_cases s.trick.starterPlayer with h0 | h0 <;>
    rcases fin2_cases q with rfl | rfl <;> rw [h0] at hA hB <;>
    simp only [sub_self, sub_zero] at hA hB <;> omega

theorem handBase_le (t : Nat) : handBase t ≤ 4 := by
  unfold handBase
  split_ifs <;> omega

/-- C15: a draw attempt moves the top (last) card of the deck to the end of the player's
hand when that player holds fewer than 4 cards and the deck is not empty, and does
nothing otherwise; `maybeCloseTrick`, resolving a trick, makes four attempts in the
order winner, loser, winner, loser; in every reachable state no hand holds more than
4 cards; and when a trick is closed in a reachable game with at least 4 cards in the
deck, both hands hold 4 cards afterwards. -/
theorem refill_draws_in_turn :
    (∀ (s : GameState) (p : Fin 2) (d : List Card) (c : Card),
        s.deck = d ++ [c] → (getP s.hands p).length < 4 →
        drawIfNeeded s p =
          { s with hands := setP s.hands p (getP s.hands p ++ [c]), deck := d }) ∧
      (∀ (s : GameState) (p : Fin 2),
        4 ≤ (getP s.hands p).length ∨ s.deck = [] → drawIfNeeded s p = s) ∧
      (∀ (s : GameState) (w l : Fin 2),
        refill s w l = drawIfNeeded (drawIfNeeded (drawIfNeeded (drawIfNeeded s w) l) w) l) ∧
      (∀ (s : GameState) (c0 c1 c2 c3 : Card), s.trick.cards = [c0, c1, c2, c3] →
        ∃ (w : Fin 2) (pts : Int) (s2 : GameState),
          evaluateTrick s = some (w, pts) ∧ maybeCloseTrick s = some s2 ∧
          s2.deck = (refill s w (1 - w)).deck ∧
          s2.hands = (giveTrump (refill s w (1 - w)) w (1 - w)).hands) ∧
      (∀ s : GameState, Reachable s → s.hands.1.length ≤ 4 ∧ s.hands.2.length ≤ 4) ∧
      (∀ (n : Nat) (s s1 s2 : GameState) (p handIndex : Int),
        ReachN n s → playCard s p handIndex = (true, s1) → s1.trick.cards.length = 4 →
        4 ≤ s1.deck.length → maybeCloseTrick s1 = some s2 →
        s2.hands.1.length = 4 ∧ s2.hands.2.length = 4) := by
  refine ⟨drawIfNeeded_draws, drawIfNeeded_skips, fun s w l => rfl, ?_, ?_, ?_⟩
  · intro s c0 c1 c2 c3 hc
    refine ⟨_, _, _, evaluateTrick_of_four s c0 c1 c2 c3 hc,
      maybeCloseTrick_of_four s c0 c1 c2 c3 hc, ?_, ?_⟩
    · exact (resolveTrick_refill s _ _).1
    · exact (resolveTrick_refill s _ _).2.1
  · rintro s ⟨n, hn⟩
    have h := reachN_hands_le n s hn
    have hb := handBase_le (n / 4)
    have h0 := h 0
    have h1 := h 1
    simp only [getP, if_true, one_ne_zero, if_false] at h0 h1
    exact ⟨by omega, by omega⟩
  · intro n s s1 s2 p handIndex hreach hplay hlen hdeck hclose
    have hinv := reachN_gameInv hreach
    have hinv2 := reachN_gameInv (ReachN.step p handIndex hreach hplay hclose)
    obtain ⟨-, -, -, c, -, hs1⟩ := playCard_true s s1 p handIndex hplay
    have hdeck1 : s1.deck = s.deck := by rw [hs1]
    have hlen1 : s1.trick.cards.length = n % 4 + 1 := by
      rw [hs1]
      simp only [List.length_append, List.length_cons, List.length_nil]
      rw [(reachN_inv hreach).trick_len]
    have hdl := hinv.deck_len
    have hA := hinv2.hand_starter
    have hB := hinv2.hand_other
    have hmod : (n + 1) % 4 = 0 := by omega
    have ht : (n + 1) / 4 ≤ 8 := by
      rw [hdeck1, hdl] at hdeck
      omega
    rw [hmod] at hA hB
    have hbase : handBase ((n + 1) / 4) = 4 := by
      unfold handBase
      rw [if_pos ht]
    rw [hbase] at hA hB
    rcases fin2_cases s2.trick.starterPlayer with h0 | h0 <;> rw [h0] at hA hB <;>
      simp only [getP, sub_self, sub_zero, if_true, one_ne_zero, if_false] at hA hB <;>
      exact ⟨by omega, by omega⟩

/-- C15 at the sample game: the first trick is closed with 31 cards in the deck. -/
theorem refill_draws_in_turn_witness :
    (ReachN 3 threeCardState ∧ playCard threeCardState 1 0 = (true, sampleTrickState) ∧
        sampleTrickState.trick.cards.length = 4 ∧ 4 ≤ sampleTrickState.deck.length ∧
        maybeCloseTrick sampleTrickState = some firstTrickState) ∧
      (firstTrickState.hands.1.length = 4 ∧ firstTrickState.hands.2.length = 4) :=
  ⟨⟨reachN_threeCardState, playCard_threeCardState, rfl, by decide,
      maybeCloseTrick_sampleTrickState⟩,
    refill_draws_in_turn.2.2.2.2.2 3 threeCardState sampleTrickState firstTrickState 1 0
      reachN_threeCardState playCard_threeCardState rfl (by decide)
      maybeCloseTrick_sampleTrickState⟩
theorem playCard_trumpCardGiven (s : GameState) (p handIndex : Int) :
    (playCard s p handIndex).2.trumpCardGiven = s.trumpCardGiven := by
  cases hb : (playCard s p handIndex).1 with
  | false => rw [playCard_false_state s p handIndex hb]
  | true =>
    obtain ⟨-, -, -, c, -, hs1⟩ := playCard_true s (playCard s p handIndex).2 p handIndex
      (Prod.ext hb rfl)
    rw [hs1]

theorem giveTrump_trumpCardGiven (s : GameState) (w l : Fin 2)
    (h : s.trumpCardGiven = true) : (giveTrump s w l).trumpCardGiven = true := by
  rw [(giveTrump_cases s w l).1 h]
  exact h

/-- C16: with the trump card not yet handed out, the hand-out block of `maybeCloseTrick`
appends it to the loser's hand if the loser holds fewer than 4 cards, else to the
winner's hand if the winner holds fewer than 4 cards, setting `trumpCardGiven` in both
cases, and hands out nothing if neither needs a card; the block runs on the state left
by the refill; and once `trumpCardGiven` is true the block does nothing and neither
`playCard` nor `maybeCloseTrick` resets the flag. -/
theorem trump_handed_out_once :
    (∀ (s : GameState) (w l : Fin 2),
        s.trumpCardGiven = false → (getP s.hands l).length < 4 →
        giveTrump s w l =
          { s with
            hands := setP s.hands l (getP s.hands l ++ [s.trumpCard])
            trumpCardGiven := true }) ∧
      (∀ (s : GameState) (w l : Fin 2),
        s.trumpCardGiven = false → 4 ≤ (getP s.hands l).length →
        (getP s.hands w).length < 4 →
        giveTrump s w l =
          { s with
            hands := setP s.hands w (getP s.hands w ++ [s.trumpCard])
            trumpCardGiven := true }) ∧
      (∀ (s : GameState) (w l : Fin 2),
        s.trumpCardGiven = false → 4 ≤ (getP s.hands l).length →
        4 ≤ (getP s.hands w).length → giveTrump s w l = s) ∧
      (∀ (s : GameState) (w l : Fin 2), s.trumpCardGiven = true → giveTrump s w l = s) ∧
      (∀ (s : GameState) (c0 c1 c2 c3 : Card), s.trick.cards = [c0, c1, c2, c3] →
        ∃ (w : Fin 2) (pts : Int) (s2 : GameState),
          evaluateTrick s = some (w, pts) ∧ maybeCloseTrick s = some s2 ∧
          s2.hands = (giveTrump (refill s w (1 - w)) w (1 - w)).hands ∧
          s2.trumpCardGiven = (giveTrump (refill s w (1 - w)) w (1 - w)).trumpCardGiven ∧
          (refill s w (1 - w)).trumpCardGiven = s.trumpCardGiven ∧
          (refill s w (1 - w)).trumpCard = s.trumpCard) ∧
      (∀ (s : GameState) (p handIndex : Int), s.trumpCardGiven = true →
        (playCard s p handIndex).2.trumpCardGiven = true) ∧
      (∀ s s2 : GameState, s.trumpCardGiven = true → maybeCloseTrick s = some s2 →
        s2.trumpCardGiven = true) := by
  refine ⟨fun s w l => (giveTrump_cases s w l).2.1, fun s w l => (giveTrump_cases s w l).2.2.1,
    fun s w l => (giveTrump_cases s w l).2.2.2, fun s w l => (giveTrump_cases s w l).1,
    ?_, ?_, ?_⟩
  · intro s c0 c1 c2 c3 hc
    refine ⟨_, _, _, evaluateTrick_of_four s c0 c1 c2 c3 hc,
      maybeCloseTrick_of_four s c0 c1 c2 c3 hc, (resolveTrick_refill s _ _).2.1,
      (resolveTrick_refill s _ _).2.2, refill_trumpCardGiven s _ _, ?_⟩
    unfold refill
    rw [(drawIfNeeded_frame _ _).2.2.2.2.1, (drawIfNeeded_frame _ _).2.2.2.2.1,
      (drawIfNeeded_frame _ _).2.2.2.2.1, (drawIfNeeded_frame _ _).2.2.2.2.1]
  · intro s p handIndex hg
    rw [playCard_trumpCardGiven, hg]
  · intro s s2 hg hclose
    unfold maybeCloseTrick at hclose
    split_ifs at hclose with hlt
    · cases hclose
      exact hg
    · cases he : evaluateTrick s with
      | none => rw [he] at hclose; cases hclose
      | some r =>
        rw [he] at hclose
        simp only [Option.some.injEq] at hclose
        subst hclose
        rw [(resolveTrick_refill s r.1 r.2).2.2]
        exact giveTrump_trumpCardGiven _ _ _ (by rw [refill_trumpCardGiven]; exact hg)

/-- C16 at the sample game after its eighth trick, where the trump card is handed out:
the hand-out block leaves the state alone and the next move keeps the flag. -/
theorem trump_handed_out_once_witness :
    eighthTrickState.trumpCardGiven = true ∧
      giveTrump eighthTrickState 0 1 = eighthTrickState ∧
      (playCard eighthTrickState 0 0).2.trumpCardGiven = true :=
  ⟨rfl, trump_handed_out_once.2.2.2.1 eighthTrickState 0 1 rfl,
    trump_handed_out_once.2.2.2.2.2.1 eighthTrickState 0 0 rfl⟩

/-- C17: in every state reached from `newGame` by `n` legal moves, `trumpCardGiven` is
true if and only if the deck is empty, and both hold exactly from the resolution of
the eighth trick on (`32 ≤ n`), the resolution that draws the last deck cards. -/
theorem trump_given_iff_deck_empty (n : Nat) (s : GameState) (h : ReachN n s) :
    (s.trumpCardGiven = true ↔ s.deck = []) ∧ (s.trumpCardGiven = true ↔ 32 ≤ n) ∧
      (s.deck = [] ↔ 32 ≤ n) := by
  have hinv := reachN_gameInv h
  have hd := hinv.deck_len
  have hg := hinv.given
  have h1 : s.trumpCardGiven = true ↔ 32 ≤ n := by
    rw [hg, decide_eq_true_iff]
    omega
  have h2 : s.deck = [] ↔ 32 ≤ n := by
    rw [← List.length_eq_zero, hd]
    omega
  exact ⟨h1.trans h2.symm, h1, h2⟩

/-- C17 at the sample game: after the eighth trick the deck is empty and the trump card
is handed out. -/
theorem trump_given_iff_deck_empty_witness :
    ReachN 32 eighthTrickState ∧ eighthTrickState.trumpCardGiven = true ∧
      eighthTrickState.deck = [] ∧
      ((eighthTrickState.trumpCardGiven = true ↔ eighthTrickState.deck = []) ∧
        (eighthTrickState.trumpCardGiven = true ↔ 32 ≤ 32) ∧
        (eighthTrickState.deck = [] ↔ 32 ≤ 32)) :=
  ⟨reachN_eighthTrickState, rfl, rfl,
    trump_given_iff_deck_empty 32 eighthTrickState reachN_eighthTrickState⟩

/-! ## Feature extraction -/

theorem suitIdx_lt (s : Suit) : suitIdx s < 4 := by
  cases s <;> decide

theorem rankIdx_lt (r : Rank) : rankIdx r < 10 := by
  cases r <;> decide

theorem cardIndex_lt (c : Card) : cardIndex c < 40 := by
  have h1 := suitIdx_lt c.suit
  have h2 := rankIdx_lt c.rank
  unfold cardIndex
  omega

theorem cardIndex_injective (a b : Card) (h : cardIndex a = cardIndex b) : a = b := by
  obtain ⟨sa, ra⟩ := a
  obtain ⟨sb, rb⟩ := b
  cases sa <;> cases sb <;> cases ra <;> cases rb <;> first | rfl | (revert h; decide)

theorem markCards_length {F : Type} (fo : FloatOps F) (feat : List F) (base : Nat)
    (cards : List Card) : (markCards fo feat base cards).length = feat.length := by
  unfold markCards
  induction cards generalizing feat with
  | nil => rfl
  | cons c t ih =>
    rw [List.foldl_cons, ih, List.length_set]

/-- What a marking loop leaves in slot `j`. -/
theorem markCards_getElem? {F : Type} (fo : FloatOps F) (feat : List F) (base : Nat)
    (cards : List Card) (j : Nat) :
    (markCards fo feat base cards)[j]? =
      if j < feat.length ∧ ∃ c ∈ cards, base + cardIndex c = j then some (fo.ofRat 1)
      else feat[j]? := by
  unfold markCards
  induction cards generalizing feat with
  | nil => simp
  | cons c t ih =>
    rw [List.foldl_cons, ih, List.length_set]
    by_cases hj : j < feat.length
    · by_cases hc : base + cardIndex c = j
      · by_cases ht : ∃ c ∈ t, base + cardIndex c = j
        · rw [if_pos ⟨hj, ht⟩, if_pos ⟨hj, by
            obtain ⟨c', hc', h'⟩ := ht
            exact ⟨c', List.mem_cons_of_mem _ hc', h'⟩⟩]
        · rw [if_neg (fun h => ht h.2), if_pos ⟨hj, c, List.mem_cons_self _ _, hc⟩, ← hc,
            List.getElem?_set_self (by omega)]
      · by_cases ht : ∃ c ∈ t, base + cardIndex c = j
        · rw [if_pos ⟨hj, ht⟩, if_pos ⟨hj, by
            obtain ⟨c', hc', h'⟩ := ht
            exact ⟨c', List.mem_cons_of_mem _ hc', h'⟩⟩]
        · rw [if_neg (fun h => ht h.2), List.getElem?_set_ne hc, if_neg]
          rintro ⟨-, c', hc', h'⟩
          rcases List.mem_cons.1 hc' with rfl | hmem
          · exact hc h'
          · exact ht ⟨c', hmem, h'⟩
    · rw [if_neg (fun h => hj h.1), if_neg (fun h => hj h.1)]
      rw [List.getElem?_eq_none (by rw [List.length_set]; omega),
        List.getElem?_eq_none (by omega)]

theorem markCards_getElem?_out {F : Type} (fo : FloatOps F) (feat : List F) (base : Nat)
    (cards : List Card) (j : Nat) (h : j < base ∨ base + 40 ≤ j) :
    (markCards fo feat base cards)[j]? = feat[j]? := by
  rw [markCards_getElem?, if_neg]
  rintro ⟨-, c, -, hc⟩
  have := cardIndex_lt c
  omega

theorem markCards_getElem?_in {F : Type} (fo : FloatOps F) (feat : List F) (base : Nat)
    (cards : List Card) (k : Card) (h : base + cardIndex k < feat.length) :
    (markCards fo feat base cards)[base + cardIndex k]? =
      if k ∈ cards then some (fo.ofRat 1) else feat[base + cardIndex k]? := by
  rw [markCards_getElem?]
  by_cases hk : k ∈ cards
  · rw [if_pos ⟨h, k, hk, rfl⟩, if_pos hk]
  · rw [if_neg, if_neg hk]
    rintro ⟨-, c, hc, heq⟩
    have : c = k := cardIndex_injective c k (by omega)
    exact hk (this ▸ hc)
theorem extractFeatures_length {F : Type} (fo : FloatOps F) (st : GameState) (v : Fin 2)
    (perfectInfo : Bool) : (extractFeatures fo st v perfectInfo).length = 178 := by
  unfold extractFeatures encodeTrumpRankOneHot
  simp only []
  cases perfectInfo <;> split_ifs <;>
    simp only [List.length_set, markCards_length, List.length_replicate]

theorem markCards_nil {F : Type} (fo : FloatOps F) (feat : List F) (base : Nat) :
    markCards fo feat base [] = feat :=
  rfl

/-- The feature vector without the two guards on `int` indices, which always hold, and
with the two loops under `if (perfectInfo)` written as loops over a list that is empty
when `perfectInfo` is false. -/
theorem extractFeatures_eq {F : Type} (fo : FloatOps F) (st : GameState) (v : Fin 2)
    (perfectInfo : Bool) :
    extractFeatures fo st v perfectInfo =
      ((markCards fo
          (markCards fo
            (markCards fo
              (((((markCards fo
                  (markCards fo
                    (markCards fo (List.replicate 178 (fo.ofRat 0)) 0 (getP st.hands v)) 40
                    (if perfectInfo then getP st.hands (1 - v) else []))
                  80 st.trick.cards).set 120
                    (fo.div (fo.ofRat ((getP st.score v : Int) : ℚ)) (fo.ofRat 120))).set 121
                    (fo.div (fo.ofRat ((getP st.score (1 - v) : Int) : ℚ)) (fo.ofRat 120))).set
                  122 (fo.div (fo.ofRat ((st.deck.length : Nat) : ℚ)) (fo.ofRat 40))).set
                (123 + suitIdx st.trumpSuit) (fo.ofRat 1))
              127 (getP st.hands v))
            127 st.trick.cards)
          127 (if perfectInfo then getP st.hands (1 - v) else [])).set 167
          (if st.trumpCardGiven then fo.ofRat 1 else fo.ofRat 0)).set
        (168 + rankIdx st.trumpCard.rank) (fo.ofRat 1) := by
  have hr : (0 : Int) ≤ (rankIdx st.trumpCard.rank : Int) ∧
      (rankIdx st.trumpCard.rank : Int) < 10 := by
    have := rankIdx_lt st.trumpCard.rank
    omega
  have hs : (0 : Int) ≤ (suitIdx st.trumpSuit : Int) ∧ (suitIdx st.trumpSuit : Int) < 4 := by
    have := suitIdx_lt st.trumpSuit
    omega
  unfold extractFeatures encodeTrumpRankOneHot
  simp only []
  rw [if_pos hr, if_pos hs, Int.toNat_ofNat, Int.toNat_ofNat]
  cases perfectInfo
  · simp only [Bool.false_eq_true, if_false, markCards_nil]
  · simp only [if_true]

theorem markCards_getElem?_zero {F : Type} (fo : FloatOps F) (feat : List F)
    (cards : List Card) (k : Card) (h : cardIndex k < feat.length) :
    (markCards fo feat 0 cards)[cardIndex k]? =
      if k ∈ cards then some (fo.ofRat 1) else feat[cardIndex k]? := by
  have := markCards_getElem?_in fo feat 0 cards k (by omega)
  simpa using this

theorem extractFeatures_own {F : Type} (fo : FloatOps F) (st : GameState) (v : Fin 2)
    (perfectInfo : Bool) (k : Card) :
    (extractFeatures fo st v perfectInfo)[cardIndex k]? =
      some (if k ∈ getP st.hands v then fo.ofRat 1 else fo.ofRat 0) := by
  have hk := cardIndex_lt k
  have hs := suitIdx_lt st.trumpSuit
  have hr := rankIdx_lt st.trumpCard.rank
  rw [extractFeatures_eq]
  simp (disch := omega) only [List.getElem?_set_ne, markCards_getElem?_out]
  rw [markCards_getElem?_zero fo _ _ k (by rw [List.length_replicate]; omega),
    List.getElem?_replicate_of_lt (by omega)]
  split_ifs <;> rfl

theorem extractFeatures_opp {F : Type} (fo : FloatOps F) (st : GameState) (v : Fin 2)
    (perfectInfo : Bool) (k : Card) :
    (extractFeatures fo st v perfectInfo)[40 + cardIndex k]? =
      some (if perfectInfo = true ∧ k ∈ getP st.hands (1 - v) then fo.ofRat 1
        else fo.ofRat 0) := by
  have hk := cardIndex_lt k
  have hs := suitIdx_lt st.trumpSuit
  have hr := rankIdx_lt st.trumpCard.rank
  rw [extractFeatures_eq]
  simp (disch := omega) only [List.getElem?_set_ne, markCards_getElem?_out]
  rw [markCards_getElem?_in fo _ 40 _ k
      (by rw [markCards_length, List.length_replicate]; omega)]
  simp (disch := omega) only [markCards_getElem?_out]
  rw [List.getElem?_replicate_of_lt (by omega)]
  cases perfectInfo
  · simp
  · simp only [true_and, if_true]
    split_ifs <;> rfl

theorem extractFeatures_trick {F : Type} (fo : FloatOps F) (st : GameState) (v : Fin 2)
    (perfectInfo : Bool) (k : Card) :
    (extractFeatures fo st v perfectInfo)[80 + cardIndex k]? =
      some (if k ∈ st.trick.cards then fo.ofRat 1 else fo.ofRat 0) := by
  have hk := cardIndex_lt k
  have hs := suitIdx_lt st.trumpSuit
  have hr := rankIdx_lt st.trumpCard.rank
  rw [extractFeatures_eq]
  simp (disch := omega) only [List.getElem?_set_ne, markCards_getElem?_out]
  rw [markCards_getElem?_in fo _ 80 _ k
      (by rw [markCards_length, markCards_length, List.length_replicate]; omega)]
  simp (disch := omega) only [markCards_getElem?_out]
  rw [List.getElem?_replicate_of_lt (by omega)]
  split_ifs <;> rfl

theorem extractFeatures_known {F : Type} (fo : FloatOps F) (st : GameState) (v : Fin 2)
    (perfectInfo : Bool) (k : Card) :
    (extractFeatures fo st v perfectInfo)[127 + cardIndex k]? =
      some (if k ∈ getP st.hands v ∨ k ∈ st.trick.cards ∨
          (perfectInfo = true ∧ k ∈ getP st.hands (1 - v)) then fo.ofRat 1
        else fo.ofRat 0) := by
  have hk := cardIndex_lt k
  have hs := suitIdx_lt st.trumpSuit
  have hr := rankIdx_lt st.trumpCard.rank
  rw [extractFeatures_eq]
  simp (disch := omega) only [List.getElem?_set_ne]
  rw [markCards_getElem?_in fo _ 127 _ k (by
      simp only [markCards_length, List.length_set, List.length_replicate]; omega)]
  rw [markCards_getElem?_in fo _ 127 _ k (by
      simp only [markCards_length, List.length_set, List.length_replicate]; omega)]
  rw [markCards_getElem?_in fo _ 127 _ k (by
      simp only [markCards_length, List.length_set, List.length_replicate]; omega)]
  simp (disch := omega) only [List.getElem?_set_ne, markCards_getElem?_out]
  rw [List.getElem?_replicate_of_lt (by omega)]
  cases perfectInfo <;> by_cases h1 : k ∈ getP st.hands v <;>
    by_cases h2 : k ∈ st.trick.cards <;> by_cases h3 : k ∈ getP st.hands (1 - v) <;>
    simp [h1, h2, h3]

theorem extractFeatures_scalars {F : Type} (fo : FloatOps F) (st : GameState) (v : Fin 2)
    (perfectInfo : Bool) :
    (extractFeatures fo st v perfectInfo)[120]? =
        some (fo.div (fo.ofRat ((getP st.score v : Int) : ℚ)) (fo.ofRat 120)) ∧
      (extractFeatures fo st v perfectInfo)[121]? =
        some (fo.div (fo.ofRat ((getP st.score (1 - v) : Int) : ℚ)) (fo.ofRat 120)) ∧
      (extractFeatures fo st v perfectInfo)[122]? =
        some (fo.div (fo.ofRat ((st.deck.length : Nat) : ℚ)) (fo.ofRat 40)) ∧
      (extractFeatures fo st v perfectInfo)[167]? =
        some (if st.trumpCardGiven then fo.ofRat 1 else fo.ofRat 0) := by
  have hs := suitIdx_lt st.trumpSuit
  have hr := rankIdx_lt st.trumpCard.rank
  rw [extractFeatures_eq]
  refine ⟨?_, ?_, ?_, ?_⟩
  · simp (disch := omega) only [List.getElem?_set_ne, markCards_getElem?_out]
    rw [List.getElem?_set_self (by
      simp only [markCards_length, List.length_set, List.length_replicate]; omega)]
  · simp (disch := omega) only [List.getElem?_set_ne, markCards_getElem?_out]
    rw [List.getElem?_set_self (by
      simp only [markCards_length, List.length_set, List.length_replicate]; omega)]
  · simp (disch := omega) only [List.getElem?_set_ne, markCards_getElem?_out]
    rw [List.getElem?_set_self (by
      simp only [markCards_length, List.length_set, List.length_replicate]; omega)]
  · simp (disch := omega) only [List.getElem?_set_ne, markCards_getElem?_out]
    rw [List.getElem?_set_self (by
      simp only [markCards_length, List.length_set, List.length_replicate]; omega)]

theorem extractFeatures_trumpSuit {F : Type} (fo : FloatOps F) (st : GameState) (v : Fin 2)
    (perfectInfo : Bool) (i : Nat) (hi : i < 4) :
    (extractFeatures fo st v perfectInfo)[123 + i]? =
      some (if suitIdx st.trumpSuit = i then fo.ofRat 1 else fo.ofRat 0) := by
  have hs := suitIdx_lt st.trumpSuit
  have hr := rankIdx_lt st.trumpCard.rank
  rw [extractFeatures_eq]
  simp (disch := omega) only [List.getElem?_set_ne, markCards_getElem?_out]
  by_cases h : suitIdx st.trumpSuit = i
  · rw [if_pos h, h, List.getElem?_set_self (by
      simp only [markCards_length, List.length_set, List.length_replicate]; omega)]
  · rw [if_neg h]
    simp (disch := omega) only [List.getElem?_set_ne, markCards_getElem?_out]
    rw [List.getElem?_replicate_of_lt (by omega)]

theorem extractFeatures_trumpRank {F : Type} (fo : FloatOps F) (st : GameState) (v : Fin 2)
    (perfectInfo : Bool) (i : Nat) (hi : i < 10) :
    (extractFeatures fo st v perfectInfo)[168 + i]? =
      some (if rankIdx st.trumpCard.rank = i then fo.ofRat 1 else fo.ofRat 0) := by
  have hs := suitIdx_lt st.trumpSuit
  have hr := rankIdx_lt st.trumpCard.rank
  rw [extractFeatures_eq]
  by_cases h : rankIdx st.trumpCard.rank = i
  · rw [if_pos h, h, List.getElem?_set_self (by
      simp only [markCards_length, List.length_set, List.length_replicate]; omega)]
  · rw [if_neg h]
    simp (disch := omega) only [List.getElem?_set_ne, markCards_getElem?_out]
    rw [List.getElem?_replicate_of_lt (by omega)]
theorem cardIndex_surjective (k : Nat) (h : k < 40) : ∃ c : Card, cardIndex c = k := by
  have key : ∀ k : Fin 40, ∃ c ∈ makeDeckLocal, cardIndex c = k.val := by decide
  obtain ⟨c, -, hc⟩ := key ⟨k, h⟩
  exact ⟨c, hc⟩

theorem extractFeatures_congr {F : Type} (fo : FloatOps F) (v : Fin 2) (pi : Bool)
    (s1 s2 : GameState)
    (hhand : getP s1.hands v = getP s2.hands v)
    (hopp : pi = true → getP s1.hands (1 - v) = getP s2.hands (1 - v))
    (htrick : s1.trick.cards = s2.trick.cards) (hscore : s1.score = s2.score)
    (hdeck : s1.deck.length = s2.deck.length) (hsuit : s1.trumpSuit = s2.trumpSuit)
    (hcard : s1.trumpCard = s2.trumpCard)
    (hgiven : s1.trumpCardGiven = s2.trumpCardGiven) :
    extractFeatures fo s1 v pi = extractFeatures fo s2 v pi := by
  rw [extractFeatures_eq, extractFeatures_eq, hhand, htrick, hscore, hdeck, hsuit, hcard, hgiven]
  cases pi
  · rfl
  · rw [hopp rfl]

/-- C18: with `perfectInfo = false`, two states that agree on the hand of the viewpoint
player `v`, the cards of the trick, both scores, the size of the deck, `trumpSuit`,
`trumpCard` and `trumpCardGiven` have the same feature vector, whatever the other hand
and the deck hold; and every slot 40..79 of the vector is 0. -/
theorem extractFeatures_hides_opponent {F : Type} (fo : FloatOps F) (v : Fin 2)
    (s1 s2 : GameState)
    (hhand : getP s1.hands v = getP s2.hands v)
    (htrick : s1.trick.cards = s2.trick.cards) (hscore : s1.score = s2.score)
    (hdeck : s1.deck.length = s2.deck.length) (hsuit : s1.trumpSuit = s2.trumpSuit)
    (hcard : s1.trumpCard = s2.trumpCard)
    (hgiven : s1.trumpCardGiven = s2.trumpCardGiven) :
    extractFeatures fo s1 v false = extractFeatures fo s2 v false ∧
      ∀ j : Nat, 40 ≤ j → j < 80 →
        (extractFeatures fo s1 v false)[j]? = some (fo.ofRat 0) := by
  refine ⟨extractFeatures_congr fo v false s1 s2 hhand (fun h => by cases h) htrick hscore
    hdeck hsuit hcard hgiven, fun j h1 h2 => ?_⟩
  obtain ⟨c, hc⟩ := cardIndex_surjective (j - 40) (by omega)
  have hj : j = 40 + cardIndex c := by omega
  rw [hj, extractFeatures_opp]
  simp

/-- C18 at two states of the sample game that differ in the other player's hand and in
the deck. -/
theorem extractFeatures_hides_opponent_witness :
    (getP threeCardState.hands 1 = getP swappedHandState.hands 1 ∧
        getP threeCardState.hands 0 ≠ getP swappedHandState.hands 0 ∧
        threeCardState.deck ≠ swappedHandState.deck) ∧
      (extractFeatures exactOps threeCardState 1 false =
          extractFeatures exactOps swappedHandState 1 false ∧
        ∀ j : Nat, 40 ≤ j → j < 80 →
          (extractFeatures exactOps threeCardState 1 false)[j]? = some (exactOps.ofRat 0)) :=
  ⟨⟨rfl, by decide, by decide⟩,
    extractFeatures_hides_opponent exactOps 1 threeCardState swappedHandState rfl rfl rfl rfl
      rfl rfl rfl⟩

/-- C19: `extractFeatures` returns 178 values.  For every card `c`, with `k` its index
(every `k` in 0..39 is the index of a card): slot `k` is 1 if the viewpoint player
holds `c`, slot `40 + k` is 1 if `perfectInfo` is set and the other player holds `c`,
slot `80 + k` is 1 if `c` lies in the trick, slot `127 + k` is 1 if `c` is in the
viewpoint player's hand, in the trick, or (with `perfectInfo`) in the other hand, and
each of these slots is 0 otherwise.  Slots 120, 121, 122 are the viewpoint player's
score over 120, the other score over 120 and the deck size over 40; slots 123..126
and 168..177 are one-hot encodings of the trump suit and of the trump card's rank;
slot 167 is 1 if `trumpCardGiven` and 0 otherwise.  Where 1 and 0 are different
`float` values, "is 1" is equivalent to the stated condition. -/
theorem extractFeatures_layout {F : Type} (fo : FloatOps F) (st : GameState) (v : Fin 2)
    (perfectInfo : Bool) :
    (extractFeatures fo st v perfectInfo).length = 178 ∧
      (∀ k : Nat, k < 40 → ∃ c : Card, cardIndex c = k) ∧
      (∀ c : Card, cardIndex c < 40 ∧
        (extractFeatures fo st v perfectInfo)[cardIndex c]? =
          some (if c ∈ getP st.hands v then fo.ofRat 1 else fo.ofRat 0) ∧
        (extractFeatures fo st v perfectInfo)[40 + cardIndex c]? =
          some (if perfectInfo = true ∧ c ∈ getP st.hands (1 - v) then fo.ofRat 1
            else fo.ofRat 0) ∧
        (extractFeatures fo st v perfectInfo)[80 + cardIndex c]? =
          some (if c ∈ st.trick.cards then fo.ofRat 1 else fo.ofRat 0) ∧
        (extractFeatures fo st v perfectInfo)[127 + cardIndex c]? =
          some (if c ∈ getP st.hands v ∨ c ∈ st.trick.cards ∨
              (perfectInfo = true ∧ c ∈ getP st.hands (1 - v)) then fo.ofRat 1
            else fo.ofRat 0)) ∧
      (extractFeatures fo st v perfectInfo)[120]? =
        some (fo.div (fo.ofRat ((getP st.score v : Int) : ℚ)) (fo.ofRat 120)) ∧
      (extractFeatures fo st v perfectInfo)[121]? =
        some (fo.div (fo.ofRat ((getP st.score (1 - v) : Int) : ℚ)) (fo.ofRat 120)) ∧
      (extractFeatures fo st v perfectInfo)[122]? =
        some (fo.div (fo.ofRat ((st.deck.length : Nat) : ℚ)) (fo.ofRat 40)) ∧
      (∀ i : Nat, i < 4 →
        (extractFeatures fo st v perfectInfo)[123 + i]? =
          some (if suitIdx st.trumpSuit = i then fo.ofRat 1 else fo.ofRat 0)) ∧
      (extractFeatures fo st v perfectInfo)[167]? =
        some (if st.trumpCardGiven then fo.ofRat 1 else fo.ofRat 0) ∧
      (∀ i : Nat, i < 10 →
        (extractFeatures fo st v perfectInfo)[168 + i]? =
          some (if rankIdx st.trumpCard.rank = i then fo.ofRat 1 else fo.ofRat 0)) ∧
      (fo.ofRat 1 ≠ fo.ofRat 0 → ∀ c : Card,
        ((extractFeatures fo st v perfectInfo)[cardIndex c]? = some (fo.ofRat 1) ↔
          c ∈ getP st.hands v) ∧
        ((extractFeatures fo st v perfectInfo)[40 + cardIndex c]? = some (fo.ofRat 1) ↔
          (perfectInfo = true ∧ c ∈ getP st.hands (1 - v))) ∧
        ((extractFeatures fo st v perfectInfo)[80 + cardIndex c]? = some (fo.ofRat 1) ↔
          c ∈ st.trick.cards) ∧
        ((extractFeatures fo st v perfectInfo)[127 + cardIndex c]? = some (fo.ofRat 1) ↔
          (c ∈ getP st.hands v ∨ c ∈ st.trick.cards ∨
            (perfectInfo = true ∧ c ∈ getP st.hands (1 - v))))) := by
  have hsc := extractFeatures_scalars fo st v perfectInfo
  have hiff : ∀ (P : Prop) [Decidable P], fo.ofRat 1 ≠ fo.ofRat 0 →
      (some (if P then fo.ofRat 1 else fo.ofRat 0) = some (fo.ofRat 1) ↔ P) := by
    intro P _ h01
    by_cases hP : P
    · simp [hP]
    · simp only [hP, if_false, Option.some.injEq, iff_false]
      exact fun h => h01 h.symm
  refine ⟨extractFeatures_length fo st v perfectInfo, cardIndex_surjective, fun c =>
    ⟨cardIndex_lt c, extractFeatures_own fo st v perfectInfo c,
      extractFeatures_opp fo st v perfectInfo c, extractFeatures_trick fo st v perfectInfo c,
      extractFeatures_known fo st v perfectInfo c⟩,
    hsc.1, hsc.2.1, hsc.2.2.1, extractFeatures_trumpSuit fo st v perfectInfo, hsc.2.2.2,
    extractFeatures_trumpRank fo st v perfectInfo, fun h01 c => ⟨?_, ?_, ?_, ?_⟩⟩
  · rw [extractFeatures_own]
    exact hiff _ h01
  · rw [extractFeatures_opp]
    exact hiff _ h01
  · rw [extractFeatures_trick]
    exact hiff _ h01
  · rw [extractFeatures_known]
    exact hiff _ h01

set_option maxRecDepth 1000000 in
theorem searchBestMoveID_threeCardState :
    (searchBestMoveID exactOps 4 4 [] threeCardState sampleWeights 1 false).map
      (fun r => (r.1.eval, r.1.chosenMoveIndex)) = some (ExtRat.fin 1, 0) := by
  decide!

set_option maxRecDepth 1000000 in
theorem searchBestMoveID_swappedDeckState :
    (searchBestMoveID exactOps 4 4 [] swappedDeckState sampleWeights 1 false).map
      (fun r => (r.1.eval, r.1.chosenMoveIndex)) = some (ExtRat.fin 0, 0) := by
  decide!

set_option maxRecDepth 1000000 in
theorem threeCardState_deck :
    threeCardState.deck =
      threeCardState.deck.take 29 ++ [⟨Suit.Espadas, Rank.R2⟩, ⟨Suit.Espadas, Rank.R3⟩] := by
  decide

set_option maxRecDepth 1000000 in
theorem extractFeatures_swappedDeckState :
    extractFeatures exactOps threeCardState 1 false =
      extractFeatures exactOps swappedDeckState 1 false :=
  extractFeatures_congr exactOps 1 false threeCardState swappedDeckState rfl (fun _ => rfl)
    rfl rfl (by decide) rfl rfl rfl

/-- C20 (the code departs from its documented behaviour): with `perfectInfo = false`
the result of `searchBestMoveID` depends on hidden cards. `threeCardState` is reached
after three moves of a new game, with player 1 to move; `swappedDeckState` is the same
state with the two top cards of the deck, the 2 and the 3 of Espadas, exchanged, so the
two agree on both hands, the trick, the scores, the trump card and the deck size, and
player 1 is given the same feature vector in both. With weights whose network outputs
the feature saying that the viewer holds the 2 of Espadas, a search of depth 1 from an empty table
returns the evaluation 1 on the first state and 0 on the second: the search plays on
the true state, and the card drawn from the top of the deck when the trick closes
reaches the evaluated hand. -/
theorem searchBestMoveID_depends_on_hidden_deck :
    Reachable threeCardState ∧ threeCardState.currentPlayer = 1 ∧
      swappedDeckState = { threeCardState with deck := swappedDeckState.deck } ∧
      threeCardState.deck =
        threeCardState.deck.take 29 ++ [⟨Suit.Espadas, Rank.R2⟩, ⟨Suit.Espadas, Rank.R3⟩] ∧
      swappedDeckState.deck =
        threeCardState.deck.take 29 ++ [⟨Suit.Espadas, Rank.R3⟩, ⟨Suit.Espadas, Rank.R2⟩] ∧
      extractFeatures exactOps threeCardState 1 false =
        extractFeatures exactOps swappedDeckState 1 false ∧
      (searchBestMoveID exactOps 4 4 [] threeCardState sampleWeights 1 false).map
        (fun r => (r.1.eval, r.1.chosenMoveIndex)) = some (ExtRat.fin 1, 0) ∧
      (searchBestMoveID exactOps 4 4 [] swappedDeckState sampleWeights 1 false).map
        (fun r => (r.1.eval, r.1.chosenMoveIndex)) = some (ExtRat.fin 0, 0) :=
  ⟨⟨3, reachN_threeCardState⟩, rfl, rfl, threeCardState_deck, rfl,
    extractFeatures_swappedDeckState,
    searchBestMoveID_threeCardState, searchBestMoveID_swappedDeckState⟩

theorem wordOfBytes_bytesOfWord (n : Nat) (h : n < 4294967296) :
    wordOfBytes (bytesOfWord n) = n := by
  simp only [bytesOfWord, wordOfBytes]
  omega

theorem bitsOfInt_lt (i : Int) : bitsOfInt i < 4294967296 := by
  unfold bitsOfInt
  omega

theorem intOfBits_bitsOfInt (i : Int) (h1 : -2147483648 ≤ i) (h2 : i < 2147483648) :
    intOfBits (bitsOfInt i) = i := by
  unfold intOfBits bitsOfInt
  have h3 : (i % 4294967296).toNat % 4294967296 = (i % 4294967296).toNat := by omega
  rw [h3]
  split <;> omega

theorem bytesOfWord_length (n : Nat) : (bytesOfWord n).length = 4 := rfl

theorem bytesOfWords_nil : bytesOfWords [] = [] := rfl

theorem bytesOfWords_cons (x : Nat) (v : List Nat) :
    bytesOfWords (x :: v) = bytesOfWord x ++ bytesOfWords v := rfl

theorem bytesOfWords_length (v : List Nat) : (bytesOfWords v).length = 4 * v.length := by
  induction v with
  | nil => rfl
  | cons x v ih =>
    rw [bytesOfWords_cons, List.length_append, ih, bytesOfWord_length, List.length_cons]
    omega

theorem wordsOfBytes_bytesOfWords (v : List Nat) (h : ∀ x ∈ v, x < 4294967296) :
    wordsOfBytes (bytesOfWords v) = v := by
  induction v with
  | nil => rfl
  | cons x v ih =>
    have hx := h x (List.mem_cons_self x v)
    have hv := ih (fun y hy => h y (List.mem_cons_of_mem x hy))
    have e : bytesOfWords (x :: v) =
        x % 256 :: (x / 256 % 256) :: (x / 65536 % 256) :: (x / 16777216 % 256) ::
          bytesOfWords v := rfl
    rw [e, wordsOfBytes, hv]
    congr 1
    exact wordOfBytes_bytesOfWord x hx
theorem drop_next {data chunk rest : List Nat} {pos : Nat}
    (hd : data.drop pos = chunk ++ rest) : data.drop (pos + chunk.length) = rest := by
  rw [← List.drop_drop, hd, List.drop_left]

theorem read_eq (data : List Nat) (pos : Nat) (buf chunk rest : List Nat)
    (hd : data.drop pos = chunk ++ rest) (hl : buf.length = chunk.length) :
    IFStream.read { data := data, pos := pos, good := true } buf =
      (chunk, { data := data, pos := pos + chunk.length, good := true }) := by
  unfold IFStream.read
  simp only [Bool.not_true, Bool.false_eq_true, if_false, hd, hl, List.take_left,
    List.drop_of_length_le (Nat.le_of_eq hl), List.append_nil, decide_True]

theorem readInt_eq (data : List Nat) (pos : Nat) (old i : Int) (rest : List Nat)
    (hd : data.drop pos = bytesOfWord (bitsOfInt i) ++ rest) (hi : IntOK i) :
    readInt { data := data, pos := pos, good := true } old =
      (i, { data := data, pos := pos + 4, good := true }) := by
  unfold readInt
  simp only [read_eq data pos (bytesOfWord (bitsOfInt old)) _ rest hd rfl,
    wordOfBytes_bytesOfWord _ (bitsOfInt_lt i), intOfBits_bitsOfInt i hi.1 hi.2]
  rfl

theorem readFloat_eq (data : List Nat) (pos : Nat) (old x : Nat) (rest : List Nat)
    (hd : data.drop pos = bytesOfWord x ++ rest) (hx : x < 4294967296) :
    readFloat { data := data, pos := pos, good := true } old =
      (x, { data := data, pos := pos + 4, good := true }) := by
  unfold readFloat
  simp only [read_eq data pos (bytesOfWord old) _ rest hd rfl, wordOfBytes_bytesOfWord _ hx]
  rfl

theorem readFloats_eq (data : List Nat) (pos : Nat) (old v rest : List Nat)
    (hd : data.drop pos = bytesOfWords v ++ rest) (hl : old.length = v.length)
    (hv : WordsOK v) :
    readFloats { data := data, pos := pos, good := true } old =
      (v, { data := data, pos := pos + 4 * v.length, good := true }) := by
  unfold readFloats
  simp only [read_eq data pos (bytesOfWords old) _ rest hd
      (by rw [bytesOfWords_length, bytesOfWords_length, hl]),
    wordsOfBytes_bytesOfWords v hv, bytesOfWords_length]

theorem resize_length (v : List Nat) (n : Nat) : (resize v n).length = n := by
  unfold resize
  rw [List.length_append, List.length_take, List.length_replicate]
  omega

theorem vecSize_eq (a b : Int) (n : Nat) (h : (n : Int) = a * b) (hb : IntOK (a * b)) :
    vecSize a b = some n := by
  unfold vecSize
  rw [if_pos ⟨by omega, hb.2⟩]
  congr 1
  omega
theorem loadWeights_savedBytes (w w0 : NNUEWeights Nat) (hs : ShapesOK w)
    (hlo : 1 ≤ w.hidden2) (hhi : w.hidden2 ≤ 1024) :
    loadWeights w0 (some (savedBytes w)) = some (true, w) := by
  obtain ⟨hIn, hH1, hH2, hP1, hP2, hw1, hb1, hw2, hb2, hw3, vw1, vb1, vw2, vb2, vw3, vb3⟩ := hs
  have hB : savedBytes w =
      bytesOfWord (bitsOfInt w.inputSize) ++ (bytesOfWord (bitsOfInt w.hidden1) ++
        (bytesOfWord (bitsOfInt w.hidden2) ++ (bytesOfWords w.w1 ++ (bytesOfWords w.b1 ++
          (bytesOfWords w.w2 ++ (bytesOfWords w.b2 ++ (bytesOfWords w.w3 ++
            (bytesOfWord w.b3 ++ [])))))))) := by
    simp only [savedBytes, List.append_assoc, List.append_nil]
  have hd0 : (savedBytes w).drop 0 = _ := hB
  have hd1 : (savedBytes w).drop (0 + 4) = _ := drop_next hd0
  have hd2 : (savedBytes w).drop (0 + 4 + 4) = _ := drop_next hd1
  have hd3 : (savedBytes w).drop (0 + 4 + 4 + 4) = _ := drop_next hd2
  have hd4 : (savedBytes w).drop (0 + 4 + 4 + 4 + 4 * w.w1.length) =
      bytesOfWords w.b1 ++ (bytesOfWords w.w2 ++ (bytesOfWords w.b2 ++ (bytesOfWords w.w3 ++ (bytesOfWord w.b3 ++ [])))) := by
    have h := drop_next hd3
    rwa [bytesOfWords_length] at h
  have hd5 : (savedBytes w).drop (0 + 4 + 4 + 4 + 4 * w.w1.length + 4 * w.b1.length) =
      bytesOfWords w.w2 ++ (bytesOfWords w.b2 ++ (bytesOfWords w.w3 ++ (bytesOfWord w.b3 ++ []))) := by
    have h := drop_next hd4
    rwa [bytesOfWords_length] at h
  have hd6 : (savedBytes w).drop
      (0 + 4 + 4 + 4 + 4 * w.w1.length + 4 * w.b1.length + 4 * w.w2.length) =
      bytesOfWords w.b2 ++ (bytesOfWords w.w3 ++ (bytesOfWord w.b3 ++ [])) := by
    have h := drop_next hd5
    rwa [bytesOfWords_length] at h
  have hd7 : (savedBytes w).drop
      (0 + 4 + 4 + 4 + 4 * w.w1.length + 4 * w.b1.length + 4 * w.w2.length +
        4 * w.b2.length) =
      bytesOfWords w.w3 ++ (bytesOfWord w.b3 ++ []) := by
    have h := drop_next hd6
    rwa [bytesOfWords_length] at h
  have hd8 : (savedBytes w).drop
      (0 + 4 + 4 + 4 + 4 * w.w1.length + 4 * w.b1.length + 4 * w.w2.length +
        4 * w.b2.length + 4 * w.w3.length) =
      bytesOfWord w.b3 ++ [] := by
    have h := drop_next hd7
    rwa [bytesOfWords_length] at h
  have e0 := readInt_eq _ _ 0 _ _ hd0 hIn
  have e1 := readInt_eq _ _ 0 _ _ hd1 hH1
  have e2 := readInt_eq _ _ 0 _ _ hd2 hH2
  have s1 := vecSize_eq w.hidden1 w.inputSize _ hw1 hP1
  have s2 := vecSize_eq w.hidden1 1 w.b1.length (by rw [mul_one]; exact hb1)
    (by rw [mul_one]; exact hH1)
  have s3 := vecSize_eq w.hidden2 w.hidden1 _ hw2 hP2
  have s4 := vecSize_eq w.hidden2 1 w.b2.length (by rw [mul_one]; exact hb2)
    (by rw [mul_one]; exact hH2)
  have e3 := readFloats_eq _ _ (resize w0.w1 w.w1.length) _ _ hd3 (resize_length _ _) vw1
  have e4 := readFloats_eq _ _ (resize w0.b1 w.b1.length) _ _ hd4 (resize_length _ _) vb1
  have e5 := readFloats_eq _ _ (resize w0.w2 w.w2.length) _ _ hd5 (resize_length _ _) vw2
  have e6 := readFloats_eq _ _ (resize w0.b2 w.b2.length) _ _ hd6 (resize_length _ _) vb2
  have e7 := readFloats_eq _ _ (resize w0.w3 w.b2.length) _ _ hd7
    (by rw [resize_length]; omega) vw3
  have e8 := readFloat_eq _ _ w0.b3 _ _ hd8 vb3
  have c1 : decide (w.hidden2 < 0) = false := decide_eq_false (by omega)
  have c2 : decide (w.hidden2 > 1024) = false := decide_eq_false (by omega)
  unfold loadWeights
  dsimp only
  rw [e0]
  dsimp only
  rw [e1]
  dsimp only
  rw [e2]
  dsimp only
  rw [c1, c2, if_neg (by decide)]
  unfold loadNew
  rw [s1, s2, s3, s4]
  dsimp only
  rw [e3]
  dsimp only
  rw [e4]
  dsimp only
  rw [e5]
  dsimp only
  rw [e6]
  dsimp only
  rw [e7]
  dsimp only
  rw [e8]
theorem bitsOfInt_intOfBits (x : Nat) (h : x < 4294967296) : bitsOfInt (intOfBits x) = x := by
  unfold intOfBits bitsOfInt
  rw [Nat.mod_eq_of_lt h]
  split <;> omega

theorem intOK_intOfBits (x : Nat) : IntOK (intOfBits x) := by
  unfold IntOK intOfBits
  split <;> omega

theorem bytesOfWords_append (a b : List Nat) :
    bytesOfWords (a ++ b) = bytesOfWords a ++ bytesOfWords b := by
  unfold bytesOfWords
  rw [List.map_append, List.flatten_append]

theorem bytesOfWords_singleton (x : Nat) : bytesOfWords [x] = bytesOfWord x := by
  unfold bytesOfWords
  simp only [List.map_cons, List.map_nil, List.flatten_cons, List.flatten_nil, List.append_nil]

theorem dotRow_eq_fold {F : Type} (fo : FloatOps F) (bias : F) (row x : List F) (off n : Nat)
    (hrow : off + n ≤ row.length) (hx : n ≤ x.length) :
    dotRow fo bias row off x n =
      (List.range n).foldl
        (fun acc j => fo.add acc (fo.mul (readAt fo row (off + j)) (readAt fo x j))) bias := by
  unfold dotRow
  induction n with
  | zero => rfl
  | succ n ih =>
    have hlen : n < ((row.drop off).zip x).length := by
      rw [List.length_zip, List.length_drop]
      omega
    have hget : ((row.drop off).zip x)[n]? = some (readAt fo row (off + n), readAt fo x n) := by
      rw [List.getElem?_eq_getElem hlen, List.getElem_zip, List.getElem_drop]
      unfold readAt
      rw [List.getD_eq_getElem _ _ (by omega), List.getD_eq_getElem _ _ (by omega)]
    rw [List.take_succ, hget, List.range_succ, List.foldl_append, List.foldl_append,
      ih (by omega) (by omega)]
    rfl
theorem foldl_congr_mem {α β : Type} (f g : β → α → β) (l : List α) (b : β)
    (h : ∀ acc, ∀ a ∈ l, f acc a = g acc a) : l.foldl f b = l.foldl g b := by
  induction l generalizing b with
  | nil => rfl
  | cons a l ih =>
    rw [List.foldl_cons, List.foldl_cons, h b a (List.mem_cons_self a l)]
    exact ih _ (fun acc x hx => h acc x (List.mem_cons_of_mem a hx))

theorem nnueEvaluate_legacy {F : Type} (fo : FloatOps F) (w : NNUEWeights F) (st : GameState)
    (p : Fin 2) (pi : Bool) (h2 : w.hidden2 = 0) (hw3 : w.w3.length = w.hidden1.toNat)
    (hw1 : w.w1.length = w.hidden1.toNat * w.inputSize.toNat)
    (hin : w.inputSize.toNat ≤ 178) :
    nnueEvaluate fo w st p pi = legacyForward fo w (extractFeatures fo st p pi) := by
  unfold nnueEvaluate legacyForward
  simp only [h2, lt_self_iff_false, if_false, hw3, Nat.min_self]
  apply foldl_congr_mem
  intro acc i hi
  have hi' : i < w.hidden1.toNat := List.mem_range.mp hi
  congr 2
  unfold readAt
  rw [List.getD_eq_getElem _ _ (by rw [List.length_map, List.length_range]; exact hi'),
    List.getElem_map, List.getElem_range]
  unfold relu fmax
  rw [dotRow_eq_fold fo _ _ _ _ _ _ (by rw [extractFeatures_length]; exact hin)]
  · rfl
  · rw [hw1]
    calc i * w.inputSize.toNat + w.inputSize.toNat = (i + 1) * w.inputSize.toNat := by ring
      _ ≤ w.hidden1.toNat * w.inputSize.toNat := Nat.mul_le_mul_right _ hi'
theorem loadWeights_legacyBytes (w0 : NNUEWeights Nat) (inSz h1 : Int) (w1 b1 w3 : List Nat)
    (b3 : Nat) (hIn : IntOK inSz) (hH1 : IntOK h1) (hP : IntOK (h1 * inSz))
    (hw1 : (w1.length : Int) = h1 * inSz) (hb1 : (b1.length : Int) = h1)
    (hw3 : (w3.length : Int) = h1) (vw1 : WordsOK w1) (vb1 : WordsOK b1) (vw3 : WordsOK w3)
    (vb3 : b3 < 4294967296)
    (hfirst : intOfBits (firstStored w1 b1 w3 b3) < 0 ∨
      1024 < intOfBits (firstStored w1 b1 w3 b3)) :
    loadWeights w0 (some (legacyBytes inSz h1 w1 b1 w3 b3)) =
      some (true,
        { w1 := w1, b1 := b1, w2 := [], b2 := [], w3 := w3, b3 := b3,
          inputSize := inSz, hidden1 := h1, hidden2 := 0 }) := by
  have hB : legacyBytes inSz h1 w1 b1 w3 b3 =
      bytesOfWord (bitsOfInt inSz) ++ (bytesOfWord (bitsOfInt h1) ++
        (bytesOfWords w1 ++ (bytesOfWords b1 ++ (bytesOfWords w3 ++
          (bytesOfWord b3 ++ []))))) := by
    simp only [legacyBytes, List.append_assoc, List.append_nil]
  obtain ⟨x, tail, hx⟩ : ∃ x tail, w1 ++ b1 ++ w3 ++ [b3] = x :: tail := by
    cases h : w1 ++ b1 ++ w3 ++ [b3] with
    | nil => simp at h
    | cons x tail => exact ⟨x, tail, rfl⟩
  have hxlt : x < 4294967296 := by
    have hm : x ∈ w1 ++ b1 ++ w3 ++ [b3] := by rw [hx]; exact List.mem_cons_self x tail
    simp only [List.mem_append, List.mem_singleton] at hm
    rcases hm with ((hm | hm) | hm) | hm
    · exact vw1 x hm
    · exact vb1 x hm
    · exact vw3 x hm
    · rw [hm]; exact vb3
  have hfs : firstStored w1 b1 w3 b3 = x := by
    unfold firstStored
    rw [hx]
    rfl
  rw [hfs] at hfirst
  have hpay : bytesOfWords w1 ++ (bytesOfWords b1 ++ (bytesOfWords w3 ++
      (bytesOfWord b3 ++ []))) =
      bytesOfWord (bitsOfInt (intOfBits x)) ++ bytesOfWords tail := by
    rw [bitsOfInt_intOfBits x hxlt, ← bytesOfWords_cons, ← hx, bytesOfWords_append,
      bytesOfWords_append, bytesOfWords_append, bytesOfWords_singleton]
    simp only [List.append_assoc, List.append_nil]
  have hd0 : (legacyBytes inSz h1 w1 b1 w3 b3).drop 0 = _ := hB
  have hd1 : (legacyBytes inSz h1 w1 b1 w3 b3).drop (0 + 4) = _ := drop_next hd0
  have hd2 : (legacyBytes inSz h1 w1 b1 w3 b3).drop (0 + 4 + 4) = _ := drop_next hd1
  have hd2' : (legacyBytes inSz h1 w1 b1 w3 b3).drop (0 + 4 + 4) =
      bytesOfWord (bitsOfInt (intOfBits x)) ++ bytesOfWords tail := by
    rw [hd2, hpay]
  have hd3 : (legacyBytes inSz h1 w1 b1 w3 b3).drop (0 + 4 + 4 + 4 * w1.length) =
      bytesOfWords b1 ++ (bytesOfWords w3 ++ (bytesOfWord b3 ++ [])) := by
    have h := drop_next hd2
    rwa [bytesOfWords_length] at h
  have hd4 : (legacyBytes inSz h1 w1 b1 w3 b3).drop
      (0 + 4 + 4 + 4 * w1.length + 4 * b1.length) =
      bytesOfWords w3 ++ (bytesOfWord b3 ++ []) := by
    have h := drop_next hd3
    rwa [bytesOfWords_length] at h
  have hd5 : (legacyBytes inSz h1 w1 b1 w3 b3).drop
      (0 + 4 + 4 + 4 * w1.length + 4 * b1.length + 4 * w3.length) =
      bytesOfWord b3 ++ [] := by
    have h := drop_next hd4
    rwa [bytesOfWords_length] at h
  have e0 := readInt_eq _ _ 0 _ _ hd0 hIn
  have e1 := readInt_eq _ _ 0 _ _ hd1 hH1
  have e2 := readInt_eq _ _ 0 _ _ hd2' (intOK_intOfBits x)
  have e1' := readInt_eq _ _ h1 _ _ hd1 hH1
  have s1 := vecSize_eq h1 inSz _ hw1 hP
  have s2 := vecSize_eq h1 1 b1.length (by rw [mul_one]; exact hb1)
    (by rw [mul_one]; exact hH1)
  have e3 := readFloats_eq _ _ (resize w0.w1 w1.length) _ _ hd2 (resize_length _ _) vw1
  have e4 := readFloats_eq _ _ (resize w0.b1 b1.length) _ _ hd3 (resize_length _ _) vb1
  have e5 := readFloats_eq _ _ (resize w0.w3 b1.length) _ _ hd4
    (by rw [resize_length]; omega) vw3
  have e6 := readFloat_eq _ _ w0.b3 _ _ hd5 vb3
  have hc : (!true || decide (intOfBits x < 0) || decide (intOfBits x > 1024)) = true := by
    rcases hfirst with h | h
    · simp only [Bool.not_true, Bool.false_or, decide_eq_true h, Bool.true_or]
    · simp only [Bool.not_true, Bool.false_or, decide_eq_true (show intOfBits x > 1024 from h),
        Bool.or_true]
  unfold loadWeights
  dsimp only
  rw [e0]
  dsimp only
  rw [e1]
  dsimp only
  rw [e2]
  dsimp only
  rw [if_pos hc]
  simp only [IFStream.clear, IFStream.tellg, IFStream.seekg, if_true, Bool.not_true,
    Bool.false_eq_true, if_false]
  rw [e1']
  dsimp only
  unfold loadOld
  rw [s1, s2]
  dsimp only
  rw [e3]
  dsimp only
  rw [e4]
  dsimp only
  rw [e5]
  dsimp only
  rw [e6]
theorem legacy_shape {F : Type} (g : Nat → F) (inSz h1 : Int) (w1 b1 w3 : List Nat)
    (hw1 : (w1.length : Int) = h1 * inSz) (hb1 : (b1.length : Int) = h1)
    (hw3 : (w3.length : Int) = h1) :
    (w3.map g).length = h1.toNat ∧ (w1.map g).length = h1.toNat * inSz.toNat := by
  subst hb1
  rw [List.length_map, List.length_map, Int.toNat_natCast]
  refine ⟨by omega, ?_⟩
  cases inSz with
  | ofNat m =>
    have h : (w1.length : Int) = ((b1.length * m : Nat) : Int) := by
      rw [hw1]
      push_cast
      rfl
    exact_mod_cast h
  | negSucc m =>
    have h1 : (b1.length : Int) * Int.negSucc m ≤ 0 :=
      mul_nonpos_of_nonneg_of_nonpos (Int.natCast_nonneg _) (le_of_lt (Int.negSucc_lt_zero m))
    have h2 : w1.length = 0 := by omega
    rw [h2]
    rfl

/-- C29: for weights in the new format with consistent array shapes and `hidden2` between
1 and 1024, `saveWeights` succeeds on a file that opens and `loadWeights`, applied to the
bytes written, returns `true` and leaves exactly the weights that were saved, whatever
the object held before: `inputSize`, `hidden1`, `hidden2` and every entry, bit for bit.
Hence `nnueEvaluate` gives the same output on the loaded weights as on the saved ones,
for every reading `g` of the bit patterns as values. -/
theorem loadWeights_saveWeights_roundtrip (w w0 : NNUEWeights Nat) (hs : ShapesOK w)
    (hlo : 1 ≤ w.hidden2) (hhi : w.hidden2 ≤ 1024) :
    (saveWeights w true).1 = true ∧
      loadWeights w0 (saveWeights w true).2 = some (true, w) ∧
      ∀ r, loadWeights w0 (saveWeights w true).2 = some (true, r) →
        ∀ (F : Type) (fo : FloatOps F) (g : Nat → F) (st : GameState) (p : Fin 2) (pi : Bool),
          nnueEvaluate fo (r.map g) st p pi = nnueEvaluate fo (w.map g) st p pi := by
  have h : loadWeights w0 (saveWeights w true).2 = some (true, w) :=
    loadWeights_savedBytes w w0 hs hlo hhi
  refine ⟨rfl, h, ?_⟩
  intro r hr F fo g st p pi
  rw [h] at hr
  cases hr
  rfl

theorem loadWeights_saveWeights_roundtrip_witness :
    ShapesOK sampleSavedWeights ∧
      loadWeights emptyWeights (saveWeights sampleSavedWeights true).2 =
        some (true, sampleSavedWeights) :=
  ⟨by decide,
    (loadWeights_saveWeights_roundtrip sampleSavedWeights emptyWeights (by decide) (by decide)
      (by decide)).2.1⟩

/-- C30 (refuted as stated): a file in the old format whose first stored weight is `0.0f`
is not loaded as stored.  The file holds `inputSize = 1`, `hidden1 = 1`, `w1 = [0.0]`,
`b1 = [1.0]`, `w3 = [2.0]`, `b3 = 3.0`; the pattern of `0.0f` read as the third `int` is
`0`, which passes the test for the new format, and the result has `w1 = [1.0]`,
`b1 = [2.0]` and an empty `w3`. -/
theorem loadWeights_misreads_legacy_zero_weight :
    loadWeights emptyWeights
        (some (legacyBytes 1 1 [0] [1065353216] [1073741824] 1077936128)) =
      some (true,
        { w1 := [1065353216], b1 := [1073741824], w2 := [], b2 := [], w3 := [],
          b3 := 1077936128, inputSize := 1, hidden1 := 1, hidden2 := 0 }) := by
  rfl

/-- C30 (amended): a file in the old format (header `inputSize`, `hidden1`, then `w1` of
`hidden1 * inputSize` entries, `b1` of `hidden1`, `w3` of `hidden1` and `b3`) whose first
stored `float`, read as an `int`, is negative or above 1024 is loaded with `hidden2 = 0`,
empty `w2` and `b2`, and `w1`, `b1`, `w3`, `b3` exactly as stored; and when `inputSize`
is at most the 178 features, `nnueEvaluate` on the result is the forward pass
`b3 + sum over i of w3[i] * max(0, b1[i] + sum over j of w1[i][j] * x[j])` on the feature
vector `x`, for every reading `g` of the bit patterns as values. -/
theorem loadWeights_legacy_format (w0 : NNUEWeights Nat) (inSz h1 : Int) (w1 b1 w3 : List Nat)
    (b3 : Nat) (hIn : IntOK inSz) (hH1 : IntOK h1) (hP : IntOK (h1 * inSz))
    (hw1 : (w1.length : Int) = h1 * inSz) (hb1 : (b1.length : Int) = h1)
    (hw3 : (w3.length : Int) = h1) (vw1 : WordsOK w1) (vb1 : WordsOK b1) (vw3 : WordsOK w3)
    (vb3 : b3 < 4294967296)
    (hfirst : intOfBits (firstStored w1 b1 w3 b3) < 0 ∨
      1024 < intOfBits (firstStored w1 b1 w3 b3)) :
    loadWeights w0 (some (legacyBytes inSz h1 w1 b1 w3 b3)) =
        some (true,
          { w1 := w1, b1 := b1, w2 := [], b2 := [], w3 := w3, b3 := b3,
            inputSize := inSz, hidden1 := h1, hidden2 := 0 }) ∧
      (inSz ≤ 178 →
        ∀ (F : Type) (fo : FloatOps F) (g : Nat → F) (st : GameState) (p : Fin 2) (pi : Bool),
          nnueEvaluate fo
              (NNUEWeights.map g
                { w1 := w1, b1 := b1, w2 := [], b2 := [], w3 := w3, b3 := b3,
                  inputSize := inSz, hidden1 := h1, hidden2 := 0 }) st p pi =
            legacyForward fo
              (NNUEWeights.map g
                { w1 := w1, b1 := b1, w2 := [], b2 := [], w3 := w3, b3 := b3,
                  inputSize := inSz, hidden1 := h1, hidden2 := 0 })
              (extractFeatures fo st p pi)) := by
  refine ⟨loadWeights_legacyBytes w0 inSz h1 w1 b1 w3 b3 hIn hH1 hP hw1 hb1 hw3 vw1 vb1 vw3 vb3
    hfirst, ?_⟩
  intro hin F fo g st p pi
  have hs := legacy_shape g inSz h1 w1 b1 w3 hw1 hb1 hw3
  exact nnueEvaluate_legacy fo _ st p pi rfl hs.1 hs.2 (by
    show inSz.toNat ≤ 178
    omega)

theorem loadWeights_legacy_format_witness :
    loadWeights emptyWeights (some (legacyBytes 1 1 [1065353216] [0] [1073741824] 0)) =
      some (true,
        { w1 := [1065353216], b1 := [0], w2 := [], b2 := [], w3 := [1073741824], b3 := 0,
          inputSize := 1, hidden1 := 1, hidden2 := 0 }) :=
  (loadWeights_legacy_format emptyWeights 1 1 [1065353216] [0] [1073741824] 0 (by decide)
    (by decide) (by decide) (by decide) (by decide) (by decide) (by decide) (by decide)
    (by decide) (by decide) (by decide)).1

theorem getP_length_sum {α : Type} (h : List α × List α) (w : Fin 2) :
    (getP h w).length + (getP h (1 - w)).length = h.1.length + h.2.length := by
  rcases fin2_cases w with rfl | rfl
  · rfl
  · exact Nat.add_comm _ _

theorem cardsLeft_eq_sizes (s : GameState) (w : Fin 2) :
    cardsLeft s =
      (sizes s w).1 + (sizes s w).2.1 + (sizes s w).2.2.1 +
        (if (sizes s w).2.2.2 then 0 else 1) := by
  unfold cardsLeft sizes
  have h := getP_length_sum s.hands w
  simp only []
  omega

theorem resolveSizes_sum (x : Nat × Nat × Nat × Bool) :
    (resolveSizes x).1 + (resolveSizes x).2.1 + (resolveSizes x).2.2.1 +
        (if (resolveSizes x).2.2.2 then 0 else 1) =
      x.1 + x.2.1 + x.2.2.1 + (if x.2.2.2 then 0 else 1) := by
  have hW : ∀ y : Nat × Nat × Nat × Bool,
      (drawW y).1 + (drawW y).2.1 + (drawW y).2.2.1 + (if (drawW y).2.2.2 then 0 else 1) =
        y.1 + y.2.1 + y.2.2.1 + (if y.2.2.2 then 0 else 1) := by
    intro y
    unfold drawW
    split_ifs <;> simp_all <;> omega
  have hL : ∀ y : Nat × Nat × Nat × Bool,
      (drawL y).1 + (drawL y).2.1 + (drawL y).2.2.1 + (if (drawL y).2.2.2 then 0 else 1) =
        y.1 + y.2.1 + y.2.2.1 + (if y.2.2.2 then 0 else 1) := by
    intro y
    unfold drawL
    split_ifs <;> simp_all <;> omega
  have hT : ∀ y : Nat × Nat × Nat × Bool,
      (trumpSizes y).1 + (trumpSizes y).2.1 + (trumpSizes y).2.2.1 +
          (if (trumpSizes y).2.2.2 then 0 else 1) =
        y.1 + y.2.1 + y.2.2.1 + (if y.2.2.2 then 0 else 1) := by
    intro y
    unfold trumpSizes
    split_ifs <;> simp_all <;> omega
  unfold resolveSizes
  rw [hT, hL, hW, hL, hW]

theorem cardsLeft_resolveTrick (s : GameState) (w : Fin 2) (pts : Int) :
    cardsLeft (resolveTrick s w pts) = cardsLeft s := by
  rw [cardsLeft_eq_sizes _ w, cardsLeft_eq_sizes s w, sizes_resolveTrick, resolveSizes_sum]

theorem playCard_legal (s : GameState) (m : Int) (hf : s.finished = false)
    (hm : m ∈ getLegalMoves s (s.currentPlayer.val : Int)) :
    ∃ c, (getP s.hands s.currentPlayer)[m.toNat]? = some c ∧
      playCard s (s.currentPlayer.val : Int) m =
        (true,
          { s with
            hands := setP s.hands s.currentPlayer
              ((getP s.hands s.currentPlayer).eraseIdx m.toNat)
            trick := { s.trick with cards := s.trick.cards ++ [c] }
            currentPlayer := 1 - s.currentPlayer }) := by
  obtain ⟨-, h0, h1⟩ := (getLegalMoves_mem s _ m).1 hm
  have hlt : m.toNat < (getP s.hands s.currentPlayer).length := by omega
  refine ⟨(getP s.hands s.currentPlayer)[m.toNat], List.getElem?_eq_getElem hlt, ?_⟩
  unfold playCard
  rw [if_neg (by simp [hf]), if_neg (by simp), if_neg (by omega)]
  simp only [List.getElem?_eq_getElem hlt]

theorem cardsLeft_play (s : GameState) (i : Nat) (c : Card)
    (hi : i < (getP s.hands s.currentPlayer).length) :
    cardsLeft
        { s with
          hands := setP s.hands s.currentPlayer ((getP s.hands s.currentPlayer).eraseIdx i)
          trick := { s.trick with cards := s.trick.cards ++ [c] }
          currentPlayer := 1 - s.currentPlayer } + 1 = cardsLeft s := by
  unfold cardsLeft
  simp only []
  rcases fin2_cases s.currentPlayer with h | h
  · rw [h] at hi ⊢
    have hi' : i < s.hands.1.length := hi
    show (s.hands.1.eraseIdx i).length + s.hands.2.length + s.deck.length + _ + 1 = _
    rw [List.length_eraseIdx, if_pos hi']
    omega
  · rw [h] at hi ⊢
    have hi' : i < s.hands.2.length := hi
    show s.hands.1.length + (s.hands.2.eraseIdx i).length + s.deck.length + _ + 1 = _
    rw [List.length_eraseIdx, if_pos hi']
    omega

theorem playCard_legal_step (st : GameState) (m : Int) (hf : st.finished = false)
    (hm : m ∈ getLegalMoves st (st.currentPlayer.val : Int)) :
    ∃ s1 c, playCard st (st.currentPlayer.val : Int) m = (true, s1) ∧
      s1.trick.cards = st.trick.cards ++ [c] ∧ cardsLeft s1 + 1 = cardsLeft st := by
  obtain ⟨c, -, hplay⟩ := playCard_legal st m hf hm
  obtain ⟨-, h0, h1⟩ := (getLegalMoves_mem st _ m).1 hm
  exact ⟨_, c, hplay, rfl, cardsLeft_play st m.toNat c (by omega)⟩

theorem applyMove_legal (st : GameState) (m : Int) (hf : st.finished = false)
    (ht : st.trick.cards.length < 4)
    (hm : m ∈ getLegalMoves st (st.currentPlayer.val : Int)) :
    ∃ ns, applyMove st (st.currentPlayer.val : Int) m = some ns ∧
      cardsLeft ns < cardsLeft st ∧ ns.trick.cards.length < 4 := by
  obtain ⟨s1, c, hplay, hcards, hcl⟩ := playCard_legal_step st m hf hm
  have hlen : s1.trick.cards.length = st.trick.cards.length + 1 := by
    rw [hcards, List.length_append, List.length_singleton]
  unfold applyMove
  rw [hplay]
  show ∃ ns, maybeCloseTrick s1 = some ns ∧ _
  by_cases h3 : s1.trick.cards.length < 4
  · exact ⟨s1, maybeCloseTrick_of_lt s1 h3, by omega, h3⟩
  · obtain ⟨c0, c1, c2, c3, hc4⟩ := list_length_four s1.trick.cards (by omega)
    refine ⟨_, maybeCloseTrick_of_four s1 c0 c1 c2 c3 hc4, ?_, ?_⟩
    · rw [cardsLeft_resolveTrick]
      omega
    · rw [(resolveTrick_frame _ _ _).2.1]
      exact Nat.succ_pos 3

theorem applyMove_total (st : GameState) (m : Int) (ht : st.trick.cards.length < 4)
    (hm : m ∈ getLegalMoves st (st.currentPlayer.val : Int)) :
    ∃ ns, applyMove st (st.currentPlayer.val : Int) m = some ns ∧
      ns.trick.cards.length < 4 ∧ (ns.finished = true ∨ cardsLeft ns < cardsLeft st) := by
  by_cases hf : st.finished = true
  · refine ⟨st, ?_, ht, Or.inl hf⟩
    unfold applyMove
    rw [playCard_false_state st _ m ((playCard_eq_false_iff st _ m).2 (Or.inl hf))]
    exact maybeCloseTrick_of_lt st ht
  · obtain ⟨ns, h1, h2, h3⟩ := applyMove_legal st m (by simpa using hf) ht hm
    exact ⟨ns, h1, h3, Or.inr h2⟩
theorem mem_insertBy {α : Type} (comp : α → α → Bool) (x y : α) (l : List α) :
    y ∈ insertBy comp x l ↔ y = x ∨ y ∈ l := by
  induction l with
  | nil => simp [insertBy]
  | cons z l ih =>
    unfold insertBy
    split_ifs
    · rw [List.mem_cons, ih, List.mem_cons]
      tauto
    · rw [List.mem_cons, List.mem_cons]

theorem mem_sortBy {α : Type} (comp : α → α → Bool) (y : α) (l : List α) :
    y ∈ sortBy comp l ↔ y ∈ l := by
  unfold sortBy
  induction l with
  | nil => rfl
  | cons z l ih => rw [List.foldr_cons, mem_insertBy, ih, List.mem_cons]

theorem sortBy_ne_nil {α : Type} (comp : α → α → Bool) (l : List α) (h : l ≠ []) :
    sortBy comp l ≠ [] := by
  obtain ⟨x, hx⟩ := List.exists_mem_of_ne_nil l h
  exact List.ne_nil_of_mem ((mem_sortBy comp x l).2 hx)

theorem foldl_option_inv {α β : Type} (f : Option β → α → Option β) (P : α → Prop)
    (R : β → List α → Prop)
    (hstep : ∀ acc done a, P a → R acc done →
      ∃ r, f (some acc) a = some r ∧ R r (done ++ [a]))
    (l : List α) (hl : ∀ a ∈ l, P a) (acc : β) (done : List α) (hR : R acc done) :
    ∃ r, l.foldl f (some acc) = some r ∧ R r (done ++ l) := by
  induction l generalizing acc done with
  | nil => exact ⟨acc, rfl, by rwa [List.append_nil]⟩
  | cons a l ih =>
    obtain ⟨r, hr, hR'⟩ := hstep acc done a (hl a (List.mem_cons_self a l)) hR
    obtain ⟨r', hr', hR''⟩ := ih (fun x hx => hl x (List.mem_cons_of_mem a hx)) r _ hR'
    refine ⟨r', ?_, ?_⟩
    · rw [List.foldl_cons, hr, hr']
    · rwa [List.append_assoc] at hR''

theorem foldl_option_ne_none {α β : Type} (f : Option β → α → Option β) (P : α → Prop)
    (hstep : ∀ acc a, P a → ∃ r, f (some acc) a = some r)
    (l : List α) (hl : ∀ a ∈ l, P a) (acc : β) : l.foldl f (some acc) ≠ none := by
  obtain ⟨r, hr, -⟩ := foldl_option_inv f P (fun _ _ => True)
    (fun acc _ a ha _ => by
      obtain ⟨r, hr⟩ := hstep acc a ha
      exact ⟨r, hr, trivial⟩) l hl acc [] trivial
  rw [hr]
  exact Option.some_ne_none r

theorem quickEvalMoves_some {F : Type} (fo : FloatOps F) (st : GameState) (w : NNUEWeights F)
    (rootPlayer : Fin 2) (perfectInfo : Bool)
    (ht : st.trick.cards.length < 4) (moves : List Int)
    (hleg : ∀ m ∈ moves, m ∈ getLegalMoves st (st.currentPlayer.val : Int)) :
    ∃ evals, quickEvalMoves fo st w st.currentPlayer rootPlayer perfectInfo moves = some evals ∧
      evals.map Prod.fst = moves := by
  unfold quickEvalMoves
  refine foldl_option_inv _ (fun m => m ∈ getLegalMoves st (st.currentPlayer.val : Int))
    (fun (acc : List (Int × F)) (done : List Int) => acc.map Prod.fst = done) ?_ moves hleg
    [] [] rfl
  intro acc done a ha hR
  obtain ⟨ns, hns, -, -⟩ := applyMove_total st a ht ha
  refine ⟨acc ++ [(a, quickEval fo ns w rootPlayer perfectInfo)], ?_, ?_⟩
  · simp only [hns]
  · show List.map Prod.fst (acc ++ [(a, quickEval fo ns w rootPlayer perfectInfo)]) = done ++ [a]
    rw [List.map_append, hR]
    rfl

theorem quiescence_some {F : Type} (fo : FloatOps F) (st : GameState) (w : NNUEWeights F)
    (rootPlayer : Fin 2) (perfectInfo : Bool) (hf : st.finished = false)
    (ht : st.trick.cards.length < 4) :
    ∃ v, quiescenceAfterTrickClear fo st w rootPlayer perfectInfo = some v := by
  unfold quiescenceAfterTrickClear
  by_cases h1 : (!st.trick.cards.isEmpty) = true
  · rw [if_pos h1]
    exact ⟨_, rfl⟩
  rw [if_neg h1]
  simp only []
  by_cases h2 : (getLegalMoves st (st.currentPlayer.val : Int)).isEmpty = true
  · rw [if_pos h2]
    exact ⟨_, rfl⟩
  rw [if_neg h2]
  split
  · rename_i hnone
    exact absurd hnone
      (foldl_option_ne_none _ (fun m => m ∈ getLegalMoves st (st.currentPlayer.val : Int))
        (by
          intro acc a ha
          obtain ⟨ns, hns, -, -⟩ := applyMove_legal st a hf ht ha
          simp only [hns]
          split_ifs
          · exact ⟨_, rfl⟩
          · exact ⟨_, rfl⟩)
        (getLegalMoves st (st.currentPlayer.val : Int)) (fun m hm => hm)
        (fo.neg fo.inf, fo.inf))
  · exact ⟨_, rfl⟩
theorem maxLoop_some {F : Type} (fo : FloatOps F) (st : GameState) (hf : st.finished = false)
    (ht : st.trick.cards.length < 4)
    (child : TT F → GameState → F → F → Option (F × TT F))
    (hchild : ∀ tt ns a b, cardsLeft ns < cardsLeft st → ns.trick.cards.length < 4 →
      ∃ r, child tt ns a b = some r)
    (beta : F) (ordered : List (Int × F))
    (hleg : ∀ e ∈ ordered, e.1 ∈ getLegalMoves st (st.currentPlayer.val : Int))
    (tt : TT F) (alpha bestVal : F) (bm : Int) :
    ∃ r, maxLoop fo st st.currentPlayer child beta ordered tt alpha bestVal bm = some r := by
  induction ordered generalizing tt alpha bestVal bm with
  | nil => exact ⟨_, rfl⟩
  | cons e rest ih =>
    obtain ⟨m, q⟩ := e
    obtain ⟨ns, hns, hlt, htr⟩ :=
      applyMove_legal st m hf ht (hleg (m, q) (List.mem_cons_self _ _))
    obtain ⟨⟨val, tt1⟩, hr⟩ := hchild tt ns alpha beta hlt htr
    simp only [maxLoop, hns, hr]
    split_ifs <;>
      first
      | exact ⟨_, rfl⟩
      | exact ih (fun x hx => hleg x (List.mem_cons_of_mem _ hx)) _ _ _ _

theorem minLoop_some {F : Type} (fo : FloatOps F) (st : GameState) (hf : st.finished = false)
    (ht : st.trick.cards.length < 4)
    (child : TT F → GameState → F → F → Option (F × TT F))
    (hchild : ∀ tt ns a b, cardsLeft ns < cardsLeft st → ns.trick.cards.length < 4 →
      ∃ r, child tt ns a b = some r)
    (alpha : F) (ordered : List (Int × F))
    (hleg : ∀ e ∈ ordered, e.1 ∈ getLegalMoves st (st.currentPlayer.val : Int))
    (tt : TT F) (beta bestVal : F) (bm : Int) :
    ∃ r, minLoop fo st st.currentPlayer child alpha ordered tt beta bestVal bm = some r := by
  induction ordered generalizing tt beta bestVal bm with
  | nil => exact ⟨_, rfl⟩
  | cons e rest ih =>
    obtain ⟨m, q⟩ := e
    obtain ⟨ns, hns, hlt, htr⟩ :=
      applyMove_legal st m hf ht (hleg (m, q) (List.mem_cons_self _ _))
    obtain ⟨⟨val, tt1⟩, hr⟩ := hchild tt ns alpha beta hlt htr
    simp only [minLoop, hns, hr]
    split_ifs <;>
      first
      | exact ⟨_, rfl⟩
      | exact ih (fun x hx => hleg x (List.mem_cons_of_mem _ hx)) _ _ _ _

theorem rootLoop_some {F : Type} (fo : FloatOps F) (st : GameState)
    (ht : st.trick.cards.length < 4)
    (child : TT F → GameState → F → F → Option (F × TT F))
    (hchild : ∀ tt ns a b, ns.trick.cards.length < 4 →
      (ns.finished = true ∨ cardsLeft ns < cardsLeft st) → ∃ r, child tt ns a b = some r)
    (b : F) (ordered : List (Int × F))
    (hleg : ∀ e ∈ ordered, e.1 ∈ getLegalMoves st (st.currentPlayer.val : Int))
    (tt : TT F) (a best : F) (bm : Int) :
    ∃ r, rootLoop fo st st.currentPlayer child b ordered tt a best bm = some r := by
  induction ordered generalizing tt a best bm with
  | nil => exact ⟨_, rfl⟩
  | cons e rest ih =>
    obtain ⟨m, q⟩ := e
    obtain ⟨ns, hns, htr, hlt⟩ :=
      applyMove_total st m ht (hleg (m, q) (List.mem_cons_self _ _))
    obtain ⟨⟨val, tt1⟩, hr⟩ := hchild tt ns a b htr hlt
    simp only [rootLoop, hns, hr]
    exact ih (fun x hx => hleg x (List.mem_cons_of_mem _ hx)) _ _ _ _

theorem rootLoop_move {F : Type} (fo : FloatOps F) (st : GameState) (p : Fin 2)
    (child : TT F → GameState → F → F → Option (F × TT F)) (b : F)
    (ordered : List (Int × F)) (tt : TT F) (a best : F) (bm : Int) (r : F × Int × TT F)
    (h : rootLoop fo st p child b ordered tt a best bm = some r) :
    r.2.1 = bm ∨ ∃ e ∈ ordered, e.1 = r.2.1 := by
  induction ordered generalizing tt a best bm with
  | nil =>
    simp only [rootLoop, Option.some.injEq] at h
    left
    rw [← h]
  | cons e rest ih =>
    obtain ⟨m, q⟩ := e
    unfold rootLoop at h
    split at h
    · cases h
    · split at h
      · cases h
      · rcases ih _ _ _ _ h with h1 | ⟨e, he, h1⟩
        · split_ifs at h1
          · right
            exact ⟨(m, q), List.mem_cons_self _ _, h1.symm⟩
          · left
            exact h1
        · right
          exact ⟨e, List.mem_cons_of_mem _ he, h1⟩

theorem mtLoop_some {F : Type} (fo : FloatOps F) (st : GameState)
    (ht : st.trick.cards.length < 4)
    (child : TT F → GameState → F → F → Option (F × TT F))
    (hchild : ∀ tt ns a b, ns.trick.cards.length < 4 →
      (ns.finished = true ∨ cardsLeft ns < cardsLeft st) → ∃ r, child tt ns a b = some r)
    (ordered : List (Int × F))
    (hleg : ∀ e ∈ ordered, e.1 ∈ getLegalMoves st (st.currentPlayer.val : Int))
    (tt : TT F) (best : F) (bm : Int) :
    ∃ r, mtLoop fo st st.currentPlayer child ordered tt best bm = some r := by
  induction ordered generalizing tt best bm with
  | nil => exact ⟨_, rfl⟩
  | cons e rest ih =>
    obtain ⟨m, q⟩ := e
    obtain ⟨ns, hns, htr, hlt⟩ :=
      applyMove_total st m ht (hleg (m, q) (List.mem_cons_self _ _))
    obtain ⟨⟨val, tt1⟩, hr⟩ := hchild tt ns (fo.neg fo.inf) fo.inf htr hlt
    simp only [mtLoop, hns, hr]
    exact ih (fun x hx => hleg x (List.mem_cons_of_mem _ hx)) _ _ _

theorem mtLoop_move {F : Type} (fo : FloatOps F) (st : GameState) (p : Fin 2)
    (child : TT F → GameState → F → F → Option (F × TT F))
    (ordered : List (Int × F)) (tt : TT F) (best : F) (bm : Int) (r : F × Int × TT F)
    (h : mtLoop fo st p child ordered tt best bm = some r) :
    r.2.1 = bm ∨ ∃ e ∈ ordered, e.1 = r.2.1 := by
  induction ordered generalizing tt best bm with
  | nil =>
    simp only [mtLoop, Option.some.injEq] at h
    left
    rw [← h]
  | cons e rest ih =>
    obtain ⟨m, q⟩ := e
    unfold mtLoop at h
    split at h
    · cases h
    · split at h
      · cases h
      · rcases ih _ _ _ h with h1 | ⟨e, he, h1⟩
        · split_ifs at h1
          · right
            exact ⟨(m, q), List.mem_cons_self _ _, h1.symm⟩
          · left
            exact h1
        · right
          exact ⟨e, List.mem_cons_of_mem _ he, h1⟩

theorem searchRecursiveAB_some {F : Type} (fo : FloatOps F) (w : NNUEWeights F)
    (rootPlayer : Fin 2) (perfectInfo : Bool) (fuel : Nat) (tt : TT F) (st : GameState)
    (depth : Int) (alpha beta : F)
    (hfuel : cardsLeft st < fuel ∨ (st.finished = true ∧ 0 < fuel))
    (ht : st.trick.cards.length < 4) :
    ∃ r, searchRecursiveAB fo w rootPlayer perfectInfo fuel tt st depth alpha beta = some r := by
  induction fuel generalizing tt st depth alpha beta with
  | zero => omega
  | succ fuel ih =>
    unfold searchRecursiveAB
    by_cases hf : st.finished = true
    · rw [if_pos hf]
      exact ⟨_, rfl⟩
    rw [if_neg hf]
    have hf' : st.finished = false := by simpa using hf
    have hfuel' : cardsLeft st < fuel + 1 := by
      rcases hfuel with h | h
      · exact h
      · exact absurd h.1 hf
    split
    · exact ⟨_, rfl⟩
    · by_cases hd : depth = 0
      · rw [if_pos hd]
        obtain ⟨v, hv⟩ := quiescence_some fo st w rootPlayer perfectInfo hf' ht
        rw [hv]
        exact ⟨_, rfl⟩
      · rw [if_neg hd]
        simp only []
        by_cases hm : (getLegalMoves st (st.currentPlayer.val : Int)).isEmpty = true
        · rw [if_pos hm]
          exact ⟨_, rfl⟩
        · rw [if_neg hm]
          obtain ⟨evals, he, hfst⟩ := quickEvalMoves_some fo st w rootPlayer perfectInfo ht
            (getLegalMoves st (st.currentPlayer.val : Int)) (fun m hm => hm)
          rw [he]
          simp only []
          have hleg : ∀ (comp : Int × F → Int × F → Bool), ∀ e ∈ sortBy comp evals,
              e.1 ∈ getLegalMoves st (st.currentPlayer.val : Int) := by
            intro comp e hmem
            rw [← hfst]
            exact List.mem_map_of_mem Prod.fst ((mem_sortBy comp e evals).1 hmem)
          have hchild : ∀ (tt1 : TT F) (ns : GameState) (a b : F),
              cardsLeft ns < cardsLeft st → ns.trick.cards.length < 4 →
              ∃ r, searchRecursiveAB fo w rootPlayer perfectInfo fuel tt1 ns (depth - 1) a b =
                some r :=
            fun tt1 ns a b h1 h2 => ih tt1 ns (depth - 1) a b (Or.inl (by omega)) h2
          split_ifs
          · obtain ⟨⟨bv, bm, tt1⟩, hr⟩ := maxLoop_some fo st hf' ht _ hchild beta _
              (hleg _) tt alpha (fo.neg fo.inf) (frontMove (sortBy _ evals))
            rw [hr]
            exact ⟨_, rfl⟩
          · obtain ⟨⟨bv, bm, tt1⟩, hr⟩ := minLoop_some fo st hf' ht _ hchild alpha _
              (hleg _) tt beta fo.inf (frontMove (sortBy _ evals))
            rw [hr]
            exact ⟨_, rfl⟩
theorem headD_mem_of_ne_nil (l : List Int) (h : l ≠ []) : l.headD 0 ∈ l := by
  cases l with
  | nil => exact absurd rfl h
  | cons a l => exact List.mem_cons_self a l

theorem frontMove_mem {F : Type} (ordered : List (Int × F)) (h : ordered ≠ []) :
    ∃ e ∈ ordered, e.1 = frontMove ordered := by
  cases ordered with
  | nil => exact absurd rfl h
  | cons e l => exact ⟨e, List.mem_cons_self e l, rfl⟩

theorem isEmpty_false_ne_nil {α : Type} (l : List α) (h : ¬ l.isEmpty = true) : l ≠ [] := by
  intro hl
  rw [hl] at h
  exact h rfl

theorem searchBestMove_empty {F : Type} (fo : FloatOps F) (fuel : Nat) (tt : TT F)
    (st : GameState) (w : NNUEWeights F) (depth : Int) (perfectInfo : Bool)
    (h : getLegalMoves st (st.currentPlayer.val : Int) = []) :
    searchBestMove fo fuel tt st w depth perfectInfo =
      some ({ eval := nnueEvaluate fo w st st.currentPlayer perfectInfo,
              chosenMoveIndex := -1 }, tt) := by
  unfold searchBestMove
  simp only [h, List.isEmpty_nil, if_true]

theorem searchBestMoveMT_empty {F : Type} (fo : FloatOps F) (fuel : Nat) (tt : TT F)
    (st : GameState) (w : NNUEWeights F) (depth : Int) (perfectInfo : Bool)
    (h : getLegalMoves st (st.currentPlayer.val : Int) = []) :
    searchBestMoveMT fo fuel tt st w depth perfectInfo =
      some ({ eval := nnueEvaluate fo w st st.currentPlayer perfectInfo,
              chosenMoveIndex := -1 }, tt) := by
  unfold searchBestMoveMT
  simp only [h, List.isEmpty_nil, if_true]

theorem searchBestMoveID_empty {F : Type} (fo : FloatOps F) (fuel retries : Nat) (tt : TT F)
    (st : GameState) (w : NNUEWeights F) (depth : Int) (perfectInfo : Bool)
    (h : getLegalMoves st (st.currentPlayer.val : Int) = []) :
    searchBestMoveID fo fuel retries tt st w depth perfectInfo =
      some ({ eval := nnueEvaluate fo w st st.currentPlayer perfectInfo,
              chosenMoveIndex := -1 }, tt) := by
  unfold searchBestMoveID
  simp only [h, List.isEmpty_nil, if_true]
  exact searchBestMove_empty fo fuel tt st w depth perfectInfo h

theorem searchBestMove_some {F : Type} (fo : FloatOps F) (fuel : Nat) (tt : TT F)
    (st : GameState) (w : NNUEWeights F) (depth : Int) (perfectInfo : Bool)
    (hfuel : cardsLeft st < fuel) (ht : st.trick.cards.length < 4) :
    ∃ r, searchBestMove fo fuel tt st w depth perfectInfo = some r := by
  unfold searchBestMove
  simp only []
  by_cases hm : (getLegalMoves st (st.currentPlayer.val : Int)).isEmpty = true
  · rw [if_pos hm]
    exact ⟨_, rfl⟩
  rw [if_neg hm]
  obtain ⟨evals, he, hfst⟩ := quickEvalMoves_some fo st w st.currentPlayer perfectInfo ht
    (getLegalMoves st (st.currentPlayer.val : Int)) (fun m hm => hm)
  rw [he]
  simp only []
  obtain ⟨⟨bv, bm, tt1⟩, hr⟩ := rootLoop_some fo st ht
    (fun tt1 ns a b =>
      searchRecursiveAB fo w st.currentPlayer perfectInfo fuel tt1 ns (depth - 1) a b)
    (fun tt1 ns a b h1 h2 =>
      searchRecursiveAB_some fo w st.currentPlayer perfectInfo fuel tt1 ns (depth - 1) a b
        (by
          rcases h2 with h2 | h2
          · exact Or.inr ⟨h2, by omega⟩
          · exact Or.inl (by omega)) h1)
    fo.inf (sortBy (fun a b => fo.lt b.2 a.2) evals)
    (fun e hmem => by
      rw [← hfst]
      exact List.mem_map_of_mem Prod.fst ((mem_sortBy _ e evals).1 hmem))
    tt (fo.neg fo.inf) (fo.neg fo.inf)
    ((getLegalMoves st (st.currentPlayer.val : Int)).headD 0)
  rw [hr]
  exact ⟨_, rfl⟩

theorem searchBestMoveMT_some {F : Type} (fo : FloatOps F) (fuel : Nat) (tt : TT F)
    (st : GameState) (w : NNUEWeights F) (depth : Int) (perfectInfo : Bool)
    (hfuel : cardsLeft st < fuel) (ht : st.trick.cards.length < 4) :
    ∃ r, searchBestMoveMT fo fuel tt st w depth perfectInfo = some r := by
  unfold searchBestMoveMT
  simp only []
  by_cases hm : (getLegalMoves st (st.currentPlayer.val : Int)).isEmpty = true
  · rw [if_pos hm]
    exact ⟨_, rfl⟩
  rw [if_neg hm]
  obtain ⟨evals, he, hfst⟩ := quickEvalMoves_some fo st w st.currentPlayer perfectInfo ht
    (getLegalMoves st (st.currentPlayer.val : Int)) (fun m hm => hm)
  rw [he]
  simp only []
  obtain ⟨⟨bv, bm, tt1⟩, hr⟩ := mtLoop_some fo st ht
    (fun tt1 ns a b =>
      searchRecursiveAB fo w st.currentPlayer perfectInfo fuel tt1 ns (depth - 1) a b)
    (fun tt1 ns a b h1 h2 =>
      searchRecursiveAB_some fo w st.currentPlayer perfectInfo fuel tt1 ns (depth - 1) a b
        (by
          rcases h2 with h2 | h2
          · exact Or.inr ⟨h2, by omega⟩
          · exact Or.inl (by omega)) h1)
    (sortBy (fun a b => fo.lt b.2 a.2) evals)
    (fun e hmem => by
      rw [← hfst]
      exact List.mem_map_of_mem Prod.fst ((mem_sortBy _ e evals).1 hmem))
    tt (fo.neg fo.inf) (frontMove (sortBy (fun a b => fo.lt b.2 a.2) evals))
  rw [hr]
  exact ⟨_, rfl⟩

theorem quickEvalMoves_fst {F : Type} (fo : FloatOps F) (st : GameState) (w : NNUEWeights F)
    (p rootPlayer : Fin 2) (perfectInfo : Bool) (moves : List Int) (evals : List (Int × F))
    (h : quickEvalMoves fo st w p rootPlayer perfectInfo moves = some evals) :
    evals.map Prod.fst = moves := by
  unfold quickEvalMoves at h
  have key : ∀ (l : List Int) (acc : Option (List (Int × F))) (done : List Int)
      (r : List (Int × F)),
      (∀ x, acc = some x → x.map Prod.fst = done) →
      l.foldl
          (fun acc m =>
            match acc with
            | none => none
            | some l =>
              match applyMove st (p.val : Int) m with
              | none => none
              | some ns => some (l ++ [(m, quickEval fo ns w rootPlayer perfectInfo)]))
          acc = some r → r.map Prod.fst = done ++ l := by
    intro l
    induction l with
    | nil =>
      intro acc done r hacc hr
      rw [List.append_nil]
      exact hacc r hr
    | cons m l ih =>
      intro acc done r hacc hr
      rw [List.foldl_cons] at hr
      have := ih _ (done ++ [m]) r (by
        intro x hx
        cases acc with
        | none => cases hx
        | some y =>
          simp only [] at hx
          split at hx
          · cases hx
          · cases hx
            rw [List.map_append, hacc y rfl]
            rfl) hr
      rwa [List.append_assoc] at this
  have := key moves (some []) [] evals (by
    intro x hx
    cases hx
    rfl) h
  rwa [List.nil_append] at this

theorem searchBestMove_move {F : Type} (fo : FloatOps F) (fuel : Nat) (tt : TT F)
    (st : GameState) (w : NNUEWeights F) (depth : Int) (perfectInfo : Bool)
    (r : SearchResult F × TT F)
    (hne : getLegalMoves st (st.currentPlayer.val : Int) ≠ [])
    (h : searchBestMove fo fuel tt st w depth perfectInfo = some r) :
    r.1.chosenMoveIndex ∈ getLegalMoves st (st.currentPlayer.val : Int) := by
  unfold searchBestMove at h
  simp only [] at h
  rw [if_neg (by
    intro hc
    exact hne (List.isEmpty_iff.1 hc))] at h
  split at h
  · cases h
  · rename_i evals he
    have hfst := quickEvalMoves_fst fo st w _ _ perfectInfo _ evals he
    split at h
    · cases h
    · rename_i bv bm tt1 hr
      cases h
      rcases rootLoop_move fo st _ _ _ _ _ _ _ _ _ hr with h1 | ⟨e, he1, h1⟩
      · show bm ∈ _
        have h1' : bm = (getLegalMoves st (st.currentPlayer.val : Int)).headD 0 := h1
        rw [h1']
        exact headD_mem_of_ne_nil _ hne
      · show bm ∈ _
        have h1' : e.1 = bm := h1
        rw [← h1', ← hfst]
        exact List.mem_map_of_mem Prod.fst ((mem_sortBy _ e evals).1 he1)

theorem searchBestMoveMT_move {F : Type} (fo : FloatOps F) (fuel : Nat) (tt : TT F)
    (st : GameState) (w : NNUEWeights F) (depth : Int) (perfectInfo : Bool)
    (r : SearchResult F × TT F)
    (hne : getLegalMoves st (st.currentPlayer.val : Int) ≠ [])
    (h : searchBestMoveMT fo fuel tt st w depth perfectInfo = some r) :
    r.1.chosenMoveIndex ∈ getLegalMoves st (st.currentPlayer.val : Int) := by
  unfold searchBestMoveMT at h
  simp only [] at h
  rw [if_neg (by
    intro hc
    exact hne (List.isEmpty_iff.1 hc))] at h
  split at h
  · cases h
  · rename_i evals he
    have hfst := quickEvalMoves_fst fo st w _ _ perfectInfo _ evals he
    have hmemE : ∀ e ∈ sortBy (fun a b : Int × F => fo.lt b.2 a.2) evals,
        e.1 ∈ getLegalMoves st (st.currentPlayer.val : Int) := by
      intro e hmem
      rw [← hfst]
      exact List.mem_map_of_mem Prod.fst ((mem_sortBy _ e evals).1 hmem)
    have hevals : evals ≠ [] := by
      intro hc
      rw [hc] at hfst
      exact hne hfst.symm
    split at h
    · cases h
    · rename_i bv bm tt1 hr
      cases h
      rcases mtLoop_move fo st _ _ _ _ _ _ _ hr with h1 | ⟨e, he1, h1⟩
      · show bm ∈ _
        have h1' : bm = frontMove (sortBy (fun a b : Int × F => fo.lt b.2 a.2) evals) := h1
        obtain ⟨e, he1, he2⟩ := frontMove_mem _ (sortBy_ne_nil (fun a b : Int × F => fo.lt b.2 a.2)
          evals hevals)
        rw [h1', ← he2]
        exact hmemE e he1
      · show bm ∈ _
        have h1' : e.1 = bm := h1
        rw [← h1']
        exact hmemE e he1
theorem aspirationLoop_move {F : Type} (fo : FloatOps F) (fuel : Nat) (st : GameState)
    (w : NNUEWeights F) (p : Fin 2) (perfectInfo : Bool) (moves : List Int) (d : Int)
    (hne : moves ≠ []) (retries : Nat) (tt : TT F) (alpha beta delta : F)
    (r : F × Int × TT F)
    (h : aspirationLoop fo fuel st w p perfectInfo moves d retries tt alpha beta delta =
      some r) :
    r.2.1 ∈ moves := by
  induction retries generalizing tt alpha beta delta with
  | zero =>
    unfold aspirationLoop at h
    cases h
  | succ retries ih =>
    unfold aspirationLoop at h
    split at h
    · cases h
    · rename_i evals he
      have hfst := quickEvalMoves_fst fo st w _ _ perfectInfo _ evals he
      simp only [] at h
      split at h
      · cases h
      · rename_i curBest curBestMove tt1 hr
        have hmv : curBestMove ∈ moves := by
          rcases rootLoop_move fo st _ _ _ _ _ _ _ _ _ hr with h1 | ⟨e, he1, h1⟩
          · have h1' : curBestMove = moves.headD 0 := h1
            rw [h1']
            exact headD_mem_of_ne_nil _ hne
          · have h1' : e.1 = curBestMove := h1
            rw [← h1', ← hfst]
            exact List.mem_map_of_mem Prod.fst ((mem_sortBy _ e evals).1 he1)
        split_ifs at h
        · exact ih _ _ _ _ h
        · exact ih _ _ _ _ h
        · cases h
          exact hmv

theorem foldl_option_prop {α β : Type} (f : Option β → α → Option β) (P : β → Prop)
    (hnone : ∀ a, f none a = none)
    (hstep : ∀ acc a r, P acc → f (some acc) a = some r → P r)
    (l : List α) (acc : Option β) (hacc : ∀ x, acc = some x → P x) (r : β)
    (h : l.foldl f acc = some r) : P r := by
  induction l generalizing acc with
  | nil => exact hacc r h
  | cons a l ih =>
    rw [List.foldl_cons] at h
    refine ih (f acc a) ?_ h
    intro x hx
    cases acc with
    | none =>
      rw [hnone] at hx
      cases hx
    | some y => exact hstep y a x (hacc y rfl) hx

theorem searchBestMoveID_move {F : Type} (fo : FloatOps F) (fuel retries : Nat) (tt : TT F)
    (st : GameState) (w : NNUEWeights F) (depth : Int) (perfectInfo : Bool)
    (r : SearchResult F × TT F)
    (hne : getLegalMoves st (st.currentPlayer.val : Int) ≠ [])
    (h : searchBestMoveID fo fuel retries tt st w depth perfectInfo = some r) :
    r.1.chosenMoveIndex ∈ getLegalMoves st (st.currentPlayer.val : Int) := by
  unfold searchBestMoveID at h
  simp only [] at h
  rw [if_neg (by
    intro hc
    exact hne (List.isEmpty_iff.1 hc))] at h
  split at h
  · cases h
  · rename_i bestEval bestMove tt1 hfold
    cases h
    show bestMove ∈ _
    exact foldl_option_prop _
      (fun x : F × Int × TT F => x.2.1 ∈ getLegalMoves st (st.currentPlayer.val : Int))
      (fun _ => rfl)
      (fun acc a r _ hr => aspirationLoop_move fo fuel st w _ perfectInfo _ _ hne retries _ _ _ _
        r hr)
      _ _
      (fun x hx => by
        cases hx
        exact headD_mem_of_ne_nil _ hne)
      _ hfold

theorem searchBestMoveID_depth_nonpos {F : Type} (fo : FloatOps F) (fuel retries : Nat)
    (tt : TT F) (st : GameState) (w : NNUEWeights F) (depth : Int) (perfectInfo : Bool)
    (hne : getLegalMoves st (st.currentPlayer.val : Int) ≠ []) (hd : depth ≤ 0) :
    searchBestMoveID fo fuel retries tt st w depth perfectInfo =
      some ({ eval := nnueEvaluate fo w st st.currentPlayer perfectInfo,
              chosenMoveIndex := (getLegalMoves st (st.currentPlayer.val : Int)).headD 0 },
        tt) := by
  unfold searchBestMoveID
  simp only []
  rw [if_neg (by
    intro hc
    exact hne (List.isEmpty_iff.1 hc))]
  have h0 : depth.toNat = 0 := by omega
  rw [h0]
  rfl
theorem maxLoop_mono {F : Type} (fo : FloatOps F) (st : GameState) (p : Fin 2)
    (child child2 : TT F → GameState → F → F → Option (F × TT F))
    (hc : ∀ tt ns a b r, child tt ns a b = some r → child2 tt ns a b = some r) (beta : F)
    (ordered : List (Int × F)) (tt : TT F) (alpha bestVal : F) (bm : Int) (r : F × Int × TT F)
    (h : maxLoop fo st p child beta ordered tt alpha bestVal bm = some r) :
    maxLoop fo st p child2 beta ordered tt alpha bestVal bm = some r := by
  induction ordered generalizing tt alpha bestVal bm with
  | nil => exact h
  | cons e rest ih =>
    obtain ⟨m, q⟩ := e
    unfold maxLoop at h ⊢
    cases hns : applyMove st (p.val : Int) m with
    | none =>
      rw [hns] at h
      cases h
    | some ns =>
      rw [hns] at h
      simp only [] at h ⊢
      cases hch : child tt ns alpha beta with
      | none =>
        rw [hch] at h
        cases h
      | some x =>
        obtain ⟨val, tt1⟩ := x
        rw [hch] at h
        rw [hc _ _ _ _ _ hch]
        simp only [] at h ⊢
        split_ifs at h ⊢ <;>
          first
          | exact h
          | exact ih _ _ _ _ h

theorem minLoop_mono {F : Type} (fo : FloatOps F) (st : GameState) (p : Fin 2)
    (child child2 : TT F → GameState → F → F → Option (F × TT F))
    (hc : ∀ tt ns a b r, child tt ns a b = some r → child2 tt ns a b = some r) (alpha : F)
    (ordered : List (Int × F)) (tt : TT F) (beta bestVal : F) (bm : Int) (r : F × Int × TT F)
    (h : minLoop fo st p child alpha ordered tt beta bestVal bm = some r) :
    minLoop fo st p child2 alpha ordered tt beta bestVal bm = some r := by
  induction ordered generalizing tt beta bestVal bm with
  | nil => exact h
  | cons e rest ih =>
    obtain ⟨m, q⟩ := e
    unfold minLoop at h ⊢
    cases hns : applyMove st (p.val : Int) m with
    | none =>
      rw [hns] at h
      cases h
    | some ns =>
      rw [hns] at h
      simp only [] at h ⊢
      cases hch : child tt ns alpha beta with
      | none =>
        rw [hch] at h
        cases h
      | some x =>
        obtain ⟨val, tt1⟩ := x
        rw [hch] at h
        rw [hc _ _ _ _ _ hch]
        simp only [] at h ⊢
        split_ifs at h ⊢ <;>
          first
          | exact h
          | exact ih _ _ _ _ h

theorem rootLoop_mono {F : Type} (fo : FloatOps F) (st : GameState) (p : Fin 2)
    (child child2 : TT F → GameState → F → F → Option (F × TT F))
    (hc : ∀ tt ns a b r, child tt ns a b = some r → child2 tt ns a b = some r) (b : F)
    (ordered : List (Int × F)) (tt : TT F) (a best : F) (bm : Int) (r : F × Int × TT F)
    (h : rootLoop fo st p child b ordered tt a best bm = some r) :
    rootLoop fo st p child2 b ordered tt a best bm = some r := by
  induction ordered generalizing tt a best bm with
  | nil => exact h
  | cons e rest ih =>
    obtain ⟨m, q⟩ := e
    unfold rootLoop at h ⊢
    cases hns : applyMove st (p.val : Int) m with
    | none =>
      rw [hns] at h
      cases h
    | some ns =>
      rw [hns] at h
      simp only [] at h ⊢
      cases hch : child tt ns a b with
      | none =>
        rw [hch] at h
        cases h
      | some x =>
        obtain ⟨val, tt1⟩ := x
        rw [hch] at h
        rw [hc _ _ _ _ _ hch]
        simp only [] at h ⊢
        exact ih _ _ _ _ h

theorem mtLoop_mono {F : Type} (fo : FloatOps F) (st : GameState) (p : Fin 2)
    (child child2 : TT F → GameState → F → F → Option (F × TT F))
    (hc : ∀ tt ns a b r, child tt ns a b = some r → child2 tt ns a b = some r)
    (ordered : List (Int × F)) (tt : TT F) (best : F) (bm : Int) (r : F × Int × TT F)
    (h : mtLoop fo st p child ordered tt best bm = some r) :
    mtLoop fo st p child2 ordered tt best bm = some r := by
  induction ordered generalizing tt best bm with
  | nil => exact h
  | cons e rest ih =>
    obtain ⟨m, q⟩ := e
    unfold mtLoop at h ⊢
    cases hns : applyMove st (p.val : Int) m with
    | none =>
      rw [hns] at h
      cases h
    | some ns =>
      rw [hns] at h
      simp only [] at h ⊢
      cases hch : child tt ns (fo.neg fo.inf) fo.inf with
      | none =>
        rw [hch] at h
        cases h
      | some x =>
        obtain ⟨val, tt1⟩ := x
        rw [hch] at h
        rw [hc _ _ _ _ _ hch]
        simp only [] at h ⊢
        exact ih _ _ _ h

theorem searchRecursiveAB_fuel_succ {F : Type} (fo : FloatOps F) (w : NNUEWeights F)
    (rootPlayer : Fin 2) (perfectInfo : Bool) (fuel : Nat) (tt : TT F) (st : GameState)
    (depth : Int) (alpha beta : F) (r : F × TT F)
    (h : searchRecursiveAB fo w rootPlayer perfectInfo fuel tt st depth alpha beta = some r) :
    searchRecursiveAB fo w rootPlayer perfectInfo (fuel + 1) tt st depth alpha beta = some r := by
  induction fuel generalizing tt st depth alpha beta r with
  | zero =>
    unfold searchRecursiveAB at h
    cases h
  | succ fuel ih =>
    unfold searchRecursiveAB at h ⊢
    by_cases hf : st.finished = true
    · rw [if_pos hf] at h ⊢
      exact h
    rw [if_neg hf] at h ⊢
    generalize (if depth > 0 then ttLookup fo tt (computeHash st) depth alpha beta else none) = L
      at h ⊢
    cases L with
    | some ttVal => exact h
    | none =>
      simp only [] at h ⊢
      by_cases hd : depth = 0
      · rw [if_pos hd] at h ⊢
        exact h
      rw [if_neg hd] at h ⊢
      by_cases hm : (getLegalMoves st (st.currentPlayer.val : Int)).isEmpty = true
      · rw [if_pos hm] at h ⊢
        exact h
      rw [if_neg hm] at h ⊢
      cases he : quickEvalMoves fo st w st.currentPlayer rootPlayer perfectInfo
          (getLegalMoves st (st.currentPlayer.val : Int)) with
      | none =>
        rw [he] at h
        cases h
      | some evals =>
        rw [he] at h
        simp only [] at h ⊢
        by_cases hp : st.currentPlayer = rootPlayer
        · rw [if_pos hp] at h ⊢
          split at h
          · cases h
          · rename_i bv bm tt1 hr
            rw [maxLoop_mono fo st _ _ _ (fun tt ns a b r hr => ih tt ns _ a b r hr) _ _ _ _ _ _
              _ hr]
            exact h
        · rw [if_neg hp] at h ⊢
          split at h
          · cases h
          · rename_i bv bm tt1 hr
            rw [minLoop_mono fo st _ _ _ (fun tt ns a b r hr => ih tt ns _ a b r hr) _ _ _ _ _ _
              _ hr]
            exact h

theorem searchRecursiveAB_fuel_le {F : Type} (fo : FloatOps F) (w : NNUEWeights F)
    (rootPlayer : Fin 2) (perfectInfo : Bool) (fuel fuel2 : Nat) (hle : fuel ≤ fuel2)
    (tt : TT F) (st : GameState) (depth : Int) (alpha beta : F) (r : F × TT F)
    (h : searchRecursiveAB fo w rootPlayer perfectInfo fuel tt st depth alpha beta = some r) :
    searchRecursiveAB fo w rootPlayer perfectInfo fuel2 tt st depth alpha beta = some r := by
  induction hle with
  | refl => exact h
  | step _ ih =>
    exact searchRecursiveAB_fuel_succ fo w rootPlayer perfectInfo _ tt st depth alpha beta r ih
theorem searchBestMove_fuel_le {F : Type} (fo : FloatOps F) (fuel fuel2 : Nat)
    (hle : fuel ≤ fuel2) (tt : TT F) (st : GameState) (w : NNUEWeights F) (depth : Int)
    (perfectInfo : Bool) (r : SearchResult F × TT F)
    (h : searchBestMove fo fuel tt st w depth perfectInfo = some r) :
    searchBestMove fo fuel2 tt st w depth perfectInfo = some r := by
  unfold searchBestMove at h ⊢
  simp only [] at h ⊢
  by_cases hm : (getLegalMoves st (st.currentPlayer.val : Int)).isEmpty = true
  · rw [if_pos hm] at h ⊢
    exact h
  rw [if_neg hm] at h ⊢
  cases he : quickEvalMoves fo st w st.currentPlayer st.currentPlayer perfectInfo
      (getLegalMoves st (st.currentPlayer.val : Int)) with
  | none =>
    rw [he] at h
    cases h
  | some evals =>
    rw [he] at h
    simp only [] at h ⊢
    split at h
    · cases h
    · rename_i bv bm tt1 hr
      rw [rootLoop_mono fo st _ _ _
        (fun tt ns a b r hr =>
          searchRecursiveAB_fuel_le fo w _ perfectInfo fuel fuel2 hle tt ns _ a b r hr)
        _ _ _ _ _ _ _ hr]
      exact h

theorem searchBestMoveMT_fuel_le {F : Type} (fo : FloatOps F) (fuel fuel2 : Nat)
    (hle : fuel ≤ fuel2) (tt : TT F) (st : GameState) (w : NNUEWeights F) (depth : Int)
    (perfectInfo : Bool) (r : SearchResult F × TT F)
    (h : searchBestMoveMT fo fuel tt st w depth perfectInfo = some r) :
    searchBestMoveMT fo fuel2 tt st w depth perfectInfo = some r := by
  unfold searchBestMoveMT at h ⊢
  simp only [] at h ⊢
  by_cases hm : (getLegalMoves st (st.currentPlayer.val : Int)).isEmpty = true
  · rw [if_pos hm] at h ⊢
    exact h
  rw [if_neg hm] at h ⊢
  cases he : quickEvalMoves fo st w st.currentPlayer st.currentPlayer perfectInfo
      (getLegalMoves st (st.currentPlayer.val : Int)) with
  | none =>
    rw [he] at h
    cases h
  | some evals =>
    rw [he] at h
    simp only [] at h ⊢
    split at h
    · cases h
    · rename_i bv bm tt1 hr
      rw [mtLoop_mono fo st _ _ _
        (fun tt ns a b r hr =>
          searchRecursiveAB_fuel_le fo w _ perfectInfo fuel fuel2 hle tt ns _ a b r hr)
        _ _ _ _ _ hr]
      exact h

/-- C25: the alpha-beta search terminates.  For every state whose trick holds fewer than
4 cards, every table, every integer `depth` (the values `depth <= 0` included) and every
window, `searchRecursiveAB`, `searchBestMove` and `searchBestMoveMT` return a result, the
same one for every bound `fuel` on the nesting of the recursive calls that exceeds the
number of cards still to be played: each recursive call is made on a state in which one
more card has been played, whatever `depth` is. -/
theorem alphaBeta_terminates {F : Type} (fo : FloatOps F) (w : NNUEWeights F)
    (rootPlayer : Fin 2) (perfectInfo : Bool) (tt : TT F) (st : GameState) (depth : Int)
    (alpha beta : F) (ht : st.trick.cards.length < 4) :
    ∃ r1 r2 r3, ∀ fuel, cardsLeft st < fuel →
      searchRecursiveAB fo w rootPlayer perfectInfo fuel tt st depth alpha beta = some r1 ∧
        searchBestMove fo fuel tt st w depth perfectInfo = some r2 ∧
        searchBestMoveMT fo fuel tt st w depth perfectInfo = some r3 := by
  obtain ⟨r1, h1⟩ := searchRecursiveAB_some fo w rootPlayer perfectInfo (cardsLeft st + 1) tt st
    depth alpha beta (Or.inl (Nat.lt_succ_self _)) ht
  obtain ⟨r2, h2⟩ := searchBestMove_some fo (cardsLeft st + 1) tt st w depth perfectInfo
    (Nat.lt_succ_self _) ht
  obtain ⟨r3, h3⟩ := searchBestMoveMT_some fo (cardsLeft st + 1) tt st w depth perfectInfo
    (Nat.lt_succ_self _) ht
  refine ⟨r1, r2, r3, fun fuel hfuel => ⟨?_, ?_, ?_⟩⟩
  · exact searchRecursiveAB_fuel_le fo w rootPlayer perfectInfo _ fuel hfuel tt st depth alpha
      beta r1 h1
  · exact searchBestMove_fuel_le fo _ fuel hfuel tt st w depth perfectInfo r2 h2
  · exact searchBestMoveMT_fuel_le fo _ fuel hfuel tt st w depth perfectInfo r3 h3

theorem alphaBeta_terminates_witness :
    threeCardState.trick.cards.length < 4 ∧
      ∃ r1 r2 r3, ∀ fuel, cardsLeft threeCardState < fuel →
        searchRecursiveAB exactOps sampleWeights 1 false fuel [] threeCardState 0
            (ExtRat.fin 0) (ExtRat.fin 1) = some r1 ∧
          searchBestMove exactOps fuel [] threeCardState sampleWeights 0 false = some r2 ∧
          searchBestMoveMT exactOps fuel [] threeCardState sampleWeights 0 false = some r3 :=
  ⟨by decide,
    alphaBeta_terminates exactOps sampleWeights 1 false [] threeCardState 0 (ExtRat.fin 0)
      (ExtRat.fin 1) (by decide)⟩

theorem backpropagate_visits {F : Type} (fo : FloatOps F) (value : F) (path : List Nat)
    (node : Node F) : (backpropagate fo value path node).visits = node.visits + 1 := by
  cases path with
  | nil =>
    cases node
    rfl
  | cons i rest =>
    cases node
    rfl

theorem backpropagate_fields {F : Type} (fo : FloatOps F) (value : F) (path : List Nat)
    (node : Node F) :
    (backpropagate fo value path node).state = node.state ∧
      (backpropagate fo value path node).moveFromParent = node.moveFromParent ∧
      (backpropagate fo value path node).unexpandedMoves = node.unexpandedMoves ∧
      (backpropagate fo value path node).playerToMove = node.playerToMove ∧
      (backpropagate fo value path node).totalValue = fo.add node.totalValue value ∧
      (backpropagate fo value path node).children.length = node.children.length := by
  cases path with
  | nil =>
    cases node
    exact ⟨rfl, rfl, rfl, rfl, rfl, rfl⟩
  | cons i rest =>
    cases node
    refine ⟨rfl, rfl, rfl, rfl, rfl, ?_⟩
    simp only [backpropagate, Node.children, List.length_modify]

theorem backpropagate_children_nil {F : Type} (fo : FloatOps F) (value : F) (node : Node F) :
    (backpropagate fo value [] node).children = node.children := by
  cases node
  rfl

theorem backpropagate_children_cons {F : Type} (fo : FloatOps F) (value : F) (i : Nat)
    (rest : List Nat) (node : Node F) :
    (backpropagate fo value (i :: rest) node).children =
      node.children.modify (backpropagate fo value rest) i := by
  cases node
  rfl

theorem sum_map_modify {α : Type} (g : α → Int) (f : α → α) (l : List α) (i : Nat) (a : α)
    (h : l[i]? = some a) :
    ((l.modify f i).map g).sum = (l.map g).sum + (g (f a) - g a) := by
  induction l generalizing i with
  | nil => simp at h
  | cons x l ih =>
    cases i with
    | zero =>
      simp only [List.getElem?_cons_zero, Option.some.injEq] at h
      subst h
      rw [List.modify_zero_cons]
      simp only [List.map_cons, List.sum_cons]
      omega
    | succ i =>
      simp only [List.getElem?_cons_succ] at h
      rw [List.modify_succ_cons]
      simp only [List.map_cons, List.sum_cons]
      rw [ih i h]
      omega

theorem childVisits_backpropagate_nil {F : Type} (fo : FloatOps F) (value : F) (node : Node F) :
    childVisits (backpropagate fo value [] node) = childVisits node := by
  unfold childVisits
  rw [backpropagate_children_nil]

theorem childVisits_backpropagate_cons {F : Type} (fo : FloatOps F) (value : F) (i : Nat)
    (rest : List Nat) (node : Node F) (hi : i < node.children.length) :
    childVisits (backpropagate fo value (i :: rest) node) = childVisits node + 1 := by
  unfold childVisits
  rw [backpropagate_children_cons,
    sum_map_modify Node.visits _ _ i _ (List.getElem?_eq_getElem hi), backpropagate_visits]
  omega
theorem expandNode_spec {F : Type} (fo : FloatOps F) (node : Node F) (rng : RNG)
    (node1 : Node F) (expanded : Bool) (rng1 : RNG)
    (h : expandNode fo node rng = some (node1, expanded, rng1)) :
    node1.visits = node.visits ∧ node1.state = node.state ∧
      node1.moveFromParent = node.moveFromParent ∧
      node1.playerToMove = node.playerToMove ∧ node1.totalValue = node.totalValue ∧
      ((expanded = false ∧ node1 = node ∧ node.unexpandedMoves = []) ∨
        (expanded = true ∧ node1.unexpandedMoves = node.unexpandedMoves.dropLast ∧
          ∃ move next child,
            node.unexpandedMoves.getLast? = some move ∧
            applyMoveDeterministic node.state node.playerToMove move = some next ∧
            child.state = next ∧ child.moveFromParent = move ∧ child.visits = 0 ∧
            (child.children = [] ∧ child.totalValue = fo.ofRat 0) ∧
            node1.children = node.children ++ [child])) := by
  obtain ⟨st, ptm, mfp, unexp, cs, vis, tv⟩ := node
  unfold expandNode at h
  simp only [] at h
  cases hl : unexp.getLast? with
  | none =>
    rw [hl] at h
    simp only [Option.some.injEq, Prod.mk.injEq] at h
    obtain ⟨h1, h2, h3⟩ := h
    subst h1 h2 h3
    refine ⟨rfl, rfl, rfl, rfl, rfl, Or.inl ⟨rfl, rfl, ?_⟩⟩
    exact List.getLast?_eq_none_iff.1 hl
  | some move =>
    rw [hl] at h
    simp only [] at h
    cases ha : applyMoveDeterministic st ptm move with
    | none =>
      rw [ha] at h
      cases h
    | some next =>
      rw [ha] at h
      simp only [Option.some.injEq, Prod.mk.injEq] at h
      obtain ⟨h1, h2, h3⟩ := h
      subst h1 h2 h3
      exact ⟨rfl, rfl, rfl, rfl, rfl,
        Or.inr ⟨rfl, rfl, move, next,
          Node.mk next (next.currentPlayer.val : Int) move
            (shuffleMoves (getLegalMoves next (next.currentPlayer.val : Int)) rng).1 [] 0
            (fo.ofRat 0),
          hl, ha, rfl, rfl, rfl, ⟨rfl, rfl⟩, rfl⟩⟩

theorem expandAt_fields {F : Type} (fo : FloatOps F) (path : List Nat) (node : Node F)
    (rng : RNG) (node1 : Node F) (path1 : List Nat) (rng1 : RNG)
    (h : expandAt fo path node rng = some (node1, path1, rng1)) :
    node1.visits = node.visits ∧ node1.state = node.state ∧
      node1.moveFromParent = node.moveFromParent ∧
      node1.playerToMove = node.playerToMove ∧ node1.totalValue = node.totalValue := by
  cases path with
  | nil =>
    unfold expandAt at h
    by_cases hf : node.state.finished = true
    · rw [if_pos hf] at h
      simp only [Option.some.injEq, Prod.mk.injEq] at h
      rw [← h.1]
      exact ⟨rfl, rfl, rfl, rfl, rfl⟩
    · rw [if_neg hf] at h
      cases he : expandNode fo node rng with
      | none =>
        rw [he] at h
        cases h
      | some x =>
        obtain ⟨n1, ex, r1⟩ := x
        rw [he] at h
        simp only [Option.some.injEq, Prod.mk.injEq] at h
        rw [← h.1]
        have hs := expandNode_spec fo node rng n1 ex r1 he
        exact ⟨hs.1, hs.2.1, hs.2.2.1, hs.2.2.2.1, hs.2.2.2.2.1⟩
  | cons i rest =>
    obtain ⟨st, ptm, mfp, unexp, cs, vis, tv⟩ := node
    unfold expandAt at h
    cases hc : cs[i]? with
    | none =>
      rw [hc] at h
      cases h
    | some c =>
      rw [hc] at h
      simp only [] at h
      cases he : expandAt fo rest c rng with
      | none =>
        rw [he] at h
        cases h
      | some x =>
        obtain ⟨c1, p1, r1⟩ := x
        rw [he] at h
        simp only [Option.some.injEq, Prod.mk.injEq] at h
        rw [← h.1]
        exact ⟨rfl, rfl, rfl, rfl, rfl⟩

theorem expandAt_nil_spec {F : Type} (fo : FloatOps F) (node : Node F)
    (rng : RNG) (node1 : Node F) (path1 : List Nat) (rng1 : RNG)
    (h : expandAt fo [] node rng = some (node1, path1, rng1)) :
    (path1 = [] ∧ node1 = node ∧
        (node.state.finished = true ∨ node.unexpandedMoves = [])) ∨
      (node.state.finished = false ∧ node.unexpandedMoves ≠ [] ∧
        path1 = [node.children.length] ∧
        node1.unexpandedMoves = node.unexpandedMoves.dropLast ∧
        ∃ move next child,
          node.unexpandedMoves.getLast? = some move ∧
          applyMoveDeterministic node.state node.playerToMove move = some next ∧
          child.state = next ∧ child.moveFromParent = move ∧ child.visits = 0 ∧
          (child.children = [] ∧ child.totalValue = fo.ofRat 0) ∧
          node1.children = node.children ++ [child]) := by
  unfold expandAt at h
  by_cases hf : node.state.finished = true
  · rw [if_pos hf] at h
    simp only [Option.some.injEq, Prod.mk.injEq] at h
    exact Or.inl ⟨h.2.1.symm, h.1.symm, Or.inl hf⟩
  · rw [if_neg hf] at h
    cases he : expandNode fo node rng with
    | none =>
      rw [he] at h
      cases h
    | some x =>
      obtain ⟨n1, ex, r1⟩ := x
      rw [he] at h
      simp only [Option.some.injEq, Prod.mk.injEq] at h
      obtain ⟨h1, h2, h3⟩ := h
      subst h1
      have hs := (expandNode_spec fo node rng n1 ex r1 he).2.2.2.2.2
      rcases hs with ⟨hex, hn, hu⟩ | ⟨hex, hu, move, next, child, hl, ha, hc1, hc2, hc3, hc4, hc5⟩
      · left
        rw [hex] at h2
        exact ⟨h2.symm, hn, Or.inr hu⟩
      · right
        rw [hex] at h2
        refine ⟨by simpa using hf, ?_, ?_, hu, move, next, child, hl, ha, hc1, hc2, hc3, hc4, hc5⟩
        · intro hnil
          rw [hnil] at hl
          cases hl
        · rw [← h2, hc5, List.length_append, List.length_singleton]
          simp

theorem expandAt_cons_spec {F : Type} (fo : FloatOps F) (i : Nat) (rest : List Nat)
    (node : Node F) (rng : RNG) (node1 : Node F) (path1 : List Nat) (rng1 : RNG)
    (h : expandAt fo (i :: rest) node rng = some (node1, path1, rng1)) :
    node1.unexpandedMoves = node.unexpandedMoves ∧
      ∃ c c1 p1, node.children[i]? = some c ∧ expandAt fo rest c rng = some (c1, p1, rng1) ∧
        path1 = i :: p1 ∧ node1.children = node.children.set i c1 := by
  obtain ⟨st, ptm, mfp, unexp, cs, vis, tv⟩ := node
  unfold expandAt at h
  cases hc : cs[i]? with
  | none =>
    rw [hc] at h
    cases h
  | some c =>
    rw [hc] at h
    simp only [] at h
    cases he : expandAt fo rest c rng with
    | none =>
      rw [he] at h
      cases h
    | some x =>
      obtain ⟨c1, p1, r1⟩ := x
      rw [he] at h
      simp only [Option.some.injEq, Prod.mk.injEq] at h
      obtain ⟨h1, h2, h3⟩ := h
      subst h1 h2 h3
      exact ⟨rfl, c, c1, p1, hc, he, rfl, rfl⟩
theorem bestChildLoop_bound {F : Type} (fo : FloatOps F) (mo : MathOps F) (cfg : MCTSConfig F)
    (rootPlayer ptm : Int) (pv : F) (cs : List (Node F)) (k : Nat) (bs : F) (best : Option Nat)
    (i : Nat) (h : bestChildLoop fo mo cfg rootPlayer ptm pv cs k bs best = some i) :
    best = some i ∨ (k ≤ i ∧ i < k + cs.length) := by
  induction cs generalizing k bs best with
  | nil =>
    left
    exact h
  | cons c cs ih =>
    unfold bestChildLoop at h
    simp only [] at h
    split_ifs at h
    · rcases ih _ _ _ h with h1 | h1
      · right
        simp only [Option.some.injEq] at h1
        rw [List.length_cons]
        omega
      · right
        rw [List.length_cons]
        omega
    · rcases ih _ _ _ h with h1 | h1
      · left
        exact h1
      · right
        rw [List.length_cons]
        omega

theorem selectNodeAt_eq {F : Type} (fo : FloatOps F) (mo : MathOps F) (cfg : MCTSConfig F)
    (rootPlayer : Int) (cs : List (Node F)) (k i : Nat) :
    selectNodeAt fo mo cfg rootPlayer cs k i =
      match cs[k]? with
      | some c => i :: selectNode fo mo cfg rootPlayer c
      | none => [] := by
  induction cs generalizing k with
  | nil =>
    rw [selectNodeAt]
    rfl
  | cons c cs ih =>
    cases k with
    | zero =>
      rw [selectNodeAt]
      simp only [List.getElem?_cons_zero]
    | succ k =>
      rw [selectNodeAt, ih k]
      simp only [List.getElem?_cons_succ]

theorem selectNode_cases {F : Type} (fo : FloatOps F) (mo : MathOps F) (cfg : MCTSConfig F)
    (rootPlayer : Int) (node : Node F) :
    (selectNode fo mo cfg rootPlayer node = [] ∧
        (node.unexpandedMoves ≠ [] ∨ node.state.finished = true ∨ node.children = [] ∨
          bestChildLoop fo mo cfg rootPlayer node.playerToMove
            (fo.ofRat ((node.visits + 1 : Int) : ℚ)) node.children 0 (fo.neg fo.inf) none =
            none)) ∨
      (node.unexpandedMoves = [] ∧ node.state.finished = false ∧
        ∃ i c, node.children[i]? = some c ∧
          bestChildLoop fo mo cfg rootPlayer node.playerToMove
            (fo.ofRat ((node.visits + 1 : Int) : ℚ)) node.children 0 (fo.neg fo.inf) none =
            some i ∧
          selectNode fo mo cfg rootPlayer node = i :: selectNode fo mo cfg rootPlayer c) := by
  obtain ⟨st, ptm, mfp, unexp, cs, vis, tv⟩ := node
  simp only [Node.unexpandedMoves, Node.state, Node.children, Node.playerToMove, Node.visits]
  by_cases hstop : (!unexp.isEmpty || st.finished || cs.isEmpty) = true
  · left
    refine ⟨by rw [selectNode, if_pos hstop], ?_⟩
    simp only [Bool.or_eq_true, Bool.not_eq_true', List.isEmpty_eq_true] at hstop
    rcases hstop with (h | h) | h
    · left
      intro hc
      rw [hc] at h
      cases h
    · right
      left
      exact h
    · right
      right
      left
      exact h
  · have hs : selectNode fo mo cfg rootPlayer (Node.mk st ptm mfp unexp cs vis tv) =
        match bestChildLoop fo mo cfg rootPlayer ptm (fo.ofRat ((vis + 1 : Int) : ℚ)) cs 0
            (fo.neg fo.inf) none with
        | none => []
        | some i => selectNodeAt fo mo cfg rootPlayer cs i i := by
      rw [selectNode, if_neg hstop]
    simp only [Bool.or_eq_true, Bool.not_eq_true', List.isEmpty_eq_true, not_or] at hstop
    obtain ⟨⟨h1, h2⟩, h3⟩ := hstop
    cases hb : bestChildLoop fo mo cfg rootPlayer ptm (fo.ofRat ((vis + 1 : Int) : ℚ)) cs 0
        (fo.neg fo.inf) none with
    | none =>
      left
      rw [hs, hb]
      exact ⟨rfl, Or.inr (Or.inr (Or.inr rfl))⟩
    | some i =>
      right
      have hi : i < cs.length := by
        rcases bestChildLoop_bound fo mo cfg rootPlayer ptm _ cs 0 _ none i hb with h | h
        · cases h
        · omega
      refine ⟨by simpa using h1, by simpa using h2, i, cs[i], List.getElem?_eq_getElem hi, rfl, ?_⟩
      rw [hs, hb]
      simp only []
      rw [selectNodeAt_eq, List.getElem?_eq_getElem hi]
theorem sum_map_set {α : Type} (g : α → Int) (l : List α) (i : Nat) (a b : α)
    (h : l[i]? = some a) (hg : g b = g a) : ((l.set i b).map g).sum = (l.map g).sum := by
  induction l generalizing i with
  | nil => rfl
  | cons x l ih =>
    cases i with
    | zero =>
      simp only [List.getElem?_cons_zero, Option.some.injEq] at h
      subst h
      simp only [List.set_cons_zero, List.map_cons, List.sum_cons, hg]
    | succ i =>
      simp only [List.getElem?_cons_succ] at h
      simp only [List.set_cons_succ, List.map_cons, List.sum_cons, ih i h]

theorem modify_append_last {α : Type} (f : α → α) (cs : List α) (x : α) :
    (cs ++ [x]).modify f cs.length = cs ++ [f x] := by
  induction cs with
  | nil => rfl
  | cons a l ih =>
    simp only [List.cons_append, List.length_cons, List.modify_succ_cons, ih]

theorem childVisits_append_new {F : Type} (cs : List (Node F)) (child : Node F)
    (h : child.visits = 0) :
    ((cs ++ [child]).map Node.visits).sum = (cs.map Node.visits).sum := by
  rw [List.map_append, List.sum_append, List.map_singleton, List.sum_singleton, h]
  omega

theorem isStall_of_nil {F : Type} (fo : FloatOps F) (mo : MathOps F) (cfg : MCTSConfig F)
    (rootPlayer : Int) (root : Node F) (h0 : selectNode fo mo cfg rootPlayer root = [])
    (h1 : root.state.finished = true ∨ root.unexpandedMoves = []) :
    isStall fo mo cfg rootPlayer root = true := by
  unfold isStall
  rw [h0]
  rcases h1 with h | h
  · rw [h]
    rfl
  · rw [h]
    simp

theorem isStall_false_of_cons {F : Type} (fo : FloatOps F) (mo : MathOps F)
    (cfg : MCTSConfig F) (rootPlayer : Int) (root : Node F) (i : Nat) (rest : List Nat)
    (h0 : selectNode fo mo cfg rootPlayer root = i :: rest) :
    isStall fo mo cfg rootPlayer root = false := by
  unfold isStall
  rw [h0]
  rfl

theorem isStall_false_of_expand {F : Type} (fo : FloatOps F) (mo : MathOps F)
    (cfg : MCTSConfig F) (rootPlayer : Int) (root : Node F)
    (h1 : root.state.finished = false) (h2 : root.unexpandedMoves ≠ []) :
    isStall fo mo cfg rootPlayer root = false := by
  unfold isStall
  rw [h1]
  cases hu : root.unexpandedMoves with
  | nil => exact absurd hu h2
  | cons a l => simp

theorem mctsIteration_account {F : Type} (fo : FloatOps F) (mo : MathOps F)
    (cfg : MCTSConfig F) (rootPlayer : Int) (root : Node F) (rng : RNG) (root2 : Node F)
    (rng2 : RNG) (h : mctsIteration fo mo cfg rootPlayer root rng = some (root2, rng2)) :
    root2.visits = root.visits + 1 ∧ root2.state = root.state ∧
      root2.playerToMove = root.playerToMove ∧
      childVisits root2 =
        childVisits root + (if isStall fo mo cfg rootPlayer root = true then 0 else 1) ∧
      ∀ (G : F → Prop) M n, G (fo.ofRat 0) → (∀ a b, G a → G b → G (fo.add a b)) →
        (∀ st g v g1, rollout fo cfg rootPlayer st g = some (v, g1) → G v) →
        RootInv G M n root → RootInv G M n root2 := by
  unfold mctsIteration at h
  cases he : expandAt fo (selectNode fo mo cfg rootPlayer root) root rng with
  | none =>
    rw [he] at h
    cases h
  | some x =>
    obtain ⟨root1, path1, rng1⟩ := x
    rw [he] at h
    simp only [] at h
    cases hn : nodeAt path1 root1 with
    | none =>
      rw [hn] at h
      cases h
    | some node =>
      rw [hn] at h
      simp only [] at h
      cases hr : rollout fo cfg rootPlayer node.state rng1 with
      | none =>
        rw [hr] at h
        cases h
      | some y =>
        obtain ⟨value, rng3⟩ := y
        rw [hr] at h
        simp only [Option.some.injEq, Prod.mk.injEq] at h
        obtain ⟨h1, -⟩ := h
        subst h1
        have hf := expandAt_fields fo _ root rng root1 path1 rng1 he
        have hb := backpropagate_fields fo value path1 root1
        refine ⟨by rw [backpropagate_visits, hf.1], by rw [hb.1, hf.2.1],
          by rw [hb.2.2.2.1, hf.2.2.2.1], ?_⟩
        cases hp0 : selectNode fo mo cfg rootPlayer root with
        | nil =>
          rw [hp0] at he
          rcases expandAt_nil_spec fo root rng root1 path1 rng1 he with
            ⟨hp1, hr1, hst⟩ | ⟨hfin, hun, hp1, hu1, move, next, child, hl, -, -, hc2, hc3, ⟨-, hc4⟩, hc5⟩
          · subst hp1 hr1
            rw [isStall_of_nil fo mo cfg rootPlayer root1 hp0 hst, if_pos rfl,
              childVisits_backpropagate_nil]
            refine ⟨by omega, ?_⟩
            intro G M n hG0 hadd hroll hinv
            refine ⟨?_, ?_, ?_, ?_, ?_⟩
            · rw [backpropagate_children_nil]
              exact hinv.child_move
            · rw [backpropagate_children_nil]
              exact hinv.child_visits
            · rw [backpropagate_children_nil]
              exact hinv.child_total
            · rw [hb.2.2.1]
              exact hinv.unexpanded
            · rw [hb.2.2.2.2.2, hb.2.2.1]
              exact hinv.count
          · subst hp1
            have hlen : root.children.length < root1.children.length := by
              rw [hc5, List.length_append, List.length_singleton]
              exact Nat.lt_succ_self _
            rw [isStall_false_of_expand fo mo cfg rootPlayer root hfin hun,
              if_neg (by simp), childVisits_backpropagate_cons fo value _ _ root1 hlen]
            refine ⟨?_, ?_⟩
            · unfold childVisits
              rw [hc5, childVisits_append_new _ _ hc3]
            · intro G M n hG0 hadd hroll hinv
              have hval : G value := hroll _ _ _ _ hr
              have hmove : move ∈ M :=
                hinv.unexpanded move (List.mem_of_getLast?_eq_some hl)
              have hchildren : (backpropagate fo value [root.children.length] root1).children =
                  root.children ++ [backpropagate fo value [] child] := by
                rw [backpropagate_children_cons, hc5]
                exact modify_append_last _ _ _
              refine ⟨?_, ?_, ?_, ?_, ?_⟩
              · intro c hc
                rw [hchildren, List.mem_append, List.mem_singleton] at hc
                rcases hc with hc | hc
                · exact hinv.child_move c hc
                · rw [hc, (backpropagate_fields fo value [] child).2.1, hc2]
                  exact hmove
              · intro c hc
                rw [hchildren, List.mem_append, List.mem_singleton] at hc
                rcases hc with hc | hc
                · exact hinv.child_visits c hc
                · rw [hc, backpropagate_visits, hc3]
                  decide
              · intro c hc
                rw [hchildren, List.mem_append, List.mem_singleton] at hc
                rcases hc with hc | hc
                · exact hinv.child_total c hc
                · rw [hc, (backpropagate_fields fo value [] child).2.2.2.2.1, hc4]
                  exact hadd _ _ hG0 hval
              · intro m hm
                rw [hb.2.2.1, hu1] at hm
                exact hinv.unexpanded m (List.mem_of_mem_dropLast hm)
              · rw [hb.2.2.2.2.2, hb.2.2.1, hu1, hc5, List.length_append, List.length_singleton,
                  List.length_dropLast]
                have hpos : 0 < root.unexpandedMoves.length :=
                  List.length_pos.2 hun
                have := hinv.count
                omega
        | cons i rest =>
          rw [hp0] at he
          obtain ⟨hu1, c, c1, p1, hci, hec, hp1, hcs⟩ :=
            expandAt_cons_spec fo i rest root rng root1 path1 rng1 he
          subst hp1
          have hcf := expandAt_fields fo rest c rng c1 p1 rng1 hec
          have hi : i < root.children.length := by
            by_contra hcon
            rw [List.getElem?_eq_none (by omega)] at hci
            cases hci
          have hi1 : i < root1.children.length := by
            rw [hcs, List.length_set]
            exact hi
          rw [isStall_false_of_cons fo mo cfg rootPlayer root i rest hp0, if_neg (by simp),
            childVisits_backpropagate_cons fo value _ _ root1 hi1]
          refine ⟨?_, ?_⟩
          · unfold childVisits
            rw [hcs, sum_map_set Node.visits _ i c c1 hci hcf.1]
          · intro G M n hG0 hadd hroll hinv
            have hval : G value := hroll _ _ _ _ hr
            have hcmem : c ∈ root.children := List.getElem?_mem hci
            have hget : ∀ j x,
                (backpropagate fo value (i :: p1) root1).children[j]? = some x →
                (j = i ∧ x = backpropagate fo value p1 c1) ∨ (j ≠ i ∧ root.children[j]? = some x) := by
              intro j x hx
              rw [backpropagate_children_cons, hcs, List.getElem?_modify] at hx
              by_cases hji : i = j
              · subst hji
                left
                rw [List.getElem?_set_self hi] at hx
                simp only [if_true, Option.map_eq_map, Option.map_some', Option.some.injEq] at hx
                exact ⟨rfl, hx.symm⟩
              · right
                rw [List.getElem?_set_ne hji] at hx
                simp only [hji, if_false, Option.map_eq_map] at hx
                rw [show (fun a : Node F => a) = id from rfl, Option.map_id, id_eq] at hx
                exact ⟨fun hc => hji hc.symm, hx⟩
            refine ⟨?_, ?_, ?_, ?_, ?_⟩
            · intro x hx
              obtain ⟨j, hj⟩ := List.getElem?_of_mem hx
              rcases hget j x hj with ⟨-, hx1⟩ | ⟨-, hx1⟩
              · rw [hx1, (backpropagate_fields fo value p1 c1).2.1, hcf.2.2.1]
                exact hinv.child_move c hcmem
              · exact hinv.child_move x (List.getElem?_mem hx1)
            · intro x hx
              obtain ⟨j, hj⟩ := List.getElem?_of_mem hx
              rcases hget j x hj with ⟨-, hx1⟩ | ⟨-, hx1⟩
              · rw [hx1, backpropagate_visits, hcf.1]
                have := hinv.child_visits c hcmem
                omega
              · exact hinv.child_visits x (List.getElem?_mem hx1)
            · intro x hx
              obtain ⟨j, hj⟩ := List.getElem?_of_mem hx
              rcases hget j x hj with ⟨-, hx1⟩ | ⟨-, hx1⟩
              · rw [hx1, (backpropagate_fields fo value p1 c1).2.2.2.2.1, hcf.2.2.2.2]
                exact hadd _ _ (hinv.child_total c hcmem) hval
              · exact hinv.child_total x (List.getElem?_mem hx1)
            · intro m hm
              rw [hb.2.2.1, hu1] at hm
              exact hinv.unexpanded m hm
            · rw [hb.2.2.2.2.2, hb.2.2.1, hu1, hcs, List.length_set]
              exact hinv.count
theorem treeOK_state {F : Type} (node : Node F) (h : TreeOK node) :
    node.state.trick.cards.length < 4 := by
  cases h with
  | mk st ptm mfp unexp cs vis tv ht hcs => exact ht

theorem treeOK_children {F : Type} (node : Node F) (h : TreeOK node) :
    ∀ c ∈ node.children, TreeOK c := by
  cases h with
  | mk st ptm mfp unexp cs vis tv ht hcs => exact hcs

theorem treeOK_intro {F : Type} (node : Node F) (ht : node.state.trick.cards.length < 4)
    (hcs : ∀ c ∈ node.children, TreeOK c) : TreeOK node := by
  obtain ⟨st, ptm, mfp, unexp, cs, vis, tv⟩ := node
  exact TreeOK.mk st ptm mfp unexp cs vis tv ht hcs

theorem applyMoveDeterministic_some (st : GameState) (p m : Int)
    (ht : st.trick.cards.length < 4) :
    ∃ ns, applyMoveDeterministic st p m = some ns ∧ ns.trick.cards.length < 4 := by
  cases hb : (playCard st p m).1 with
  | false =>
    have hs := (playCard_failure st p m).2 hb
    refine ⟨st, ?_, ht⟩
    unfold applyMoveDeterministic
    rw [show playCard st p m = (false, st) from Prod.ext hb hs]
  | true =>
    have hpc : playCard st p m = (true, (playCard st p m).2) := Prod.ext hb rfl
    obtain ⟨hf, hp, h0, c, hc, -⟩ := playCard_true st _ p m hpc
    have hlt : m.toNat < (getP st.hands st.currentPlayer).length := by
      by_contra hcon
      rw [List.getElem?_eq_none (by omega)] at hc
      cases hc
    have hm : m ∈ getLegalMoves st (st.currentPlayer.val : Int) :=
      (getLegalMoves_mem st _ m).2 ⟨rfl, h0, by omega⟩
    obtain ⟨ns, h1, -, h3⟩ := applyMove_legal st m hf ht hm
    refine ⟨ns, ?_, h3⟩
    rw [← h1, hp]
    unfold applyMoveDeterministic applyMove
    rw [← hp, hpc]

theorem applyMoveDeterministic_legal (st : GameState) (m : Int) (hf : st.finished = false)
    (ht : st.trick.cards.length < 4)
    (hm : m ∈ getLegalMoves st (st.currentPlayer.val : Int)) :
    ∃ ns, applyMoveDeterministic st (st.currentPlayer.val : Int) m = some ns ∧
      cardsLeft ns < cardsLeft st ∧ ns.trick.cards.length < 4 := by
  obtain ⟨ns, h1, h2, h3⟩ := applyMove_legal st m hf ht hm
  obtain ⟨s1, c, hplay, -, -⟩ := playCard_legal_step st m hf hm
  refine ⟨ns, ?_, h2, h3⟩
  rw [← h1]
  unfold applyMoveDeterministic applyMove
  rw [hplay]

theorem getD_mem_of_lt (l : List Int) (i : Nat) (h : i < l.length) : l.getD i 0 ∈ l := by
  rw [List.getD_eq_getElem _ _ h]
  exact List.getElem_mem h

theorem rolloutLoop_some {F : Type} (cfg : MCTSConfig F) (fuel : Nat) :
    ∀ (st : GameState) (steps : Int) (rng : RNG), st.trick.cards.length < 4 →
      cardsLeft st < fuel → ∃ r, rolloutLoop cfg fuel st steps rng = some r := by
  induction fuel with
  | zero =>
    intro st steps rng _ h
    omega
  | succ fuel ih =>
    intro st steps rng ht hfuel
    unfold rolloutLoop
    by_cases hf : st.finished = true
    · rw [if_pos hf]
      exact ⟨_, rfl⟩
    rw [if_neg hf]
    by_cases hl : cfg.rolloutLimit > 0 ∧ steps ≥ cfg.rolloutLimit
    · rw [if_pos hl]
      exact ⟨_, rfl⟩
    rw [if_neg hl]
    simp only []
    by_cases he : (getLegalMoves st (st.currentPlayer.val : Int)).isEmpty = true
    · rw [if_pos he]
      exact ⟨_, rfl⟩
    rw [if_neg he]
    have hne := isEmpty_false_ne_nil _ he
    have hpos : 0 < (getLegalMoves st (st.currentPlayer.val : Int)).length :=
      List.length_pos.2 hne
    have hm := getD_mem_of_lt (getLegalMoves st (st.currentPlayer.val : Int))
      (rng.nextU32.1 % (getLegalMoves st (st.currentPlayer.val : Int)).length)
      (Nat.mod_lt _ hpos)
    obtain ⟨ns, h1, h2, h3⟩ :=
      applyMoveDeterministic_legal st _ (by simpa using hf) ht hm
    rw [h1]
    exact ih ns _ _ h3 (by omega)

theorem rollout_some {F : Type} (fo : FloatOps F) (cfg : MCTSConfig F) (rootPlayer : Int)
    (st : GameState) (rng : RNG) (ht : st.trick.cards.length < 4) :
    ∃ r, rollout fo cfg rootPlayer st rng = some r := by
  obtain ⟨⟨s1, g1⟩, hr⟩ := rolloutLoop_some cfg (cardsLeft st + 1) st 0 rng ht (by omega)
  unfold rollout
  rw [hr]
  simp only []
  cases cfg.weights with
  | none => exact ⟨_, rfl⟩
  | some w =>
    simp only []
    split_ifs
    · exact ⟨_, rfl⟩
    · exact ⟨_, rfl⟩

theorem nodeAt_cons {F : Type} (i : Nat) (rest : List Nat) (node c : Node F)
    (h : node.children[i]? = some c) : nodeAt (i :: rest) node = nodeAt rest c := by
  rw [nodeAt, h]

theorem expandAt_some {F : Type} (fo : FloatOps F) (path : List Nat) :
    ∀ (node : Node F) (rng : RNG), TreeOK node → (∃ nd, nodeAt path node = some nd) →
      ∃ node1 path1 rng1, expandAt fo path node rng = some (node1, path1, rng1) ∧
        TreeOK node1 ∧
        ∃ nd, nodeAt path1 node1 = some nd ∧ nd.state.trick.cards.length < 4 := by
  induction path with
  | nil =>
    intro node rng hok _
    have ht := treeOK_state node hok
    unfold expandAt
    by_cases hf : node.state.finished = true
    · rw [if_pos hf]
      exact ⟨node, [], rng, rfl, hok, node, rfl, ht⟩
    rw [if_neg hf]
    obtain ⟨st, ptm, mfp, unexp, cs, vis, tv⟩ := node
    unfold expandNode
    simp only []
    cases hl : unexp.getLast? with
    | none =>
      simp only [Bool.false_eq_true, if_false]
      exact ⟨_, _, _, rfl, hok, _, rfl, ht⟩
    | some move =>
      simp only []
      obtain ⟨next, ha, hnt⟩ := applyMoveDeterministic_some st ptm move ht
      rw [ha]
      simp only [if_true]
      refine ⟨_, _, _, rfl, ?_, ?_⟩
      · refine TreeOK.mk _ _ _ _ _ _ _ ht ?_
        intro c hc
        rw [List.mem_append, List.mem_singleton] at hc
        rcases hc with hc | hc
        · exact treeOK_children _ hok c hc
        · rw [hc]
          exact TreeOK.mk _ _ _ _ _ _ _ hnt (fun c hc => absurd hc (List.not_mem_nil c))
      · refine ⟨Node.mk next (next.currentPlayer.val : Int) move
          (shuffleMoves (getLegalMoves next (next.currentPlayer.val : Int)) rng).1 [] 0
          (fo.ofRat 0), ?_, hnt⟩
        unfold nodeAt
        simp only [Node.children, List.length_append, List.length_singleton,
          Nat.add_sub_cancel]
        rw [List.getElem?_append_right (le_refl _), Nat.sub_self]
        rfl
  | cons i rest ih =>
    intro node rng hok hv
    obtain ⟨nd, hnd⟩ := hv
    cases hc : node.children[i]? with
    | none =>
      unfold nodeAt at hnd
      rw [hc] at hnd
      cases hnd
    | some c =>
      rw [nodeAt_cons i rest node c hc] at hnd
      have hcok : TreeOK c := treeOK_children node hok c (List.getElem?_mem hc)
      obtain ⟨c1, p1, g1, he, hok1, nd1, hn1, ht1⟩ := ih c rng hcok ⟨nd, hnd⟩
      obtain ⟨st, ptm, mfp, unexp, cs, vis, tv⟩ := node
      have hc2 : cs[i]? = some c := hc
      have hi : i < cs.length := by
        by_contra hcon
        rw [List.getElem?_eq_none (by omega)] at hc2
        cases hc2
      unfold expandAt
      rw [hc2]
      simp only []
      rw [he]
      refine ⟨_, _, _, rfl, ?_, nd1, ?_, ht1⟩
      · refine TreeOK.mk _ _ _ _ _ _ _ (treeOK_state _ hok) ?_
        intro x hx
        rcases List.mem_or_eq_of_mem_set hx with hx | hx
        · exact treeOK_children _ hok x hx
        · rw [hx]
          exact hok1
      · rw [nodeAt_cons i p1 _ c1 (by
          show (cs.set i c1)[i]? = some c1
          exact List.getElem?_set_self hi)]
        exact hn1

theorem selectNode_valid {F : Type} (fo : FloatOps F) (mo : MathOps F) (cfg : MCTSConfig F)
    (rootPlayer : Int) (n : Nat) :
    ∀ node : Node F, (selectNode fo mo cfg rootPlayer node).length = n →
      ∃ nd, nodeAt (selectNode fo mo cfg rootPlayer node) node = some nd := by
  induction n with
  | zero =>
    intro node hlen
    rw [List.length_eq_zero.1 hlen]
    exact ⟨node, rfl⟩
  | succ n ih =>
    intro node hlen
    rcases selectNode_cases fo mo cfg rootPlayer node with ⟨h0, -⟩ | ⟨-, -, i, c, hc, -, hs⟩
    · rw [h0] at hlen
      cases hlen
    · rw [hs] at hlen ⊢
      rw [nodeAt_cons i _ node c hc]
      exact ih c (by simpa using hlen)

theorem mem_modify {α : Type} (f : α → α) (l : List α) (i : Nat) (x : α)
    (h : x ∈ l.modify f i) : x ∈ l ∨ ∃ a ∈ l, x = f a := by
  obtain ⟨j, hj⟩ := List.getElem?_of_mem h
  rw [List.getElem?_modify] at hj
  cases ha : l[j]? with
  | none =>
    rw [ha] at hj
    cases hj
  | some a =>
    rw [ha] at hj
    simp only [Option.map_eq_map, Option.map_some', Option.some.injEq] at hj
    by_cases hij : i = j
    · rw [if_pos hij] at hj
      exact Or.inr ⟨a, List.getElem?_mem ha, hj.symm⟩
    · rw [if_neg hij] at hj
      rw [← hj]
      exact Or.inl (List.getElem?_mem ha)

theorem backpropagate_ok {F : Type} (fo : FloatOps F) (value : F) (path : List Nat) :
    ∀ node : Node F, TreeOK node → TreeOK (backpropagate fo value path node) := by
  induction path with
  | nil =>
    intro node hok
    obtain ⟨st, ptm, mfp, unexp, cs, vis, tv⟩ := node
    unfold backpropagate
    exact TreeOK.mk _ _ _ _ _ _ _ (treeOK_state _ hok) (treeOK_children _ hok)
  | cons i rest ih =>
    intro node hok
    obtain ⟨st, ptm, mfp, unexp, cs, vis, tv⟩ := node
    unfold backpropagate
    refine TreeOK.mk _ _ _ _ _ _ _ (treeOK_state _ hok) ?_
    intro x hx
    rcases mem_modify _ _ _ _ hx with hx | ⟨a, ha, hx⟩
    · exact treeOK_children _ hok x hx
    · rw [hx]
      exact ih a (treeOK_children _ hok a ha)

theorem mctsIteration_some {F : Type} (fo : FloatOps F) (mo : MathOps F)
    (cfg : MCTSConfig F) (rootPlayer : Int) (root : Node F) (rng : RNG) (hok : TreeOK root) :
    ∃ root1 rng1, mctsIteration fo mo cfg rootPlayer root rng = some (root1, rng1) ∧
      TreeOK root1 := by
  obtain ⟨r1, p1, g1, he, hok1, nd, hn, ht⟩ :=
    expandAt_some fo (selectNode fo mo cfg rootPlayer root) root rng hok
      (selectNode_valid fo mo cfg rootPlayer _ root rfl)
  obtain ⟨⟨v, g2⟩, hr⟩ := rollout_some fo cfg rootPlayer nd.state g1 ht
  unfold mctsIteration
  rw [he]
  simp only []
  rw [hn]
  simp only []
  rw [hr]
  exact ⟨_, _, rfl, backpropagate_ok fo v p1 r1 hok1⟩

theorem mctsLoop_some {F : Type} (fo : FloatOps F) (mo : MathOps F) (cfg : MCTSConfig F)
    (rootPlayer : Int) (n : Nat) :
    ∀ (root : Node F) (rng : RNG), TreeOK root →
      ∃ root1 rng1, mctsLoop fo mo cfg rootPlayer n root rng = some (root1, rng1) := by
  induction n with
  | zero =>
    intro root rng _
    exact ⟨root, rng, rfl⟩
  | succ n ih =>
    intro root rng hok
    obtain ⟨r1, g1, h1, hok1⟩ := mctsIteration_some fo mo cfg rootPlayer root rng hok
    unfold mctsLoop
    rw [h1]
    exact ih r1 g1 hok1

theorem mctsTree_some {F : Type} (fo : FloatOps F) (mo : MathOps F) (state : GameState)
    (rootPlayer : Int) (rng : RNG) (cfg : MCTSConfig F)
    (ht : state.trick.cards.length < 4) :
    ∃ root rng1, mctsTree fo mo state rootPlayer rng cfg = some (root, rng1) := by
  unfold mctsTree
  exact mctsLoop_some fo mo cfg rootPlayer _ _ _
    (TreeOK.mk _ _ _ _ _ _ _ ht (fun c hc => absurd hc (List.not_mem_nil c)))
theorem swapMoves_perm (v : List Int) (i j : Nat) : (swapMoves v i j).Perm v := by
  unfold swapMoves
  cases ha : v[i]? with
  | none => exact List.Perm.refl _
  | some a =>
    cases hb : v[j]? with
    | none => exact List.Perm.refl _
    | some b =>
      simp only []
      have hi : i < v.length := by
        by_contra hge
        rw [List.getElem?_eq_none (by omega)] at ha
        cases ha
      have hj : j < v.length := by
        by_contra hge
        rw [List.getElem?_eq_none (by omega)] at hb
        cases hb
      rw [List.getElem?_eq_getElem hi] at ha
      rw [List.getElem?_eq_getElem hj] at hb
      have hai : v[i] = a := Option.some.inj ha
      have hbj : v[j] = b := Option.some.inj hb
      have hj2 : j < (v.set i b).length := by
        rw [List.length_set]
        exact hj
      have hget : (v.set i b)[j] = b := by
        by_cases hij : i = j
        · subst hij
          exact List.getElem_set_self hj2
        · rw [List.getElem_set_ne hij]
          exact hbj
      rw [List.perm_iff_count]
      intro x
      rw [List.count_set a x (v.set i b) j hj2, List.count_set b x v i hi, hget, hai]
      have hpos : (if (a == x) = true then 1 else 0) ≤ List.count x v := by
        by_cases hax : a = x
        · subst hax
          rw [if_pos (beq_self_eq_true a)]
          exact List.count_pos_iff.2 (hai ▸ List.getElem_mem hi)
        · rw [if_neg (by simpa using hax)]
          exact Nat.zero_le _
      omega

theorem shuffleMovesLoop_perm (i : Nat) :
    ∀ (v : List Int) (rng : RNG), (shuffleMovesLoop i v rng).1.Perm v := by
  induction i with
  | zero =>
    intro v rng
    exact List.Perm.refl _
  | succ n ih =>
    intro v rng
    unfold shuffleMovesLoop
    exact (ih _ _).trans (swapMoves_perm v _ _)

theorem shuffleMoves_perm (moves : List Int) (rng : RNG) :
    (shuffleMoves moves rng).1.Perm moves := by
  unfold shuffleMoves
  split_ifs
  · exact List.Perm.refl _
  · exact shuffleMovesLoop_perm _ _ _

theorem bestByVisits_spec {F : Type} (cs : List (Node F)) :
    ∀ (bv : Int) (best : Option (Node F)),
      ((∀ c ∈ cs, c.visits ≤ bv) ∧ bestByVisits cs bv best = best) ∨
        ∃ i c, cs[i]? = some c ∧ bestByVisits cs bv best = some c ∧ bv < c.visits ∧
          (∀ d ∈ cs, d.visits ≤ c.visits) ∧
          ∀ (j : Nat) (d : Node F), j < i → cs[j]? = some d → d.visits < c.visits := by
  induction cs with
  | nil =>
    intro bv best
    exact Or.inl ⟨fun c hc => absurd hc (List.not_mem_nil c), rfl⟩
  | cons a cs ih =>
    intro bv best
    unfold bestByVisits
    by_cases hgt : a.visits > bv
    · rw [if_pos hgt]
      rcases ih a.visits (some a) with ⟨hall, hres⟩ | ⟨i, c, hc, hres, hlt, hmax, hfirst⟩
      · right
        refine ⟨0, a, List.getElem?_cons_zero, hres, hgt, ?_, ?_⟩
        · intro d hd
          rcases List.mem_cons.1 hd with hd | hd
          · rw [hd]
          · exact hall d hd
        · intro j d hj
          omega
      · right
        refine ⟨i + 1, c, by rw [List.getElem?_cons_succ]; exact hc, hres, by omega, ?_, ?_⟩
        · intro d hd
          rcases List.mem_cons.1 hd with hd | hd
          · rw [hd]
            omega
          · exact hmax d hd
        · intro j d hj hd
          cases j with
          | zero =>
            simp only [List.getElem?_cons_zero, Option.some.injEq] at hd
            rw [← hd]
            exact hlt
          | succ j =>
            rw [List.getElem?_cons_succ] at hd
            exact hfirst j d (by omega) hd
    · rw [if_neg hgt]
      rcases ih bv best with ⟨hall, hres⟩ | ⟨i, c, hc, hres, hlt, hmax, hfirst⟩
      · left
        refine ⟨?_, hres⟩
        intro d hd
        rcases List.mem_cons.1 hd with hd | hd
        · rw [hd]
          omega
        · exact hall d hd
      · right
        refine ⟨i + 1, c, by rw [List.getElem?_cons_succ]; exact hc, hres, hlt, ?_, ?_⟩
        · intro d hd
          rcases List.mem_cons.1 hd with hd | hd
          · rw [hd]
            omega
          · exact hmax d hd
        · intro j d hj hd
          cases j with
          | zero =>
            simp only [List.getElem?_cons_zero, Option.some.injEq] at hd
            rw [← hd]
            omega
          | succ j =>
            rw [List.getElem?_cons_succ] at hd
            exact hfirst j d (by omega) hd

theorem bestChildLoop_some {F : Type} (fo : FloatOps F) (mo : MathOps F) (cfg : MCTSConfig F)
    (rootPlayer ptm : Int) (pv : F) (cs : List (Node F)) :
    ∀ (k : Nat) (bs : F) (b : Nat),
      bestChildLoop fo mo cfg rootPlayer ptm pv cs k bs (some b) ≠ none := by
  induction cs with
  | nil =>
    intro k bs b h
    cases h
  | cons c cs ih =>
    intro k bs b
    unfold bestChildLoop
    simp only []
    split_ifs
    · exact ih _ _ _
    · exact ih _ _ _

theorem isStall_false_of_score {F : Type} (fo : FloatOps F) (mo : MathOps F)
    (cfg : MCTSConfig F) (rootPlayer : Int) (G : F → Prop) (M : List Int) (k : Nat)
    (root : Node F) (hfin : root.state.finished = false) (hk : 0 < k)
    (hinv : RootInv G M k root)
    (hscore : ∀ c : Node F, G c.totalValue → 0 < c.visits →
      fo.lt (fo.neg fo.inf)
        (childScore fo mo cfg rootPlayer root.playerToMove
          (fo.ofRat ((root.visits + 1 : Int) : ℚ)) c) = true) :
    isStall fo mo cfg rootPlayer root = false := by
  by_cases hun : root.unexpandedMoves = []
  · rcases selectNode_cases fo mo cfg rootPlayer root with ⟨-, h⟩ | ⟨-, -, i, c, -, -, hs⟩
    · exfalso
      rcases h with h | h | h | h
      · exact h hun
      · rw [hfin] at h
        cases h
      · have := hinv.count
        rw [h, hun] at this
        simp only [List.length_nil] at this
        omega
      · cases hcs : root.children with
        | nil =>
          have := hinv.count
          rw [hcs, hun] at this
          simp only [List.length_nil] at this
          omega
        | cons c cs =>
          rw [hcs] at h
          have hc : c ∈ root.children := by
            rw [hcs]
            exact List.mem_cons_self c cs
          unfold bestChildLoop at h
          simp only [] at h
          rw [if_pos (hscore c (hinv.child_total c hc)
            (by have := hinv.child_visits c hc; omega))] at h
          exact bestChildLoop_some fo mo cfg rootPlayer _ _ cs _ _ _ h
    · exact isStall_false_of_cons fo mo cfg rootPlayer root i _ hs
  · exact isStall_false_of_expand fo mo cfg rootPlayer root hfin hun

theorem mctsLoop_account {F : Type} (fo : FloatOps F) (mo : MathOps F) (cfg : MCTSConfig F)
    (rootPlayer : Int) (G : F → Prop) (M : List Int) (k : Nat) (hG0 : G (fo.ofRat 0))
    (hadd : ∀ a b, G a → G b → G (fo.add a b))
    (hroll : ∀ st g v g1, rollout fo cfg rootPlayer st g = some (v, g1) → G v) (n : Nat) :
    ∀ (root : Node F) (rng : RNG) (root2 : Node F) (rng2 : RNG),
      mctsLoop fo mo cfg rootPlayer n root rng = some (root2, rng2) → RootInv G M k root →
      root2.visits = root.visits + n ∧ root2.state = root.state ∧
        root2.playerToMove = root.playerToMove ∧ RootInv G M k root2 ∧
        childVisits root ≤ childVisits root2 ∧ childVisits root2 ≤ childVisits root + n ∧
        ((∀ r : Node F, RootInv G M k r → r.state = root.state →
            r.playerToMove = root.playerToMove → root.visits ≤ r.visits →
            isStall fo mo cfg rootPlayer r = false) →
          childVisits root2 = childVisits root + n) := by
  induction n with
  | zero =>
    intro root rng root2 rng2 h hinv
    unfold mctsLoop at h
    simp only [Option.some.injEq, Prod.mk.injEq] at h
    rw [← h.1]
    simp only [Nat.cast_zero, add_zero, le_refl, implies_true, and_self, hinv]
  | succ n ih =>
    intro root rng root2 rng2 h hinv
    unfold mctsLoop at h
    cases hit : mctsIteration fo mo cfg rootPlayer root rng with
    | none =>
      rw [hit] at h
      cases h
    | some x =>
      obtain ⟨r1, g1⟩ := x
      rw [hit] at h
      simp only [] at h
      obtain ⟨hv, hs, hp, hcv, hri⟩ := mctsIteration_account fo mo cfg rootPlayer root rng r1 g1 hit
      have hinv1 := hri G M k hG0 hadd hroll hinv
      obtain ⟨hv2, hs2, hp2, hinv2, hge, hle, heq⟩ := ih r1 g1 root2 rng2 h hinv1
      refine ⟨?_, by rw [hs2, hs], by rw [hp2, hp], hinv2, ?_, ?_, ?_⟩
      · rw [hv2, hv]
        push_cast
        omega
      · have : childVisits root ≤ childVisits r1 := by
          rw [hcv]
          split_ifs <;> omega
        omega
      · have : childVisits r1 ≤ childVisits root + 1 := by
          rw [hcv]
          split_ifs <;> omega
        push_cast
        omega
      · intro hns
        have h1 : isStall fo mo cfg rootPlayer root = false :=
          hns root hinv rfl rfl (le_refl _)
        rw [h1] at hcv
        simp only [Bool.false_eq_true, if_false] at hcv
        rw [heq (fun r hr hrs hrp hrv =>
          hns r hr (by rw [hrs, hs]) (by rw [hrp, hp]) (by omega)), hcv]
        push_cast
        omega
theorem mctsRoot_inv {F : Type} (fo : FloatOps F) (G : F → Prop) (state : GameState)
    (rootPlayer : Int) (rng : RNG) :
    RootInv G (getLegalMoves state rootPlayer) (getLegalMoves state rootPlayer).length
      (mctsRoot fo state rootPlayer rng).1 := by
  have hperm := shuffleMoves_perm (getLegalMoves state rootPlayer) rng
  refine ⟨fun c hc => absurd hc (List.not_mem_nil c), fun c hc => absurd hc (List.not_mem_nil c),
    fun c hc => absurd hc (List.not_mem_nil c), fun m hm => hperm.mem_iff.1 hm, ?_⟩
  show 0 + (shuffleMoves (getLegalMoves state rootPlayer) rng).1.length = _
  rw [hperm.length_eq, Nat.zero_add]

theorem mctsTree_account {F : Type} (fo : FloatOps F) (mo : MathOps F) (G : F → Prop)
    (state : GameState) (rootPlayer : Int) (rng : RNG) (cfg : MCTSConfig F)
    (hG0 : G (fo.ofRat 0)) (hadd : ∀ a b, G a → G b → G (fo.add a b))
    (hroll : ∀ st g v g1, rollout fo cfg rootPlayer st g = some (v, g1) → G v)
    (ht : state.trick.cards.length < 4) :
    ∃ root rng1, mctsTree fo mo state rootPlayer rng cfg = some (root, rng1) ∧
      root.visits = (cfg.iterations.toNat : Int) ∧ root.state = state ∧
      root.playerToMove = rootPlayer ∧
      RootInv G (getLegalMoves state rootPlayer) (getLegalMoves state rootPlayer).length root ∧
      0 ≤ childVisits root ∧ childVisits root ≤ (cfg.iterations.toNat : Int) ∧
      ((∀ r : Node F,
          RootInv G (getLegalMoves state rootPlayer) (getLegalMoves state rootPlayer).length r →
          r.state = state → r.playerToMove = rootPlayer → 0 ≤ r.visits →
          isStall fo mo cfg rootPlayer r = false) →
        childVisits root = (cfg.iterations.toNat : Int)) := by
  obtain ⟨root, rng1, h⟩ := mctsTree_some fo mo state rootPlayer rng cfg ht
  refine ⟨root, rng1, h, ?_⟩
  unfold mctsTree at h
  obtain ⟨h1, h2, h3, h4, h5, h6, h7⟩ :=
    mctsLoop_account fo mo cfg rootPlayer G _ _ hG0 hadd hroll _ _ _ root rng1 h
      (mctsRoot_inv fo G state rootPlayer rng)
  have hv0 : (mctsRoot fo state rootPlayer rng).1.visits = 0 := rfl
  have hc0 : childVisits (mctsRoot fo state rootPlayer rng).1 = 0 := rfl
  rw [hv0] at h1
  rw [hc0] at h5 h6 h7
  refine ⟨by omega, h2, h3, h4, h5, by omega, ?_⟩
  intro hns
  rw [h7 (fun r hr hrs hrp hrv => hns r hr hrs hrp (by rw [hv0] at hrv; exact hrv))]
  omega

theorem rollout_any {F : Type} (fo : FloatOps F) (cfg : MCTSConfig F) (rootPlayer : Int) :
    ∀ (st : GameState) (g : RNG) (v : F) (g1 : RNG),
      rollout fo cfg rootPlayer st g = some (v, g1) → (fun _ : F => True) v :=
  fun _ _ _ _ _ => trivial

theorem searchBestMoveMCTS_eq {F : Type} (fo : FloatOps F) (mo : MathOps F)
    (state : GameState) (rootPlayer : Int) (rng : RNG) (cfg : MCTSConfig F) (root : Node F)
    (rng1 : RNG) (hne : getLegalMoves state rootPlayer ≠ [])
    (h : mctsTree fo mo state rootPlayer rng cfg = some (root, rng1)) :
    searchBestMoveMCTS fo mo state rootPlayer rng cfg =
      match bestByVisits root.children (-1) none with
      | some bestChild =>
        some
          ({ chosenMoveIndex := bestChild.moveFromParent
             eval :=
               if bestChild.visits > 0 then
                 fo.div bestChild.totalValue (fo.ofRat (bestChild.visits : ℚ))
               else fo.ofRat 0
             visits := bestChild.visits }, rng1)
      | none =>
        some ({ chosenMoveIndex := (getLegalMoves state rootPlayer).headD 0, eval := fo.ofRat 0,
                visits := 0 }, rng1) := by
  unfold searchBestMoveMCTS
  simp only []
  rw [if_neg (by
    intro hc
    exact hne (List.isEmpty_iff.1 hc)), h]

theorem searchBestMoveMCTS_empty {F : Type} (fo : FloatOps F) (mo : MathOps F)
    (state : GameState) (rootPlayer : Int) (rng : RNG) (cfg : MCTSConfig F)
    (h : getLegalMoves state rootPlayer = []) :
    searchBestMoveMCTS fo mo state rootPlayer rng cfg =
      some ({ eval := fo.ofRat 0, chosenMoveIndex := -1, visits := 0 }, rng) := by
  unfold searchBestMoveMCTS
  simp only [h, List.isEmpty_nil, if_true]

theorem getLegalMoves_other (state : GameState) (p : Int)
    (h : p ≠ (state.currentPlayer.val : Int)) : getLegalMoves state p = [] := by
  unfold getLegalMoves
  rw [if_pos h]

theorem searchBestMoveMCTS_move {F : Type} (fo : FloatOps F) (mo : MathOps F)
    (state : GameState) (rootPlayer : Int) (rng : RNG) (cfg : MCTSConfig F)
    (ht : state.trick.cards.length < 4) (hne : getLegalMoves state rootPlayer ≠ []) :
    ∃ r, searchBestMoveMCTS fo mo state rootPlayer rng cfg = some r ∧
      r.1.chosenMoveIndex ∈ getLegalMoves state rootPlayer := by
  obtain ⟨root, rng1, h, -, -, -, hinv, -⟩ :=
    mctsTree_account fo mo (fun _ => True) state rootPlayer rng cfg trivial
      (fun _ _ _ _ => trivial) (rollout_any fo cfg rootPlayer) ht
  rw [searchBestMoveMCTS_eq fo mo state rootPlayer rng cfg root rng1 hne h]
  rcases bestByVisits_spec root.children (-1) none with ⟨-, hres⟩ | ⟨i, c, hc, hres, -⟩
  · rw [hres]
    exact ⟨_, rfl, headD_mem_of_ne_nil _ hne⟩
  · rw [hres]
    exact ⟨_, rfl, hinv.child_move c (List.getElem?_mem hc)⟩

theorem childVisits_pos_of_iteration {F : Type} (fo : FloatOps F) (mo : MathOps F)
    (cfg : MCTSConfig F) (rootPlayer : Int) (G : F → Prop) (M : List Int) (k : Nat)
    (hG0 : G (fo.ofRat 0)) (hadd : ∀ a b, G a → G b → G (fo.add a b))
    (hroll : ∀ st g v g1, rollout fo cfg rootPlayer st g = some (v, g1) → G v) (n : Nat)
    (root : Node F) (rng : RNG) (root2 : Node F) (rng2 : RNG)
    (h : mctsLoop fo mo cfg rootPlayer (n + 1) root rng = some (root2, rng2))
    (hinv : RootInv G M k root) (hfin : root.state.finished = false)
    (hun : root.unexpandedMoves ≠ []) : childVisits root + 1 ≤ childVisits root2 := by
  unfold mctsLoop at h
  cases hit : mctsIteration fo mo cfg rootPlayer root rng with
  | none =>
    rw [hit] at h
    cases h
  | some x =>
    obtain ⟨r1, g1⟩ := x
    rw [hit] at h
    simp only [] at h
    obtain ⟨-, -, -, hcv, hri⟩ := mctsIteration_account fo mo cfg rootPlayer root rng r1 g1 hit
    rw [isStall_false_of_expand fo mo cfg rootPlayer root hfin hun] at hcv
    simp only [Bool.false_eq_true, if_false] at hcv
    obtain ⟨-, -, -, -, hge, -⟩ :=
      mctsLoop_account fo mo cfg rootPlayer G M k hG0 hadd hroll n r1 g1 root2 rng2 h
        (hri G M k hG0 hadd hroll hinv)
    omega

theorem childVisits_nil {F : Type} (node : Node F) (h : node.children = []) :
    childVisits node = 0 := by
  unfold childVisits
  rw [h]
  rfl
theorem extRat_div_fin (a b : ℚ) (hb : b ≠ 0) :
    ExtRat.div (ExtRat.fin a) (ExtRat.fin b) = ExtRat.fin (a / b) := by
  simp only [ExtRat.div, if_neg hb]

theorem extRat_log_fin (a : ℚ) (ha : 0 < a) : ExtRat.log (ExtRat.fin a) = ExtRat.fin (a - 1) := by
  simp only [ExtRat.log, if_neg (not_lt.2 (le_of_lt ha)), if_neg (ne_of_gt ha)]

theorem extRat_sqrt_fin (a : ℚ) (ha : 0 ≤ a) :
    ExtRat.sqrt (ExtRat.fin a) =
      ExtRat.fin ((Nat.sqrt (a * 1000000).floor.toNat : ℚ) / 1000) := by
  simp only [ExtRat.sqrt, if_neg (not_lt.2 ha)]

theorem rollout_sample_fin (rootPlayer : Int) (st : GameState) (g : RNG) (v : ExtRat) (g1 : RNG)
    (h : rollout exactOps sampleConfig rootPlayer st g = some (v, g1)) : v.isFin = true := by
  unfold rollout at h
  cases hr : rolloutLoop sampleConfig (cardsLeft st + 1) st 0 g with
  | none =>
    rw [hr] at h
    cases h
  | some x =>
    obtain ⟨s1, g2⟩ := x
    rw [hr] at h
    simp only [sampleConfig, Option.some.injEq, Prod.mk.injEq] at h
    rw [← h.1]
    show (ExtRat.div (ExtRat.fin _) (ExtRat.fin 120)).isFin = true
    rw [extRat_div_fin _ _ (by norm_num)]
    rfl

theorem isFin_add (a b : ExtRat) (ha : a.isFin = true) (hb : b.isFin = true) :
    (exactOps.add a b).isFin = true := by
  cases a with
  | fin x =>
    cases b with
    | fin y => rfl
    | nan => exact Bool.noConfusion hb
    | negInf => exact Bool.noConfusion hb
    | posInf => exact Bool.noConfusion hb
  | nan => exact Bool.noConfusion ha
  | negInf => exact Bool.noConfusion ha
  | posInf => exact Bool.noConfusion ha

theorem childScore_sample_fin (rootPlayer ptm n : Int) (c : Node ExtRat) (hn : 0 ≤ n)
    (hc : c.totalValue.isFin = true) (hv : 0 < c.visits) :
    exactOps.lt (exactOps.neg exactOps.inf)
      (childScore exactOps sampleMath sampleConfig rootPlayer ptm
        (exactOps.ofRat ((n + 1 : Int) : ℚ)) c) = true := by
  have hvq : ((c.visits : Int) : ℚ) ≠ 0 := by
    exact_mod_cast (ne_of_gt hv)
  have hmean : ∃ q, exactOps.div c.totalValue (exactOps.ofRat (c.visits : ℚ)) = ExtRat.fin q := by
    cases htv : c.totalValue with
    | fin q =>
      exact ⟨q / (c.visits : ℚ), extRat_div_fin q _ hvq⟩
    | nan =>
      rw [htv] at hc
      exact Bool.noConfusion hc
    | negInf =>
      rw [htv] at hc
      exact Bool.noConfusion hc
    | posInf =>
      rw [htv] at hc
      exact Bool.noConfusion hc
  have hlog : sampleMath.log (exactOps.ofRat ((n + 1 : Int) : ℚ)) = ExtRat.fin (n : ℚ) := by
    show ExtRat.log (ExtRat.fin _) = _
    have h1 : (0 : ℚ) < ((n + 1 : Int) : ℚ) := by
      exact_mod_cast (by omega : (0 : Int) < n + 1)
    rw [extRat_log_fin _ h1]
    push_cast
    ring_nf
  have hexp : ∃ q, exactOps.mul sampleConfig.exploration
      (sampleMath.sqrt (exactOps.div (sampleMath.log (exactOps.ofRat ((n + 1 : Int) : ℚ)))
        (exactOps.ofRat (c.visits : ℚ)))) = ExtRat.fin q := by
    rw [hlog]
    have hd : exactOps.div (ExtRat.fin (n : ℚ)) (exactOps.ofRat (c.visits : ℚ)) =
        ExtRat.fin ((n : ℚ) / (c.visits : ℚ)) := by
      exact extRat_div_fin _ _ hvq
    rw [hd]
    have hnn : (0 : ℚ) ≤ (n : ℚ) / (c.visits : ℚ) := by
      have h1 : (0 : ℚ) ≤ (n : ℚ) := by exact_mod_cast hn
      have h2 : (0 : ℚ) < (c.visits : ℚ) := by exact_mod_cast hv
      exact div_nonneg h1 (le_of_lt h2)
    have hs : sampleMath.sqrt (ExtRat.fin ((n : ℚ) / (c.visits : ℚ))) =
        ExtRat.fin ((Nat.sqrt ((n : ℚ) / (c.visits : ℚ) * 1000000).floor.toNat : ℚ) / 1000) :=
      extRat_sqrt_fin _ hnn
    rw [hs]
    exact ⟨_, rfl⟩
  obtain ⟨q1, h1⟩ := hmean
  obtain ⟨q2, h2⟩ := hexp
  unfold childScore
  rw [if_neg (by omega)]
  simp only []
  rw [h1, h2]
  split_ifs <;> rfl

/-- C21: when the player to move has no legal move, `searchBestMove`, `searchBestMoveMT`
and `searchBestMoveID` return the move index -1 with the evaluation of the unchanged state
from that player's viewpoint (and the table as it was), for every bound on the recursion;
`searchBestMoveMCTS` returns index -1, evaluation 0 and 0 visits, with the generator
untouched, when the player to move has no legal move and also whenever `rootPlayer` is not
the player to move. -/
theorem search_without_legal_move {F : Type} (fo : FloatOps F) (mo : MathOps F)
    (w : NNUEWeights F) (tt : TT F) (st : GameState) (depth : Int) (perfectInfo : Bool)
    (fuel retries : Nat) (rootPlayer : Int) (rng : RNG) (cfg : MCTSConfig F) :
    (getLegalMoves st (st.currentPlayer.val : Int) = [] →
        searchBestMove fo fuel tt st w depth perfectInfo =
            some ({ eval := nnueEvaluate fo w st st.currentPlayer perfectInfo,
                    chosenMoveIndex := -1 }, tt) ∧
          searchBestMoveMT fo fuel tt st w depth perfectInfo =
            some ({ eval := nnueEvaluate fo w st st.currentPlayer perfectInfo,
                    chosenMoveIndex := -1 }, tt) ∧
          searchBestMoveID fo fuel retries tt st w depth perfectInfo =
            some ({ eval := nnueEvaluate fo w st st.currentPlayer perfectInfo,
                    chosenMoveIndex := -1 }, tt)) ∧
      (getLegalMoves st (st.currentPlayer.val : Int) = [] ∨
          rootPlayer ≠ (st.currentPlayer.val : Int) →
        searchBestMoveMCTS fo mo st rootPlayer rng cfg =
          some ({ eval := fo.ofRat 0, chosenMoveIndex := -1, visits := 0 }, rng)) := by
  refine ⟨fun h => ⟨searchBestMove_empty fo fuel tt st w depth perfectInfo h,
    searchBestMoveMT_empty fo fuel tt st w depth perfectInfo h,
    searchBestMoveID_empty fo fuel retries tt st w depth perfectInfo h⟩, ?_⟩
  intro h
  apply searchBestMoveMCTS_empty
  by_cases hp : rootPlayer = (st.currentPlayer.val : Int)
  · rcases h with h | h
    · rw [hp]
      exact h
    · exact absurd hp h
  · exact getLegalMoves_other st rootPlayer hp

theorem search_without_legal_move_witness :
    getLegalMoves finishedGameState (finishedGameState.currentPlayer.val : Int) = [] ∧
      (1 : Int) ≠ (finishedGameState.currentPlayer.val : Int) ∧
      searchBestMove exactOps 0 [] finishedGameState sampleWeights 3 false =
        some ({ eval := nnueEvaluate exactOps sampleWeights finishedGameState
                  finishedGameState.currentPlayer false,
                chosenMoveIndex := -1 }, []) ∧
      searchBestMoveMCTS exactOps sampleMath finishedGameState 1 ⟨1⟩ sampleConfig =
        some ({ eval := exactOps.ofRat 0, chosenMoveIndex := -1, visits := 0 }, ⟨1⟩) :=
  ⟨by decide, by decide,
    ((search_without_legal_move exactOps sampleMath sampleWeights [] finishedGameState 3 false
      0 0 1 ⟨1⟩ sampleConfig).1 (by decide)).1,
    (search_without_legal_move exactOps sampleMath sampleWeights [] finishedGameState 3 false
      0 0 1 ⟨1⟩ sampleConfig).2 (Or.inl (by decide))⟩

/-- C22: when the player to move has a legal move (and the trick holds fewer than four
cards), `searchBestMove` and `searchBestMoveMCTS` return, and the index they return is a
legal move of that player, for every depth and every iteration count; every result of
`searchBestMoveID` has a legal move as its index, and for depth <= 0 it returns one; a
legal move is an index into the hand of the player to move, and `playCard` with it
succeeds on a state that is not finished. -/
theorem search_returns_legal_move {F : Type} (fo : FloatOps F) (mo : MathOps F)
    (w : NNUEWeights F) (tt : TT F) (st : GameState) (depth : Int) (perfectInfo : Bool)
    (fuel retries : Nat) (rng : RNG) (cfg : MCTSConfig F)
    (hne : getLegalMoves st (st.currentPlayer.val : Int) ≠ [])
    (ht : st.trick.cards.length < 4) (hfuel : cardsLeft st < fuel) :
    (∃ r, searchBestMove fo fuel tt st w depth perfectInfo = some r ∧
        r.1.chosenMoveIndex ∈ getLegalMoves st (st.currentPlayer.val : Int)) ∧
      (∀ r, searchBestMoveID fo fuel retries tt st w depth perfectInfo = some r →
        r.1.chosenMoveIndex ∈ getLegalMoves st (st.currentPlayer.val : Int)) ∧
      (depth ≤ 0 → ∃ r, searchBestMoveID fo fuel retries tt st w depth perfectInfo = some r ∧
        r.1.chosenMoveIndex ∈ getLegalMoves st (st.currentPlayer.val : Int)) ∧
      (∃ r, searchBestMoveMCTS fo mo st (st.currentPlayer.val : Int) rng cfg = some r ∧
        r.1.chosenMoveIndex ∈ getLegalMoves st (st.currentPlayer.val : Int)) ∧
      ∀ m ∈ getLegalMoves st (st.currentPlayer.val : Int),
        0 ≤ m ∧ m < ((getP st.hands st.currentPlayer).length : Int) ∧
          (st.finished = false → (playCard st (st.currentPlayer.val : Int) m).1 = true) := by
  refine ⟨?_, ?_, ?_, ?_, ?_⟩
  · obtain ⟨r, hr⟩ := searchBestMove_some fo fuel tt st w depth perfectInfo hfuel ht
    exact ⟨r, hr, searchBestMove_move fo fuel tt st w depth perfectInfo r hne hr⟩
  · intro r hr
    exact searchBestMoveID_move fo fuel retries tt st w depth perfectInfo r hne hr
  · intro hd
    have h := searchBestMoveID_depth_nonpos fo fuel retries tt st w depth perfectInfo hne hd
    exact ⟨_, h, searchBestMoveID_move fo fuel retries tt st w depth perfectInfo _ hne h⟩
  · exact searchBestMoveMCTS_move fo mo st _ rng cfg ht hne
  · intro m hm
    obtain ⟨-, h0, h1⟩ := (getLegalMoves_mem st _ m).1 hm
    refine ⟨h0, h1, ?_⟩
    intro hf
    obtain ⟨c, -, hplay⟩ := playCard_legal st m hf hm
    rw [hplay]

theorem search_returns_legal_move_witness :
    getLegalMoves threeCardState (threeCardState.currentPlayer.val : Int) = [0, 1, 2] ∧
      (∃ r, searchBestMove exactOps 38 [] threeCardState sampleWeights 1 false = some r ∧
        r.1.chosenMoveIndex ∈ getLegalMoves threeCardState
          (threeCardState.currentPlayer.val : Int)) ∧
      (∃ r, searchBestMoveMCTS exactOps sampleMath threeCardState
          (threeCardState.currentPlayer.val : Int) ⟨1⟩ sampleConfig = some r ∧
        r.1.chosenMoveIndex ∈ getLegalMoves threeCardState
          (threeCardState.currentPlayer.val : Int)) :=
  ⟨by decide,
    (search_returns_legal_move exactOps sampleMath sampleWeights [] threeCardState 1 false 38 4
      ⟨1⟩ sampleConfig (by decide) (by decide) (by decide)).1,
    (search_returns_legal_move exactOps sampleMath sampleWeights [] threeCardState 1 false 38 4
      ⟨1⟩ sampleConfig (by decide) (by decide) (by decide)).2.2.2.1⟩

/-- C26: for a root state that is not finished (its trick below four cards) in which
`rootPlayer` has a legal move, the tree of `searchBestMoveMCTS` after its
N = `cfg.iterations` >= 0 iterations exists, its root has N visits, and the visits of the
root's children sum to N.  The floating-point facts used: there is a set `G` of values
(the finite ones) holding 0 and every rollout value and closed under addition, and the
selection score of a visited child with total in `G` compares above minus infinity. -/
theorem mcts_visit_conservation {F : Type} (fo : FloatOps F) (mo : MathOps F) (G : F → Prop)
    (state : GameState) (rootPlayer : Int) (rng : RNG) (cfg : MCTSConfig F)
    (hG0 : G (fo.ofRat 0)) (hadd : ∀ a b, G a → G b → G (fo.add a b))
    (hroll : ∀ st g v g1, rollout fo cfg rootPlayer st g = some (v, g1) → G v)
    (hscore : ∀ (n : Int) (c : Node F), 0 ≤ n → G c.totalValue → 0 < c.visits →
      fo.lt (fo.neg fo.inf)
        (childScore fo mo cfg rootPlayer rootPlayer (fo.ofRat ((n + 1 : Int) : ℚ)) c) = true)
    (hfin : state.finished = false) (ht : state.trick.cards.length < 4)
    (hne : getLegalMoves state rootPlayer ≠ []) (hN : 0 ≤ cfg.iterations) :
    ∃ root rng1, mctsTree fo mo state rootPlayer rng cfg = some (root, rng1) ∧
      root.visits = cfg.iterations ∧ childVisits root = cfg.iterations := by
  obtain ⟨root, rng1, h, hv, -, -, -, -, -, heq⟩ :=
    mctsTree_account fo mo G state rootPlayer rng cfg hG0 hadd hroll ht
  refine ⟨root, rng1, h, by omega, ?_⟩
  rw [heq, Int.toNat_of_nonneg hN]
  intro r hr hrs hrp hrv
  refine isStall_false_of_score fo mo cfg rootPlayer G _ _ r (by rw [hrs]; exact hfin)
    (List.length_pos.2 hne) hr ?_
  intro c hc hcv
  rw [hrp]
  exact hscore r.visits c hrv hc hcv

theorem mcts_visit_conservation_witness :
    threeCardState.finished = false ∧ threeCardState.trick.cards.length < 4 ∧
      getLegalMoves threeCardState 1 ≠ [] ∧
      ∃ root rng1,
        mctsTree exactOps sampleMath threeCardState 1 ⟨1⟩ sampleConfig = some (root, rng1) ∧
          root.visits = 5 ∧ childVisits root = 5 :=
  ⟨by decide, by decide, by decide,
    mcts_visit_conservation exactOps sampleMath (fun x => x.isFin = true) threeCardState 1 ⟨1⟩
      sampleConfig rfl isFin_add (rollout_sample_fin 1)
      (fun n c hn hc hv => childScore_sample_fin 1 1 n c hn hc hv)
      (by decide) (by decide) (by decide) (by decide)⟩

/-- C27: for a root state that is not finished (its trick below four cards) in which
`rootPlayer` has a legal move: with at least one iteration `searchBestMoveMCTS` returns
the move of the first root child (in the order of expansion) whose visit count is maximal
among the root's children, with `visits` that count (at least 1) and `eval` the child's
total value divided by it; with no iteration it returns the first legal move with eval 0
and visits 0. -/
theorem mcts_returns_most_visited {F : Type} (fo : FloatOps F) (mo : MathOps F)
    (state : GameState) (rootPlayer : Int) (rng : RNG) (cfg : MCTSConfig F)
    (hfin : state.finished = false) (ht : state.trick.cards.length < 4)
    (hne : getLegalMoves state rootPlayer ≠ []) :
    (1 ≤ cfg.iterations →
        ∃ root rng1 i c, mctsTree fo mo state rootPlayer rng cfg = some (root, rng1) ∧
          root.children[i]? = some c ∧ (∀ d ∈ root.children, d.visits ≤ c.visits) ∧
          (∀ (j : Nat) (d : Node F), j < i → root.children[j]? = some d →
            d.visits < c.visits) ∧
          1 ≤ c.visits ∧
          searchBestMoveMCTS fo mo state rootPlayer rng cfg =
            some ({ chosenMoveIndex := c.moveFromParent
                    eval := fo.div c.totalValue (fo.ofRat (c.visits : ℚ))
                    visits := c.visits }, rng1)) ∧
      (cfg.iterations ≤ 0 →
        searchBestMoveMCTS fo mo state rootPlayer rng cfg =
          some ({ chosenMoveIndex := (getLegalMoves state rootPlayer).headD 0
                  eval := fo.ofRat 0
                  visits := 0 }, (shuffleMoves (getLegalMoves state rootPlayer) rng).2)) := by
  constructor
  · intro hN
    obtain ⟨root, rng1, h, -, -, -, hinv, -⟩ :=
      mctsTree_account fo mo (fun _ => True) state rootPlayer rng cfg trivial
        (fun _ _ _ _ => trivial) (rollout_any fo cfg rootPlayer) ht
    have hpos : 1 ≤ childVisits root := by
      have h2 := h
      unfold mctsTree at h2
      obtain ⟨n, hn⟩ : ∃ n, cfg.iterations.toNat = n + 1 := ⟨cfg.iterations.toNat - 1, by omega⟩
      rw [hn] at h2
      have hun : (mctsRoot fo state rootPlayer rng).1.unexpandedMoves ≠ [] := by
        intro hc
        have hp := shuffleMoves_perm (getLegalMoves state rootPlayer) rng
        have hc2 : (shuffleMoves (getLegalMoves state rootPlayer) rng).1 = [] := hc
        rw [hc2] at hp
        exact hne (List.Perm.nil_eq hp).symm
      have := childVisits_pos_of_iteration fo mo cfg rootPlayer (fun _ => True) _ _ trivial
        (fun _ _ _ _ => trivial) (rollout_any fo cfg rootPlayer) n _ _ root rng1 h2
        (mctsRoot_inv fo _ state rootPlayer rng) hfin hun
      have h0 : childVisits (mctsRoot fo state rootPlayer rng).1 = 0 := rfl
      omega
    rw [searchBestMoveMCTS_eq fo mo state rootPlayer rng cfg root rng1 hne h]
    rcases bestByVisits_spec root.children (-1) none with
      ⟨hall, -⟩ | ⟨i, c, hc, hres, -, hmax, hfirst⟩
    · exfalso
      cases hcs : root.children with
      | nil =>
        rw [childVisits_nil root hcs] at hpos
        omega
      | cons a l =>
        have ha : a ∈ root.children := by
          rw [hcs]
          exact List.mem_cons_self a l
        have h1 := hall a ha
        have h2 := hinv.child_visits a ha
        omega
    · have hv := hinv.child_visits c (List.getElem?_mem hc)
      refine ⟨root, rng1, i, c, h, hc, hmax, hfirst, hv, ?_⟩
      rw [hres]
      simp only []
      rw [if_pos (by omega)]
  · intro hN
    have h0 : cfg.iterations.toNat = 0 := by omega
    have h : mctsTree fo mo state rootPlayer rng cfg =
        some ((mctsRoot fo state rootPlayer rng).1, (mctsRoot fo state rootPlayer rng).2) := by
      unfold mctsTree
      rw [h0]
      rfl
    rw [searchBestMoveMCTS_eq fo mo state rootPlayer rng cfg _ _ hne h]
    rfl

theorem mcts_returns_most_visited_witness :
    threeCardState.finished = false ∧ threeCardState.trick.cards.length < 4 ∧
      getLegalMoves threeCardState 1 ≠ [] ∧ (1 : Int) ≤ sampleConfig.iterations ∧
      ∃ root rng1 i c,
        mctsTree exactOps sampleMath threeCardState 1 ⟨1⟩ sampleConfig = some (root, rng1) ∧
          root.children[i]? = some c ∧ (∀ d ∈ root.children, d.visits ≤ c.visits) ∧
          (∀ (j : Nat) (d : Node ExtRat), j < i → root.children[j]? = some d →
            d.visits < c.visits) ∧
          1 ≤ c.visits ∧
          searchBestMoveMCTS exactOps sampleMath threeCardState 1 ⟨1⟩ sampleConfig =
            some ({ chosenMoveIndex := c.moveFromParent
                    eval := exactOps.div c.totalValue (exactOps.ofRat (c.visits : ℚ))
                    visits := c.visits }, rng1) :=
  ⟨by decide, by decide, by decide, by decide,
    (mcts_returns_most_visited exactOps sampleMath threeCardState 1 ⟨1⟩ sampleConfig
      (by decide) (by decide) (by decide)).1 (by decide)⟩

/-- C36: in every state reachable from `newGame` by legal moves the two scores, the point
values of the cards in the deck, in both hands and in the trick, and the point value of
the trump card while it has not been handed out, add up to 120. -/
theorem points_conserved (s : GameState) (h : Reachable s) :
    s.score.1 + s.score.2 +
        (pointsOf s.deck + pointsOf s.hands.1 + pointsOf s.hands.2 + pointsOf s.trick.cards +
          (if s.trumpCardGiven then 0 else cardPointsLocal s.trumpCard)) = 120 := by
  obtain ⟨n, hn⟩ := h
  have hpts := (reachN_inv hn).points
  unfold allCards at hpts
  rw [pointsOf_append, pointsOf_append, pointsOf_append, pointsOf_append] at hpts
  rw [← hpts]
  cases s.trumpCardGiven with
  | true => simp [pointsOf]
  | false => simp [pointsOf]

/-- C36 at the sample game after three moves. -/
theorem points_conserved_witness :
    Reachable threeCardState ∧
      threeCardState.score.1 + threeCardState.score.2 +
        (pointsOf threeCardState.deck + pointsOf threeCardState.hands.1 +
          pointsOf threeCardState.hands.2 + pointsOf threeCardState.trick.cards +
          (if threeCardState.trumpCardGiven then 0
            else cardPointsLocal threeCardState.trumpCard)) = 120 :=
  ⟨⟨3, reachN_threeCardState⟩, points_conserved threeCardState ⟨3, reachN_threeCardState⟩⟩

theorem playerOfIndex_length (n : Nat) (s : GameState) (h : ReachN n s) :
    s.currentPlayer = playerOfIndex s.trick s.trick.cards.length := by
  have hcur := (reachN_gameInv h).cur
  have hlen := (reachN_inv h).trick_len
  unfold playerOfIndex
  rw [hlen, hcur]
  have h2 : n % 4 % 2 = n % 2 := by omega
  rw [h2]

/-- C37: in every state reached from `newGame` by legal moves the trick holds at most 3
cards and the player to move is the starter of the trick when it holds an even number
of cards and the other player when it holds an odd number, that is, the player that
`playerOfIndex` gives for the next position; so every card that `playCard` appends to the
trick comes from the hand of the player that `playerOfIndex` gives for its position,
`starterPlayer` staying as it is; and positions 0 and 2 belong to the starter, positions
1 and 3 to the other player. -/
theorem turn_matches_trick (n : Nat) (s : GameState) (h : ReachN n s) :
    s.trick.cards.length ≤ 3 ∧
      s.currentPlayer =
        (if s.trick.cards.length % 2 = 0 then s.trick.starterPlayer
          else 1 - s.trick.starterPlayer) ∧
      s.currentPlayer = playerOfIndex s.trick s.trick.cards.length ∧
      (∀ (p handIndex : Int) (s1 : GameState), playCard s p handIndex = (true, s1) →
        p = ((playerOfIndex s.trick s.trick.cards.length).val : Int) ∧
          s1.trick.starterPlayer = s.trick.starterPlayer ∧
          ∃ c, (getP s.hands (playerOfIndex s.trick s.trick.cards.length))[handIndex.toNat]? =
              some c ∧
            s1.trick.cards = s.trick.cards ++ [c] ∧
            s1.trick.cards[s.trick.cards.length]? = some c) ∧
      (playerOfIndex s.trick 0 = s.trick.starterPlayer ∧
        playerOfIndex s.trick 1 = 1 - s.trick.starterPlayer ∧
        playerOfIndex s.trick 2 = s.trick.starterPlayer ∧
        playerOfIndex s.trick 3 = 1 - s.trick.starterPlayer ∧
        s.trick.starterPlayer ≠ 1 - s.trick.starterPlayer) := by
  have hlen := (reachN_inv h).trick_len
  have hcur := playerOfIndex_length n s h
  refine ⟨by omega, ?_, hcur, ?_, rfl, rfl, rfl, rfl, ?_⟩
  · rw [hcur]
    rfl
  · intro p handIndex s1 hplay
    obtain ⟨-, hp, -, c, hc, hs1⟩ := playCard_true s s1 p handIndex hplay
    rw [← hcur]
    refine ⟨hp, by rw [hs1], c, hc, by rw [hs1], ?_⟩
    rw [hs1]
    simp
  · rcases fin2_cases s.trick.starterPlayer with h0 | h0 <;> rw [h0] <;> decide

/-- C37 at the sample game after three moves: three cards in the trick, the player other
than the starter to move. -/
theorem turn_matches_trick_witness :
    ReachN 3 threeCardState ∧ threeCardState.trick.cards.length = 3 ∧
      threeCardState.currentPlayer = 1 - threeCardState.trick.starterPlayer ∧
      threeCardState.currentPlayer =
        playerOfIndex threeCardState.trick threeCardState.trick.cards.length :=
  ⟨reachN_threeCardState, rfl, rfl,
    (turn_matches_trick 3 threeCardState reachN_threeCardState).2.2.1⟩

theorem handBase_ge_two (t : Nat) (h : t ≤ 9) : 2 ≤ handBase t := by
  unfold handBase
  split_ifs <;> omega

theorem reachN_hand_pos (n : Nat) (s : GameState) (h : ReachN n s) (hn : n < 40) :
    0 < (getP s.hands s.currentPlayer).length := by
  have hinv := reachN_gameInv h
  have hcur := hinv.cur
  have hA := hinv.hand_starter
  have hB := hinv.hand_other
  have hb := handBase_ge_two (n / 4) (by omega)
  by_cases hpar : n % 2 = 0
  · rw [if_pos hpar] at hcur
    rw [hcur]
    omega
  · rw [if_neg hpar] at hcur
    rw [hcur]
    omega

theorem sizes_after_fourth_card (n : Nat) (s s1 : GameState) (p handIndex : Int)
    (h : ReachN n s) (hk : n % 4 = 3) (hplay : playCard s p handIndex = (true, s1))
    (w : Fin 2) :
    sizes s1 w =
      (31 - 4 * (n / 4), handBase (n / 4) - 2, handBase (n / 4) - 2, decide (8 ≤ n / 4)) := by
  have hinv := reachN_gameInv h
  obtain ⟨-, -, -, c, hc, hs1⟩ := playCard_true s s1 p handIndex hplay
  have hlt : handIndex.toNat < (getP s.hands s.currentPlayer).length := by
    by_contra hge
    rw [List.getElem?_eq_none (by omega)] at hc
    cases hc
  have herase : ((getP s.hands s.currentPlayer).eraseIdx handIndex.toNat).length + 1 =
      (getP s.hands s.currentPlayer).length := by
    rw [List.length_eraseIdx, if_pos hlt]
    omega
  have hcur := hinv.cur
  rw [if_neg (by omega)] at hcur
  have hA := hinv.hand_starter
  have hB := hinv.hand_other
  rw [hk] at hA hB
  have hhands1 : s1.hands = setP s.hands s.currentPlayer
      ((getP s.hands s.currentPlayer).eraseIdx handIndex.toNat) := by rw [hs1]
  have hS : (getP s1.hands s.trick.starterPlayer).length =
      (getP s.hands s.trick.starterPlayer).length := by
    rw [hhands1, hcur, getP_setP_other']
  have hO : (getP s1.hands (1 - s.trick.starterPlayer)).length + 1 =
      (getP s.hands (1 - s.trick.starterPlayer)).length := by
    rw [hhands1, hcur, getP_setP_self]
    rw [hcur] at herase
    exact herase
  have hh1 : ∀ q : Fin 2, (getP s1.hands q).length = handBase (n / 4) - 2 := by
    intro q
    rcases fin2_cases s.trick.starterPlayer with h0 | h0 <;>
      rcases fin2_cases q with rfl | rfl <;> rw [h0] at hS hO hA hB <;>
      simp only [sub_self, sub_zero] at hS hO hA hB <;> omega
  rw [sizes_eq_of_hands s1 w _ hh1]
  have hd : s1.deck = s.deck := by rw [hs1]
  have hg : s1.trumpCardGiven = s.trumpCardGiven := by rw [hs1]
  rw [hd, hg, hinv.deck_len, hinv.given]

theorem refill_trumpCard (s : GameState) (w l : Fin 2) :
    (refill s w l).trumpCard = s.trumpCard := by
  unfold refill
  rw [(drawIfNeeded_frame _ l).2.2.2.2.1, (drawIfNeeded_frame _ w).2.2.2.2.1,
    (drawIfNeeded_frame _ l).2.2.2.2.1, (drawIfNeeded_frame _ w).2.2.2.2.1]

theorem sizes_beforeHandOut (s : GameState) (w : Fin 2) (pts : Int) :
    sizes (beforeHandOut s w pts) w = drawL (drawW (drawL (drawW (sizes s w)))) := by
  unfold beforeHandOut refill
  rw [sizes_drawIfNeeded_other, sizes_drawIfNeeded_self, sizes_drawIfNeeded_other,
    sizes_drawIfNeeded_self]
  rfl

theorem handOut_sizes (t : Nat) (ht : t ≤ 9) (x : Nat × Nat × Nat × Bool)
    (hx : x = drawL (drawW (drawL (drawW
      (31 - 4 * t, handBase t - 2, handBase t - 2, decide (8 ≤ t)))))) :
    (x.2.2.2 = false → 4 ≤ x.2.2.1 → 4 ≤ x.2.1) ∧ (t = 7 → x = (0, 4, 3, false)) := by
  subst hx
  interval_cases t <;> decide

theorem resolveTrick_eq_beforeHandOut (s : GameState) (w : Fin 2) (pts : Int) :
    resolveTrick s w pts =
      markFinished
        { giveTrump (beforeHandOut s w pts) w (1 - w) with
          trick := { cards := [], starterPlayer := w }
          currentPlayer := w } :=
  rfl

/-- C38: a game played from `newGame` by legal moves takes exactly 40 cards: after `n`
legal moves `n` is at most 40, the state is finished exactly when `n = 40`, and before
that the player to move has a legal move and every legal move leads on; the deck holds
`31 - 4 * (n / 4)` cards (31, 27, ..., 3, then none); when a trick is resolved, never does
the winner get the trump card in place of the loser; and the resolution of the 8th trick
(move 32) finds 3 cards in the deck, leaves none, and gives the trump card to the loser
of that trick, who then holds 4 cards. -/
theorem game_takes_forty_moves (n : Nat) (s : GameState) (h : ReachN n s) :
    n ≤ 40 ∧ (s.finished = true ↔ n = 40) ∧ s.deck.length = 31 - 4 * (n / 4) ∧
      (n < 40 →
        getLegalMoves s (s.currentPlayer.val : Int) ≠ [] ∧
          ∀ m ∈ getLegalMoves s (s.currentPlayer.val : Int),
            ∃ s2, playMove s m = some s2 ∧ ReachN (n + 1) s2) ∧
      ∀ (p handIndex : Int) (s1 s2 : GameState), playCard s p handIndex = (true, s1) →
        maybeCloseTrick s1 = some s2 → n % 4 = 3 →
        ∃ w pts, evaluateTrick s1 = some (w, pts) ∧
          ¬ ((beforeHandOut s1 w pts).trumpCardGiven = false ∧
              needCard (beforeHandOut s1 w pts) (1 - w) = false ∧
              needCard (beforeHandOut s1 w pts) w = true) ∧
          (n = 31 →
            s.deck.length = 3 ∧ s.trumpCardGiven = false ∧ s2.deck = [] ∧
              s2.trumpCardGiven = true ∧
              getP s2.hands (1 - w) =
                getP (beforeHandOut s1 w pts).hands (1 - w) ++ [s.trumpCard] ∧
              (getP s2.hands (1 - w)).length = 4) := by
  have hinv := reachN_gameInv h
  have hr := reachN_inv h
  refine ⟨hinv.moves_le, ?_, hinv.deck_len, ?_, ?_⟩
  · rw [hinv.fin, decide_eq_true_iff]
  · intro hn
    have hpos := reachN_hand_pos n s h hn
    have hfin : s.finished = false := by
      rw [hinv.fin]
      simp only [decide_eq_false_iff_not]
      omega
    refine ⟨?_, ?_⟩
    · intro hnil
      have h0 : (0 : Int) ∈ getLegalMoves s (s.currentPlayer.val : Int) :=
        (getLegalMoves_mem s _ 0).2 ⟨rfl, le_refl _, by exact_mod_cast hpos⟩
      rw [hnil] at h0
      exact absurd h0 (List.not_mem_nil _)
    · intro m hm
      obtain ⟨s1, c, hplay, hcards, -⟩ := playCard_legal_step s m hfin hm
      have hlen : s1.trick.cards.length ≤ 4 := by
        rw [hcards, List.length_append, List.length_singleton, hr.trick_len]
        have := Nat.mod_lt n (show 0 < 4 by omega)
        omega
      obtain ⟨s2, hclose, -⟩ := maybeCloseTrick_finished s1 hlen
      refine ⟨s2, ?_, ReachN.step _ m h hplay hclose⟩
      unfold playMove
      rw [hplay]
      exact hclose
  · intro p handIndex s1 s2 hplay hclose hk
    obtain ⟨-, -, -, c, hc, hs1⟩ := playCard_true s s1 p handIndex hplay
    have hlen4 : s1.trick.cards.length = 4 := by
      rw [hs1]
      simp only [List.length_append, List.length_singleton]
      rw [hr.trick_len, hk]
    obtain ⟨c0, c1, c2, c3, hcards⟩ := list_length_four s1.trick.cards hlen4
    rw [maybeCloseTrick_of_four s1 c0 c1 c2 c3 hcards] at hclose
    refine ⟨_, _, evaluateTrick_of_four s1 c0 c1 c2 c3 hcards, ?_⟩
    generalize playerOfIndex s1.trick (winnerIndexOf [c0, c1, c2, c3] s1.trumpSuit) = w at hclose ⊢
    generalize cardPoints c0 + cardPoints c1 + cardPoints c2 + cardPoints c3 = pts at hclose ⊢
    simp only [Option.some.injEq] at hclose
    have hsz := sizes_beforeHandOut s1 w pts
    rw [sizes_after_fourth_card n s s1 p handIndex h hk hplay w] at hsz
    obtain ⟨t, ht⟩ : ∃ t, n / 4 = t := ⟨_, rfl⟩
    have ht9 : t ≤ 9 := by
      have := hinv.moves_le
      omega
    rw [ht] at hsz
    obtain ⟨hkey1, hkey2⟩ := handOut_sizes t ht9 _ hsz
    refine ⟨?_, ?_⟩
    · rintro ⟨hg, hnl, hnw⟩
      unfold needCard at hnl hnw
      rw [hg] at hnl hnw
      simp only [Bool.not_false, Bool.or_true, Bool.and_true, decide_eq_false_iff_not,
        decide_eq_true_iff] at hnl hnw
      have := hkey1 hg (by
        show 4 ≤ (getP (beforeHandOut s1 w pts).hands (1 - w)).length
        omega)
      have h2 : 4 ≤ (getP (beforeHandOut s1 w pts).hands w).length := this
      omega
    · intro h31
      have ht7 : t = 7 := by omega
      have hx := hkey2 ht7
      simp only [sizes, Prod.mk.injEq] at hx
      obtain ⟨hD, hW, hL, hG⟩ := hx
      subst ht7
      have hdl := hinv.deck_len
      have hgv := hinv.given
      rw [ht] at hdl hgv
      have hg0 : (beforeHandOut s1 w pts).trumpCardGiven = false := hG
      have hl3 : (getP (beforeHandOut s1 w pts).hands (1 - w)).length = 3 := hL
      have hd0 : (beforeHandOut s1 w pts).deck = [] := List.length_eq_zero.1 hD
      have htc : (beforeHandOut s1 w pts).trumpCard = s.trumpCard := by
        unfold beforeHandOut
        rw [refill_trumpCard, hs1]
      have hgt := (giveTrump_cases (beforeHandOut s1 w pts) w (1 - w)).2.1 hg0 (by omega)
      have hfr := markFinished_frame
        { giveTrump (beforeHandOut s1 w pts) w (1 - w) with
          trick := { cards := [], starterPlayer := w }
          currentPlayer := w }
      rw [← hclose, resolveTrick_eq_beforeHandOut]
      refine ⟨by rw [hdl], by rw [hgv]; decide, ?_, ?_, ?_, ?_⟩
      · rw [hfr.2.2.2.2.2.1, hgt]
        exact hd0
      · rw [hfr.2.2.2.2.2.2.2, hgt]
      · rw [hfr.2.2.2.2.2.2.1, hgt]
        show getP (setP (beforeHandOut s1 w pts).hands (1 - w)
          (getP (beforeHandOut s1 w pts).hands (1 - w) ++
            [(beforeHandOut s1 w pts).trumpCard])) (1 - w) = _
        rw [getP_setP_self, htc]
      · rw [hfr.2.2.2.2.2.2.1, hgt]
        show (getP (setP (beforeHandOut s1 w pts).hands (1 - w)
          (getP (beforeHandOut s1 w pts).hands (1 - w) ++
            [(beforeHandOut s1 w pts).trumpCard])) (1 - w)).length = _
        rw [getP_setP_self, List.length_append, hl3]
        rfl

/-- C38 at the sample game: 32 moves lead to the state after the 8th trick, with the deck
used up, and 40 moves to the finished state. -/
theorem game_takes_forty_moves_witness :
    ReachN 40 finishedGameState ∧ ReachN 32 eighthTrickState ∧
      (finishedGameState.finished = true ↔ 40 = 40) ∧
      eighthTrickState.deck.length = 31 - 4 * (32 / 4) ∧
      (eighthTrickState.finished = true ↔ 32 = 40) :=
  ⟨reachN_finishedGameState, reachN_eighthTrickState,
    (game_takes_forty_moves 40 finishedGameState reachN_finishedGameState).2.1,
    (game_takes_forty_moves 32 eighthTrickState reachN_eighthTrickState).2.2.1,
    (game_takes_forty_moves 32 eighthTrickState reachN_eighthTrickState).2.1⟩

theorem rankIdx_eq_indexOf (r : Rank) : rankIdx r = ranksWanted.indexOf r := by
  cases r <;> rfl

/-- C39: `cardIndex` is `suit * 10` plus the position of the rank in the sequence
2, 3, 4, 5, 6, 10, J, Q, K, A; it maps the cards one-to-one onto 0..39; so the slots that
`extractFeatures` writes for a card (bases 0, 40, 80 and 127) and its other slots (120,
121, 122, 123 + suit, 167, 168 + rank position) lie inside the vector of 178 slots, and
two different cards never share a slot of one block. -/
theorem cardIndex_one_to_one :
    (∀ c : Card, cardIndex c = suitIdx c.suit * 10 + ranksWanted.indexOf c.rank) ∧
      (∀ a b : Card, cardIndex a = cardIndex b → a = b) ∧
      (∀ c : Card, cardIndex c < 40) ∧
      (∀ k : Nat, k < 40 → ∃ c : Card, cardIndex c = k) ∧
      (∀ (base : Nat) (a b : Card), base + cardIndex a = base + cardIndex b → a = b) ∧
      (∀ c : Card, 0 + cardIndex c < 40 ∧ 40 + cardIndex c < 80 ∧ 80 + cardIndex c < 120 ∧
        127 + cardIndex c < 167) ∧
      (∀ (s : Suit) (r : Rank), 123 + suitIdx s < 127 ∧ 168 + rankIdx r < 178) ∧
      ∀ (F : Type) (fo : FloatOps F) (st : GameState) (v : Fin 2) (perfectInfo : Bool),
        (extractFeatures fo st v perfectInfo).length = 178 := by
  refine ⟨?_, cardIndex_injective, cardIndex_lt, cardIndex_surjective, ?_, ?_, ?_, ?_⟩
  · intro c
    unfold cardIndex
    rw [rankIdx_eq_indexOf]
  · intro base a b h
    exact cardIndex_injective a b (by omega)
  · intro c
    have := cardIndex_lt c
    omega
  · intro s r
    have h1 := suitIdx_lt s
    have h2 := rankIdx_lt r
    omega
  · intro F fo st v perfectInfo
    exact extractFeatures_length fo st v perfectInfo

/-- C39 at the first and the last card of the canonical deck. -/
theorem cardIndex_one_to_one_witness :
    cardIndex ⟨Suit.Paus, Rank.R2⟩ = 0 ∧ cardIndex ⟨Suit.Espadas, Rank.A⟩ = 39 ∧
      cardIndex ⟨Suit.Espadas, Rank.A⟩ < 40 ∧
      (cardIndex ⟨Suit.Espadas, Rank.A⟩ = cardIndex ⟨Suit.Espadas, Rank.A⟩ →
        (⟨Suit.Espadas, Rank.A⟩ : Card) = ⟨Suit.Espadas, Rank.A⟩) :=
  ⟨rfl, rfl, cardIndex_one_to_one.2.2.1 ⟨Suit.Espadas, Rank.A⟩,
    cardIndex_one_to_one.2.1 ⟨Suit.Espadas, Rank.A⟩ ⟨Suit.Espadas, Rank.A⟩⟩

theorem hashFieldsEq_eq (s t : GameState) (h : HashFieldsEq s t)
    (hg : s.trumpCardGiven = t.trumpCardGiven) : s = t := by
  obtain ⟨h1, h2, h3, h4, h5, h6, h7, h8⟩ := h
  cases s
  cases t
  simp only [GameState.mk.injEq]
  simp only [] at h1 h2 h3 h4 h5 h6 h7 h8 hg
  exact ⟨h5, h4, h3, hg, h6, h2, h1, h7, h8⟩

theorem computeHash_congr (s t : GameState) (h : HashFieldsEq s t) :
    computeHash s = computeHash t := by
  obtain ⟨h1, h2, h3, h4, h5, h6, h7, h8⟩ := h
  unfold computeHash
  rw [h1, h2, h3, h4, h5, h6, h7, h8]

theorem reachable_given_of_deck (s t : GameState) (hs : Reachable s) (ht : Reachable t)
    (hd : s.deck = t.deck) : s.trumpCardGiven = t.trumpCardGiven := by
  obtain ⟨n, hn⟩ := hs
  obtain ⟨m, hm⟩ := ht
  have h1 := reachN_gameInv hn
  have h2 := reachN_gameInv hm
  have e1 := h1.deck_len
  have e2 := h2.deck_len
  rw [hd] at e1
  have b1 := h1.moves_le
  have b2 := h2.moves_le
  rw [h1.given, h2.given]
  have : (8 ≤ n / 4) ↔ (8 ≤ m / 4) := by omega
  exact decide_eq_decide.2 this

/-- C34 (refuted as stated): the two states `handOutDoneState` and `handOutPendingState`
agree on every field that `computeHash` reads and have the same key, but after the same
move (player 1 plays hand index 0, which closes the trick) the hands differ: where
`trumpCardGiven` was false the loser of the trick receives the trump card. -/
theorem hash_fields_miss_trumpCardGiven :
    HashFieldsEq handOutDoneState handOutPendingState ∧
      computeHash handOutDoneState = computeHash handOutPendingState ∧
      getLegalMoves handOutDoneState 1 = getLegalMoves handOutPendingState 1 ∧
      (applyMove handOutDoneState 1 0).map (fun s => s.hands) =
        some ([⟨Suit.Espadas, Rank.R10⟩, ⟨Suit.Espadas, Rank.R5⟩],
          [⟨Suit.Espadas, Rank.R6⟩, ⟨Suit.Espadas, Rank.R4⟩]) ∧
      (applyMove handOutPendingState 1 0).map (fun s => s.hands) =
        some ([⟨Suit.Espadas, Rank.R10⟩, ⟨Suit.Espadas, Rank.R5⟩],
          [⟨Suit.Espadas, Rank.R6⟩, ⟨Suit.Espadas, Rank.R4⟩, handOutPendingState.trumpCard]) := by
  decide

/-- C34 (amended): two states that agree on every field that `computeHash` reads have the
same key and the same legal moves; if they also agree on `trumpCardGiven`, the one field
that is not read, they are the same state, so every move has the same successor under
`applyMove`; and two states reachable from `newGame` by legal moves that agree on the
fields read agree on `trumpCardGiven` as well, the flag being set exactly when the deck
is empty. -/
theorem hash_fields_determine_play (s t : GameState) (h : HashFieldsEq s t) :
    computeHash s = computeHash t ∧
      (∀ p : Int, getLegalMoves s p = getLegalMoves t p) ∧
      (s.trumpCardGiven = t.trumpCardGiven →
        s = t ∧ ∀ p m : Int, applyMove s p m = applyMove t p m) ∧
      (Reachable s → Reachable t →
        s.trumpCardGiven = t.trumpCardGiven ∧ s = t ∧
          ∀ p m : Int, applyMove s p m = applyMove t p m) := by
  refine ⟨computeHash_congr s t h, ?_, ?_, ?_⟩
  · intro p
    unfold getLegalMoves
    rw [h.1, h.2.2.2.2.2.1]
  · intro hg
    have e := hashFieldsEq_eq s t h hg
    exact ⟨e, fun p m => by rw [e]⟩
  · intro hs ht
    have hg := reachable_given_of_deck s t hs ht h.2.2.2.2.1
    have e := hashFieldsEq_eq s t h hg
    exact ⟨hg, e, fun p m => by rw [e]⟩

/-- C34 (amended) at the sample state after three moves. -/
theorem hash_fields_determine_play_witness :
    HashFieldsEq threeCardState threeCardState ∧ Reachable threeCardState ∧
      computeHash threeCardState = computeHash threeCardState ∧
      (Reachable threeCardState → Reachable threeCardState →
        threeCardState.trumpCardGiven = threeCardState.trumpCardGiven ∧
          threeCardState = threeCardState ∧
          ∀ p m : Int, applyMove threeCardState p m = applyMove threeCardState p m) :=
  ⟨by decide, ⟨3, reachN_threeCardState⟩,
    (hash_fields_determine_play threeCardState threeCardState (by decide)).1,
    (hash_fields_determine_play threeCardState threeCardState (by decide)).2.2.2⟩

theorem loadWeights_savedBytes_single (w w0 : NNUEWeights Nat) (hs : SingleLayerOK w)
    (x : Nat) (rest : List Nat) (hw3 : w.w3 = x :: rest) :
    loadWeights w0 (some (savedBytes w)) = some (true, { w with w3 := [], b3 := x }) := by
  obtain ⟨hIn, hH1, hH2, hP1, hw1, hb1, hw2, hb2, hw3l, vw1, vb1, vw3, vb3⟩ := hs
  have hx : x < 4294967296 := vw3 x (by rw [hw3]; exact List.mem_cons_self x rest)
  have hB : savedBytes w =
      bytesOfWord (bitsOfInt w.inputSize) ++ (bytesOfWord (bitsOfInt w.hidden1) ++
        (bytesOfWord (bitsOfInt w.hidden2) ++ (bytesOfWords w.w1 ++ (bytesOfWords w.b1 ++
          (bytesOfWords [] ++ (bytesOfWords [] ++ (bytesOfWords [] ++
            (bytesOfWord x ++ (bytesOfWords rest ++ bytesOfWord w.b3))))))))) := by
    simp only [savedBytes, hw2, hb2, hw3, bytesOfWords_nil, bytesOfWords_cons,
      List.append_assoc, List.append_nil, List.nil_append]
  have hd0 : (savedBytes w).drop 0 = _ := hB
  have hd1 : (savedBytes w).drop (0 + 4) = _ := drop_next hd0
  have hd2 : (savedBytes w).drop (0 + 4 + 4) = _ := drop_next hd1
  have hd3 : (savedBytes w).drop (0 + 4 + 4 + 4) = _ := drop_next hd2
  have hd4 : (savedBytes w).drop (0 + 4 + 4 + 4 + 4 * w.w1.length) =
      bytesOfWords w.b1 ++ (bytesOfWords [] ++ (bytesOfWords [] ++ (bytesOfWords [] ++
        (bytesOfWord x ++ (bytesOfWords rest ++ bytesOfWord w.b3))))) := by
    have h := drop_next hd3
    rwa [bytesOfWords_length] at h
  have hd5 : (savedBytes w).drop (0 + 4 + 4 + 4 + 4 * w.w1.length + 4 * w.b1.length) =
      bytesOfWords [] ++ (bytesOfWords [] ++ (bytesOfWords [] ++
        (bytesOfWord x ++ (bytesOfWords rest ++ bytesOfWord w.b3)))) := by
    have h := drop_next hd4
    rwa [bytesOfWords_length] at h
  have hd6 : (savedBytes w).drop
      (0 + 4 + 4 + 4 + 4 * w.w1.length + 4 * w.b1.length + 4 * ([] : List Nat).length) =
      bytesOfWords [] ++ (bytesOfWords [] ++
        (bytesOfWord x ++ (bytesOfWords rest ++ bytesOfWord w.b3))) := by
    have h := drop_next hd5
    rwa [bytesOfWords_length] at h
  have hd7 : (savedBytes w).drop
      (0 + 4 + 4 + 4 + 4 * w.w1.length + 4 * w.b1.length + 4 * ([] : List Nat).length +
        4 * ([] : List Nat).length) =
      bytesOfWords [] ++ (bytesOfWord x ++ (bytesOfWords rest ++ bytesOfWord w.b3)) := by
    have h := drop_next hd6
    rwa [bytesOfWords_length] at h
  have hd8 : (savedBytes w).drop
      (0 + 4 + 4 + 4 + 4 * w.w1.length + 4 * w.b1.length + 4 * ([] : List Nat).length +
        4 * ([] : List Nat).length + 4 * ([] : List Nat).length) =
      bytesOfWord x ++ (bytesOfWords rest ++ bytesOfWord w.b3) := by
    have h := drop_next hd7
    rwa [bytesOfWords_length] at h
  have hH2i : IntOK w.hidden2 := by
    rw [hH2]
    decide
  have e0 := readInt_eq _ _ 0 _ _ hd0 hIn
  have e1 := readInt_eq _ _ 0 _ _ hd1 hH1
  have e2 := readInt_eq _ _ 0 _ _ hd2 hH2i
  have s1 := vecSize_eq w.hidden1 w.inputSize _ hw1 hP1
  have s2 := vecSize_eq w.hidden1 1 w.b1.length (by rw [mul_one]; exact hb1)
    (by rw [mul_one]; exact hH1)
  have s3 : vecSize w.hidden2 w.hidden1 = some 0 :=
    vecSize_eq w.hidden2 w.hidden1 0 (by rw [hH2]; simp) (by rw [hH2, zero_mul]; decide)
  have s4 : vecSize w.hidden2 1 = some 0 :=
    vecSize_eq w.hidden2 1 0 (by rw [hH2]; simp) (by rw [hH2, zero_mul]; decide)
  have vnil : WordsOK ([] : List Nat) := fun y hy => absurd hy (List.not_mem_nil y)
  have e3 := readFloats_eq _ _ (resize w0.w1 w.w1.length) _ _ hd3 (resize_length _ _) vw1
  have e4 := readFloats_eq _ _ (resize w0.b1 w.b1.length) _ _ hd4 (resize_length _ _) vb1
  have e5 := readFloats_eq _ _ (resize w0.w2 0) _ _ hd5 (resize_length _ _) vnil
  have e6 := readFloats_eq _ _ (resize w0.b2 0) _ _ hd6 (resize_length _ _) vnil
  have e7 := readFloats_eq _ _ (resize w0.w3 0) _ _ hd7 (resize_length _ _) vnil
  have e8 := readFloat_eq _ _ w0.b3 _ _ hd8 hx
  have c1 : decide (w.hidden2 < 0) = false := decide_eq_false (by omega)
  have c2 : decide (w.hidden2 > 1024) = false := decide_eq_false (by omega)
  unfold loadWeights
  dsimp only
  rw [e0]
  dsimp only
  rw [e1]
  dsimp only
  rw [e2]
  dsimp only
  rw [c1, c2, if_neg (by decide)]
  unfold loadNew
  rw [s1, s2, s3, s4]
  dsimp only
  rw [e3]
  dsimp only
  rw [e4]
  dsimp only
  rw [e5]
  dsimp only
  rw [e6]
  dsimp only
  rw [e7]
  dsimp only
  rw [e8]
  simp only [hw2, hb2]

theorem nnueEvaluate_no_output_weights {F : Type} (fo : FloatOps F) (w : NNUEWeights F)
    (st : GameState) (p : Fin 2) (perfectInfo : Bool) (h2 : w.hidden2 = 0) (h3 : w.w3 = []) :
    nnueEvaluate fo w st p perfectInfo = w.b3 := by
  unfold nnueEvaluate
  simp only [h2, h3, lt_self_iff_false, if_false, List.length_nil, Nat.min_zero, List.range_zero,
    List.foldl_nil, gt_iff_lt]

set_option maxRecDepth 1000000 in
theorem nnueEvaluate_sampleSingleLayerWeights :
    nnueEvaluate exactOps (sampleSingleLayerWeights.map sampleDecode) threeCardState 1 false =
      ExtRat.fin 5 := by
  decide!

/-- C40: for a weight set with one hidden layer (`hidden2 = 0`, `w2` and `b2` empty, `w3`
of `hidden1 >= 1` entries) `loadWeights` does not give back what `saveWeights` wrote: it
takes the header for the new format, sizes `w3` to `hidden2 = 0` entries, and reads the
first entry of the stored `w3` as `b3`; `nnueEvaluate` on the result is that value for
every state.  The sample set (bias 3, output weight 2, hidden unit 1) evaluates to 5
before and to 2 after the round trip. -/
theorem loadWeights_saveWeights_single_layer (w w0 : NNUEWeights Nat) (hs : SingleLayerOK w)
    (x : Nat) (rest : List Nat) (hw3 : w.w3 = x :: rest) :
    (saveWeights w true).1 = true ∧
      loadWeights w0 (saveWeights w true).2 = some (true, { w with w3 := [], b3 := x }) ∧
      (∀ (F : Type) (fo : FloatOps F) (g : Nat → F) (st : GameState) (p : Fin 2) (pi : Bool),
        nnueEvaluate fo (({ w with w3 := [], b3 := x } : NNUEWeights Nat).map g) st p pi =
          g x) ∧
      nnueEvaluate exactOps (sampleSingleLayerWeights.map sampleDecode) threeCardState 1 false =
        ExtRat.fin 5 := by
  refine ⟨rfl, loadWeights_savedBytes_single w w0 hs x rest hw3, ?_,
    nnueEvaluate_sampleSingleLayerWeights⟩
  intro F fo g st p pi
  exact nnueEvaluate_no_output_weights fo _ st p pi hs.2.2.1 rfl

/-- C40 at the sample weights: the set loaded back has no output weight and bias 2.0, and
evaluates to 2 where the set saved evaluates to 5. -/
theorem loadWeights_saveWeights_single_layer_witness :
    SingleLayerOK sampleSingleLayerWeights ∧
      loadWeights emptyWeights (saveWeights sampleSingleLayerWeights true).2 =
        some (true, { sampleSingleLayerWeights with w3 := [], b3 := 1073741824 }) ∧
      nnueEvaluate exactOps
          (({ sampleSingleLayerWeights with w3 := [], b3 := 1073741824 } :
            NNUEWeights Nat).map sampleDecode) threeCardState 1 false = ExtRat.fin 2 ∧
      nnueEvaluate exactOps (sampleSingleLayerWeights.map sampleDecode) threeCardState 1 false =
        ExtRat.fin 5 :=
  ⟨by decide,
    (loadWeights_saveWeights_single_layer sampleSingleLayerWeights emptyWeights (by decide)
      1073741824 [] rfl).2.1,
    (loadWeights_saveWeights_single_layer sampleSingleLayerWeights emptyWeights (by decide)
      1073741824 [] rfl).2.2.1 ExtRat exactOps sampleDecode threeCardState 1 false,
    (loadWeights_saveWeights_single_layer sampleSingleLayerWeights emptyWeights (by decide)
      1073741824 [] rfl).2.2.2⟩

theorem ttStore_eq {F : Type} (fo : FloatOps F) (tt : TT F) (key : Nat) (depth : Int)
    (val alphaOrig betaOrig : F) (move : Int) :
    ttStore fo tt key depth val alphaOrig betaOrig move =
      (key, { value := val, depth := depth, flag := storedFlag fo val alphaOrig betaOrig,
              bestMoveHandIdx := move }) ::
        (if tt.length > MAX_TT_SIZE then [] else tt).filter (fun x => !(x.1 == key)) :=
  rfl

theorem ttStore_find {F : Type} (fo : FloatOps F) (tt : TT F) (key : Nat) (depth : Int)
    (val alphaOrig betaOrig : F) (move : Int) :
    (ttStore fo tt key depth val alphaOrig betaOrig move).find? (fun e => e.1 == key) =
      some (key, { value := val, depth := depth, flag := storedFlag fo val alphaOrig betaOrig,
                   bestMoveHandIdx := move }) := by
  rw [ttStore_eq, List.find?_cons_of_pos]
  exact beq_self_eq_true key

theorem ttStore_length {F : Type} (fo : FloatOps F) (tt : TT F) (key : Nat) (depth : Int)
    (val alphaOrig betaOrig : F) (move : Int) :
    (ttStore fo tt key depth val alphaOrig betaOrig move).length ≤ MAX_TT_SIZE + 1 := by
  rw [ttStore_eq, List.length_cons]
  by_cases h : tt.length > MAX_TT_SIZE
  · rw [if_pos h]
    simp
  · rw [if_neg h]
    have := List.length_filter_le (fun x : Nat × TTEntry F => !(x.1 == key)) tt
    omega

theorem ttStore_nodup {F : Type} (fo : FloatOps F) (tt : TT F) (key : Nat) (depth : Int)
    (val alphaOrig betaOrig : F) (move : Int) (h : (tt.map Prod.fst).Nodup) :
    ((ttStore fo tt key depth val alphaOrig betaOrig move).map Prod.fst).Nodup := by
  rw [ttStore_eq, List.map_cons, List.nodup_cons]
  constructor
  · intro hmem
    obtain ⟨e, he, hk⟩ := List.mem_map.1 hmem
    have := (List.mem_filter.1 he).2
    rw [hk] at this
    simp at this
  · have hsub : List.Sublist
        (((if tt.length > MAX_TT_SIZE then [] else tt).filter
          (fun x => !(x.1 == key))).map Prod.fst) (tt.map Prod.fst) := by
      apply List.Sublist.map
      split_ifs
      · exact List.nil_sublist _
      · exact List.filter_sublist _
    exact hsub.nodup h

theorem ttStoreAll_length {F : Type} (fo : FloatOps F) (calls : List (StoreArgs F)) :
    ∀ tt : TT F, tt.length ≤ MAX_TT_SIZE + 1 →
      (ttStoreAll fo tt calls).length ≤ MAX_TT_SIZE + 1 := by
  induction calls with
  | nil =>
    intro tt h
    exact h
  | cons c rest ih =>
    intro tt _
    exact ih _ (ttStore_length fo tt c.key c.depth c.val c.alphaOrig c.betaOrig
      c.bestMoveHandIdx)

/-- C31: `ttStore` called on a table of more than `MAX_TT_SIZE` = 1000000 entries clears
it, so that the new entry is the only one afterwards; on a smaller table the other keys
keep their entries; in both cases the key stored is found with the new entry, whatever
entry and depth it had before, and it occurs once; and a table of at most
`MAX_TT_SIZE + 1` entries, such as the empty one, stays so under every sequence of
stores. -/
theorem ttStore_capacity {F : Type} (fo : FloatOps F) (tt : TT F) (key : Nat) (depth : Int)
    (val alphaOrig betaOrig : F) (move : Int) :
    MAX_TT_SIZE = 1000000 ∧
      (tt.length > MAX_TT_SIZE →
        ttStore fo tt key depth val alphaOrig betaOrig move =
          [(key, { value := val, depth := depth, flag := storedFlag fo val alphaOrig betaOrig,
                   bestMoveHandIdx := move })]) ∧
      (tt.length ≤ MAX_TT_SIZE → ∀ k : Nat, k ≠ key →
        (ttStore fo tt key depth val alphaOrig betaOrig move).find? (fun e => e.1 == k) =
          tt.find? (fun e => e.1 == k)) ∧
      (ttStore fo tt key depth val alphaOrig betaOrig move).find? (fun e => e.1 == key) =
        some (key, { value := val, depth := depth,
                     flag := storedFlag fo val alphaOrig betaOrig,
                     bestMoveHandIdx := move }) ∧
      ((ttStore fo tt key depth val alphaOrig betaOrig move).map Prod.fst).count key = 1 ∧
      (ttStore fo tt key depth val alphaOrig betaOrig move).length ≤ MAX_TT_SIZE + 1 ∧
      ((tt.map Prod.fst).Nodup →
        ((ttStore fo tt key depth val alphaOrig betaOrig move).map Prod.fst).Nodup) ∧
      ∀ (calls : List (StoreArgs F)) (t0 : TT F), t0.length ≤ MAX_TT_SIZE + 1 →
        (ttStoreAll fo t0 calls).length ≤ MAX_TT_SIZE + 1 := by
  refine ⟨rfl, ?_, ?_, ttStore_find fo tt key depth val alphaOrig betaOrig move, ?_,
    ttStore_length fo tt key depth val alphaOrig betaOrig move,
    ttStore_nodup fo tt key depth val alphaOrig betaOrig move,
    fun calls t0 h => ttStoreAll_length fo calls t0 h⟩
  · intro h
    rw [ttStore_eq, if_pos h]
    rfl
  · intro h k hk
    rw [ttStore_eq, if_neg (by omega), List.find?_cons_of_neg]
    · induction tt with
      | nil => rfl
      | cons e rest ih =>
        have hr : rest.length ≤ MAX_TT_SIZE := by
          rw [List.length_cons] at h
          omega
        by_cases hek : e.1 = key
        · have h1 : (!(e.1 == key)) = false := by simp [hek]
          rw [List.filter_cons_of_neg (by simp [hek]), ih hr,
            List.find?_cons_of_neg]
          rw [hek]
          simpa using fun hc => hk hc.symm
        · rw [List.filter_cons_of_pos (by simpa using hek)]
          by_cases hekk : e.1 = k
          · rw [List.find?_cons_of_pos _ (by simpa using hekk),
              List.find?_cons_of_pos _ (by simpa using hekk)]
          · rw [List.find?_cons_of_neg _ (by simpa using hekk),
              List.find?_cons_of_neg _ (by simpa using hekk), ih hr]
    · simpa using fun hc => hk hc.symm
  · rw [ttStore_eq, List.map_cons, List.count_cons_self]
    have : List.count key
        (((if tt.length > MAX_TT_SIZE then [] else tt).filter
          (fun x => !(x.1 == key))).map Prod.fst) = 0 := by
      rw [List.count_eq_zero]
      intro hmem
      obtain ⟨e, he, hk⟩ := List.mem_map.1 hmem
      have := (List.mem_filter.1 he).2
      rw [hk] at this
      simp at this
    rw [this]

/-- C31 at a table of two entries with the key stored at a higher depth: the store
replaces the entry. -/
theorem ttStore_capacity_witness :
    ([(7, ({ value := ExtRat.fin 1, depth := 9, flag := TTFlag.EXACT, bestMoveHandIdx := 0 } :
        TTEntry ExtRat))] : TT ExtRat).length ≤ MAX_TT_SIZE + 1 ∧
      (ttStore exactOps
          [(7, { value := ExtRat.fin 1, depth := 9, flag := TTFlag.EXACT, bestMoveHandIdx := 0 })]
          7 2 (ExtRat.fin 3) (ExtRat.fin 0) (ExtRat.fin 5) 1).find? (fun e => e.1 == 7) =
        some (7, { value := ExtRat.fin 3, depth := 2,
                   flag := storedFlag exactOps (ExtRat.fin 3) (ExtRat.fin 0) (ExtRat.fin 5),
                   bestMoveHandIdx := 1 }) ∧
      (ttStoreAll exactOps
          [(7, { value := ExtRat.fin 1, depth := 9, flag := TTFlag.EXACT, bestMoveHandIdx := 0 })]
          []).length ≤ MAX_TT_SIZE + 1 :=
  ⟨Nat.le_add_left 1 MAX_TT_SIZE,
    (ttStore_capacity exactOps
      [(7, { value := ExtRat.fin 1, depth := 9, flag := TTFlag.EXACT, bestMoveHandIdx := 0 })]
      7 2 (ExtRat.fin 3) (ExtRat.fin 0) (ExtRat.fin 5) 1).2.2.2.1,
    (ttStore_capacity exactOps
      [(7, { value := ExtRat.fin 1, depth := 9, flag := TTFlag.EXACT, bestMoveHandIdx := 0 })]
      7 2 (ExtRat.fin 3) (ExtRat.fin 0) (ExtRat.fin 5) 1).2.2.2.2.2.2.2 [] _
      (Nat.le_add_left 1 MAX_TT_SIZE)⟩

theorem ttLookup_of_find {F : Type} (fo : FloatOps F) (tt : TT F) (key : Nat) (e : TTEntry F)
    (h : tt.find? (fun x => x.1 == key) = some (key, e)) (depth : Int) (alpha beta : F) :
    ttLookup fo tt key depth alpha beta =
      if e.depth < depth then none
      else
        match e.flag with
        | TTFlag.EXACT => some e.value
        | TTFlag.LOWERBOUND => if fo.le beta e.value then some e.value else none
        | TTFlag.UPPERBOUND => if fo.le e.value alpha then some e.value else none := by
  unfold ttLookup
  rw [h]
  all_goals rfl

/-- C33: after `ttStore(key, d, v, alphaOrig, betaOrig, move)` on any table,
`ttLookup(key, d2, alpha, beta)` is a hit exactly when `d2 <= d` and one of: neither
`v <= alphaOrig` nor `v >= betaOrig` (the entry is EXACT); `v <= alphaOrig` and
`v <= alpha` (UPPERBOUND); not `v <= alphaOrig`, `v >= betaOrig` and `v >= beta`
(LOWERBOUND); a hit returns `v`.  Where `<` is the negation of `>=` on the values
compared, as it is for floats that are not NaN, the first case reads
`alphaOrig < v < betaOrig` and the third starts with `v > alphaOrig`.  A key without
entry misses.  `ttLookup` is a function of the table and its arguments and returns no
table. -/
theorem ttLookup_after_ttStore {F : Type} (fo : FloatOps F) (tt : TT F) (key : Nat)
    (d d2 : Int) (v alphaOrig betaOrig alpha beta : F) (move : Int) :
    (ttLookup fo (ttStore fo tt key d v alphaOrig betaOrig move) key d2 alpha beta = some v ↔
        d2 ≤ d ∧
          ((fo.le v alphaOrig = false ∧ fo.le betaOrig v = false) ∨
            (fo.le v alphaOrig = true ∧ fo.le v alpha = true) ∨
            (fo.le v alphaOrig = false ∧ fo.le betaOrig v = true ∧ fo.le beta v = true))) ∧
      (ttLookup fo (ttStore fo tt key d v alphaOrig betaOrig move) key d2 alpha beta = some v ∨
        ttLookup fo (ttStore fo tt key d v alphaOrig betaOrig move) key d2 alpha beta = none) ∧
      ((fo.lt alphaOrig v = !fo.le v alphaOrig) → (fo.lt v betaOrig = !fo.le betaOrig v) →
        (ttLookup fo (ttStore fo tt key d v alphaOrig betaOrig move) key d2 alpha beta =
            some v ↔
          d2 ≤ d ∧
            ((fo.lt alphaOrig v = true ∧ fo.lt v betaOrig = true) ∨
              (fo.le v alphaOrig = true ∧ fo.le v alpha = true) ∨
              (fo.lt alphaOrig v = true ∧ fo.le betaOrig v = true ∧ fo.le beta v = true)))) ∧
      (∀ (t : TT F) (k : Nat), t.find? (fun e => e.1 == k) = none →
        ttLookup fo t k d2 alpha beta = none) := by
  have hl := ttLookup_of_find fo _ key _
    (ttStore_find fo tt key d v alphaOrig betaOrig move) d2 alpha beta
  simp only [] at hl
  have key1 : (ttLookup fo (ttStore fo tt key d v alphaOrig betaOrig move) key d2 alpha beta =
        some v ↔
      d2 ≤ d ∧
        ((fo.le v alphaOrig = false ∧ fo.le betaOrig v = false) ∨
          (fo.le v alphaOrig = true ∧ fo.le v alpha = true) ∨
          (fo.le v alphaOrig = false ∧ fo.le betaOrig v = true ∧ fo.le beta v = true))) ∧
      (ttLookup fo (ttStore fo tt key d v alphaOrig betaOrig move) key d2 alpha beta = some v ∨
        ttLookup fo (ttStore fo tt key d v alphaOrig betaOrig move) key d2 alpha beta =
          none) := by
    rw [hl]
    unfold storedFlag
    by_cases hd : d < d2
    · rw [if_pos hd]
      refine ⟨⟨fun h => (by cases h), fun h => absurd h.1 (by omega)⟩, Or.inr rfl⟩
    · rw [if_neg hd]
      cases h1 : fo.le v alphaOrig <;> cases h2 : fo.le betaOrig v <;>
        cases h3 : fo.le v alpha <;> cases h4 : fo.le beta v <;>
        simp [h3, h4] <;> omega
  refine ⟨key1.1, key1.2, ?_, ?_⟩
  · intro e1 e2
    rw [key1.1, e1, e2]
    cases fo.le v alphaOrig <;> cases fo.le betaOrig v <;> simp
  · intro t k hk
    unfold ttLookup
    rw [hk]

/-- C33 on the empty table with exact floats: value 3 stored at depth 2 with the window
(0, 5) is found at depth 1. -/
theorem ttLookup_after_ttStore_witness :
    exactOps.lt (ExtRat.fin 0) (ExtRat.fin 3) = (!exactOps.le (ExtRat.fin 3) (ExtRat.fin 0)) ∧
      exactOps.lt (ExtRat.fin 3) (ExtRat.fin 5) = (!exactOps.le (ExtRat.fin 5) (ExtRat.fin 3)) ∧
      (ttLookup exactOps (ttStore exactOps [] 7 2 (ExtRat.fin 3) (ExtRat.fin 0) (ExtRat.fin 5) 1)
          7 1 (ExtRat.fin 9) (ExtRat.fin 10) = some (ExtRat.fin 3) ↔
        (1 : Int) ≤ 2 ∧
          ((exactOps.lt (ExtRat.fin 0) (ExtRat.fin 3) = true ∧
              exactOps.lt (ExtRat.fin 3) (ExtRat.fin 5) = true) ∨
            (exactOps.le (ExtRat.fin 3) (ExtRat.fin 0) = true ∧
              exactOps.le (ExtRat.fin 3) (ExtRat.fin 9) = true) ∨
            (exactOps.lt (ExtRat.fin 0) (ExtRat.fin 3) = true ∧
              exactOps.le (ExtRat.fin 5) (ExtRat.fin 3) = true ∧
              exactOps.le (ExtRat.fin 10) (ExtRat.fin 3) = true))) :=
  ⟨by decide!, by decide!,
    (ttLookup_after_ttStore exactOps [] 7 2 1 (ExtRat.fin 3) (ExtRat.fin 0) (ExtRat.fin 5)
      (ExtRat.fin 9) (ExtRat.fin 10) 1).2.2.1 (by decide!) (by decide!)⟩

theorem reachN_moves_ne_nil (k : Nat) (st : GameState) (h : ReachN k st) (hk : k < 40) :
    getLegalMoves st (st.currentPlayer.val : Int) ≠ [] := by
  have hpos := reachN_hand_pos k st h hk
  intro hnil
  have h0 : (0 : Int) ∈ getLegalMoves st (st.currentPlayer.val : Int) :=
    (getLegalMoves_mem st _ 0).2 ⟨rfl, le_refl _, by exact_mod_cast hpos⟩
  rw [hnil] at h0
  exact absurd h0 (List.not_mem_nil _)

theorem reachN_not_finished (k : Nat) (st : GameState) (h : ReachN k st)
    (hf : ¬ st.finished = true) : k < 40 := by
  have hinv := reachN_gameInv h
  have h1 := hinv.fin
  have h2 := hinv.moves_le
  by_contra hc
  have : k = 40 := by omega
  rw [this] at h1
  exact hf (by rw [h1]; decide)

theorem reachN_finished (k : Nat) (st : GameState) (h : ReachN k st)
    (hf : st.finished = true) : k = 40 := by
  have h1 := (reachN_gameInv h).fin
  rw [hf] at h1
  exact of_decide_eq_true h1.symm

theorem reachN_close_some (k : Nat) (st s1 : GameState) (m : Int) (h : ReachN k st)
    (hplay : playCard st (st.currentPlayer.val : Int) m = (true, s1)) :
    ∃ s2, maybeCloseTrick s1 = some s2 := by
  obtain ⟨-, -, -, c, -, hs1⟩ := playCard_true st s1 _ m hplay
  have hlen : s1.trick.cards.length ≤ 4 := by
    rw [hs1]
    simp only [List.length_append, List.length_singleton]
    rw [(reachN_inv h).trick_len]
    have := Nat.mod_lt k (show 0 < 4 by omega)
    omega
  obtain ⟨s2, hclose, -⟩ := maybeCloseTrick_finished s1 hlen
  exact ⟨s2, hclose⟩

theorem selfPlayLoop_spec {F : Type} (fo : FloatOps F) (fuel retries : Nat)
    (w : NNUEWeights F) (depth : Int) (perfectInfo : Bool) (n : Nat) :
    ∀ (k : Nat) (tt : TT F) (st : GameState) (result : List (SelfPlaySample F))
      (final : GameState) (result2 : List (SelfPlaySample F)) (tt2 : TT F),
      ReachN k st →
      selfPlayLoop fo fuel retries w depth perfectInfo n tt st result =
        some (final, result2, tt2) →
      ∃ fs : List (List F),
        result2 = result ++ fs.map (fun f => { features := f, outcome := fo.ofRat 0 }) ∧
          fs.length + k = 40 ∧ Recorded fo perfectInfo st fs final ∧
          final.finished = true := by
  induction n with
  | zero =>
    intro k tt st result final result2 tt2 _ h
    unfold selfPlayLoop at h
    cases h
  | succ n ih =>
    intro k tt st result final result2 tt2 hr h
    unfold selfPlayLoop at h
    by_cases hf : st.finished = true
    · rw [if_pos hf] at h
      simp only [Option.some.injEq, Prod.mk.injEq] at h
      obtain ⟨h1, h2, -⟩ := h
      subst h1 h2
      refine ⟨[], by simp, ?_, rfl, hf⟩
      rw [reachN_finished k st hr hf]
      rfl
    · rw [if_neg hf] at h
      simp only [] at h
      have hk := reachN_not_finished k st hr hf
      have hne := reachN_moves_ne_nil k st hr hk
      cases hs : searchBestMoveID fo fuel retries tt st w depth perfectInfo with
      | none =>
        rw [hs] at h
        cases h
      | some x =>
        obtain ⟨sr, tt1⟩ := x
        rw [hs] at h
        simp only [] at h
        have hm : sr.chosenMoveIndex ∈ getLegalMoves st (st.currentPlayer.val : Int) :=
          searchBestMoveID_move fo fuel retries tt st w depth perfectInfo (sr, tt1) hne hs
        have h0 := ((getLegalMoves_mem st _ _).1 hm).2.1
        rw [if_neg (by omega)] at h
        obtain ⟨s1, c, hplay, -, -⟩ :=
          playCard_legal_step st sr.chosenMoveIndex (by simpa using hf) hm
        rw [hplay] at h
        simp only [] at h
        cases hc : maybeCloseTrick s1 with
        | none =>
          rw [hc] at h
          cases h
        | some st1 =>
          rw [hc] at h
          simp only [] at h
          obtain ⟨fs, e1, e2, e3, e4⟩ :=
            ih (k + 1) tt1 st1 _ final result2 tt2 (ReachN.step _ _ hr hplay hc) h
          refine ⟨extractFeatures fo st st.currentPlayer perfectInfo :: fs, ?_, ?_, ?_, e4⟩
          · rw [e1, List.map_cons, List.append_assoc, List.singleton_append]
          · rw [List.length_cons]
            omega
          · exact ⟨rfl, sr.chosenMoveIndex, s1, st1, hplay, hc, e3⟩

theorem selfPlayLoop_some {F : Type} (fo : FloatOps F) (fuel retries : Nat)
    (w : NNUEWeights F) (depth : Int) (perfectInfo : Bool) (hd : depth ≤ 0) (n : Nat) :
    ∀ (k : Nat) (tt : TT F) (st : GameState) (result : List (SelfPlaySample F)),
      ReachN k st → 40 < n + k →
      ∃ r, selfPlayLoop fo fuel retries w depth perfectInfo n tt st result = some r := by
  induction n with
  | zero =>
    intro k tt st result hr hn
    have := (reachN_gameInv hr).moves_le
    omega
  | succ n ih =>
    intro k tt st result hr hn
    unfold selfPlayLoop
    by_cases hf : st.finished = true
    · rw [if_pos hf]
      exact ⟨_, rfl⟩
    · rw [if_neg hf]
      simp only []
      have hk := reachN_not_finished k st hr hf
      have hne := reachN_moves_ne_nil k st hr hk
      rw [searchBestMoveID_depth_nonpos fo fuel retries tt st w depth perfectInfo hne hd]
      simp only []
      have hm := headD_mem_of_ne_nil _ hne
      have h0 := ((getLegalMoves_mem st _ _).1 hm).2.1
      rw [if_neg (by omega)]
      obtain ⟨s1, c, hplay, -, -⟩ := playCard_legal_step st _ (by simpa using hf) hm
      rw [hplay]
      simp only []
      obtain ⟨s2, hc⟩ := reachN_close_some k st s1 _ hr hplay
      rw [hc]
      exact ih (k + 1) tt s2 _ (ReachN.step _ _ hr hplay hc) (by omega)

theorem selfPlayLoopMCTS_spec {F : Type} (fo : FloatOps F) (mo : MathOps F)
    (cfg : MCTSConfig F) (n : Nat) :
    ∀ (k : Nat) (rng : RNG) (st : GameState) (result : List (SelfPlaySample F)),
      ReachN k st → 40 < n + k →
      ∃ (final : GameState) (rng2 : RNG) (fs : List (List F)),
        selfPlayLoopMCTS fo mo cfg n rng st result =
            some (final, result ++ fs.map (fun f => { features := f, outcome := fo.ofRat 0 }),
              rng2) ∧
          fs.length + k = 40 ∧ Recorded fo cfg.perfectInfo st fs final ∧
          final.finished = true := by
  induction n with
  | zero =>
    intro k rng st result hr hn
    have := (reachN_gameInv hr).moves_le
    omega
  | succ n ih =>
    intro k rng st result hr hn
    unfold selfPlayLoopMCTS
    by_cases hf : st.finished = true
    · rw [if_pos hf]
      refine ⟨st, rng, [], by simp, ?_, rfl, hf⟩
      rw [reachN_finished k st hr hf]
      rfl
    · rw [if_neg hf]
      simp only []
      have hk := reachN_not_finished k st hr hf
      have hne := reachN_moves_ne_nil k st hr hk
      have ht : st.trick.cards.length < 4 := by
        rw [(reachN_inv hr).trick_len]
        exact Nat.mod_lt k (by omega)
      obtain ⟨⟨sr, rng1⟩, hs, hm⟩ :=
        searchBestMoveMCTS_move fo mo st (st.currentPlayer.val : Int) rng cfg ht hne
      rw [hs]
      simp only []
      have hm2 : sr.chosenMoveIndex ∈ getLegalMoves st (st.currentPlayer.val : Int) := hm
      have h0 := ((getLegalMoves_mem st _ _).1 hm2).2.1
      rw [if_neg (by omega)]
      obtain ⟨s1, c, hplay, -, -⟩ := playCard_legal_step st _ (by simpa using hf) hm2
      rw [hplay]
      simp only []
      obtain ⟨s2, hc⟩ := reachN_close_some k st s1 _ hr hplay
      rw [hc]
      simp only []
      obtain ⟨final, rng2, fs, e1, e2, e3, e4⟩ :=
        ih (k + 1) rng1 s2 (result ++
          [{ features := extractFeatures fo st st.currentPlayer cfg.perfectInfo,
             outcome := fo.ofRat 0 }]) (ReachN.step _ _ hr hplay hc) (by omega)
      refine ⟨final, rng2, extractFeatures fo st st.currentPlayer cfg.perfectInfo :: fs, ?_, ?_,
        ?_, e4⟩
      · rw [e1, List.map_cons, List.append_assoc, List.singleton_append]
      · rw [List.length_cons]
        omega
      · exact ⟨rfl, sr.chosenMoveIndex, s1, s2, hplay, hc, e3⟩

theorem stamped_features {F : Type} (fs : List (List F)) (x y : F) :
    ((fs.map (fun f => ({ features := f, outcome := x } : SelfPlaySample F))).map
        (fun s => { s with outcome := y })).map SelfPlaySample.features = fs := by
  induction fs with
  | nil => rfl
  | cons f fs ih =>
    simp only [List.map_cons, List.cons.injEq, true_and]
    exact ih

theorem stamped_outcome {F : Type} (l : List (SelfPlaySample F)) (y : F) :
    ∀ s ∈ l.map (fun s => { s with outcome := y }), s.outcome = y := by
  intro s hs
  obtain ⟨t, -, ht⟩ := List.mem_map.1 hs
  rw [← ht]

/-- C28: whenever `playSelfPlayGame` returns, it returns 40 samples, one for each card of
a game played from `newGame` by legal moves to its finished state: the features of a
sample are `extractFeatures` of the state before the move, from the viewpoint of the
player to move, and every sample carries the outcome `score[0] - score[1]` of the final
state as a float; for depth <= 0 it is proved to return.  `playSelfPlayGameMCTS` returns,
and its samples have the same properties. -/
theorem selfplay_samples {F : Type} (fo : FloatOps F) (mo : MathOps F) (fuel retries : Nat)
    (tt : TT F) (w : NNUEWeights F) (depth : Int) (rng : RNG) (now : Nat)
    (perfectInfo : Bool) (cfg : MCTSConfig F) :
    (∀ (samples : List (SelfPlaySample F)) (tt1 : TT F),
        playSelfPlayGame fo fuel retries tt w depth rng now perfectInfo = some (samples, tt1) →
        ∃ final : GameState,
          Recorded fo perfectInfo (newGame rng now) (samples.map SelfPlaySample.features)
              final ∧
            final.finished = true ∧ samples.length = 40 ∧
            ∀ s ∈ samples,
              s.outcome = fo.ofRat ((getP final.score 0 - getP final.score 1 : Int) : ℚ)) ∧
      (depth ≤ 0 →
        ∃ r, playSelfPlayGame fo fuel retries tt w depth rng now perfectInfo = some r) ∧
      ∃ (samples : List (SelfPlaySample F)) (rng1 : RNG) (final : GameState),
        playSelfPlayGameMCTS fo mo cfg rng now = some (samples, rng1) ∧
          Recorded fo cfg.perfectInfo (newGame rng now) (samples.map SelfPlaySample.features)
            final ∧
          final.finished = true ∧ samples.length = 40 ∧
          ∀ s ∈ samples,
            s.outcome = fo.ofRat ((getP final.score 0 - getP final.score 1 : Int) : ℚ) := by
  refine ⟨?_, ?_, ?_⟩
  · intro samples tt1 h
    unfold playSelfPlayGame at h
    cases hl : selfPlayLoop fo fuel retries w depth perfectInfo 41 tt (newGame rng now) [] with
    | none =>
      rw [hl] at h
      cases h
    | some x =>
      obtain ⟨final, result, tt2⟩ := x
      rw [hl] at h
      simp only [Option.some.injEq, Prod.mk.injEq] at h
      obtain ⟨h1, -⟩ := h
      obtain ⟨fs, e1, e2, e3, e4⟩ :=
        selfPlayLoop_spec fo fuel retries w depth perfectInfo 41 0 tt _ [] final result tt2
          (ReachN.init rng now) hl
      rw [List.nil_append] at e1
      subst e1
      subst h1
      refine ⟨final, ?_, e4, ?_, stamped_outcome _ _⟩
      · rw [stamped_features]
        exact e3
      · rw [List.length_map, List.length_map]
        omega
  · intro hd
    obtain ⟨⟨final, result, tt2⟩, hl⟩ :=
      selfPlayLoop_some fo fuel retries w depth perfectInfo hd 41 0 tt (newGame rng now) []
        (ReachN.init rng now) (by omega)
    unfold playSelfPlayGame
    rw [hl]
    exact ⟨_, rfl⟩
  · obtain ⟨final, rng2, fs, e1, e2, e3, e4⟩ :=
      selfPlayLoopMCTS_spec fo mo cfg 41 0 rng (newGame rng now) [] (ReachN.init rng now)
        (by omega)
    rw [List.nil_append] at e1
    refine ⟨(fs.map (fun f => ({ features := f, outcome := fo.ofRat 0 } : SelfPlaySample F))).map
        (fun s => { s with
          outcome := fo.ofRat ((getP final.score 0 - getP final.score 1 : Int) : ℚ) }),
      rng2, final, ?_, ?_, e4, ?_, stamped_outcome _ _⟩
    · unfold playSelfPlayGameMCTS
      rw [e1]
    · rw [stamped_features]
      exact e3
    · rw [List.length_map, List.length_map]
      omega

/-- C28 with exact floats, the sample weights and depth 0: the game is played to its end
and 40 samples are returned. -/
theorem selfplay_samples_witness :
    (0 : Int) ≤ 0 ∧
      (∃ r, playSelfPlayGame exactOps 0 0 [] sampleWeights 0 ⟨1⟩ 0 false = some r) ∧
      ∃ (samples : List (SelfPlaySample ExtRat)) (rng1 : RNG) (final : GameState),
        playSelfPlayGameMCTS exactOps sampleMath sampleConfig ⟨1⟩ 0 = some (samples, rng1) ∧
          Recorded exactOps sampleConfig.perfectInfo (newGame ⟨1⟩ 0)
            (samples.map SelfPlaySample.features) final ∧
          final.finished = true ∧ samples.length = 40 ∧
          ∀ s ∈ samples,
            s.outcome =
              exactOps.ofRat ((getP final.score 0 - getP final.score 1 : Int) : ℚ) :=
  ⟨le_refl 0,
    (selfplay_samples exactOps sampleMath 0 0 [] sampleWeights 0 ⟨1⟩ 0 false sampleConfig).2.1
      (le_refl 0),
    (selfplay_samples exactOps sampleMath 0 0 [] sampleWeights 0 ⟨1⟩ 0 false sampleConfig).2.2⟩

theorem maxLoopH_fst {F : Type} (fo : FloatOps F) (st : GameState) (p : Fin 2)
    (childH : TT F → GameState → F → F → Option (F × TT F × Nat))
    (child : TT F → GameState → F → F → Option (F × TT F))
    (hc : ∀ tt ns a b, (childH tt ns a b).map (fun x => (x.1, x.2.1)) = child tt ns a b)
    (beta : F) (ordered : List (Int × F)) (tt : TT F) (alpha bestVal : F) (bm : Int)
    (hits : Nat) :
    (maxLoopH fo st p childH beta ordered tt alpha bestVal bm hits).map
        (fun x => (x.1, x.2.1, x.2.2.1)) =
      maxLoop fo st p child beta ordered tt alpha bestVal bm := by
  induction ordered generalizing tt alpha bestVal bm hits with
  | nil => rfl
  | cons e rest ih =>
    obtain ⟨m, q⟩ := e
    unfold maxLoopH maxLoop
    cases hns : applyMove st (p.val : Int) m with
    | none => rfl
    | some ns =>
      simp only []
      have h1 := hc tt ns alpha beta
      cases hch : childH tt ns alpha beta with
      | none =>
        rw [hch] at h1
        rw [← h1]
        rfl
      | some x =>
        obtain ⟨val, tt1, k⟩ := x
        rw [hch] at h1
        rw [← h1]
        simp only [Option.map_some']
        split_ifs <;>
          first
          | rfl
          | exact ih _ _ _ _ _

theorem minLoopH_fst {F : Type} (fo : FloatOps F) (st : GameState) (p : Fin 2)
    (childH : TT F → GameState → F → F → Option (F × TT F × Nat))
    (child : TT F → GameState → F → F → Option (F × TT F))
    (hc : ∀ tt ns a b, (childH tt ns a b).map (fun x => (x.1, x.2.1)) = child tt ns a b)
    (alpha : F) (ordered : List (Int × F)) (tt : TT F) (beta bestVal : F) (bm : Int)
    (hits : Nat) :
    (minLoopH fo st p childH alpha ordered tt beta bestVal bm hits).map
        (fun x => (x.1, x.2.1, x.2.2.1)) =
      minLoop fo st p child alpha ordered tt beta bestVal bm := by
  induction ordered generalizing tt beta bestVal bm hits with
  | nil => rfl
  | cons e rest ih =>
    obtain ⟨m, q⟩ := e
    unfold minLoopH minLoop
    cases hns : applyMove st (p.val : Int) m with
    | none => rfl
    | some ns =>
      simp only []
      have h1 := hc tt ns alpha beta
      cases hch : childH tt ns alpha beta with
      | none =>
        rw [hch] at h1
        rw [← h1]
        rfl
      | some x =>
        obtain ⟨val, tt1, k⟩ := x
        rw [hch] at h1
        rw [← h1]
        simp only [Option.map_some']
        split_ifs <;>
          first
          | rfl
          | exact ih _ _ _ _ _

theorem rootLoopH_fst {F : Type} (fo : FloatOps F) (st : GameState) (p : Fin 2)
    (childH : TT F → GameState → F → F → Option (F × TT F × Nat))
    (child : TT F → GameState → F → F → Option (F × TT F))
    (hc : ∀ tt ns a b, (childH tt ns a b).map (fun x => (x.1, x.2.1)) = child tt ns a b)
    (b : F) (ordered : List (Int × F)) (tt : TT F) (a best : F) (bm : Int) (hits : Nat) :
    (rootLoopH fo st p childH b ordered tt a best bm hits).map
        (fun x => (x.1, x.2.1, x.2.2.1)) =
      rootLoop fo st p child b ordered tt a best bm := by
  induction ordered generalizing tt a best bm hits with
  | nil => rfl
  | cons e rest ih =>
    obtain ⟨m, q⟩ := e
    unfold rootLoopH rootLoop
    cases hns : applyMove st (p.val : Int) m with
    | none => rfl
    | some ns =>
      simp only []
      have h1 := hc tt ns a b
      cases hch : childH tt ns a b with
      | none =>
        rw [hch] at h1
        rw [← h1]
        rfl
      | some x =>
        obtain ⟨val, tt1, k⟩ := x
        rw [hch] at h1
        rw [← h1]
        simp only [Option.map_some']
        exact ih _ _ _ _ _

theorem mtLoopH_fst {F : Type} (fo : FloatOps F) (st : GameState) (p : Fin 2)
    (childH : TT F → GameState → F → F → Option (F × TT F × Nat))
    (child : TT F → GameState → F → F → Option (F × TT F))
    (hc : ∀ tt ns a b, (childH tt ns a b).map (fun x => (x.1, x.2.1)) = child tt ns a b)
    (ordered : List (Int × F)) (tt : TT F) (best : F) (bm : Int) (hits : Nat) :
    (mtLoopH fo st p childH ordered tt best bm hits).map
        (fun x => (x.1, x.2.1, x.2.2.1)) =
      mtLoop fo st p child ordered tt best bm := by
  induction ordered generalizing tt best bm hits with
  | nil => rfl
  | cons e rest ih =>
    obtain ⟨m, q⟩ := e
    unfold mtLoopH mtLoop
    cases hns : applyMove st (p.val : Int) m with
    | none => rfl
    | some ns =>
      simp only []
      have h1 := hc tt ns (fo.neg fo.inf) fo.inf
      cases hch : childH tt ns (fo.neg fo.inf) fo.inf with
      | none =>
        rw [hch] at h1
        rw [← h1]
        rfl
      | some x =>
        obtain ⟨val, tt1, k⟩ := x
        rw [hch] at h1
        rw [← h1]
        simp only [Option.map_some']
        exact ih _ _ _ _

theorem searchRecursiveABH_fst {F : Type} (fo : FloatOps F) (w : NNUEWeights F)
    (rootPlayer : Fin 2) (perfectInfo : Bool) (fuel : Nat) (tt : TT F) (st : GameState)
    (depth : Int) (alpha beta : F) :
    (searchRecursiveABH fo w rootPlayer perfectInfo fuel tt st depth alpha beta).map
        (fun x => (x.1, x.2.1)) =
      searchRecursiveAB fo w rootPlayer perfectInfo fuel tt st depth alpha beta := by
  induction fuel generalizing tt st depth alpha beta with
  | zero => rfl
  | succ fuel ih =>
    unfold searchRecursiveABH searchRecursiveAB
    by_cases hf : st.finished = true
    · rw [if_pos hf, if_pos hf]
      rfl
    rw [if_neg hf, if_neg hf]
    generalize (if depth > 0 then ttLookup fo tt (computeHash st) depth alpha beta else none) = L
    cases L with
    | some ttVal => rfl
    | none =>
      simp only []
      by_cases hd : depth = 0
      · rw [if_pos hd, if_pos hd]
        cases quiescenceAfterTrickClear fo st w rootPlayer perfectInfo <;> rfl
      rw [if_neg hd, if_neg hd]
      by_cases hm : (getLegalMoves st (st.currentPlayer.val : Int)).isEmpty = true
      · rw [if_pos hm, if_pos hm]
        rfl
      rw [if_neg hm, if_neg hm]
      cases he : quickEvalMoves fo st w st.currentPlayer rootPlayer perfectInfo
          (getLegalMoves st (st.currentPlayer.val : Int)) with
      | none => rfl
      | some evals =>
        simp only []
        by_cases hp : st.currentPlayer = rootPlayer
        · rw [if_pos hp, if_pos hp]
          rw [← maxLoopH_fst fo st st.currentPlayer
            (fun tt1 ns a b =>
              searchRecursiveABH fo w rootPlayer perfectInfo fuel tt1 ns (depth - 1) a b)
            (fun tt1 ns a b =>
              searchRecursiveAB fo w rootPlayer perfectInfo fuel tt1 ns (depth - 1) a b)
            (fun tt1 ns a b => ih tt1 ns (depth - 1) a b) beta _ tt alpha (fo.neg fo.inf) _ 0]
          cases maxLoopH fo st st.currentPlayer
            (fun tt1 ns a b =>
              searchRecursiveABH fo w rootPlayer perfectInfo fuel tt1 ns (depth - 1) a b)
            beta (sortBy (fun a b => fo.lt b.2 a.2) evals) tt alpha (fo.neg fo.inf)
            (frontMove (sortBy (fun a b => fo.lt b.2 a.2) evals)) 0 <;> rfl
        · rw [if_neg hp, if_neg hp]
          rw [← minLoopH_fst fo st st.currentPlayer
            (fun tt1 ns a b =>
              searchRecursiveABH fo w rootPlayer perfectInfo fuel tt1 ns (depth - 1) a b)
            (fun tt1 ns a b =>
              searchRecursiveAB fo w rootPlayer perfectInfo fuel tt1 ns (depth - 1) a b)
            (fun tt1 ns a b => ih tt1 ns (depth - 1) a b) alpha _ tt beta fo.inf _ 0]
          cases minLoopH fo st st.currentPlayer
            (fun tt1 ns a b =>
              searchRecursiveABH fo w rootPlayer perfectInfo fuel tt1 ns (depth - 1) a b)
            alpha (sortBy (fun a b => fo.lt a.2 b.2) evals) tt beta fo.inf
            (frontMove (sortBy (fun a b => fo.lt a.2 b.2) evals)) 0 <;> rfl

theorem searchBestMoveH_fst {F : Type} (fo : FloatOps F) (fuel : Nat) (tt : TT F)
    (st : GameState) (w : NNUEWeights F) (depth : Int) (perfectInfo : Bool) :
    (searchBestMoveH fo fuel tt st w depth perfectInfo).map (fun x => (x.1, x.2.1)) =
      searchBestMove fo fuel tt st w depth perfectInfo := by
  unfold searchBestMoveH searchBestMove
  simp only []
  by_cases hm : (getLegalMoves st (st.currentPlayer.val : Int)).isEmpty = true
  · rw [if_pos hm, if_pos hm]
    rfl
  rw [if_neg hm, if_neg hm]
  cases he : quickEvalMoves fo st w st.currentPlayer st.currentPlayer perfectInfo
      (getLegalMoves st (st.currentPlayer.val : Int)) with
  | none => rfl
  | some evals =>
    simp only []
    rw [← rootLoopH_fst fo st st.currentPlayer
      (fun tt1 ns a b =>
        searchRecursiveABH fo w st.currentPlayer perfectInfo fuel tt1 ns (depth - 1) a b)
      (fun tt1 ns a b =>
        searchRecursiveAB fo w st.currentPlayer perfectInfo fuel tt1 ns (depth - 1) a b)
      (fun tt1 ns a b => searchRecursiveABH_fst fo w _ perfectInfo fuel tt1 ns (depth - 1) a b)
      fo.inf _ tt (fo.neg fo.inf) (fo.neg fo.inf) _ 0]
    cases rootLoopH fo st st.currentPlayer
      (fun tt1 ns a b =>
        searchRecursiveABH fo w st.currentPlayer perfectInfo fuel tt1 ns (depth - 1) a b)
      fo.inf (sortBy (fun a b => fo.lt b.2 a.2) evals) tt (fo.neg fo.inf) (fo.neg fo.inf)
      ((getLegalMoves st (st.currentPlayer.val : Int)).headD 0) 0 <;> rfl

theorem searchBestMoveMTH_fst {F : Type} (fo : FloatOps F) (fuel : Nat) (tt : TT F)
    (st : GameState) (w : NNUEWeights F) (depth : Int) (perfectInfo : Bool) :
    (searchBestMoveMTH fo fuel tt st w depth perfectInfo).map (fun x => (x.1, x.2.1)) =
      searchBestMoveMT fo fuel tt st w depth perfectInfo := by
  unfold searchBestMoveMTH searchBestMoveMT
  simp only []
  by_cases hm : (getLegalMoves st (st.currentPlayer.val : Int)).isEmpty = true
  · rw [if_pos hm, if_pos hm]
    rfl
  rw [if_neg hm, if_neg hm]
  cases he : quickEvalMoves fo st w st.currentPlayer st.currentPlayer perfectInfo
      (getLegalMoves st (st.currentPlayer.val : Int)) with
  | none => rfl
  | some evals =>
    simp only []
    rw [← mtLoopH_fst fo st st.currentPlayer
      (fun tt1 ns a b =>
        searchRecursiveABH fo w st.currentPlayer perfectInfo fuel tt1 ns (depth - 1) a b)
      (fun tt1 ns a b =>
        searchRecursiveAB fo w st.currentPlayer perfectInfo fuel tt1 ns (depth - 1) a b)
      (fun tt1 ns a b => searchRecursiveABH_fst fo w _ perfectInfo fuel tt1 ns (depth - 1) a b)
      _ tt (fo.neg fo.inf) _ 0]
    cases mtLoopH fo st st.currentPlayer
      (fun tt1 ns a b =>
        searchRecursiveABH fo w st.currentPlayer perfectInfo fuel tt1 ns (depth - 1) a b)
      (sortBy (fun a b => fo.lt b.2 a.2) evals) tt (fo.neg fo.inf)
      (frontMove (sortBy (fun a b => fo.lt b.2 a.2) evals)) 0 <;> rfl

theorem failSoft_refl {α : Type} [LinearOrder α] (v a b : α) : FailSoft v v a b :=
  ⟨fun _ _ => rfl, fun _ => le_refl v, fun _ => le_refl v⟩

theorem failSoft_max_step {α : Type} [LinearOrder α] (a0 β bv Mp v M : α)
    (hcont : max a0 bv < β) (hP : FailSoft bv Mp a0 β) (hc : FailSoft v M (max a0 bv) β) :
    FailSoft (max bv v) (max Mp M) a0 β := by
  obtain ⟨p1, p2, p3⟩ := hP
  obtain ⟨c1, c2, c3⟩ := hc
  have hbv : bv < β := lt_of_le_of_lt (le_max_right _ _) hcont
  refine ⟨?_, ?_, ?_⟩
  · intro h1 h2
    have hvβ : v < β := lt_of_le_of_lt (le_max_right _ _) h2
    rcases le_or_lt v (max a0 bv) with hva | hva
    · have hM : M ≤ v := c2 hva
      rcases le_or_lt bv a0 with hb | hb
      · rw [max_eq_left hb] at hva
        exact absurd h1 (not_lt.2 (max_le hb hva))
      · rw [max_eq_right hb.le] at hva
        have hbvM : bv = Mp := p1 hb hbv
        rw [max_eq_left hva, ← hbvM, max_eq_left (hM.trans hva)]
    · have hvM : v = M := c1 hva hvβ
      have hbvv : bv < v := lt_of_le_of_lt (le_max_right _ _) hva
      have hMp : Mp ≤ v := by
        rcases le_or_lt bv a0 with hb | hb
        · exact (p2 hb).trans hbvv.le
        · rw [← p1 hb hbv]
          exact hbvv.le
      rw [max_eq_right hbvv.le, ← hvM, max_eq_right hMp]
  · intro h
    have hb : bv ≤ a0 := (le_max_left _ _).trans h
    have hv : v ≤ a0 := (le_max_right _ _).trans h
    rw [max_eq_left hb] at c2
    exact max_le_max (p2 hb) (c2 hv)
  · intro h
    have hv : β ≤ v := by
      rcases le_max_iff.1 h with h | h
      · exact absurd hbv (not_lt.2 h)
      · exact h
    rw [max_eq_right (hbv.le.trans hv)]
    exact (c3 hv).trans (le_max_right _ _)

theorem failSoft_min_step {α : Type} [LinearOrder α] (α0 b0 bv Mp v M : α)
    (hcont : α0 < min b0 bv) (hP : FailSoft bv Mp α0 b0) (hc : FailSoft v M α0 (min b0 bv)) :
    FailSoft (min bv v) (min Mp M) α0 b0 := by
  obtain ⟨p1, p2, p3⟩ := hP
  obtain ⟨c1, c2, c3⟩ := hc
  have hbv : α0 < bv := lt_of_lt_of_le hcont (min_le_right _ _)
  refine ⟨?_, ?_, ?_⟩
  · intro h1 h2
    have hvα : α0 < v := lt_of_lt_of_le h1 (min_le_right _ _)
    rcases le_or_lt (min b0 bv) v with hva | hva
    · have hM : v ≤ M := c3 hva
      rcases le_or_lt b0 bv with hb | hb
      · rw [min_eq_left hb] at hva
        exact absurd h2 (not_lt.2 (le_min hb hva))
      · rw [min_eq_right hb.le] at hva
        have hbvM : bv = Mp := p1 hbv hb
        rw [min_eq_left hva, ← hbvM, min_eq_left (hva.trans hM)]
    · have hvM : v = M := c1 hvα hva
      have hbvv : v < bv := lt_of_lt_of_le hva (min_le_right _ _)
      have hMp : v ≤ Mp := by
        rcases le_or_lt b0 bv with hb | hb
        · exact hbvv.le.trans (p3 hb)
        · rw [← p1 hbv hb]
          exact hbvv.le
      rw [min_eq_right hbvv.le, ← hvM, min_eq_right hMp]
  · intro h
    have hv : v ≤ α0 := by
      rcases min_le_iff.1 h with h | h
      · exact absurd hbv (not_lt.2 h)
      · exact h
    rw [min_eq_right (hv.trans hbv.le)]
    exact (min_le_right _ _).trans (c2 hv)
  · intro h
    have hb : b0 ≤ bv := h.trans (min_le_left _ _)
    have hv : b0 ≤ v := h.trans (min_le_right _ _)
    rw [min_eq_left hb] at c3
    exact min_le_min (p3 hb) (c3 hv)

theorem orderedFloats_lt {F : Type} {fo : FloatOps F} {α : Type} [LinearOrder α]
    [BoundedOrder α] {G : F → Prop} {r : F → α} (L : OrderedFloats fo G r) (a b : F)
    (ha : G a) (hb : G b) : fo.lt a b = true ↔ r a < r b := by
  rw [L.lt_eq a b ha hb, decide_eq_true_iff]

theorem orderedFloats_le {F : Type} {fo : FloatOps F} {α : Type} [LinearOrder α]
    [BoundedOrder α] {G : F → Prop} {r : F → α} (L : OrderedFloats fo G r) (a b : F)
    (ha : G a) (hb : G b) : fo.le a b = true ↔ r a ≤ r b := by
  rw [L.le_eq a b ha hb, decide_eq_true_iff]

theorem orderedFloats_max {F : Type} {fo : FloatOps F} {α : Type} [LinearOrder α]
    [BoundedOrder α] {G : F → Prop} {r : F → α} (L : OrderedFloats fo G r) (a b : F)
    (ha : G a) (hb : G b) :
    G (if fo.lt a b then b else a) ∧ r (if fo.lt a b then b else a) = max (r a) (r b) := by
  by_cases h : fo.lt a b = true
  · rw [if_pos h]
    exact ⟨hb, (max_eq_right ((orderedFloats_lt L a b ha hb).1 h).le).symm⟩
  · rw [if_neg h]
    have h2 : ¬ r a < r b := fun h3 => h ((orderedFloats_lt L a b ha hb).2 h3)
    exact ⟨ha, (max_eq_left (not_lt.1 h2)).symm⟩

theorem orderedFloats_min {F : Type} {fo : FloatOps F} {α : Type} [LinearOrder α]
    [BoundedOrder α] {G : F → Prop} {r : F → α} (L : OrderedFloats fo G r) (a b : F)
    (ha : G a) (hb : G b) :
    G (if fo.lt b a then b else a) ∧ r (if fo.lt b a then b else a) = min (r a) (r b) := by
  by_cases h : fo.lt b a = true
  · rw [if_pos h]
    exact ⟨hb, (min_eq_right ((orderedFloats_lt L b a hb ha).1 h).le).symm⟩
  · rw [if_neg h]
    have h2 : ¬ r b < r a := fun h3 => h ((orderedFloats_lt L b a hb ha).2 h3)
    exact ⟨ha, (min_eq_left (not_lt.1 h2)).symm⟩

theorem foldl_option_none {α β : Type} (f : Option β → α → Option β)
    (hnone : ∀ a, f none a = none) (l : List α) : l.foldl f none = none := by
  induction l with
  | nil => rfl
  | cons a l ih => rw [List.foldl_cons, hnone, ih]

theorem foldl_option_pres {α β : Type} (f : Option β → α → Option β)
    (hnone : ∀ a, f none a = none) (R : β → Prop)
    (hstep : ∀ acc a r, R acc → f (some acc) a = some r → R r) (l : List α) (acc r : β)
    (hR : R acc) (h : l.foldl f (some acc) = some r) : R r := by
  induction l generalizing acc with
  | nil =>
    rw [List.foldl_nil, Option.some.injEq] at h
    rw [← h]
    exact hR
  | cons a l ih =>
    rw [List.foldl_cons] at h
    cases hfa : f (some acc) a with
    | none =>
      rw [hfa, foldl_option_none f hnone] at h
      cases h
    | some x =>
      rw [hfa] at h
      exact ih x (hstep acc a x hR hfa) h

theorem quiescence_mem {F : Type} (fo : FloatOps F) (G : F → Prop) (st : GameState)
    (w : NNUEWeights F) (rootPlayer : Fin 2) (perfectInfo : Bool)
    (hev : ∀ s, G (nnueEvaluate fo w s rootPlayer perfectInfo))
    (hinf : G fo.inf) (hninf : G (fo.neg fo.inf)) (v : F)
    (h : quiescenceAfterTrickClear fo st w rootPlayer perfectInfo = some v) : G v := by
  unfold quiescenceAfterTrickClear at h
  by_cases h1 : (!st.trick.cards.isEmpty) = true
  · rw [if_pos h1, Option.some.injEq] at h
    rw [← h]
    exact hev st
  rw [if_neg h1] at h
  simp only [] at h
  by_cases h2 : (getLegalMoves st (st.currentPlayer.val : Int)).isEmpty = true
  · rw [if_pos h2, Option.some.injEq] at h
    rw [← h]
    exact hev st
  rw [if_neg h2] at h
  split at h
  · cases h
  · rename_i bmax bmin hfold
    have key := foldl_option_pres _ (fun _ => rfl) (fun acc : F × F => G acc.1 ∧ G acc.2)
      (by
        intro acc a r hR hs
        obtain ⟨x, y⟩ := acc
        simp only [] at hs
        split at hs
        · cases hs
        · rename_i ns hns
          split_ifs at hs
          · rw [Option.some.injEq] at hs
            rw [← hs]
            refine ⟨?_, hR.2⟩
            unfold fmax
            split_ifs
            · exact hev ns
            · exact hR.1
          · rw [Option.some.injEq] at hs
            rw [← hs]
            refine ⟨hR.1, ?_⟩
            unfold fmin
            split_ifs
            · exact hev ns
            · exact hR.2)
      _ _ _ (show G (fo.neg fo.inf, fo.inf).1 ∧ G (fo.neg fo.inf, fo.inf).2 from ⟨hninf, hinf⟩)
      hfold
    rw [Option.some.injEq] at h
    rw [← h]
    split_ifs
    · exact key.1
    · exact key.2

theorem maxLoopH_hits_le {F : Type} (fo : FloatOps F) (st : GameState) (p : Fin 2)
    (childH : TT F → GameState → F → F → Option (F × TT F × Nat)) (beta : F)
    (ordered : List (Int × F)) (tt : TT F) (alpha bestVal : F) (bm : Int) (hits : Nat)
    (res : F × Int × TT F × Nat)
    (h : maxLoopH fo st p childH beta ordered tt alpha bestVal bm hits = some res) :
    hits ≤ res.2.2.2 := by
  induction ordered generalizing tt alpha bestVal bm hits with
  | nil =>
    rw [maxLoopH, Option.some.injEq] at h
    rw [← h]
  | cons e rest ih =>
    obtain ⟨m, q⟩ := e
    unfold maxLoopH at h
    cases hns : applyMove st (p.val : Int) m with
    | none =>
      rw [hns] at h
      cases h
    | some ns =>
      rw [hns] at h
      simp only [] at h
      cases hch : childH tt ns alpha beta with
      | none =>
        rw [hch] at h
        cases h
      | some x =>
        obtain ⟨val, tt1, k⟩ := x
        rw [hch] at h
        simp only [] at h
        by_cases hb : fo.le beta (if fo.lt alpha val then val else alpha) = true
        · rw [if_pos hb, Option.some.injEq] at h
          rw [← h]
          exact Nat.le_add_right _ _
        · rw [if_neg hb] at h
          exact le_trans (Nat.le_add_right _ _) (ih _ _ _ _ _ h)

theorem minLoopH_hits_le {F : Type} (fo : FloatOps F) (st : GameState) (p : Fin 2)
    (childH : TT F → GameState → F → F → Option (F × TT F × Nat)) (alpha : F)
    (ordered : List (Int × F)) (tt : TT F) (beta bestVal : F) (bm : Int) (hits : Nat)
    (res : F × Int × TT F × Nat)
    (h : minLoopH fo st p childH alpha ordered tt beta bestVal bm hits = some res) :
    hits ≤ res.2.2.2 := by
  induction ordered generalizing tt beta bestVal bm hits with
  | nil =>
    rw [minLoopH, Option.some.injEq] at h
    rw [← h]
  | cons e rest ih =>
    obtain ⟨m, q⟩ := e
    unfold minLoopH at h
    cases hns : applyMove st (p.val : Int) m with
    | none =>
      rw [hns] at h
      cases h
    | some ns =>
      rw [hns] at h
      simp only [] at h
      cases hch : childH tt ns alpha beta with
      | none =>
        rw [hch] at h
        cases h
      | some x =>
        obtain ⟨val, tt1, k⟩ := x
        rw [hch] at h
        simp only [] at h
        by_cases hb : fo.le (if fo.lt val beta then val else beta) alpha = true
        · rw [if_pos hb, Option.some.injEq] at h
          rw [← h]
          exact Nat.le_add_right _ _
        · rw [if_neg hb] at h
          exact le_trans (Nat.le_add_right _ _) (ih _ _ _ _ _ h)

theorem maxLoopH_sound {F : Type} {fo : FloatOps F} {α : Type} [LinearOrder α]
    [BoundedOrder α] {G : F → Prop} {r : F → α} (L : OrderedFloats fo G r) (st : GameState)
    (hf : st.finished = false) (ht : st.trick.cards.length < 4)
    (childH : TT F → GameState → F → F → Option (F × TT F × Nat)) (Mc : GameState → α)
    (a0 beta : F) (hb : G beta)
    (hchild : ∀ tt ns a v tt1, cardsLeft ns < cardsLeft st → ns.trick.cards.length < 4 →
      G a → r a < r beta → childH tt ns a beta = some (v, tt1, 0) →
      G v ∧ FailSoft (r v) (Mc ns) (r a) (r beta))
    (Mall : α) (ordered : List (Int × F))
    (hleg : ∀ e ∈ ordered, e.1 ∈ getLegalMoves st (st.currentPlayer.val : Int))
    (hub : ∀ e ∈ ordered, ∀ ns, applyMove st (st.currentPlayer.val : Int) e.1 = some ns →
      Mc ns ≤ Mall)
    (tt : TT F) (alpha bestVal : F) (bm : Int) (hits : Nat)
    (hα : G alpha) (hbv : G bestVal) (hrel : r alpha = max (r a0) (r bestVal))
    (hcont : r alpha < r beta) (Mp : α) (hP : FailSoft (r bestVal) Mp (r a0) (r beta))
    (hMp : Mp ≤ Mall) (v : F) (bm2 : Int) (tt2 : TT F)
    (h : maxLoopH fo st st.currentPlayer childH beta ordered tt alpha bestVal bm hits =
      some (v, bm2, tt2, 0)) :
    G v ∧ ∃ Mp2, FailSoft (r v) Mp2 (r a0) (r beta) ∧ Mp2 ≤ Mall ∧ Mp ≤ Mp2 ∧
      (r beta ≤ r v ∨
        ∀ e ∈ ordered, ∀ ns, applyMove st (st.currentPlayer.val : Int) e.1 = some ns →
          Mc ns ≤ Mp2) := by
  induction ordered generalizing tt alpha bestVal bm hits Mp with
  | nil =>
    rw [maxLoopH, Option.some.injEq, Prod.mk.injEq] at h
    rw [← h.1]
    exact ⟨hbv, Mp, hP, hMp, le_refl Mp, Or.inr (fun e he => absurd he (List.not_mem_nil e))⟩
  | cons e rest ih =>
    obtain ⟨m, q⟩ := e
    obtain ⟨ns, hns, hlt, htr⟩ :=
      applyMove_legal st m hf ht (hleg (m, q) (List.mem_cons_self _ _))
    unfold maxLoopH at h
    rw [hns] at h
    simp only [] at h
    cases hch : childH tt ns alpha beta with
    | none =>
      rw [hch] at h
      cases h
    | some x =>
      obtain ⟨val, tt1, k⟩ := x
      rw [hch] at h
      simp only [] at h
      have hk0 : k = 0 := by
        by_cases hbr : fo.le beta (if fo.lt alpha val then val else alpha) = true
        · rw [if_pos hbr, Option.some.injEq, Prod.mk.injEq, Prod.mk.injEq, Prod.mk.injEq] at h
          omega
        · rw [if_neg hbr] at h
          have := maxLoopH_hits_le _ _ _ _ _ _ _ _ _ _ _ _ h
          simp only [] at this
          omega
      subst hk0
      obtain ⟨hGval, hFS⟩ := hchild tt ns alpha val tt1 hlt htr hα hcont hch
      rw [hrel] at hFS
      have hbest := orderedFloats_max L bestVal val hbv hGval
      have halpha := orderedFloats_max L alpha val hα hGval
      have hstep := failSoft_max_step (r a0) (r beta) (r bestVal) Mp (r val) (Mc ns)
        (hrel ▸ hcont) hP hFS
      have hMp1 : max Mp (Mc ns) ≤ Mall :=
        max_le hMp (hub (m, q) (List.mem_cons_self _ _) ns hns)
      by_cases hbr : fo.le beta (if fo.lt alpha val then val else alpha) = true
      · rw [if_pos hbr, Option.some.injEq, Prod.mk.injEq] at h
        rw [← h.1]
        refine ⟨hbest.1, max Mp (Mc ns), ?_, hMp1, le_max_left _ _, Or.inl ?_⟩
        · rw [hbest.2]
          exact hstep
        · have h1 : r beta ≤ r (if fo.lt alpha val then val else alpha) :=
            (orderedFloats_le L beta _ hb halpha.1).1 hbr
          rw [halpha.2] at h1
          rw [hbest.2]
          rcases le_max_iff.1 h1 with h2 | h2
          · exact absurd hcont (not_lt.2 h2)
          · exact h2.trans (le_max_right _ _)
      · rw [if_neg hbr] at h
        have hcont1 : r (if fo.lt alpha val then val else alpha) < r beta :=
          not_le.1 (fun h2 => hbr ((orderedFloats_le L beta _ hb halpha.1).2 h2))
        have hrel1 : r (if fo.lt alpha val then val else alpha) =
            max (r a0) (r (if fo.lt bestVal val then val else bestVal)) := by
          rw [halpha.2, hbest.2, hrel, max_assoc]
        obtain ⟨hGv, Mp2, h1, h2, h3, h4⟩ := ih
          (fun e he => hleg e (List.mem_cons_of_mem _ he))
          (fun e he => hub e (List.mem_cons_of_mem _ he)) tt1 _ _ _ _ halpha.1 hbest.1 hrel1
          hcont1 (max Mp (Mc ns)) (by rw [hbest.2]; exact hstep) hMp1 h
        refine ⟨hGv, Mp2, h1, h2, (le_max_left _ _).trans h3, ?_⟩
        rcases h4 with h4 | h4
        · exact Or.inl h4
        · right
          intro e he ns2 hns2
          rcases List.mem_cons.1 he with he1 | he2
          · rw [he1, hns, Option.some.injEq] at hns2
            rw [← hns2]
            exact (le_max_right _ _).trans h3
          · exact h4 e he2 ns2 hns2

theorem minLoopH_sound {F : Type} {fo : FloatOps F} {α : Type} [LinearOrder α]
    [BoundedOrder α] {G : F → Prop} {r : F → α} (L : OrderedFloats fo G r) (st : GameState)
    (hf : st.finished = false) (ht : st.trick.cards.length < 4)
    (childH : TT F → GameState → F → F → Option (F × TT F × Nat)) (Mc : GameState → α)
    (alpha b0 : F) (ha : G alpha)
    (hchild : ∀ tt ns b v tt1, cardsLeft ns < cardsLeft st → ns.trick.cards.length < 4 →
      G b → r alpha < r b → childH tt ns alpha b = some (v, tt1, 0) →
      G v ∧ FailSoft (r v) (Mc ns) (r alpha) (r b))
    (Mall : α) (ordered : List (Int × F))
    (hleg : ∀ e ∈ ordered, e.1 ∈ getLegalMoves st (st.currentPlayer.val : Int))
    (hlb : ∀ e ∈ ordered, ∀ ns, applyMove st (st.currentPlayer.val : Int) e.1 = some ns →
      Mall ≤ Mc ns)
    (tt : TT F) (beta bestVal : F) (bm : Int) (hits : Nat)
    (hβ : G beta) (hbv : G bestVal) (hrel : r beta = min (r b0) (r bestVal))
    (hcont : r alpha < r beta) (Mp : α) (hP : FailSoft (r bestVal) Mp (r alpha) (r b0))
    (hMp : Mall ≤ Mp) (v : F) (bm2 : Int) (tt2 : TT F)
    (h : minLoopH fo st st.currentPlayer childH alpha ordered tt beta bestVal bm hits =
      some (v, bm2, tt2, 0)) :
    G v ∧ ∃ Mp2, FailSoft (r v) Mp2 (r alpha) (r b0) ∧ Mall ≤ Mp2 ∧ Mp2 ≤ Mp ∧
      (r v ≤ r alpha ∨
        ∀ e ∈ ordered, ∀ ns, applyMove st (st.currentPlayer.val : Int) e.1 = some ns →
          Mp2 ≤ Mc ns) := by
  induction ordered generalizing tt beta bestVal bm hits Mp with
  | nil =>
    rw [minLoopH, Option.some.injEq, Prod.mk.injEq] at h
    rw [← h.1]
    exact ⟨hbv, Mp, hP, hMp, le_refl Mp, Or.inr (fun e he => absurd he (List.not_mem_nil e))⟩
  | cons e rest ih =>
    obtain ⟨m, q⟩ := e
    obtain ⟨ns, hns, hlt, htr⟩ :=
      applyMove_legal st m hf ht (hleg (m, q) (List.mem_cons_self _ _))
    unfold minLoopH at h
    rw [hns] at h
    simp only [] at h
    cases hch : childH tt ns alpha beta with
    | none =>
      rw [hch] at h
      cases h
    | some x =>
      obtain ⟨val, tt1, k⟩ := x
      rw [hch] at h
      simp only [] at h
      have hk0 : k = 0 := by
        by_cases hbr : fo.le (if fo.lt val beta then val else beta) alpha = true
        · rw [if_pos hbr, Option.some.injEq, Prod.mk.injEq, Prod.mk.injEq, Prod.mk.injEq] at h
          omega
        · rw [if_neg hbr] at h
          have := minLoopH_hits_le _ _ _ _ _ _ _ _ _ _ _ _ h
          simp only [] at this
          omega
      subst hk0
      obtain ⟨hGval, hFS⟩ := hchild tt ns beta val tt1 hlt htr hβ hcont hch
      rw [hrel] at hFS
      have hbest := orderedFloats_min L bestVal val hbv hGval
      have hbeta := orderedFloats_min L beta val hβ hGval
      have hstep := failSoft_min_step (r alpha) (r b0) (r bestVal) Mp (r val) (Mc ns)
        (hrel ▸ hcont) hP hFS
      have hMp1 : Mall ≤ min Mp (Mc ns) :=
        le_min hMp (hlb (m, q) (List.mem_cons_self _ _) ns hns)
      by_cases hbr : fo.le (if fo.lt val beta then val else beta) alpha = true
      · rw [if_pos hbr, Option.some.injEq, Prod.mk.injEq] at h
        rw [← h.1]
        refine ⟨hbest.1, min Mp (Mc ns), ?_, hMp1, min_le_left _ _, Or.inl ?_⟩
        · rw [hbest.2]
          exact hstep
        · have h1 : r (if fo.lt val beta then val else beta) ≤ r alpha :=
            (orderedFloats_le L _ alpha hbeta.1 ha).1 hbr
          rw [hbeta.2] at h1
          rw [hbest.2]
          rcases min_le_iff.1 h1 with h2 | h2
          · exact absurd hcont (not_lt.2 h2)
          · exact (min_le_right _ _).trans h2
      · rw [if_neg hbr] at h
        have hcont1 : r alpha < r (if fo.lt val beta then val else beta) :=
          not_le.1 (fun h2 => hbr ((orderedFloats_le L _ alpha hbeta.1 ha).2 h2))
        have hrel1 : r (if fo.lt val beta then val else beta) =
            min (r b0) (r (if fo.lt val bestVal then val else bestVal)) := by
          rw [hbeta.2, hbest.2, hrel, min_assoc]
        obtain ⟨hGv, Mp2, h1, h2, h3, h4⟩ := ih
          (fun e he => hleg e (List.mem_cons_of_mem _ he))
          (fun e he => hlb e (List.mem_cons_of_mem _ he)) tt1 _ _ _ _ hbeta.1 hbest.1 hrel1
          hcont1 (min Mp (Mc ns)) (by rw [hbest.2]; exact hstep) hMp1 h
        refine ⟨hGv, Mp2, h1, h2, h3.trans (min_le_left _ _), ?_⟩
        rcases h4 with h4 | h4
        · exact Or.inl h4
        · right
          intro e he ns2 hns2
          rcases List.mem_cons.1 he with he1 | he2
          · rw [he1, hns, Option.some.injEq] at hns2
            rw [← hns2]
            exact h3.trans (min_le_right _ _)
          · exact h4 e he2 ns2 hns2

theorem minimaxLoop_max {F : Type} {fo : FloatOps F} {α : Type} [LinearOrder α]
    [BoundedOrder α] {G : F → Prop} {r : F → α} (L : OrderedFloats fo G r) (st : GameState)
    (hf : st.finished = false) (ht : st.trick.cards.length < 4)
    (child : GameState → Option F)
    (hchild : ∀ ns, cardsLeft ns < cardsLeft st → ns.trick.cards.length < 4 →
      ∃ M, child ns = some M ∧ G M)
    (moves : List Int)
    (hleg : ∀ m ∈ moves, m ∈ getLegalMoves st (st.currentPlayer.val : Int))
    (bestVal : F) (hbv : G bestVal) :
    ∃ R, minimaxLoop fo st st.currentPlayer true child moves bestVal = some R ∧ G R ∧
      r bestVal ≤ r R ∧
      (∀ m ∈ moves, ∀ ns, applyMove st (st.currentPlayer.val : Int) m = some ns →
        (child ns).elim ⊥ r ≤ r R) ∧
      (r R = r bestVal ∨ ∃ m ∈ moves, ∃ ns,
        applyMove st (st.currentPlayer.val : Int) m = some ns ∧ r R = (child ns).elim ⊥ r) := by
  induction moves generalizing bestVal with
  | nil =>
    exact ⟨bestVal, rfl, hbv, le_refl _, fun m hm => absurd hm (List.not_mem_nil m), Or.inl rfl⟩
  | cons m rest ih =>
    obtain ⟨ns, hns, hlt, htr⟩ := applyMove_legal st m hf ht (hleg m (List.mem_cons_self _ _))
    obtain ⟨M, hM, hGM⟩ := hchild ns hlt htr
    have hmax := orderedFloats_max L bestVal M hbv hGM
    obtain ⟨R, hR, hGR, h1, h2, h3⟩ := ih (fun x hx => hleg x (List.mem_cons_of_mem _ hx))
      (fmax fo bestVal M) hmax.1
    have hr : r (fmax fo bestVal M) = max (r bestVal) (r M) := hmax.2
    rw [hr] at h1 h3
    refine ⟨R, ?_, hGR, (le_max_left _ _).trans h1, ?_, ?_⟩
    · rw [minimaxLoop, hns]
      simp only [hM, if_true]
      exact hR
    · intro x hx ns2 hns2
      rcases List.mem_cons.1 hx with hx1 | hx2
      · rw [hx1, hns, Option.some.injEq] at hns2
        rw [← hns2, hM]
        exact (le_max_right _ _).trans h1
      · exact h2 x hx2 ns2 hns2
    · rcases h3 with h3 | ⟨x, hx, ns2, hns2, h3⟩
      · rcases le_total (r bestVal) (r M) with h4 | h4
        · right
          refine ⟨m, List.mem_cons_self _ _, ns, hns, ?_⟩
          rw [h3, max_eq_right h4, hM]
          rfl
        · left
          rw [h3, max_eq_left h4]
      · exact Or.inr ⟨x, List.mem_cons_of_mem _ hx, ns2, hns2, h3⟩

theorem minimaxLoop_min {F : Type} {fo : FloatOps F} {α : Type} [LinearOrder α]
    [BoundedOrder α] {G : F → Prop} {r : F → α} (L : OrderedFloats fo G r) (st : GameState)
    (hf : st.finished = false) (ht : st.trick.cards.length < 4)
    (child : GameState → Option F)
    (hchild : ∀ ns, cardsLeft ns < cardsLeft st → ns.trick.cards.length < 4 →
      ∃ M, child ns = some M ∧ G M)
    (moves : List Int)
    (hleg : ∀ m ∈ moves, m ∈ getLegalMoves st (st.currentPlayer.val : Int))
    (bestVal : F) (hbv : G bestVal) :
    ∃ R, minimaxLoop fo st st.currentPlayer false child moves bestVal = some R ∧ G R ∧
      r R ≤ r bestVal ∧
      (∀ m ∈ moves, ∀ ns, applyMove st (st.currentPlayer.val : Int) m = some ns →
        r R ≤ (child ns).elim ⊤ r) ∧
      (r R = r bestVal ∨ ∃ m ∈ moves, ∃ ns,
        applyMove st (st.currentPlayer.val : Int) m = some ns ∧ r R = (child ns).elim ⊤ r) := by
  induction moves generalizing bestVal with
  | nil =>
    exact ⟨bestVal, rfl, hbv, le_refl _, fun m hm => absurd hm (List.not_mem_nil m), Or.inl rfl⟩
  | cons m rest ih =>
    obtain ⟨ns, hns, hlt, htr⟩ := applyMove_legal st m hf ht (hleg m (List.mem_cons_self _ _))
    obtain ⟨M, hM, hGM⟩ := hchild ns hlt htr
    have hmin := orderedFloats_min L bestVal M hbv hGM
    obtain ⟨R, hR, hGR, h1, h2, h3⟩ := ih (fun x hx => hleg x (List.mem_cons_of_mem _ hx))
      (fmin fo bestVal M) hmin.1
    have hr : r (fmin fo bestVal M) = min (r bestVal) (r M) := hmin.2
    rw [hr] at h1 h3
    refine ⟨R, ?_, hGR, h1.trans (min_le_left _ _), ?_, ?_⟩
    · rw [minimaxLoop, hns]
      simp only [hM, Bool.false_eq_true, if_false]
      exact hR
    · intro x hx ns2 hns2
      rcases List.mem_cons.1 hx with hx1 | hx2
      · rw [hx1, hns, Option.some.injEq] at hns2
        rw [← hns2, hM]
        exact h1.trans (min_le_right _ _)
      · exact h2 x hx2 ns2 hns2
    · rcases h3 with h3 | ⟨x, hx, ns2, hns2, h3⟩
      · rcases le_total (r bestVal) (r M) with h4 | h4
        · left
          rw [h3, min_eq_left h4]
        · right
          refine ⟨m, List.mem_cons_self _ _, ns, hns, ?_⟩
          rw [h3, min_eq_right h4, hM]
          rfl
      · exact Or.inr ⟨x, List.mem_cons_of_mem _ hx, ns2, hns2, h3⟩

theorem searchRecursiveABH_sound {F : Type} {fo : FloatOps F} {α : Type} [LinearOrder α]
    [BoundedOrder α] {G : F → Prop} {r : F → α} (L : OrderedFloats fo G r)
    (w : NNUEWeights F) (rootPlayer : Fin 2) (perfectInfo : Bool)
    (hev : ∀ s, G (nnueEvaluate fo w s rootPlayer perfectInfo))
    (fuel : Nat) (tt : TT F) (st : GameState) (depth : Int) (alpha beta : F)
    (hfuel : cardsLeft st < fuel ∨ (st.finished = true ∧ 0 < fuel))
    (ht : st.trick.cards.length < 4) (ha : G alpha) (hb : G beta) (hab : r alpha < r beta) :
    ∃ M, minimax fo w rootPlayer perfectInfo fuel st depth = some M ∧ G M ∧
      ∀ v tt2, searchRecursiveABH fo w rootPlayer perfectInfo fuel tt st depth alpha beta =
          some (v, tt2, 0) →
        G v ∧ FailSoft (r v) (r M) (r alpha) (r beta) := by
  induction fuel generalizing tt st depth alpha beta with
  | zero => omega
  | succ fuel ih =>
    by_cases hf : st.finished = true
    · refine ⟨nnueEvaluate fo w st rootPlayer perfectInfo, ?_, hev st, ?_⟩
      · rw [minimax, if_pos hf]
      · intro v tt2 h
        rw [searchRecursiveABH, if_pos hf, Option.some.injEq, Prod.mk.injEq] at h
        rw [← h.1]
        exact ⟨hev st, failSoft_refl _ _ _⟩
    have hf2 : st.finished = false := by simpa using hf
    have hfuel2 : cardsLeft st < fuel + 1 := by
      rcases hfuel with h | h
      · exact h
      · exact absurd h.1 hf
    by_cases hd : depth = 0
    · obtain ⟨q, hq⟩ := quiescence_some fo st w rootPlayer perfectInfo hf2 ht
      have hGq := quiescence_mem fo G st w rootPlayer perfectInfo hev L.inf_mem L.neg_inf_mem q hq
      refine ⟨q, ?_, hGq, ?_⟩
      · rw [minimax, if_neg hf, if_pos hd, hq]
      · intro v tt2 h
        rw [searchRecursiveABH, if_neg hf, if_neg (by omega)] at h
        simp only [] at h
        rw [if_pos hd, hq, Option.some.injEq, Prod.mk.injEq] at h
        rw [← h.1]
        exact ⟨hGq, failSoft_refl _ _ _⟩
    by_cases hm : (getLegalMoves st (st.currentPlayer.val : Int)).isEmpty = true
    · refine ⟨nnueEvaluate fo w st rootPlayer perfectInfo, ?_, hev st, ?_⟩
      · rw [minimax, if_neg hf, if_neg hd]
        simp only []
        rw [if_pos hm]
      · intro v tt2 h
        rw [searchRecursiveABH, if_neg hf] at h
        generalize (if depth > 0 then ttLookup fo tt (computeHash st) depth alpha beta
          else none) = P at h
        cases P with
        | some ttVal =>
          simp only [Option.some.injEq, Prod.mk.injEq] at h
          omega
        | none =>
          simp only [] at h
          rw [if_neg hd, if_pos hm, Option.some.injEq, Prod.mk.injEq] at h
          rw [← h.1]
          exact ⟨hev st, failSoft_refl _ _ _⟩
    have hchildM : ∀ ns, cardsLeft ns < cardsLeft st → ns.trick.cards.length < 4 →
        ∃ M, minimax fo w rootPlayer perfectInfo fuel ns (depth - 1) = some M ∧ G M := by
      intro ns h1 h2
      obtain ⟨M, hM, hGM, -⟩ := ih [] ns (depth - 1) alpha beta (Or.inl (by omega)) h2 ha hb hab
      exact ⟨M, hM, hGM⟩
    have hmem : ∀ (comp : Int × F → Int × F → Bool) (evals : List (Int × F)),
        evals.map Prod.fst = getLegalMoves st (st.currentPlayer.val : Int) →
        (∀ e ∈ sortBy comp evals, e.1 ∈ getLegalMoves st (st.currentPlayer.val : Int)) ∧
        (∀ m ∈ getLegalMoves st (st.currentPlayer.val : Int), ∃ e ∈ sortBy comp evals,
          e.1 = m) := by
      intro comp evals hfst
      constructor
      · intro e he
        rw [← hfst]
        exact List.mem_map_of_mem Prod.fst ((mem_sortBy comp e evals).1 he)
      · intro m hmm
        rw [← hfst, List.mem_map] at hmm
        obtain ⟨e, he, hem⟩ := hmm
        exact ⟨e, (mem_sortBy comp e evals).2 he, hem⟩
    by_cases hp : st.currentPlayer = rootPlayer
    · obtain ⟨R, hR, hGR, -, hubR, hattR⟩ := minimaxLoop_max L st hf2 ht
        (fun ns => minimax fo w rootPlayer perfectInfo fuel ns (depth - 1)) hchildM
        (getLegalMoves st (st.currentPlayer.val : Int)) (fun m hm => hm) (fo.neg fo.inf)
        L.neg_inf_mem
      refine ⟨R, ?_, hGR, ?_⟩
      · rw [minimax, if_neg hf, if_neg hd]
        simp only []
        rw [if_neg hm, if_pos hp, decide_eq_true hp]
        exact hR
      · intro v tt2 h
        rw [searchRecursiveABH, if_neg hf] at h
        generalize (if depth > 0 then ttLookup fo tt (computeHash st) depth alpha beta
          else none) = P at h
        cases P with
        | some ttVal =>
          simp only [Option.some.injEq, Prod.mk.injEq] at h
          omega
        | none =>
          simp only [] at h
          rw [if_neg hd, if_neg hm] at h
          cases he : quickEvalMoves fo st w st.currentPlayer rootPlayer perfectInfo
              (getLegalMoves st (st.currentPlayer.val : Int)) with
          | none =>
            rw [he] at h
            cases h
          | some evals =>
            rw [he] at h
            simp only [] at h
            rw [if_pos hp] at h
            have hfst := quickEvalMoves_fst fo st w _ _ perfectInfo _ evals he
            obtain ⟨hleg, hcov⟩ := hmem (fun a b => fo.lt b.2 a.2) evals hfst
            split at h
            · cases h
            · rename_i bv bml tt1 hits hloop
              rw [Option.some.injEq, Prod.mk.injEq, Prod.mk.injEq] at h
              obtain ⟨hv, -, hh⟩ := h
              rw [hh] at hloop
              rw [← hv]
              obtain ⟨hGv, Mp2, h1, h2, -, h4⟩ := maxLoopH_sound L st hf2 ht _
                (fun ns => (minimax fo w rootPlayer perfectInfo fuel ns (depth - 1)).elim ⊥ r)
                alpha beta hb
                (by
                  intro tt3 ns a v3 tt4 hlt htr hGa hlt2 hc
                  obtain ⟨M, hM, -, hs⟩ :=
                    ih tt3 ns (depth - 1) a beta (Or.inl (by omega)) htr hGa hb hlt2
                  beta_reduce
                  rw [hM]
                  exact hs v3 tt4 hc)
                (r R) _ hleg (fun e he ns hns => hubR e.1 (hleg e he) ns hns)
                tt alpha (fo.neg fo.inf) _ 0 ha L.neg_inf_mem
                (by rw [L.r_neg_inf, max_eq_left bot_le]) hab ⊥
                (by rw [L.r_neg_inf]; exact failSoft_refl _ _ _) bot_le bv bml tt1 hloop
              refine ⟨hGv, ?_⟩
              rcases h4 with h4 | h4
              · exact ⟨fun _ h6 => absurd h6 (not_lt.2 h4),
                  fun h5 => absurd (lt_of_lt_of_le hab h4) (not_lt.2 h5),
                  fun _ => (h1.2.2 h4).trans h2⟩
              · have h5 : r R ≤ Mp2 := by
                  rcases hattR with h6 | ⟨m, hmm, ns, hns, h6⟩
                  · rw [h6, L.r_neg_inf]
                    exact bot_le
                  · obtain ⟨e, he, hem⟩ := hcov m hmm
                    rw [h6]
                    exact h4 e he ns (by rw [hem]; exact hns)
                rw [le_antisymm h5 h2]
                exact h1
    · obtain ⟨R, hR, hGR, -, hlbR, hattR⟩ := minimaxLoop_min L st hf2 ht
        (fun ns => minimax fo w rootPlayer perfectInfo fuel ns (depth - 1)) hchildM
        (getLegalMoves st (st.currentPlayer.val : Int)) (fun m hm => hm) fo.inf L.inf_mem
      refine ⟨R, ?_, hGR, ?_⟩
      · rw [minimax, if_neg hf, if_neg hd]
        simp only []
        rw [if_neg hm, if_neg hp, decide_eq_false hp]
        exact hR
      · intro v tt2 h
        rw [searchRecursiveABH, if_neg hf] at h
        generalize (if depth > 0 then ttLookup fo tt (computeHash st) depth alpha beta
          else none) = P at h
        cases P with
        | some ttVal =>
          simp only [Option.some.injEq, Prod.mk.injEq] at h
          omega
        | none =>
          simp only [] at h
          rw [if_neg hd, if_neg hm] at h
          cases he : quickEvalMoves fo st w st.currentPlayer rootPlayer perfectInfo
              (getLegalMoves st (st.currentPlayer.val : Int)) with
          | none =>
            rw [he] at h
            cases h
          | some evals =>
            rw [he] at h
            simp only [] at h
            rw [if_neg hp] at h
            have hfst := quickEvalMoves_fst fo st w _ _ perfectInfo _ evals he
            obtain ⟨hleg, hcov⟩ := hmem (fun a b => fo.lt a.2 b.2) evals hfst
            split at h
            · cases h
            · rename_i bv bml tt1 hits hloop
              rw [Option.some.injEq, Prod.mk.injEq, Prod.mk.injEq] at h
              obtain ⟨hv, -, hh⟩ := h
              rw [hh] at hloop
              rw [← hv]
              obtain ⟨hGv, Mp2, h1, h2, -, h4⟩ := minLoopH_sound L st hf2 ht _
                (fun ns => (minimax fo w rootPlayer perfectInfo fuel ns (depth - 1)).elim ⊤ r)
                alpha beta ha
                (by
                  intro tt3 ns b v3 tt4 hlt htr hGb hlt2 hc
                  obtain ⟨M, hM, -, hs⟩ :=
                    ih tt3 ns (depth - 1) alpha b (Or.inl (by omega)) htr ha hGb hlt2
                  beta_reduce
                  rw [hM]
                  exact hs v3 tt4 hc)
                (r R) _ hleg (fun e he ns hns => hlbR e.1 (hleg e he) ns hns)
                tt beta fo.inf _ 0 hb L.inf_mem
                (by rw [L.r_inf, min_eq_left le_top]) hab ⊤
                (by rw [L.r_inf]; exact failSoft_refl _ _ _) le_top bv bml tt1 hloop
              refine ⟨hGv, ?_⟩
              rcases h4 with h4 | h4
              · exact ⟨fun h5 _ => absurd h5 (not_lt.2 h4),
                  fun _ => h2.trans (h1.2.1 h4),
                  fun h5 => absurd (lt_of_le_of_lt h4 hab) (not_lt.2 h5)⟩
              · have h5 : Mp2 ≤ r R := by
                  rcases hattR with h6 | ⟨m, hmm, ns, hns, h6⟩
                  · rw [h6, L.r_inf]
                    exact le_top
                  · obtain ⟨e, he, hem⟩ := hcov m hmm
                    rw [h6]
                    exact h4 e he ns (by rw [hem]; exact hns)
                rw [le_antisymm h2 h5]
                exact h1

theorem rank_coe_lt_top (q : ℚ) : ((q : WithTop ℚ) : WithBot (WithTop ℚ)) < ⊤ := by
  rw [← WithBot.coe_top, WithBot.coe_lt_coe]
  exact WithTop.coe_lt_top q

theorem exactOps_ordered : OrderedFloats exactOps (fun x => x ≠ ExtRat.nan) extRatRank where
  lt_eq := by
    intro a b ha hb
    cases a <;> cases b <;>
      simp [exactOps, ExtRat.lt, extRatRank, rank_coe_lt_top] at ha hb ⊢
  le_eq := by
    intro a b ha hb
    cases a <;> cases b <;>
      simp [exactOps, ExtRat.le, extRatRank, rank_coe_lt_top] at ha hb ⊢
  inf_mem := by simp [exactOps]
  neg_inf_mem := by simp [exactOps, ExtRat.neg]
  r_inf := rfl
  r_neg_inf := rfl

theorem nnueEvaluate_constWeights (c : ExtRat) (st : GameState) (p : Fin 2)
    (perfectInfo : Bool) : nnueEvaluate exactOps (constWeights c) st p perfectInfo = c :=
  nnueEvaluate_no_output_weights exactOps (constWeights c) st p perfectInfo rfl rfl

/-- C32: for every state whose trick is below four cards (as in every state that a game
reaches), every root player, depth and window `alpha < beta`, with more fuel than cards
left: `searchRecursiveAB` returns, and when no call of `ttLookup` in the run is a hit
(the count of `searchRecursiveABH`, the same function with the hits counted, is 0), the
value `v` it returns is related to the minimax value `M` of `minimax` as fail-soft
alpha-beta is: `v` is `M` if `alpha < v < beta`, `M <= v` if `v <= alpha`, and `v <= M` if
`beta <= v`.  `M` is computed without window, table and move ordering.  The floating-point
facts used: the values that are not NaN (`G`, which holds the evaluator's results) are
ordered by `<` and `<=` as a linear order with the infinities at the ends (`r`, under
which `v` is `M` means the same place in the order). -/
theorem alphaBeta_preserves_minimax {F : Type} (fo : FloatOps F) {α : Type} [LinearOrder α]
    [BoundedOrder α] (G : F → Prop) (r : F → α) (L : OrderedFloats fo G r)
    (w : NNUEWeights F) (rootPlayer : Fin 2) (perfectInfo : Bool)
    (hev : ∀ s, G (nnueEvaluate fo w s rootPlayer perfectInfo))
    (fuel : Nat) (tt : TT F) (st : GameState) (depth : Int) (alpha beta : F)
    (hfuel : cardsLeft st < fuel) (ht : st.trick.cards.length < 4)
    (ha : G alpha) (hb : G beta) (hab : r alpha < r beta) :
    (∃ res, searchRecursiveAB fo w rootPlayer perfectInfo fuel tt st depth alpha beta =
        some res) ∧
      (searchRecursiveABH fo w rootPlayer perfectInfo fuel tt st depth alpha beta).map
          (fun x => (x.1, x.2.1)) =
        searchRecursiveAB fo w rootPlayer perfectInfo fuel tt st depth alpha beta ∧
      ∃ M, minimax fo w rootPlayer perfectInfo fuel st depth = some M ∧
        ∀ v tt2, searchRecursiveABH fo w rootPlayer perfectInfo fuel tt st depth alpha beta =
            some (v, tt2, 0) →
          (r alpha < r v → r v < r beta → r v = r M) ∧ (r v ≤ r alpha → r M ≤ r v) ∧
            (r beta ≤ r v → r v ≤ r M) := by
  refine ⟨searchRecursiveAB_some fo w rootPlayer perfectInfo fuel tt st depth alpha beta
    (Or.inl hfuel) ht, searchRecursiveABH_fst fo w rootPlayer perfectInfo fuel tt st depth alpha
    beta, ?_⟩
  obtain ⟨M, hM, -, hs⟩ := searchRecursiveABH_sound L w rootPlayer perfectInfo hev fuel tt st
    depth alpha beta (Or.inl hfuel) ht ha hb hab
  exact ⟨M, hM, fun v tt2 h => (hs v tt2 h).2⟩

set_option maxRecDepth 1000000 in
theorem searchRecursiveABH_threeCardState :
    (searchRecursiveABH exactOps (constWeights (ExtRat.fin 1)) 1 false 40 [] threeCardState 1
        ExtRat.negInf ExtRat.posInf).map (fun x => (x.1, x.2.2)) =
      some (ExtRat.fin 1, 0) := by
  decide!

theorem foldl_option_pres2 {α β : Type} (f : Option β → α → Option β)
    (hnone : ∀ a, f none a = none) (R : β → List α → Prop)
    (hstep : ∀ acc done a r, R acc done → f (some acc) a = some r → R r (done ++ [a]))
    (l : List α) (acc r : β) (done : List α) (hR : R acc done)
    (h : l.foldl f (some acc) = some r) : R r (done ++ l) := by
  induction l generalizing acc done with
  | nil =>
    rw [List.foldl_nil, Option.some.injEq] at h
    rw [← h, List.append_nil]
    exact hR
  | cons a l ih =>
    rw [List.foldl_cons] at h
    cases hfa : f (some acc) a with
    | none =>
      rw [hfa, foldl_option_none f hnone] at h
      cases h
    | some x =>
      rw [hfa] at h
      have := ih x (done ++ [a]) (hstep acc done a x hR hfa) h
      rwa [List.append_assoc] at this

theorem quiescence_finite {F : Type} {fo : FloatOps F} {α : Type} [LinearOrder α]
    [BoundedOrder α] {G : F → Prop} {r : F → α} (L : OrderedFloats fo G r) (st : GameState)
    (w : NNUEWeights F) (rootPlayer : Fin 2) (perfectInfo : Bool)
    (hev : ∀ s, G (nnueEvaluate fo w s rootPlayer perfectInfo) ∧
      ⊥ < r (nnueEvaluate fo w s rootPlayer perfectInfo) ∧
      r (nnueEvaluate fo w s rootPlayer perfectInfo) < ⊤)
    (v : F) (h : quiescenceAfterTrickClear fo st w rootPlayer perfectInfo = some v) :
    G v ∧ ⊥ < r v ∧ r v < ⊤ := by
  unfold quiescenceAfterTrickClear at h
  by_cases h1 : (!st.trick.cards.isEmpty) = true
  · rw [if_pos h1, Option.some.injEq] at h
    rw [← h]
    exact hev st
  rw [if_neg h1] at h
  simp only [] at h
  by_cases h2 : (getLegalMoves st (st.currentPlayer.val : Int)).isEmpty = true
  · rw [if_pos h2, Option.some.injEq] at h
    rw [← h]
    exact hev st
  rw [if_neg h2] at h
  have hbt : (⊥ : α) < ⊤ := lt_trans (hev st).2.1 (hev st).2.2
  split at h
  · cases h
  · rename_i bmax bmin hfold
    have key := foldl_option_pres2 _ (fun _ => rfl)
      (fun (acc : F × F) (done : List Int) => G acc.1 ∧ G acc.2 ∧ r acc.1 < ⊤ ∧ ⊥ < r acc.2 ∧
        (done ≠ [] → (st.currentPlayer = rootPlayer → ⊥ < r acc.1) ∧
          (¬ st.currentPlayer = rootPlayer → r acc.2 < ⊤)))
      (by
        intro acc done a res hR hs
        obtain ⟨x, y⟩ := acc
        obtain ⟨hx, hy, hx2, hy2, -⟩ := hR
        simp only [] at hs
        split at hs
        · cases hs
        · rename_i ns hns
          obtain ⟨e1, e2, e3⟩ := hev ns
          split_ifs at hs with hp
          · rw [Option.some.injEq] at hs
            rw [← hs]
            have hm := orderedFloats_max L x _ hx e1
            have hm2 : r (fmax fo x (nnueEvaluate fo w ns rootPlayer perfectInfo)) =
              max (r x) (r (nnueEvaluate fo w ns rootPlayer perfectInfo)) := hm.2
            refine ⟨hm.1, hy, ?_, hy2, fun _ => ⟨fun _ => ?_, fun hn => absurd hp hn⟩⟩
            · rw [hm2]
              exact max_lt hx2 e3
            · rw [hm2]
              exact lt_max_of_lt_right e2
          · rw [Option.some.injEq] at hs
            rw [← hs]
            have hm := orderedFloats_min L y _ hy e1
            have hm2 : r (fmin fo y (nnueEvaluate fo w ns rootPlayer perfectInfo)) =
              min (r y) (r (nnueEvaluate fo w ns rootPlayer perfectInfo)) := hm.2
            refine ⟨hx, hm.1, hx2, ?_, fun _ => ⟨fun hn => absurd hn hp, fun _ => ?_⟩⟩
            · rw [hm2]
              exact lt_min hy2 e2
            · rw [hm2]
              exact min_lt_of_right_lt e3)
      _ _ _ []
      (show G (fo.neg fo.inf, fo.inf).1 ∧ G (fo.neg fo.inf, fo.inf).2 ∧
          r (fo.neg fo.inf, fo.inf).1 < ⊤ ∧ ⊥ < r (fo.neg fo.inf, fo.inf).2 ∧
          (([] : List Int) ≠ [] → (st.currentPlayer = rootPlayer →
            ⊥ < r (fo.neg fo.inf, fo.inf).1) ∧
            (¬ st.currentPlayer = rootPlayer → r (fo.neg fo.inf, fo.inf).2 < ⊤)) from
        ⟨L.neg_inf_mem, L.inf_mem, by rw [L.r_neg_inf]; exact hbt, by rw [L.r_inf]; exact hbt,
          fun hn => absurd rfl hn⟩)
      hfold
    rw [List.nil_append] at key
    obtain ⟨k1, k2, k3, k4, k5⟩ := key
    obtain ⟨k6, k7⟩ := k5 (isEmpty_false_ne_nil _ h2)
    rw [Option.some.injEq] at h
    rw [← h]
    split_ifs with hp
    · exact ⟨k1, k6 hp, k3⟩
    · exact ⟨k2, k4, k7 hp⟩

theorem minimax_finite {F : Type} {fo : FloatOps F} {α : Type} [LinearOrder α]
    [BoundedOrder α] {G : F → Prop} {r : F → α} (L : OrderedFloats fo G r)
    (w : NNUEWeights F) (rootPlayer : Fin 2) (perfectInfo : Bool)
    (hev : ∀ s, G (nnueEvaluate fo w s rootPlayer perfectInfo) ∧
      ⊥ < r (nnueEvaluate fo w s rootPlayer perfectInfo) ∧
      r (nnueEvaluate fo w s rootPlayer perfectInfo) < ⊤)
    (fuel : Nat) (st : GameState) (depth : Int)
    (hfuel : cardsLeft st < fuel ∨ (st.finished = true ∧ 0 < fuel))
    (ht : st.trick.cards.length < 4) :
    ∃ M, minimax fo w rootPlayer perfectInfo fuel st depth = some M ∧ G M ∧ ⊥ < r M ∧
      r M < ⊤ := by
  have hbt : (⊥ : α) < ⊤ := lt_trans (hev st).2.1 (hev st).2.2
  induction fuel generalizing st depth with
  | zero => omega
  | succ fuel ih =>
    by_cases hf : st.finished = true
    · refine ⟨nnueEvaluate fo w st rootPlayer perfectInfo, ?_, hev st⟩
      rw [minimax, if_pos hf]
    have hf2 : st.finished = false := by simpa using hf
    have hfuel2 : cardsLeft st < fuel + 1 := by
      rcases hfuel with h | h
      · exact h
      · exact absurd h.1 hf
    by_cases hd : depth = 0
    · obtain ⟨q, hq⟩ := quiescence_some fo st w rootPlayer perfectInfo hf2 ht
      refine ⟨q, ?_, quiescence_finite L st w rootPlayer perfectInfo hev q hq⟩
      rw [minimax, if_neg hf, if_pos hd, hq]
    by_cases hm : (getLegalMoves st (st.currentPlayer.val : Int)).isEmpty = true
    · refine ⟨nnueEvaluate fo w st rootPlayer perfectInfo, ?_, hev st⟩
      rw [minimax, if_neg hf, if_neg hd]
      simp only []
      rw [if_pos hm]
    have hchildM : ∀ ns, cardsLeft ns < cardsLeft st → ns.trick.cards.length < 4 →
        ∃ M, minimax fo w rootPlayer perfectInfo fuel ns (depth - 1) = some M ∧ G M := by
      intro ns h1 h2
      obtain ⟨M, hM, hGM, -⟩ := ih ns (depth - 1) (Or.inl (by omega)) h2
      exact ⟨M, hM, hGM⟩
    obtain ⟨m0, hm0⟩ := List.exists_mem_of_ne_nil _ (isEmpty_false_ne_nil _ hm)
    obtain ⟨ns0, hns0, hlt0, htr0⟩ := applyMove_legal st m0 hf2 ht hm0
    obtain ⟨M0, hM0, -, hM0b, hM0t⟩ := ih ns0 (depth - 1) (Or.inl (by omega)) htr0
    by_cases hp : st.currentPlayer = rootPlayer
    · obtain ⟨R, hR, hGR, -, hubR, hattR⟩ := minimaxLoop_max L st hf2 ht
        (fun ns => minimax fo w rootPlayer perfectInfo fuel ns (depth - 1)) hchildM
        (getLegalMoves st (st.currentPlayer.val : Int)) (fun m hm => hm) (fo.neg fo.inf)
        L.neg_inf_mem
      have h0 := hubR m0 hm0 ns0 hns0
      beta_reduce at h0
      rw [hM0] at h0
      have hRb : ⊥ < r R := lt_of_lt_of_le hM0b h0
      refine ⟨R, ?_, hGR, hRb, ?_⟩
      · rw [minimax, if_neg hf, if_neg hd]
        simp only []
        rw [if_neg hm, if_pos hp, decide_eq_true hp]
        exact hR
      · rcases hattR with h6 | ⟨m, hmm, ns, hns, h6⟩
        · rw [h6, L.r_neg_inf]
          exact hbt
        · obtain ⟨ns1, hns1, hlt1, htr1⟩ := applyMove_legal st m hf2 ht hmm
          rw [hns, Option.some.injEq] at hns1
          obtain ⟨M1, hM1, -, -, hM1t⟩ := ih ns1 (depth - 1) (Or.inl (by omega)) htr1
          rw [← hns1] at hM1
          rw [hM1] at h6
          rw [h6]
          exact hM1t
    · obtain ⟨R, hR, hGR, -, hlbR, hattR⟩ := minimaxLoop_min L st hf2 ht
        (fun ns => minimax fo w rootPlayer perfectInfo fuel ns (depth - 1)) hchildM
        (getLegalMoves st (st.currentPlayer.val : Int)) (fun m hm => hm) fo.inf L.inf_mem
      have h0 := hlbR m0 hm0 ns0 hns0
      beta_reduce at h0
      rw [hM0] at h0
      have hRt : r R < ⊤ := lt_of_le_of_lt h0 hM0t
      refine ⟨R, ?_, hGR, ?_, hRt⟩
      · rw [minimax, if_neg hf, if_neg hd]
        simp only []
        rw [if_neg hm, if_neg hp, decide_eq_false hp]
        exact hR
      · rcases hattR with h6 | ⟨m, hmm, ns, hns, h6⟩
        · rw [h6, L.r_inf]
          exact hbt
        · obtain ⟨ns1, hns1, hlt1, htr1⟩ := applyMove_legal st m hf2 ht hmm
          rw [hns, Option.some.injEq] at hns1
          obtain ⟨M1, hM1, -, hM1b, -⟩ := ih ns1 (depth - 1) (Or.inl (by omega)) htr1
          rw [← hns1] at hM1
          rw [hM1] at h6
          rw [h6]
          exact hM1b

theorem rootLoopH_hits_le {F : Type} (fo : FloatOps F) (st : GameState) (p : Fin 2)
    (childH : TT F → GameState → F → F → Option (F × TT F × Nat)) (b : F)
    (ordered : List (Int × F)) (tt : TT F) (a best : F) (bm : Int) (hits : Nat)
    (res : F × Int × TT F × Nat)
    (h : rootLoopH fo st p childH b ordered tt a best bm hits = some res) :
    hits ≤ res.2.2.2 := by
  induction ordered generalizing tt a best bm hits with
  | nil =>
    rw [rootLoopH, Option.some.injEq] at h
    rw [← h]
  | cons e rest ih =>
    obtain ⟨m, q⟩ := e
    unfold rootLoopH at h
    cases hns : applyMove st (p.val : Int) m with
    | none =>
      rw [hns] at h
      cases h
    | some ns =>
      rw [hns] at h
      simp only [] at h
      cases hch : childH tt ns a b with
      | none =>
        rw [hch] at h
        cases h
      | some x =>
        obtain ⟨val, tt1, k⟩ := x
        rw [hch] at h
        simp only [] at h
        exact le_trans (Nat.le_add_right _ _) (ih _ _ _ _ _ h)

theorem mtLoopH_hits_le {F : Type} (fo : FloatOps F) (st : GameState) (p : Fin 2)
    (childH : TT F → GameState → F → F → Option (F × TT F × Nat))
    (ordered : List (Int × F)) (tt : TT F) (best : F) (bm : Int) (hits : Nat)
    (res : F × Int × TT F × Nat)
    (h : mtLoopH fo st p childH ordered tt best bm hits = some res) :
    hits ≤ res.2.2.2 := by
  induction ordered generalizing tt best bm hits with
  | nil =>
    rw [mtLoopH, Option.some.injEq] at h
    rw [← h]
  | cons e rest ih =>
    obtain ⟨m, q⟩ := e
    unfold mtLoopH at h
    cases hns : applyMove st (p.val : Int) m with
    | none =>
      rw [hns] at h
      cases h
    | some ns =>
      rw [hns] at h
      simp only [] at h
      cases hch : childH tt ns (fo.neg fo.inf) fo.inf with
      | none =>
        rw [hch] at h
        cases h
      | some x =>
        obtain ⟨val, tt1, k⟩ := x
        rw [hch] at h
        simp only [] at h
        exact le_trans (Nat.le_add_right _ _) (ih _ _ _ _ h)

theorem rootLoopH_firstBest {F : Type} {fo : FloatOps F} {α : Type} [LinearOrder α]
    [BoundedOrder α] {G : F → Prop} {r : F → α} (L : OrderedFloats fo G r) (st : GameState)
    (ht : st.trick.cards.length < 4)
    (childH : TT F → GameState → F → F → Option (F × TT F × Nat)) (Mc : GameState → α)
    (hchild : ∀ tt ns a v tt1, ns.trick.cards.length < 4 →
      (ns.finished = true ∨ cardsLeft ns < cardsLeft st) → G a → r a < ⊤ →
      childH tt ns a fo.inf = some (v, tt1, 0) →
      G v ∧ FailSoft (r v) (Mc ns) (r a) ⊤ ∧ Mc ns < ⊤)
    (ordered : List (Int × F))
    (hleg : ∀ e ∈ ordered, e.1 ∈ getLegalMoves st (st.currentPlayer.val : Int))
    (tt : TT F) (a best : F) (bm : Int) (hits : Nat)
    (ha : G a) (hbest : G best) (hrel : r a = r best) (hlt : r best < ⊤)
    (v : F) (bm2 : Int) (tt2 : TT F)
    (h : rootLoopH fo st st.currentPlayer childH fo.inf ordered tt a best bm hits =
      some (v, bm2, tt2, 0)) :
    G v ∧ (r v, bm2) = firstBest st st.currentPlayer Mc ordered (r best) bm := by
  induction ordered generalizing tt a best bm hits with
  | nil =>
    rw [rootLoopH, Option.some.injEq, Prod.mk.injEq, Prod.mk.injEq] at h
    rw [← h.1, ← h.2.1]
    exact ⟨hbest, rfl⟩
  | cons e rest ih =>
    obtain ⟨m, q⟩ := e
    obtain ⟨ns, hns, htr, hlt2⟩ :=
      applyMove_total st m ht (hleg (m, q) (List.mem_cons_self _ _))
    unfold rootLoopH at h
    rw [hns] at h
    simp only [] at h
    cases hch : childH tt ns a fo.inf with
    | none =>
      rw [hch] at h
      cases h
    | some x =>
      obtain ⟨val, tt1, k⟩ := x
      rw [hch] at h
      simp only [] at h
      have hk0 : k = 0 := by
        have := rootLoopH_hits_le _ _ _ _ _ _ _ _ _ _ _ _ h
        simp only [] at this
        omega
      subst hk0
      obtain ⟨hGval, hFS, hMt⟩ := hchild tt ns a val tt1 htr hlt2 ha (hrel ▸ hlt) hch
      rw [hrel] at hFS
      have hvt : r val < ⊤ := by
        rcases lt_or_eq_of_le (le_top : r val ≤ ⊤) with h1 | h1
        · exact h1
        · exact absurd (lt_of_le_of_lt (hFS.2.2 (le_of_eq h1.symm)) hMt)
            (by rw [h1]; exact lt_irrefl _)
      have hiff : fo.lt best val = true ↔ r best < Mc ns := by
        rw [orderedFloats_lt L best val hbest hGval]
        constructor
        · intro h1
          rw [← hFS.1 h1 hvt]
          exact h1
        · intro h1
          rcases lt_or_le (r best) (r val) with h2 | h2
          · exact h2
          · exact absurd (lt_of_lt_of_le h1 ((hFS.2.1 h2).trans h2)) (lt_irrefl _)
      have hbest1 := orderedFloats_max L best val hbest hGval
      have ha1 := orderedFloats_max L a (if fo.lt best val then val else best) ha hbest1.1
      have hrel1 : r (if fo.lt a (if fo.lt best val then val else best) then
          (if fo.lt best val then val else best) else a) =
          r (if fo.lt best val then val else best) := by
        rw [ha1.2, hrel, hbest1.2]
        exact max_eq_right (le_max_left _ _)
      have hlt1 : r (if fo.lt best val then val else best) < ⊤ := by
        rw [hbest1.2]
        exact max_lt hlt hvt
      obtain ⟨hGv, hres⟩ := ih (fun e he => hleg e (List.mem_cons_of_mem _ he)) tt1 _ _ _ _
        ha1.1 hbest1.1 hrel1 hlt1 h
      refine ⟨hGv, ?_⟩
      rw [hres, firstBest, hns]
      simp only []
      by_cases hc : fo.lt best val = true
      · have h1 := hiff.1 hc
        have h2 : r best < r val := (orderedFloats_lt L best val hbest hGval).1 hc
        rw [if_pos hc, if_pos hc, if_pos h1, hFS.1 h2 hvt]
      · have h1 : ¬ r best < Mc ns := fun h2 => hc (hiff.2 h2)
        rw [if_neg hc, if_neg hc, if_neg h1]

theorem mtLoopH_firstBest {F : Type} {fo : FloatOps F} {α : Type} [LinearOrder α]
    [BoundedOrder α] {G : F → Prop} {r : F → α} (L : OrderedFloats fo G r) (st : GameState)
    (ht : st.trick.cards.length < 4)
    (childH : TT F → GameState → F → F → Option (F × TT F × Nat)) (Mc : GameState → α)
    (hchild : ∀ tt ns v tt1, ns.trick.cards.length < 4 →
      (ns.finished = true ∨ cardsLeft ns < cardsLeft st) →
      childH tt ns (fo.neg fo.inf) fo.inf = some (v, tt1, 0) →
      G v ∧ FailSoft (r v) (Mc ns) ⊥ ⊤ ∧ ⊥ < Mc ns ∧ Mc ns < ⊤)
    (ordered : List (Int × F))
    (hleg : ∀ e ∈ ordered, e.1 ∈ getLegalMoves st (st.currentPlayer.val : Int))
    (tt : TT F) (best : F) (bm : Int) (hits : Nat) (hbest : G best)
    (v : F) (bm2 : Int) (tt2 : TT F)
    (h : mtLoopH fo st st.currentPlayer childH ordered tt best bm hits =
      some (v, bm2, tt2, 0)) :
    G v ∧ (r v, bm2) = firstBest st st.currentPlayer Mc ordered (r best) bm := by
  induction ordered generalizing tt best bm hits with
  | nil =>
    rw [mtLoopH, Option.some.injEq, Prod.mk.injEq, Prod.mk.injEq] at h
    rw [← h.1, ← h.2.1]
    exact ⟨hbest, rfl⟩
  | cons e rest ih =>
    obtain ⟨m, q⟩ := e
    obtain ⟨ns, hns, htr, hlt2⟩ :=
      applyMove_total st m ht (hleg (m, q) (List.mem_cons_self _ _))
    unfold mtLoopH at h
    rw [hns] at h
    simp only [] at h
    cases hch : childH tt ns (fo.neg fo.inf) fo.inf with
    | none =>
      rw [hch] at h
      cases h
    | some x =>
      obtain ⟨val, tt1, k⟩ := x
      rw [hch] at h
      simp only [] at h
      have hk0 : k = 0 := by
        have := mtLoopH_hits_le _ _ _ _ _ _ _ _ _ _ h
        simp only [] at this
        omega
      subst hk0
      obtain ⟨hGval, hFS, hMb, hMt⟩ := hchild tt ns val tt1 htr hlt2 hch
      have hvt : r val < ⊤ := by
        rcases lt_or_eq_of_le (le_top : r val ≤ ⊤) with h1 | h1
        · exact h1
        · exact absurd (lt_of_le_of_lt (hFS.2.2 (le_of_eq h1.symm)) hMt)
            (by rw [h1]; exact lt_irrefl _)
      have hvb : ⊥ < r val := by
        rcases lt_or_eq_of_le (bot_le : ⊥ ≤ r val) with h1 | h1
        · exact h1
        · exact absurd (lt_of_lt_of_le hMb (hFS.2.1 (le_of_eq h1.symm)))
            (by rw [← h1]; exact lt_irrefl _)
      have hval : r val = Mc ns := hFS.1 hvb hvt
      have hbest1 := orderedFloats_max L best val hbest hGval
      obtain ⟨hGv, hres⟩ := ih (fun e he => hleg e (List.mem_cons_of_mem _ he)) tt1 _ _ _
        hbest1.1 h
      refine ⟨hGv, ?_⟩
      rw [hres, firstBest, hns]
      simp only []
      by_cases hc : fo.lt best val = true
      · have h2 : r best < r val := (orderedFloats_lt L best val hbest hGval).1 hc
        rw [if_pos hc, if_pos hc, if_pos (hval ▸ h2), hval]
      · have h1 : ¬ r best < Mc ns := fun h2 =>
          hc ((orderedFloats_lt L best val hbest hGval).2 (hval ▸ h2))
        rw [if_neg hc, if_neg hc, if_neg h1]

theorem firstBest_bot {F α : Type} [LinearOrder α] [BoundedOrder α] (st : GameState)
    (ht : st.trick.cards.length < 4) (Mc : GameState → α)
    (hMc : ∀ ns, ns.trick.cards.length < 4 →
      (ns.finished = true ∨ cardsLeft ns < cardsLeft st) → ⊥ < Mc ns)
    (ordered : List (Int × F)) (hne : ordered ≠ [])
    (hleg : ∀ e ∈ ordered, e.1 ∈ getLegalMoves st (st.currentPlayer.val : Int))
    (bm bm2 : Int) :
    firstBest st st.currentPlayer Mc ordered ⊥ bm =
      firstBest st st.currentPlayer Mc ordered ⊥ bm2 := by
  cases ordered with
  | nil => exact absurd rfl hne
  | cons e rest =>
    obtain ⟨m, q⟩ := e
    obtain ⟨ns, hns, htr, hlt2⟩ :=
      applyMove_total st m ht (hleg (m, q) (List.mem_cons_self _ _))
    rw [firstBest, firstBest, hns]
    simp only []
    rw [if_pos (hMc ns htr hlt2), if_pos (hMc ns htr hlt2)]

theorem searchRecursiveABH_child {F : Type} {fo : FloatOps F} {α : Type} [LinearOrder α]
    [BoundedOrder α] {G : F → Prop} {r : F → α} (L : OrderedFloats fo G r)
    (w : NNUEWeights F) (rootPlayer : Fin 2) (perfectInfo : Bool)
    (hev : ∀ s, G (nnueEvaluate fo w s rootPlayer perfectInfo) ∧
      ⊥ < r (nnueEvaluate fo w s rootPlayer perfectInfo) ∧
      r (nnueEvaluate fo w s rootPlayer perfectInfo) < ⊤)
    (fuel : Nat) (st : GameState) (hfuel : cardsLeft st < fuel) (depth : Int)
    (tt : TT F) (ns : GameState) (a v : F) (tt1 : TT F)
    (htr : ns.trick.cards.length < 4)
    (hlt : ns.finished = true ∨ cardsLeft ns < cardsLeft st) (ha : G a) (hat : r a < ⊤)
    (h : searchRecursiveABH fo w rootPlayer perfectInfo fuel tt ns depth a fo.inf =
      some (v, tt1, 0)) :
    G v ∧ FailSoft (r v) ((minimax fo w rootPlayer perfectInfo fuel ns depth).elim ⊥ r) (r a) ⊤ ∧
      ⊥ < (minimax fo w rootPlayer perfectInfo fuel ns depth).elim ⊥ r ∧
      (minimax fo w rootPlayer perfectInfo fuel ns depth).elim ⊥ r < ⊤ := by
  have hf : cardsLeft ns < fuel ∨ (ns.finished = true ∧ 0 < fuel) := by
    rcases hlt with h1 | h1
    · exact Or.inr ⟨h1, by omega⟩
    · exact Or.inl (by omega)
  obtain ⟨M, hM, -, hs⟩ := searchRecursiveABH_sound L w rootPlayer perfectInfo
    (fun s => (hev s).1) fuel tt ns depth a fo.inf hf htr ha L.inf_mem
    (by rw [L.r_inf]; exact hat)
  obtain ⟨M2, hM2, -, hb2, ht2⟩ := minimax_finite L w rootPlayer perfectInfo hev fuel ns depth
    hf htr
  rw [hM, Option.some.injEq] at hM2
  rw [← hM2] at hb2 ht2
  obtain ⟨hGv, hFS⟩ := hs v tt1 h
  rw [L.r_inf] at hFS
  rw [hM]
  exact ⟨hGv, hFS, hb2, ht2⟩

theorem searchBestMoveH_firstBest {F : Type} {fo : FloatOps F} {α : Type} [LinearOrder α]
    [BoundedOrder α] {G : F → Prop} {r : F → α} (L : OrderedFloats fo G r)
    (w : NNUEWeights F) (perfectInfo : Bool) (st : GameState)
    (hev : ∀ s, G (nnueEvaluate fo w s st.currentPlayer perfectInfo) ∧
      ⊥ < r (nnueEvaluate fo w s st.currentPlayer perfectInfo) ∧
      r (nnueEvaluate fo w s st.currentPlayer perfectInfo) < ⊤)
    (fuel : Nat) (tt : TT F) (depth : Int) (hfuel : cardsLeft st < fuel)
    (ht : st.trick.cards.length < 4)
    (hne : ¬ (getLegalMoves st (st.currentPlayer.val : Int)).isEmpty = true)
    (res : SearchResult F) (tt1 : TT F)
    (h : searchBestMoveH fo fuel tt st w depth perfectInfo = some (res, tt1, 0)) :
    ∃ evals, quickEvalMoves fo st w st.currentPlayer st.currentPlayer perfectInfo
        (getLegalMoves st (st.currentPlayer.val : Int)) = some evals ∧
      (r res.eval, res.chosenMoveIndex) =
        firstBest st st.currentPlayer
          (fun ns => (minimax fo w st.currentPlayer perfectInfo fuel ns (depth - 1)).elim ⊥ r)
          (sortBy (fun a b => fo.lt b.2 a.2) evals) ⊥
          (frontMove (sortBy (fun a b => fo.lt b.2 a.2) evals)) := by
  have hbt : (⊥ : α) < ⊤ := lt_trans (hev st).2.1 (hev st).2.2
  unfold searchBestMoveH at h
  simp only [] at h
  rw [if_neg hne] at h
  cases he : quickEvalMoves fo st w st.currentPlayer st.currentPlayer perfectInfo
      (getLegalMoves st (st.currentPlayer.val : Int)) with
  | none =>
    rw [he] at h
    cases h
  | some evals =>
    rw [he] at h
    simp only [] at h
    have hfst := quickEvalMoves_fst fo st w _ _ perfectInfo _ evals he
    have hleg : ∀ e ∈ sortBy (fun (a b : Int × F) => fo.lt b.2 a.2) evals,
        e.1 ∈ getLegalMoves st (st.currentPlayer.val : Int) := by
      intro e hmem
      rw [← hfst]
      exact List.mem_map_of_mem Prod.fst ((mem_sortBy _ e evals).1 hmem)
    have hevne : evals ≠ [] := by
      intro h0
      rw [h0] at hfst
      exact isEmpty_false_ne_nil _ hne hfst.symm
    refine ⟨evals, rfl, ?_⟩
    split at h
    · cases h
    · rename_i bv bml tt2 hits hloop
      rw [Option.some.injEq, Prod.mk.injEq, Prod.mk.injEq] at h
      obtain ⟨hres, -, hh⟩ := h
      rw [hh] at hloop
      obtain ⟨-, hfb⟩ := rootLoopH_firstBest L st ht _
        (fun ns => (minimax fo w st.currentPlayer perfectInfo fuel ns (depth - 1)).elim ⊥ r)
        (by
          intro tt3 ns a v3 tt4 htr hlt hGa hat hc
          obtain ⟨h1, h2, -, h4⟩ := searchRecursiveABH_child L w st.currentPlayer perfectInfo
            hev fuel st hfuel (depth - 1) tt3 ns a v3 tt4 htr hlt hGa hat hc
          exact ⟨h1, h2, h4⟩)
        _ hleg tt (fo.neg fo.inf) (fo.neg fo.inf) _ 0 L.neg_inf_mem L.neg_inf_mem rfl
        (by rw [L.r_neg_inf]; exact hbt) bv bml tt2 hloop
      rw [← hres]
      show (r bv, bml) = _
      rw [hfb, L.r_neg_inf]
      exact firstBest_bot st ht _
        (by
          intro ns htr hlt
          have hf : cardsLeft ns < fuel ∨ (ns.finished = true ∧ 0 < fuel) := by
            rcases hlt with h1 | h1
            · exact Or.inr ⟨h1, by omega⟩
            · exact Or.inl (by omega)
          obtain ⟨M2, hM2, -, hb2, -⟩ := minimax_finite L w st.currentPlayer perfectInfo hev
            fuel ns (depth - 1) hf htr
          rw [hM2]
          exact hb2)
        _ (sortBy_ne_nil _ evals hevne) hleg _ _

theorem searchBestMoveMTH_firstBest {F : Type} {fo : FloatOps F} {α : Type} [LinearOrder α]
    [BoundedOrder α] {G : F → Prop} {r : F → α} (L : OrderedFloats fo G r)
    (w : NNUEWeights F) (perfectInfo : Bool) (st : GameState)
    (hev : ∀ s, G (nnueEvaluate fo w s st.currentPlayer perfectInfo) ∧
      ⊥ < r (nnueEvaluate fo w s st.currentPlayer perfectInfo) ∧
      r (nnueEvaluate fo w s st.currentPlayer perfectInfo) < ⊤)
    (fuel : Nat) (tt : TT F) (depth : Int) (hfuel : cardsLeft st < fuel)
    (ht : st.trick.cards.length < 4)
    (hne : ¬ (getLegalMoves st (st.currentPlayer.val : Int)).isEmpty = true)
    (res : SearchResult F) (tt1 : TT F)
    (h : searchBestMoveMTH fo fuel tt st w depth perfectInfo = some (res, tt1, 0)) :
    ∃ evals, quickEvalMoves fo st w st.currentPlayer st.currentPlayer perfectInfo
        (getLegalMoves st (st.currentPlayer.val : Int)) = some evals ∧
      (r res.eval, res.chosenMoveIndex) =
        firstBest st st.currentPlayer
          (fun ns => (minimax fo w st.currentPlayer perfectInfo fuel ns (depth - 1)).elim ⊥ r)
          (sortBy (fun a b => fo.lt b.2 a.2) evals) ⊥
          (frontMove (sortBy (fun a b => fo.lt b.2 a.2) evals)) := by
  have hbt : (⊥ : α) < ⊤ := lt_trans (hev st).2.1 (hev st).2.2
  unfold searchBestMoveMTH at h
  simp only [] at h
  rw [if_neg hne] at h
  cases he : quickEvalMoves fo st w st.currentPlayer st.currentPlayer perfectInfo
      (getLegalMoves st (st.currentPlayer.val : Int)) with
  | none =>
    rw [he] at h
    cases h
  | some evals =>
    rw [he] at h
    simp only [] at h
    have hfst := quickEvalMoves_fst fo st w _ _ perfectInfo _ evals he
    have hleg : ∀ e ∈ sortBy (fun (a b : Int × F) => fo.lt b.2 a.2) evals,
        e.1 ∈ getLegalMoves st (st.currentPlayer.val : Int) := by
      intro e hmem
      rw [← hfst]
      exact List.mem_map_of_mem Prod.fst ((mem_sortBy _ e evals).1 hmem)
    refine ⟨evals, rfl, ?_⟩
    split at h
    · cases h
    · rename_i bv bml tt2 hits hloop
      rw [Option.some.injEq, Prod.mk.injEq, Prod.mk.injEq] at h
      obtain ⟨hres, -, hh⟩ := h
      rw [hh] at hloop
      obtain ⟨-, hfb⟩ := mtLoopH_firstBest L st ht _
        (fun ns => (minimax fo w st.currentPlayer perfectInfo fuel ns (depth - 1)).elim ⊥ r)
        (by
          intro tt3 ns v3 tt4 htr hlt hc
          have h0 := searchRecursiveABH_child L w st.currentPlayer perfectInfo
            hev fuel st hfuel (depth - 1) tt3 ns (fo.neg fo.inf) v3 tt4 htr hlt L.neg_inf_mem
            (by rw [L.r_neg_inf]; exact hbt) hc
          rw [L.r_neg_inf] at h0
          exact h0)
        _ hleg tt (fo.neg fo.inf) _ 0 L.neg_inf_mem bv bml tt2 hloop
      rw [← hres]
      show (r bv, bml) = _
      rw [hfb, L.r_neg_inf]

theorem constWeights_finite (q : ℚ) (p : Fin 2) (s : GameState) :
    nnueEvaluate exactOps (constWeights (ExtRat.fin q)) s p false ≠ ExtRat.nan ∧
      ⊥ < extRatRank (nnueEvaluate exactOps (constWeights (ExtRat.fin q)) s p false) ∧
      extRatRank (nnueEvaluate exactOps (constWeights (ExtRat.fin q)) s p false) < ⊤ := by
  rw [nnueEvaluate_constWeights]
  exact ⟨ExtRat.noConfusion, WithBot.bot_lt_coe _, rank_coe_lt_top q⟩

set_option maxRecDepth 1000000 in
theorem searchBestMoveH_threeCardState :
    (searchBestMoveH exactOps 40 [] threeCardState (constWeights (ExtRat.fin 0)) 2
        false).map (fun x => (x.1.chosenMoveIndex, x.1.eval, x.2.2)) =
      some (0, ExtRat.fin 0, 0) := by
  decide!

set_option maxRecDepth 1000000 in
theorem searchBestMoveMTH_threeCardState :
    (searchBestMoveMTH exactOps 40 [] threeCardState (constWeights (ExtRat.fin 0)) 2
        false).map (fun x => (x.1.chosenMoveIndex, x.1.eval, x.2.2)) =
      some (0, ExtRat.fin 0, 0) := by
  decide!

theorem alphaBeta_preserves_minimax_witness :
    cardsLeft threeCardState < 40 ∧ threeCardState.trick.cards.length < 4 ∧
      extRatRank ExtRat.negInf < extRatRank ExtRat.posInf ∧
      (searchRecursiveABH exactOps (constWeights (ExtRat.fin 1)) 1 false 40 [] threeCardState 1
          ExtRat.negInf ExtRat.posInf).map (fun x => (x.1, x.2.2)) = some (ExtRat.fin 1, 0) ∧
      ((∃ res, searchRecursiveAB exactOps (constWeights (ExtRat.fin 1)) 1 false 40 []
          threeCardState 1 ExtRat.negInf ExtRat.posInf = some res) ∧
        (searchRecursiveABH exactOps (constWeights (ExtRat.fin 1)) 1 false 40 [] threeCardState 1
            ExtRat.negInf ExtRat.posInf).map (fun x => (x.1, x.2.1)) =
          searchRecursiveAB exactOps (constWeights (ExtRat.fin 1)) 1 false 40 [] threeCardState 1
            ExtRat.negInf ExtRat.posInf ∧
        ∃ M, minimax exactOps (constWeights (ExtRat.fin 1)) 1 false 40 threeCardState 1 =
            some M ∧
          ∀ v tt2, searchRecursiveABH exactOps (constWeights (ExtRat.fin 1)) 1 false 40 []
              threeCardState 1 ExtRat.negInf ExtRat.posInf = some (v, tt2, 0) →
            (extRatRank ExtRat.negInf < extRatRank v → extRatRank v < extRatRank ExtRat.posInf →
                extRatRank v = extRatRank M) ∧
              (extRatRank v ≤ extRatRank ExtRat.negInf → extRatRank M ≤ extRatRank v) ∧
              (extRatRank ExtRat.posInf ≤ extRatRank v → extRatRank v ≤ extRatRank M)) :=
  ⟨by decide, by decide, WithBot.bot_lt_coe _, searchRecursiveABH_threeCardState,
    alphaBeta_preserves_minimax exactOps (fun x => x ≠ ExtRat.nan) extRatRank exactOps_ordered
      (constWeights (ExtRat.fin 1)) 1 false
      (fun s => by rw [nnueEvaluate_constWeights]; exact ExtRat.noConfusion)
      40 [] threeCardState 1 ExtRat.negInf ExtRat.posInf (by decide) (by decide)
      ExtRat.noConfusion ExtRat.noConfusion (WithBot.bot_lt_coe _)⟩

set_option maxRecDepth 1000000 in
/-- C24, counterexample: on `threeCardState` at depth 2, with weights that evaluate every
state to 0 and the table `staleTable` that an earlier search with other weights left,
`searchBestMove` returns move 0 with evaluation -5 and `searchBestMoveMT` returns move 1
with evaluation 0.  The sequential search takes the stored upper bound -5 of the second
move, which its window `(-5, +inf)` admits; the task of `searchBestMoveMT` has the window
`(-inf, +inf)`, does not take it and searches the move. -/
theorem searchBestMoveMT_differs_on_stale_table :
    (searchBestMove exactOps 40 staleTable threeCardState (constWeights (ExtRat.fin 0)) 2
        false).map (fun x => (x.1.chosenMoveIndex, x.1.eval)) = some (0, ExtRat.fin (-5)) ∧
      (searchBestMoveMT exactOps 40 staleTable threeCardState (constWeights (ExtRat.fin 0)) 2
        false).map (fun x => (x.1.chosenMoveIndex, x.1.eval)) = some (1, ExtRat.fin 0) := by
  decide!

/-- C24, amended: for a state whose trick is below four cards and with more fuel than
cards left, `searchBestMove` and `searchBestMoveMT` both return; when no call of
`ttLookup` is a hit in either run (the counts of `searchBestMoveH` and
`searchBestMoveMTH`, the same functions with the hits counted, are 0), whatever the two
tables are, they return the same move and evaluations at the same place in the order:
with a legal move, the first move, in the order of the quick evaluations, whose minimax
value at depth - 1 is maximal, and that value.  The floating-point facts used: the values
that are not NaN (`G`) are ordered as a linear order with the infinities at the ends
(`r`), and the evaluator's results are in `G` and strictly between the infinities. -/
theorem searchBestMoveMT_matches_searchBestMove {F : Type} (fo : FloatOps F) {α : Type}
    [LinearOrder α] [BoundedOrder α] (G : F → Prop) (r : F → α) (L : OrderedFloats fo G r)
    (w : NNUEWeights F) (perfectInfo : Bool) (st : GameState)
    (hev : ∀ s, G (nnueEvaluate fo w s st.currentPlayer perfectInfo) ∧
      ⊥ < r (nnueEvaluate fo w s st.currentPlayer perfectInfo) ∧
      r (nnueEvaluate fo w s st.currentPlayer perfectInfo) < ⊤)
    (fuel : Nat) (ttA ttB : TT F) (depth : Int) (hfuel : cardsLeft st < fuel)
    (ht : st.trick.cards.length < 4) :
    (∃ res, searchBestMove fo fuel ttA st w depth perfectInfo = some res) ∧
      (∃ res, searchBestMoveMT fo fuel ttB st w depth perfectInfo = some res) ∧
      (searchBestMoveH fo fuel ttA st w depth perfectInfo).map (fun x => (x.1, x.2.1)) =
        searchBestMove fo fuel ttA st w depth perfectInfo ∧
      (searchBestMoveMTH fo fuel ttB st w depth perfectInfo).map (fun x => (x.1, x.2.1)) =
        searchBestMoveMT fo fuel ttB st w depth perfectInfo ∧
      ∀ resA tA resB tB,
        searchBestMoveH fo fuel ttA st w depth perfectInfo = some (resA, tA, 0) →
        searchBestMoveMTH fo fuel ttB st w depth perfectInfo = some (resB, tB, 0) →
        resA.chosenMoveIndex = resB.chosenMoveIndex ∧ r resA.eval = r resB.eval ∧
          (getLegalMoves st (st.currentPlayer.val : Int) ≠ [] →
            ∃ evals, quickEvalMoves fo st w st.currentPlayer st.currentPlayer perfectInfo
                (getLegalMoves st (st.currentPlayer.val : Int)) = some evals ∧
              (r resB.eval, resB.chosenMoveIndex) =
                firstBest st st.currentPlayer
                  (fun ns =>
                    (minimax fo w st.currentPlayer perfectInfo fuel ns (depth - 1)).elim ⊥ r)
                  (sortBy (fun a b => fo.lt b.2 a.2) evals) ⊥
                  (frontMove (sortBy (fun a b => fo.lt b.2 a.2) evals))) := by
  refine ⟨searchBestMove_some fo fuel ttA st w depth perfectInfo hfuel ht,
    searchBestMoveMT_some fo fuel ttB st w depth perfectInfo hfuel ht,
    searchBestMoveH_fst fo fuel ttA st w depth perfectInfo,
    searchBestMoveMTH_fst fo fuel ttB st w depth perfectInfo, ?_⟩
  intro resA tA resB tB hA hB
  by_cases hne : (getLegalMoves st (st.currentPlayer.val : Int)).isEmpty = true
  · unfold searchBestMoveH at hA
    unfold searchBestMoveMTH at hB
    simp only [] at hA hB
    rw [if_pos hne, Option.some.injEq, Prod.mk.injEq] at hA hB
    rw [← hA.1, ← hB.1]
    refine ⟨rfl, rfl, fun h0 => ?_⟩
    rw [List.isEmpty_iff] at hne
    exact absurd hne h0
  · obtain ⟨evals, he, hfA⟩ := searchBestMoveH_firstBest L w perfectInfo st hev fuel ttA depth
      hfuel ht hne resA tA hA
    obtain ⟨evals2, he2, hfB⟩ := searchBestMoveMTH_firstBest L w perfectInfo st hev fuel ttB
      depth hfuel ht hne resB tB hB
    rw [he, Option.some.injEq] at he2
    rw [← he2] at hfB
    have hAB := hfA.trans hfB.symm
    rw [Prod.mk.injEq] at hAB
    exact ⟨hAB.2, hAB.1, fun _ => ⟨evals, he, hfB⟩⟩

theorem searchBestMoveMT_matches_searchBestMove_witness :
    cardsLeft threeCardState < 40 ∧ threeCardState.trick.cards.length < 4 ∧
      (searchBestMoveH exactOps 40 [] threeCardState (constWeights (ExtRat.fin 0)) 2
          false).map (fun x => (x.1.chosenMoveIndex, x.1.eval, x.2.2)) =
        some (0, ExtRat.fin 0, 0) ∧
      (searchBestMoveMTH exactOps 40 [] threeCardState (constWeights (ExtRat.fin 0)) 2
          false).map (fun x => (x.1.chosenMoveIndex, x.1.eval, x.2.2)) =
        some (0, ExtRat.fin 0, 0) ∧
      (∃ res, searchBestMove exactOps 40 [] threeCardState (constWeights (ExtRat.fin 0)) 2
          false = some res) ∧
      (∃ res, searchBestMoveMT exactOps 40 [] threeCardState (constWeights (ExtRat.fin 0)) 2
          false = some res) ∧
      ∀ resA tA resB tB,
        searchBestMoveH exactOps 40 [] threeCardState (constWeights (ExtRat.fin 0)) 2 false =
          some (resA, tA, 0) →
        searchBestMoveMTH exactOps 40 [] threeCardState (constWeights (ExtRat.fin 0)) 2 false =
          some (resB, tB, 0) →
        resA.chosenMoveIndex = resB.chosenMoveIndex ∧
          extRatRank resA.eval = extRatRank resB.eval :=
  ⟨by decide, by decide, searchBestMoveH_threeCardState, searchBestMoveMTH_threeCardState,
    (searchBestMoveMT_matches_searchBestMove exactOps (fun x => x ≠ ExtRat.nan) extRatRank
      exactOps_ordered (constWeights (ExtRat.fin 0)) false threeCardState
      (constWeights_finite 0 1) 40 [] [] 2 (by decide) (by decide)).1,
    (searchBestMoveMT_matches_searchBestMove exactOps (fun x => x ≠ ExtRat.nan) extRatRank
      exactOps_ordered (constWeights (ExtRat.fin 0)) false threeCardState
      (constWeights_finite 0 1) 40 [] [] 2 (by decide) (by decide)).2.1,
    fun resA tA resB tB hA hB =>
      ⟨((searchBestMoveMT_matches_searchBestMove exactOps (fun x => x ≠ ExtRat.nan) extRatRank
        exactOps_ordered (constWeights (ExtRat.fin 0)) false threeCardState
        (constWeights_finite 0 1) 40 [] [] 2 (by decide) (by decide)).2.2.2.2
          resA tA resB tB hA hB).1,
      ((searchBestMoveMT_matches_searchBestMove exactOps (fun x => x ≠ ExtRat.nan) extRatRank
        exactOps_ordered (constWeights (ExtRat.fin 0)) false threeCardState
        (constWeights_finite 0 1) 40 [] [] 2 (by decide) (by decide)).2.2.2.2
          resA tA resB tB hA hB).2.1⟩⟩

theorem aspirationPass_eq {F : Type} (fo : FloatOps F) (fuel : Nat) (st : GameState)
    (w : NNUEWeights F) (p : Fin 2) (perfectInfo : Bool) (moves : List Int) (d : Int)
    (tt : TT F) (alpha beta : F) (evals : List (Int × F))
    (he : quickEvalMoves fo st w p p perfectInfo moves = some evals) :
    aspirationPass fo fuel st w p perfectInfo moves d tt alpha beta =
      rootLoop fo st p
        (fun tt1 ns a b => searchRecursiveAB fo w p perfectInfo fuel tt1 ns (d - 1) a b)
        beta (sortBy (fun a b => fo.lt b.2 a.2) evals) tt alpha (fo.neg fo.inf)
        (moves.headD 0) := by
  unfold aspirationPass
  rw [he]

theorem aspirationLoop_run {F : Type} (fo : FloatOps F) (fuel : Nat) (st : GameState)
    (w : NNUEWeights F) (p : Fin 2) (perfectInfo : Bool) (moves : List Int) (d : Int)
    (retries : Nat) (tt : TT F) (alpha beta delta : F) (res : F × Int × TT F)
    (h : aspirationLoop fo fuel st w p perfectInfo moves d retries tt alpha beta delta =
      some res) :
    AspirationRun fo (aspirationPass fo fuel st w p perfectInfo moves d) tt alpha beta delta
      res := by
  induction retries generalizing tt alpha beta delta with
  | zero =>
    unfold aspirationLoop at h
    cases h
  | succ n ih =>
    unfold aspirationLoop at h
    cases he : quickEvalMoves fo st w p p perfectInfo moves with
    | none =>
      rw [he] at h
      cases h
    | some evals =>
      rw [he] at h
      simp only [] at h
      have hpass := aspirationPass_eq fo fuel st w p perfectInfo moves d tt alpha beta evals he
      split at h
      · cases h
      · rename_i cb cbm tt1 hloop
        rw [hloop] at hpass
        by_cases h1 : fo.le cb alpha = true
        · rw [if_pos h1] at h
          exact AspirationRun.failLow tt alpha beta delta cb cbm tt1 res hpass h1 (ih _ _ _ _ h)
        · rw [if_neg h1] at h
          have h1f : fo.le cb alpha = false := by simpa using h1
          by_cases h2 : fo.le beta cb = true
          · rw [if_pos h2] at h
            exact AspirationRun.failHigh tt alpha beta delta cb cbm tt1 res hpass h1f h2
              (ih _ _ _ _ h)
          · rw [if_neg h2, Option.some.injEq] at h
            have h2f : fo.le beta cb = false := by simpa using h2
            rw [← h]
            exact AspirationRun.accept tt alpha beta delta cb cbm tt1 hpass h1f h2f

theorem searchBestMoveID_run {F : Type} (fo : FloatOps F) (fuel retries : Nat) (tt : TT F)
    (st : GameState) (w : NNUEWeights F) (depth : Int) (perfectInfo : Bool)
    (hne : getLegalMoves st (st.currentPlayer.val : Int) ≠ [])
    (res : SearchResult F) (tt2 : TT F)
    (h : searchBestMoveID fo fuel retries tt st w depth perfectInfo = some (res, tt2)) :
    DeepeningRun fo fuel st w perfectInfo tt (List.range depth.toNat)
      (res.eval, res.chosenMoveIndex, tt2) := by
  unfold searchBestMoveID at h
  simp only [] at h
  rw [if_neg (by rw [List.isEmpty_iff]; exact hne)] at h
  split at h
  · cases h
  · rename_i be bm tt1 hfold
    rw [Option.some.injEq, Prod.mk.injEq] at h
    rw [← h.1, ← h.2]
    have key := foldl_option_pres2 _ (fun _ => rfl)
      (fun (acc : F × Int × TT F) (done : List Nat) =>
        DeepeningRun fo fuel st w perfectInfo tt done acc)
      (by
        intro acc done i r hR hs
        obtain ⟨e, m, t⟩ := acc
        simp only [] at hs
        exact DeepeningRun.iteration done i e m t r hR
          (aspirationLoop_run fo fuel st w _ perfectInfo _ _ retries t _ _ _ r hs))
      _ _ _ [] DeepeningRun.start hfold
    rw [List.nil_append] at key
    exact key

theorem pick_max_inRange {F : Type} (fo : FloatOps F) (X : ExactFloats fo) (B : ℚ)
    (bv val : F) (hbv : InRange fo B bv ∨ bv = fo.neg fo.inf) (hval : InRange fo B val) :
    InRange fo B (if fo.lt bv val then val else bv) := by
  rcases hbv with h | h
  · split_ifs
    · exact hval
    · exact h
  · obtain ⟨q, hq, hqB⟩ := hval
    rw [h, hq, X.neg_inf_lt, if_pos rfl]
    exact ⟨q, rfl, hqB⟩

theorem pick_min_inRange {F : Type} (fo : FloatOps F) (X : ExactFloats fo) (B : ℚ)
    (bv val : F) (hbv : InRange fo B bv ∨ bv = fo.inf) (hval : InRange fo B val) :
    InRange fo B (if fo.lt val bv then val else bv) := by
  rcases hbv with h | h
  · split_ifs
    · exact hval
    · exact h
  · obtain ⟨q, hq, hqB⟩ := hval
    rw [h, hq, X.lt_inf, if_pos rfl]
    exact ⟨q, rfl, hqB⟩

theorem ttLookup_inRange {F : Type} (fo : FloatOps F) (B : ℚ) (tt : TT F)
    (htt : ∀ e ∈ tt, InRange fo B e.2.value) (key : Nat) (depth : Int) (alpha beta v : F)
    (h : ttLookup fo tt key depth alpha beta = some v) : InRange fo B v := by
  unfold ttLookup at h
  split at h
  · cases h
  · rename_i k e hfind
    have hmem : InRange fo B e.value := htt _ (List.mem_of_find?_eq_some hfind)
    by_cases hd : e.depth < depth
    · rw [if_pos hd] at h
      cases h
    · rw [if_neg hd] at h
      cases hflag : e.flag <;> rw [hflag] at h <;> simp only [] at h <;>
        (try split_ifs at h) <;>
        first
        | (cases h; done)
        | (cases h; exact hmem)

theorem ttStore_inRange {F : Type} (fo : FloatOps F) (B : ℚ) (tt : TT F)
    (htt : ∀ e ∈ tt, InRange fo B e.2.value) (key : Nat) (depth : Int) (val a b : F)
    (bm : Int) (hval : InRange fo B val) :
    ∀ e ∈ ttStore fo tt key depth val a b bm, InRange fo B e.2.value := by
  intro e he
  unfold ttStore at he
  simp only [] at he
  rcases List.mem_cons.1 he with h1 | h1
  · rw [h1]
    exact hval
  · have h2 := (List.mem_filter.1 h1).1
    split_ifs at h2
    · exact absurd h2 (List.not_mem_nil e)
    · exact htt e h2

theorem quiescence_inRange {F : Type} (fo : FloatOps F) (X : ExactFloats fo) (B : ℚ)
    (st : GameState) (w : NNUEWeights F) (rootPlayer : Fin 2) (perfectInfo : Bool)
    (hev : ∀ s, InRange fo B (nnueEvaluate fo w s rootPlayer perfectInfo))
    (v : F) (h : quiescenceAfterTrickClear fo st w rootPlayer perfectInfo = some v) :
    InRange fo B v := by
  unfold quiescenceAfterTrickClear at h
  by_cases h1 : (!st.trick.cards.isEmpty) = true
  · rw [if_pos h1, Option.some.injEq] at h
    rw [← h]
    exact hev st
  rw [if_neg h1] at h
  simp only [] at h
  by_cases h2 : (getLegalMoves st (st.currentPlayer.val : Int)).isEmpty = true
  · rw [if_pos h2, Option.some.injEq] at h
    rw [← h]
    exact hev st
  rw [if_neg h2] at h
  split at h
  · cases h
  · rename_i bmax bmin hfold
    have key := foldl_option_pres2 _ (fun _ => rfl)
      (fun (acc : F × F) (done : List Int) =>
        (InRange fo B acc.1 ∨ acc.1 = fo.neg fo.inf) ∧ (InRange fo B acc.2 ∨ acc.2 = fo.inf) ∧
        (done ≠ [] → (st.currentPlayer = rootPlayer → InRange fo B acc.1) ∧
          (¬ st.currentPlayer = rootPlayer → InRange fo B acc.2)))
      (by
        intro acc done a res hR hs
        obtain ⟨x, y⟩ := acc
        obtain ⟨hx, hy, -⟩ := hR
        simp only [] at hs
        split at hs
        · cases hs
        · rename_i ns hns
          split_ifs at hs with hp
          · rw [Option.some.injEq] at hs
            rw [← hs]
            have hm : InRange fo B (fmax fo x (nnueEvaluate fo w ns rootPlayer perfectInfo)) :=
              pick_max_inRange fo X B x _ hx (hev ns)
            exact ⟨Or.inl hm, hy, fun _ => ⟨fun _ => hm, fun hn => absurd hp hn⟩⟩
          · rw [Option.some.injEq] at hs
            rw [← hs]
            have hm : InRange fo B (fmin fo y (nnueEvaluate fo w ns rootPlayer perfectInfo)) :=
              pick_min_inRange fo X B y _ hy (hev ns)
            exact ⟨hx, Or.inl hm, fun _ => ⟨fun hn => absurd hn hp, fun _ => hm⟩⟩)
      _ _ _ []
      (show (InRange fo B (fo.neg fo.inf, fo.inf).1 ∨
            (fo.neg fo.inf, fo.inf).1 = fo.neg fo.inf) ∧
          (InRange fo B (fo.neg fo.inf, fo.inf).2 ∨ (fo.neg fo.inf, fo.inf).2 = fo.inf) ∧
          (([] : List Int) ≠ [] → (st.currentPlayer = rootPlayer →
            InRange fo B (fo.neg fo.inf, fo.inf).1) ∧
            (¬ st.currentPlayer = rootPlayer → InRange fo B (fo.neg fo.inf, fo.inf).2)) from
        ⟨Or.inr rfl, Or.inr rfl, fun hn => absurd rfl hn⟩)
      hfold
    rw [List.nil_append] at key
    obtain ⟨-, -, k5⟩ := key
    obtain ⟨k6, k7⟩ := k5 (isEmpty_false_ne_nil _ h2)
    rw [Option.some.injEq] at h
    rw [← h]
    split_ifs with hp
    · exact k6 hp
    · exact k7 hp

theorem maxLoop_inRange {F : Type} (fo : FloatOps F) (X : ExactFloats fo) (B : ℚ)
    (st : GameState) (p : Fin 2)
    (child : TT F → GameState → F → F → Option (F × TT F))
    (hchild : ∀ tt ns a b v tt1, (∀ e ∈ tt, InRange fo B e.2.value) →
      child tt ns a b = some (v, tt1) →
      InRange fo B v ∧ ∀ e ∈ tt1, InRange fo B e.2.value)
    (beta : F) (ordered : List (Int × F)) (tt : TT F) (alpha bestVal : F) (bm : Int)
    (htt : ∀ e ∈ tt, InRange fo B e.2.value)
    (hbv : InRange fo B bestVal ∨ (bestVal = fo.neg fo.inf ∧ ordered ≠ []))
    (v : F) (bm2 : Int) (tt2 : TT F)
    (h : maxLoop fo st p child beta ordered tt alpha bestVal bm = some (v, bm2, tt2)) :
    InRange fo B v ∧ ∀ e ∈ tt2, InRange fo B e.2.value := by
  induction ordered generalizing tt alpha bestVal bm with
  | nil =>
    rw [maxLoop, Option.some.injEq, Prod.mk.injEq, Prod.mk.injEq] at h
    rw [← h.1, ← h.2.2]
    rcases hbv with h1 | h1
    · exact ⟨h1, htt⟩
    · exact absurd rfl h1.2
  | cons e rest ih =>
    obtain ⟨m, q⟩ := e
    unfold maxLoop at h
    cases hns : applyMove st (p.val : Int) m with
    | none =>
      rw [hns] at h
      cases h
    | some ns =>
      rw [hns] at h
      simp only [] at h
      cases hch : child tt ns alpha beta with
      | none =>
        rw [hch] at h
        cases h
      | some x =>
        obtain ⟨val, tt1⟩ := x
        rw [hch] at h
        simp only [] at h
        obtain ⟨hval, htt1⟩ := hchild tt ns alpha beta val tt1 htt hch
        have hb1 : InRange fo B (if fo.lt bestVal val then val else bestVal) :=
          pick_max_inRange fo X B bestVal val
            (by
              rcases hbv with h1 | h1
              · exact Or.inl h1
              · exact Or.inr h1.1) hval
        by_cases hbr : fo.le beta (if fo.lt alpha val then val else alpha) = true
        · rw [if_pos hbr, Option.some.injEq, Prod.mk.injEq, Prod.mk.injEq] at h
          rw [← h.1, ← h.2.2]
          exact ⟨hb1, htt1⟩
        · rw [if_neg hbr] at h
          exact ih tt1 _ _ _ htt1 (Or.inl hb1) h

theorem minLoop_inRange {F : Type} (fo : FloatOps F) (X : ExactFloats fo) (B : ℚ)
    (st : GameState) (p : Fin 2)
    (child : TT F → GameState → F → F → Option (F × TT F))
    (hchild : ∀ tt ns a b v tt1, (∀ e ∈ tt, InRange fo B e.2.value) →
      child tt ns a b = some (v, tt1) →
      InRange fo B v ∧ ∀ e ∈ tt1, InRange fo B e.2.value)
    (alpha : F) (ordered : List (Int × F)) (tt : TT F) (beta bestVal : F) (bm : Int)
    (htt : ∀ e ∈ tt, InRange fo B e.2.value)
    (hbv : InRange fo B bestVal ∨ (bestVal = fo.inf ∧ ordered ≠ []))
    (v : F) (bm2 : Int) (tt2 : TT F)
    (h : minLoop fo st p child alpha ordered tt beta bestVal bm = some (v, bm2, tt2)) :
    InRange fo B v ∧ ∀ e ∈ tt2, InRange fo B e.2.value := by
  induction ordered generalizing tt beta bestVal bm with
  | nil =>
    rw [minLoop, Option.some.injEq, Prod.mk.injEq, Prod.mk.injEq] at h
    rw [← h.1, ← h.2.2]
    rcases hbv with h1 | h1
    · exact ⟨h1, htt⟩
    · exact absurd rfl h1.2
  | cons e rest ih =>
    obtain ⟨m, q⟩ := e
    unfold minLoop at h
    cases hns : applyMove st (p.val : Int) m with
    | none =>
      rw [hns] at h
      cases h
    | some ns =>
      rw [hns] at h
      simp only [] at h
      cases hch : child tt ns alpha beta with
      | none =>
        rw [hch] at h
        cases h
      | some x =>
        obtain ⟨val, tt1⟩ := x
        rw [hch] at h
        simp only [] at h
        obtain ⟨hval, htt1⟩ := hchild tt ns alpha beta val tt1 htt hch
        have hb1 : InRange fo B (if fo.lt val bestVal then val else bestVal) :=
          pick_min_inRange fo X B bestVal val
            (by
              rcases hbv with h1 | h1
              · exact Or.inl h1
              · exact Or.inr h1.1) hval
        by_cases hbr : fo.le (if fo.lt val beta then val else beta) alpha = true
        · rw [if_pos hbr, Option.some.injEq, Prod.mk.injEq, Prod.mk.injEq] at h
          rw [← h.1, ← h.2.2]
          exact ⟨hb1, htt1⟩
        · rw [if_neg hbr] at h
          exact ih tt1 _ _ _ htt1 (Or.inl hb1) h

theorem rootLoop_inRange {F : Type} (fo : FloatOps F) (X : ExactFloats fo) (B : ℚ)
    (st : GameState) (p : Fin 2)
    (child : TT F → GameState → F → F → Option (F × TT F))
    (hchild : ∀ tt ns a b v tt1, (∀ e ∈ tt, InRange fo B e.2.value) →
      child tt ns a b = some (v, tt1) →
      InRange fo B v ∧ ∀ e ∈ tt1, InRange fo B e.2.value)
    (b : F) (ordered : List (Int × F)) (tt : TT F) (a best : F) (bm : Int)
    (htt : ∀ e ∈ tt, InRange fo B e.2.value)
    (hbv : InRange fo B best ∨ (best = fo.neg fo.inf ∧ ordered ≠ []))
    (v : F) (bm2 : Int) (tt2 : TT F)
    (h : rootLoop fo st p child b ordered tt a best bm = some (v, bm2, tt2)) :
    InRange fo B v ∧ ∀ e ∈ tt2, InRange fo B e.2.value := by
  induction ordered generalizing tt a best bm with
  | nil =>
    rw [rootLoop, Option.some.injEq, Prod.mk.injEq, Prod.mk.injEq] at h
    rw [← h.1, ← h.2.2]
    rcases hbv with h1 | h1
    · exact ⟨h1, htt⟩
    · exact absurd rfl h1.2
  | cons e rest ih =>
    obtain ⟨m, q⟩ := e
    unfold rootLoop at h
    cases hns : applyMove st (p.val : Int) m with
    | none =>
      rw [hns] at h
      cases h
    | some ns =>
      rw [hns] at h
      simp only [] at h
      cases hch : child tt ns a b with
      | none =>
        rw [hch] at h
        cases h
      | some x =>
        obtain ⟨val, tt1⟩ := x
        rw [hch] at h
        simp only [] at h
        obtain ⟨hval, htt1⟩ := hchild tt ns a b val tt1 htt hch
        have hb1 : InRange fo B (if fo.lt best val then val else best) :=
          pick_max_inRange fo X B best val
            (by
              rcases hbv with h1 | h1
              · exact Or.inl h1
              · exact Or.inr h1.1) hval
        exact ih tt1 _ _ _ htt1 (Or.inl hb1) h

theorem searchRecursiveAB_inRange {F : Type} (fo : FloatOps F) (X : ExactFloats fo) (B : ℚ)
    (w : NNUEWeights F) (rootPlayer : Fin 2) (perfectInfo : Bool)
    (hev : ∀ s, InRange fo B (nnueEvaluate fo w s rootPlayer perfectInfo))
    (fuel : Nat) (tt : TT F) (st : GameState) (depth : Int) (alpha beta : F)
    (htt : ∀ e ∈ tt, InRange fo B e.2.value) (v : F) (tt2 : TT F)
    (h : searchRecursiveAB fo w rootPlayer perfectInfo fuel tt st depth alpha beta =
      some (v, tt2)) :
    InRange fo B v ∧ ∀ e ∈ tt2, InRange fo B e.2.value := by
  induction fuel generalizing tt st depth alpha beta v tt2 with
  | zero =>
    unfold searchRecursiveAB at h
    cases h
  | succ fuel ih =>
    unfold searchRecursiveAB at h
    by_cases hf : st.finished = true
    · rw [if_pos hf, Option.some.injEq, Prod.mk.injEq] at h
      rw [← h.1, ← h.2]
      exact ⟨hev st, htt⟩
    rw [if_neg hf] at h
    cases hP : (if depth > 0 then ttLookup fo tt (computeHash st) depth alpha beta
        else none) with
    | some ttVal =>
      rw [hP] at h
      simp only [Option.some.injEq, Prod.mk.injEq] at h
      rw [← h.1, ← h.2]
      refine ⟨?_, htt⟩
      split_ifs at hP
      exact ttLookup_inRange fo B tt htt _ _ _ _ _ hP
    | none =>
      rw [hP] at h
      simp only [] at h
      by_cases hd : depth = 0
      · rw [if_pos hd] at h
        split at h
        · cases h
        · rename_i q hq
          rw [Option.some.injEq, Prod.mk.injEq] at h
          rw [← h.1, ← h.2]
          exact ⟨quiescence_inRange fo X B st w rootPlayer perfectInfo hev q hq, htt⟩
      rw [if_neg hd] at h
      by_cases hm : (getLegalMoves st (st.currentPlayer.val : Int)).isEmpty = true
      · rw [if_pos hm, Option.some.injEq, Prod.mk.injEq] at h
        rw [← h.1, ← h.2]
        exact ⟨hev st, htt⟩
      rw [if_neg hm] at h
      cases he : quickEvalMoves fo st w st.currentPlayer rootPlayer perfectInfo
          (getLegalMoves st (st.currentPlayer.val : Int)) with
      | none =>
        rw [he] at h
        cases h
      | some evals =>
        rw [he] at h
        simp only [] at h
        have hfst := quickEvalMoves_fst fo st w _ _ perfectInfo _ evals he
        have hevne : evals ≠ [] := by
          intro h0
          rw [h0] at hfst
          exact isEmpty_false_ne_nil _ hm hfst.symm
        by_cases hp : st.currentPlayer = rootPlayer
        · rw [if_pos hp] at h
          split at h
          · cases h
          · rename_i bv bml tt1 hloop
            rw [Option.some.injEq, Prod.mk.injEq] at h
            rw [← h.1, ← h.2]
            obtain ⟨h1, h2⟩ := maxLoop_inRange fo X B st _ _
              (fun tt3 ns a b v3 tt4 htt3 hc => ih tt3 ns (depth - 1) a b htt3 v3 tt4 hc)
              beta _ tt alpha _ _ htt (Or.inr ⟨rfl, sortBy_ne_nil _ evals hevne⟩) bv bml tt1
              hloop
            exact ⟨h1, ttStore_inRange fo B tt1 h2 _ _ _ _ _ _ h1⟩
        · rw [if_neg hp] at h
          split at h
          · cases h
          · rename_i bv bml tt1 hloop
            rw [Option.some.injEq, Prod.mk.injEq] at h
            rw [← h.1, ← h.2]
            obtain ⟨h1, h2⟩ := minLoop_inRange fo X B st _ _
              (fun tt3 ns a b v3 tt4 htt3 hc => ih tt3 ns (depth - 1) a b htt3 v3 tt4 hc)
              alpha _ tt beta _ _ htt (Or.inr ⟨rfl, sortBy_ne_nil _ evals hevne⟩) bv bml tt1
              hloop
            exact ⟨h1, ttStore_inRange fo B tt1 h2 _ _ _ _ _ _ h1⟩

theorem aspirationPass_inRange {F : Type} (fo : FloatOps F) (X : ExactFloats fo) (B : ℚ)
    (fuel : Nat) (st : GameState) (w : NNUEWeights F) (p : Fin 2) (perfectInfo : Bool)
    (hev : ∀ s, InRange fo B (nnueEvaluate fo w s p perfectInfo))
    (moves : List Int) (hne : moves ≠ []) (d : Int) (tt : TT F) (alpha beta : F)
    (htt : ∀ e ∈ tt, InRange fo B e.2.value) (v : F) (m : Int) (tt2 : TT F)
    (h : aspirationPass fo fuel st w p perfectInfo moves d tt alpha beta = some (v, m, tt2)) :
    InRange fo B v ∧ ∀ e ∈ tt2, InRange fo B e.2.value := by
  unfold aspirationPass at h
  cases he : quickEvalMoves fo st w p p perfectInfo moves with
  | none =>
    rw [he] at h
    cases h
  | some evals =>
    rw [he] at h
    simp only [] at h
    have hfst := quickEvalMoves_fst fo st w _ _ perfectInfo _ evals he
    have hevne : evals ≠ [] := by
      intro h0
      rw [h0] at hfst
      exact hne hfst.symm
    exact rootLoop_inRange fo X B st p _
      (fun tt3 ns a b v3 tt4 htt3 hc =>
        searchRecursiveAB_inRange fo X B w p perfectInfo hev fuel tt3 ns (d - 1) a b htt3 v3 tt4
          hc)
      beta _ tt alpha _ _ htt (Or.inr ⟨rfl, sortBy_ne_nil _ evals hevne⟩) v m tt2 h

theorem aspirationPass_some {F : Type} (fo : FloatOps F) (fuel : Nat) (st : GameState)
    (w : NNUEWeights F) (perfectInfo : Bool) (d : Int) (tt : TT F) (alpha beta : F)
    (hfuel : cardsLeft st < fuel) (ht : st.trick.cards.length < 4) :
    ∃ res, aspirationPass fo fuel st w st.currentPlayer perfectInfo
      (getLegalMoves st (st.currentPlayer.val : Int)) d tt alpha beta = some res := by
  unfold aspirationPass
  obtain ⟨evals, he, hfst⟩ := quickEvalMoves_some fo st w st.currentPlayer perfectInfo ht
    (getLegalMoves st (st.currentPlayer.val : Int)) (fun m hm => hm)
  rw [he]
  simp only []
  exact rootLoop_some fo st ht
    (fun tt1 ns a b =>
      searchRecursiveAB fo w st.currentPlayer perfectInfo fuel tt1 ns (d - 1) a b)
    (fun tt1 ns a b h1 h2 =>
      searchRecursiveAB_some fo w st.currentPlayer perfectInfo fuel tt1 ns (d - 1) a b
        (by
          rcases h2 with h2 | h2
          · exact Or.inr ⟨h2, by omega⟩
          · exact Or.inl (by omega)) h1)
    beta (sortBy (fun a b => fo.lt b.2 a.2) evals)
    (fun e hmem => by
      rw [← hfst]
      exact List.mem_map_of_mem Prod.fst ((mem_sortBy _ e evals).1 hmem))
    tt alpha (fo.neg fo.inf) _

theorem foldl_option_inv_ne_none {α β : Type} (f : Option β → α → Option β) (R : β → Prop)
    (hstep : ∀ acc a, R acc → ∃ r, f (some acc) a = some r ∧ R r)
    (l : List α) (acc : β) (hR : R acc) : l.foldl f (some acc) ≠ none := by
  induction l generalizing acc with
  | nil => exact Option.some_ne_none acc
  | cons a l ih =>
    obtain ⟨r, hr, hR2⟩ := hstep acc a hR
    rw [List.foldl_cons, hr]
    exact ih r hR2

theorem aspirationLoop_terminates {F : Type} (fo : FloatOps F) (X : ExactFloats fo) (B : ℚ)
    (fuel : Nat) (st : GameState) (w : NNUEWeights F) (perfectInfo : Bool)
    (hev : ∀ s, InRange fo B (nnueEvaluate fo w s st.currentPlayer perfectInfo))
    (hfuel : cardsLeft st < fuel) (ht : st.trick.cards.length < 4)
    (hne : getLegalMoves st (st.currentPlayer.val : Int) ≠ []) (d : Int)
    (retries : Nat) (tt : TT F) (a b δ : ℚ) (htt : ∀ e ∈ tt, InRange fo B e.2.value)
    (hδ : 1 ≤ δ) (hΦ : max 0 (a + B + 1) + max 0 (B - b + 1) < (retries : ℚ)) :
    ∃ res, aspirationLoop fo fuel st w st.currentPlayer perfectInfo
        (getLegalMoves st (st.currentPlayer.val : Int)) d retries tt (fo.ofRat a) (fo.ofRat b)
        (fo.ofRat δ) = some res ∧
      InRange fo B res.1 ∧ ∀ e ∈ res.2.2, InRange fo B e.2.value := by
  induction retries generalizing tt a b δ with
  | zero =>
    have h1 := le_max_left (0 : ℚ) (a + B + 1)
    have h2 := le_max_left (0 : ℚ) (B - b + 1)
    rw [Nat.cast_zero] at hΦ
    linarith
  | succ n ih =>
    obtain ⟨⟨cb, m, tt1⟩, hpass⟩ := aspirationPass_some fo fuel st w perfectInfo d tt
      (fo.ofRat a) (fo.ofRat b) hfuel ht
    obtain ⟨⟨c, hc, hcB⟩, htt1⟩ := aspirationPass_inRange fo X B fuel st w st.currentPlayer
      perfectInfo hev _ hne d tt _ _ htt cb m tt1 hpass
    obtain ⟨evals, he, -⟩ := quickEvalMoves_some fo st w st.currentPlayer perfectInfo ht
      (getLegalMoves st (st.currentPlayer.val : Int)) (fun m hm => hm)
    rw [aspirationPass_eq fo fuel st w _ perfectInfo _ d tt _ _ evals he] at hpass
    unfold aspirationLoop
    rw [he]
    simp only []
    rw [hpass]
    simp only []
    rw [hc, X.le_ofRat, X.le_ofRat]
    simp only [decide_eq_true_eq]
    rw [abs_le] at hcB
    rw [Nat.cast_succ] at hΦ
    have h1 := le_max_left (0 : ℚ) (a + B + 1)
    have h2 := le_max_left (0 : ℚ) (B - b + 1)
    have h3 := le_max_right (0 : ℚ) (a + B + 1)
    have h4 := le_max_right (0 : ℚ) (B - b + 1)
    by_cases hlow : c ≤ a
    · rw [if_pos hlow, X.sub_ofRat, X.mul_ofRat]
      refine ih tt1 (a - δ) b (δ * 2) htt1 (by linarith) ?_
      have h5 : max 0 (a - δ + B + 1) ≤ a + B := max_le (by linarith) (by linarith)
      linarith
    · rw [if_neg hlow]
      by_cases hhigh : b ≤ c
      · rw [if_pos hhigh, X.add_ofRat, X.mul_ofRat]
        refine ih tt1 a (b + δ) (δ * 2) htt1 (by linarith) ?_
        have h5 : max 0 (B - (b + δ) + 1) ≤ B - b := max_le (by linarith) (by linarith)
        linarith
      · rw [if_neg hhigh]
        exact ⟨_, rfl, ⟨c, rfl, abs_le.2 hcB⟩, htt1⟩

theorem searchBestMoveID_terminates {F : Type} (fo : FloatOps F) (X : ExactFloats fo) (B : ℚ)
    (fuel : Nat) (tt : TT F) (st : GameState) (w : NNUEWeights F) (depth : Int)
    (perfectInfo : Bool)
    (hev : ∀ s, InRange fo B (nnueEvaluate fo w s st.currentPlayer perfectInfo))
    (htt : ∀ e ∈ tt, InRange fo B e.2.value)
    (hfuel : cardsLeft st < fuel) (ht : st.trick.cards.length < 4)
    (hne : getLegalMoves st (st.currentPlayer.val : Int) ≠ [])
    (retries : Nat) (hN : ⌈4 * B⌉₊ + 1 ≤ retries) :
    ∃ res tt2, searchBestMoveID fo fuel retries tt st w depth perfectInfo = some (res, tt2) := by
  unfold searchBestMoveID
  simp only []
  rw [if_neg (by rw [List.isEmpty_iff]; exact hne)]
  split
  · rename_i hnone
    refine absurd hnone (foldl_option_inv_ne_none _
      (fun acc : F × Int × TT F => InRange fo B acc.1 ∧ ∀ e ∈ acc.2.2, InRange fo B e.2.value)
      ?_ _ _ ⟨hev st, htt⟩)
    intro acc i hR
    obtain ⟨e, m, t⟩ := acc
    obtain ⟨⟨q, hq, hqB⟩, ht1⟩ := hR
    simp only [] at hq ht1 ⊢
    rw [hq, X.mul_ofRat, X.add_ofRat, X.sub_ofRat, X.add_ofRat]
    have hi : (1 : ℚ) ≤ (((i : Int) + 1 : Int) : ℚ) := by
      push_cast
      have : (0 : ℚ) ≤ (i : ℚ) := Nat.cast_nonneg i
      linarith
    obtain ⟨res, hres, h1, h2⟩ := aspirationLoop_terminates fo X B fuel st w perfectInfo hev
      hfuel ht hne ((i : Int) + 1) retries t
      (q - (1 / 2 + 1 / 2 * (((i : Int) + 1 : Int) : ℚ)))
      (q + (1 / 2 + 1 / 2 * (((i : Int) + 1 : Int) : ℚ)))
      (1 / 2 + 1 / 2 * (((i : Int) + 1 : Int) : ℚ)) ht1 (by linarith)
      (by
        rw [abs_le] at hqB
        have h5 : max 0 (q - (1 / 2 + 1 / 2 * (((i : Int) + 1 : Int) : ℚ)) + B + 1) ≤ 2 * B :=
          max_le (by linarith) (by linarith)
        have h6 : max 0 (B - (q + (1 / 2 + 1 / 2 * (((i : Int) + 1 : Int) : ℚ))) + 1) ≤ 2 * B :=
          max_le (by linarith) (by linarith)
        have h7 : 4 * B ≤ (⌈4 * B⌉₊ : ℚ) := Nat.le_ceil _
        have h8 : ((⌈4 * B⌉₊ + 1 : ℕ) : ℚ) ≤ (retries : ℚ) := Nat.cast_le.2 hN
        rw [Nat.cast_succ] at h8
        linarith)
    exact ⟨res, hres, h1, h2⟩
  · exact ⟨_, _, rfl⟩

theorem exactOps_exact : ExactFloats exactOps where
  add_ofRat := fun _ _ => rfl
  sub_ofRat := by
    intro a b
    show ExtRat.fin (a + -b) = ExtRat.fin (a - b)
    rw [sub_eq_add_neg]
  mul_ofRat := fun _ _ => rfl
  lt_ofRat := fun _ _ => rfl
  le_ofRat := fun _ _ => rfl
  neg_inf_lt := fun _ => rfl
  lt_inf := fun _ => rfl

theorem constWeights_inRange (q : ℚ) (p : Fin 2) (perfectInfo : Bool) (s : GameState) :
    InRange exactOps |q| (nnueEvaluate exactOps (constWeights (ExtRat.fin q)) s p perfectInfo) :=
  ⟨q, nnueEvaluate_constWeights _ s p perfectInfo, le_refl _⟩

set_option maxRecDepth 1000000 in
theorem searchBestMoveID_constWeights :
    (searchBestMoveID exactOps 40 5 [] threeCardState (constWeights (ExtRat.fin 1)) 2
        false).map (fun x => (x.1.chosenMoveIndex, x.1.eval)) = some (0, ExtRat.fin 1) := by
  decide!

/-- C35: for every state with a legal move (its trick below four cards, more fuel than
cards left) and every depth, the run of `searchBestMoveID` is a `DeepeningRun`: iteration
`d` is a widen-and-retry loop (`AspirationRun`) that starts from the window
`(best value - delta, best value + delta)` with `delta = 0.5 + 0.5 * d`, after a pass
with a value at or below `alpha` continues with `alpha - delta`, after a pass with a
value at or above `beta` continues with `beta + delta`, the other bound unchanged and
`delta` doubled, and ends with the first pass whose value is neither at or below `alpha`
nor at or above `beta`.  Every such loop ends: with at least `ceil (4 * B) + 1` passes
allowed for each loop the function returns.  The floating-point facts used for that:
the arithmetic on rationals is exact (`ExactFloats`), and the evaluator's results and
the values in the table are rationals of absolute value at most `B`. -/
theorem aspiration_loop_terminates {F : Type} (fo : FloatOps F) (X : ExactFloats fo) (B : ℚ)
    (fuel : Nat) (tt : TT F) (st : GameState) (w : NNUEWeights F) (depth : Int)
    (perfectInfo : Bool)
    (hev : ∀ s, InRange fo B (nnueEvaluate fo w s st.currentPlayer perfectInfo))
    (htt : ∀ e ∈ tt, InRange fo B e.2.value)
    (hfuel : cardsLeft st < fuel) (ht : st.trick.cards.length < 4)
    (hne : getLegalMoves st (st.currentPlayer.val : Int) ≠ []) :
    (∀ retries, ⌈4 * B⌉₊ + 1 ≤ retries →
        ∃ res tt2, searchBestMoveID fo fuel retries tt st w depth perfectInfo =
          some (res, tt2)) ∧
      ∀ retries res tt2,
        searchBestMoveID fo fuel retries tt st w depth perfectInfo = some (res, tt2) →
        DeepeningRun fo fuel st w perfectInfo tt (List.range depth.toNat)
          (res.eval, res.chosenMoveIndex, tt2) :=
  ⟨fun retries hN =>
      searchBestMoveID_terminates fo X B fuel tt st w depth perfectInfo hev htt hfuel ht hne
        retries hN,
    fun retries res tt2 h =>
      searchBestMoveID_run fo fuel retries tt st w depth perfectInfo hne res tt2 h⟩

theorem aspiration_loop_terminates_witness :
    cardsLeft threeCardState < 40 ∧ threeCardState.trick.cards.length < 4 ∧
      getLegalMoves threeCardState ((threeCardState.currentPlayer.val : Nat) : Int) ≠ [] ∧
      (searchBestMoveID exactOps 40 5 [] threeCardState (constWeights (ExtRat.fin 1)) 2
          false).map (fun x => (x.1.chosenMoveIndex, x.1.eval)) = some (0, ExtRat.fin 1) ∧
      (∀ retries, ⌈4 * |(1 : ℚ)|⌉₊ + 1 ≤ retries →
        ∃ res tt2, searchBestMoveID exactOps 40 retries [] threeCardState
          (constWeights (ExtRat.fin 1)) 2 false = some (res, tt2)) ∧
      ∀ retries res tt2,
        searchBestMoveID exactOps 40 retries [] threeCardState (constWeights (ExtRat.fin 1)) 2
          false = some (res, tt2) →
        DeepeningRun exactOps 40 threeCardState (constWeights (ExtRat.fin 1)) false []
          (List.range (2 : Int).toNat) (res.eval, res.chosenMoveIndex, tt2) :=
  ⟨by decide, by decide, by decide, searchBestMoveID_constWeights,
    aspiration_loop_terminates exactOps exactOps_exact |(1 : ℚ)| 40 [] threeCardState
      (constWeights (ExtRat.fin 1)) 2 false (constWeights_inRange 1 _ false)
      (fun e he => absurd he (List.not_mem_nil e)) (by decide) (by decide) (by decide)⟩

theorem searchRecursiveAB_depth_zero {F : Type} (fo : FloatOps F) (w : NNUEWeights F)
    (rootPlayer : Fin 2) (perfectInfo : Bool) (fuel : Nat) (tt : TT F) (st : GameState)
    (depth : Int) (hd : depth = 0) (alpha beta : F) :
    searchRecursiveAB fo w rootPlayer perfectInfo fuel tt st depth alpha beta =
      (searchRecursiveAB fo w rootPlayer perfectInfo fuel [] st depth alpha beta).map
        (fun x => (x.1, tt)) := by
  cases fuel with
  | zero => rfl
  | succ fuel =>
    unfold searchRecursiveAB
    by_cases hf : st.finished = true
    · rw [if_pos hf, if_pos hf]
      rfl
    have h1 : ¬ depth > 0 := by omega
    simp only [if_neg hf, if_neg h1, if_pos hd]
    cases quiescenceAfterTrickClear fo st w rootPlayer perfectInfo <;> rfl

theorem rootLoop_table_free {F : Type} (fo : FloatOps F) (st : GameState) (p : Fin 2)
    (child : TT F → GameState → F → F → Option (F × TT F))
    (hc : ∀ tt ns a b, child tt ns a b = (child [] ns a b).map (fun x => (x.1, tt)))
    (b : F) (ordered : List (Int × F)) (tt : TT F) (a best : F) (bm : Int) :
    rootLoop fo st p child b ordered tt a best bm =
      (rootLoop fo st p child b ordered [] a best bm).map (fun x => (x.1, x.2.1, tt)) := by
  induction ordered generalizing a best bm with
  | nil => rfl
  | cons e rest ih =>
    obtain ⟨m, q⟩ := e
    unfold rootLoop
    cases hns : applyMove st (p.val : Int) m with
    | none => rfl
    | some ns =>
      simp only []
      rw [hc tt ns a b]
      cases hch : child [] ns a b with
      | none => rfl
      | some x =>
        obtain ⟨val, tt1⟩ := x
        have h1 : tt1 = [] := by
          have h2 := hc [] ns a b
          rw [hch] at h2
          simp only [Option.map_some', Option.some.injEq, Prod.mk.injEq] at h2
          exact h2.2
        subst h1
        simp only [Option.map_some']
        exact ih _ _ _

theorem aspirationLoop_table_free {F : Type} (fo : FloatOps F) (fuel : Nat) (st : GameState)
    (w : NNUEWeights F) (p : Fin 2) (perfectInfo : Bool) (moves : List Int) (retries : Nat)
    (tt : TT F) (alpha beta delta : F) :
    aspirationLoop fo fuel st w p perfectInfo moves 1 retries tt alpha beta delta =
      (aspirationLoop fo fuel st w p perfectInfo moves 1 retries [] alpha beta delta).map
        (fun x => (x.1, x.2.1, tt)) := by
  induction retries generalizing alpha beta delta with
  | zero => rfl
  | succ n ih =>
    unfold aspirationLoop
    cases he : quickEvalMoves fo st w p p perfectInfo moves with
    | none => rfl
    | some evals =>
      simp only []
      have hroot := rootLoop_table_free fo st p
        (fun tt1 ns a b => searchRecursiveAB fo w p perfectInfo fuel tt1 ns (1 - 1) a b)
        (fun tt1 ns a b =>
          searchRecursiveAB_depth_zero fo w p perfectInfo fuel tt1 ns (1 - 1) (by decide) a b)
        beta (sortBy (fun a b => fo.lt b.2 a.2) evals) tt alpha (fo.neg fo.inf)
        (moves.headD 0)
      have hroot0 := rootLoop_table_free fo st p
        (fun tt1 ns a b => searchRecursiveAB fo w p perfectInfo fuel tt1 ns (1 - 1) a b)
        (fun tt1 ns a b =>
          searchRecursiveAB_depth_zero fo w p perfectInfo fuel tt1 ns (1 - 1) (by decide) a b)
        beta (sortBy (fun a b => fo.lt b.2 a.2) evals) [] alpha (fo.neg fo.inf)
        (moves.headD 0)
      rw [hroot]
      cases hr : rootLoop fo st p
          (fun tt1 ns a b => searchRecursiveAB fo w p perfectInfo fuel tt1 ns (1 - 1) a b)
          beta (sortBy (fun a b => fo.lt b.2 a.2) evals) [] alpha (fo.neg fo.inf)
          (moves.headD 0) with
      | none => rfl
      | some x =>
        obtain ⟨cb, cbm, tt1⟩ := x
        have h1 : tt1 = [] := by
          rw [hr] at hroot0
          simp only [Option.map_some', Option.some.injEq, Prod.mk.injEq] at hroot0
          exact hroot0.2.2
        subst h1
        simp only [Option.map_some']
        split_ifs
        · exact ih _ _ _
        · exact ih _ _ _
        · rfl

theorem searchBestMoveID_depth_one {F : Type} (fo : FloatOps F) (fuel retries : Nat)
    (tt : TT F) (st : GameState) (w : NNUEWeights F) (depth : Int) (perfectInfo : Bool)
    (hd : depth ≤ 1) :
    searchBestMoveID fo fuel retries tt st w depth perfectInfo =
      (searchBestMoveID fo fuel retries [] st w depth perfectInfo).map
        (fun x => (x.1, tt)) := by
  by_cases hne : getLegalMoves st (st.currentPlayer.val : Int) = []
  · rw [searchBestMoveID_empty fo fuel retries tt st w depth perfectInfo hne,
      searchBestMoveID_empty fo fuel retries [] st w depth perfectInfo hne]
    rfl
  by_cases h0 : depth ≤ 0
  · rw [searchBestMoveID_depth_nonpos fo fuel retries tt st w depth perfectInfo hne h0,
      searchBestMoveID_depth_nonpos fo fuel retries [] st w depth perfectInfo hne h0]
    rfl
  have h1 : depth.toNat = 1 := by omega
  have hne2 : ¬ (getLegalMoves st (st.currentPlayer.val : Int)).isEmpty = true :=
    fun hc => hne (List.isEmpty_iff.1 hc)
  unfold searchBestMoveID
  simp only [if_neg hne2, h1, show List.range 1 = [0] from rfl, List.foldl_cons, List.foldl_nil,
    Nat.cast_zero, zero_add]
  rw [aspirationLoop_table_free fo fuel st w st.currentPlayer perfectInfo _ retries tt]
  cases aspirationLoop fo fuel st w st.currentPlayer perfectInfo
      (getLegalMoves st (st.currentPlayer.val : Int)) 1 retries [] _ _ _ with
  | none => rfl
  | some x => rfl

theorem searchBestMoveID_twice_depth_one {F : Type} (fo : FloatOps F) (fuel retries : Nat)
    (tt : TT F) (st : GameState) (w : NNUEWeights F) (depth : Int) (perfectInfo : Bool)
    (hd : depth ≤ 1) (res : SearchResult F) (tt1 : TT F)
    (h : searchBestMoveID fo fuel retries tt st w depth perfectInfo = some (res, tt1)) :
    tt1 = tt ∧ searchBestMoveID fo fuel retries tt1 st w depth perfectInfo = some (res, tt1) := by
  have h1 := searchBestMoveID_depth_one fo fuel retries tt st w depth perfectInfo hd
  rw [h] at h1
  cases h0 : searchBestMoveID fo fuel retries [] st w depth perfectInfo with
  | none =>
    rw [h0] at h1
    cases h1
  | some x =>
    rw [h0, Option.map_some', Option.some.injEq, Prod.mk.injEq] at h1
    have h2 : tt1 = tt := h1.2
    subst h2
    exact ⟨rfl, h⟩

end Bisca4
